import Mathlib

/-!
# fs2: PM domain decomposition and ghost-particle exchange

A shallow embedding of `src/py/pm_domain.cpp` and `src/lib/pm_domain.cpp`, of the
particle-mesh module `src/py/pm.cpp` with its Python entry `src/py/py_pm.cpp`, and of the
parts of `src/py/cola.cpp` and `src/py/hdf5_write.cpp` the properties below are about.

Conventions of the embedding:

* C `int` / `Index` values are `Int`; `/` and `%` on them are the truncating
  `Int.tdiv` / `Int.tmod` of C.  Node and particle counts stay far below `2^31`,
  so no wrap-around is modelled.
* `Float` values are exact rationals (`Rat`): the claims about them only use
  comparisons and the field operations.
* `assert` aborts the process: a failed assertion is the error
  `Err.AssertionFailed`; `throw RuntimeError()` is `Err.RuntimeError`.
* Module-level statics (`nc`, `nbuf_alloc`, `decomposition`, ...) are fields of
  an explicit state record that every function threads through.
-/

namespace PmDomain

/-- The ways a call can fail: the two exception classes thrown by the module and
an aborting `assert`. -/
inductive Err where
  | RuntimeError
  | MemoryError
  | AssertionFailed
  deriving DecidableEq, Repr

/-- Class `Domain` of `pm_domain.h`: destination rank, its buffer interval, and the
pending batch (`vbuf`: three floats per particle, `vbuf_index`: one local index per
particle). -/
structure Domain where
  rank : Int
  xbuf_min : Rat
  xbuf_max : Rat
  vbuf : List Rat := []
  vbuf_index : List Int := []
  deriving DecidableEq, Repr

/-- Struct `Packet` of `pm_domain.h`: one batch sent to `dest_rank`. -/
structure Packet where
  dest_rank : Int
  offset_index : Int
  n : Int
  offset : Int
  deriving DecidableEq, Repr

/-- The slab of one node as the FFT reports it: `local_ix0`, `local_nx`. -/
structure Slab where
  local_ix0 : Int
  local_nx : Int
  deriving DecidableEq, Repr

/-- The fields of `FFT` the module reads; `addr` stands for the address of the object,
which `pm_domain_init` compares. -/
structure FFT where
  addr : Nat
  nc : Int
  local_ix0 : Int
  local_nx : Int
  deriving DecidableEq, Repr

/-- Reading `a[i]` of a gathered float array. -/
def fget (a : List Rat) (i : Int) : Rat := a.getD i.toNat 0

/-- The values `i = 1, 2, ..., n/2` of `for(int i=1; i<=n/2; ++i)`. -/
def loop_indices (n : Int) : List Int :=
  (List.range (n.tdiv 2).toNat).map (fun (k : Nat) => (k : Int) + 1)

/-- One pass of the body of the decomposition loop
(`src/py/pm_domain.cpp:270-288`, `src/lib/pm_domain.cpp:87-106`). -/
def decomposition_step (xbuf_all : List Rat) (n this_node : Int)
    (decomposition : List Domain) (i : Int) : Except Err (List Domain) :=
  let i_plus := (this_node + i).tmod n
  if i_plus = this_node then .error .AssertionFailed else
  let d : Domain :=
    { rank := i_plus, xbuf_min := fget xbuf_all (2 * i_plus),
      xbuf_max := fget xbuf_all (2 * i_plus + 1) }
  let decomposition := decomposition ++ [d]
  let i_minus := (this_node - i + n).tmod n
  if i_minus = this_node then .error .AssertionFailed else
  if i_minus ≠ i_plus then
    let d : Domain :=
      { rank := i_minus, xbuf_min := fget xbuf_all (2 * i_minus),
        xbuf_max := fget xbuf_all (2 * i_minus + 1) }
    .ok (decomposition ++ [d])
  else
    .ok decomposition

/-- The loop that fills `decomposition`, followed by
`assert(decomposition.size() == n_dest)`. -/
def build_decomposition (xbuf_all : List Rat) (n this_node : Int) :
    Except Err (List Domain) :=
  match (loop_indices n).foldlM (decomposition_step xbuf_all n this_node) [] with
  | .error e => .error e
  | .ok decomposition =>
    if (decomposition.length : Int) = n - 1 then .ok decomposition
    else .error .AssertionFailed

/-- The two floats a node contributes to `MPI_Allgather` in
`allocate_decomposition` (`src/py/pm_domain.cpp:255-256`). -/
def xbuf_py (boxsize : Rat) (nc : Int) (s : Slab) : List Rat :=
  [boxsize * ((s.local_ix0 - 1 : Int) : Rat) / (nc : Rat),
   boxsize * ((s.local_ix0 + s.local_nx : Int) : Rat) / (nc : Rat)]

/-- The two floats a node contributes to `MPI_Allgather` in `domain_init`
(`src/lib/pm_domain.cpp:70-71`). -/
def xbuf_lib (boxsize : Rat) (nc : Int) (s : Slab) : List Rat :=
  [boxsize * ((s.local_ix0 - 1 : Int) : Rat) / (nc : Rat),
   boxsize * ((s.local_ix0 + s.local_nx + 1 : Int) : Rat) / (nc : Rat)]

/-- What this process sees of the communicator and of the `pm` module: its rank
(`comm_this_node()`), the slab of every rank in rank order (what the other ranks
contribute to `MPI_Allgather`; `comm_n_nodes()` is its length), the pointer returned by
`pm_get_fft()`, the value of the floating-point expression assigned to `nbuf_alloc`
in `allocate_pm_buffer`, and whether the buffer allocations succeed. -/
structure Env where
  this_node : Int
  layout : List Slab
  pm_fft : Option FFT
  capacity : Int
  alloc_ok : Bool

/-- The result of `MPI_Allgather` in `allocate_decomposition`: every rank's two floats,
this rank's being computed from its own `local_ix0`, `local_nx`. -/
def allgather_py (env : Env) (boxsize : Rat) (nc local_ix0 local_nx : Int) : List Rat :=
  (env.layout.set env.this_node.toNat ⟨local_ix0, local_nx⟩).flatMap (xbuf_py boxsize nc)

/-- The result of `MPI_Allgather` in `domain_init` (lib). -/
def allgather_lib (env : Env) (boxsize : Rat) (nc local_ix0 local_nx : Int) : List Rat :=
  (env.layout.set env.this_node.toNat ⟨local_ix0, local_nx⟩).flatMap (xbuf_lib boxsize nc)

/-- Function `allocate_decomposition` of `src/py/pm_domain.cpp` (the file-scope `nc` is
passed explicitly). -/
def allocate_decomposition (env : Env) (nc : Int) (boxsize : Rat)
    (local_ix0 local_nx : Int) : Except Err (List Domain) :=
  let n : Int := env.layout.length
  let xbuf_all := allgather_py env boxsize nc local_ix0 local_nx
  build_decomposition xbuf_all n env.this_node

/-- The decomposition part of `domain_init` of `src/lib/pm_domain.cpp`
(lines 69-111). -/
def domain_init_decomposition (env : Env) (nc : Int) (boxsize : Rat)
    (local_ix0 local_nx : Int) : Except Err (List Domain) :=
  let n : Int := env.layout.length
  let xbuf_all := allgather_lib env boxsize nc local_ix0 local_nx
  build_decomposition xbuf_all n env.this_node

/-- The Domain entry the loop builds for rank `k` from the gathered intervals. -/
def domain_of (xbuf_all : List Rat) (k : Int) : Domain :=
  { rank := k, xbuf_min := fget xbuf_all (2 * k), xbuf_max := fget xbuf_all (2 * k + 1) }

/-- The ranks pushed by pass `i` of the decomposition loop: `i_plus`, then `i_minus`
when it differs. -/
def rank_block (n this_node i : Int) : List Int :=
  (this_node + i).tmod n ::
    (if (this_node - i + n).tmod n ≠ (this_node + i).tmod n then
      [(this_node - i + n).tmod n] else [])

/-- The circular rank distance of `d` from `r` among `n` ranks. -/
def circ_dist (n r d : Int) : Int := min ((d - r) % n) ((r - d) % n)

/-! ## The ghost exchange (`src/py/pm_domain.cpp`) -/

/-- Three floats: a position `Float x[3]` or a force `Float3`. -/
structure Float3 where
  c0 : Rat
  c1 : Rat
  c2 : Rat
  deriving DecidableEq, Repr

/-- Adding two `Float3` component by component. -/
def Float3.add (a b : Float3) : Float3 :=
  { c0 := a.c0 + b.c0, c1 := a.c1 + b.c1, c2 := a.c2 + b.c2 }

/-- The zero `Float3`. -/
def Float3.zero : Float3 := { c0 := 0, c1 := 0, c2 := 0 }

/-- The sum of a list of `Float3`, component by component. -/
def Float3.sum (l : List Float3) : Float3 :=
  { c0 := (l.map Float3.c0).sum, c1 := (l.map Float3.c1).sum, c2 := (l.map Float3.c2).sum }

/-- Struct `Particle`: only the position `x` takes part in the exchange. -/
structure Particle where
  x : Float3
  deriving DecidableEq, Repr

/-- Struct `Particles`: `p` holds the `np_local` local particles (so `np_local` is
`p.length`), `force` one `Float3` per local particle; `a_x` is the scale factor of the
positions and `a_f` the scale factor at which the forces were computed (0 after the
constructor). -/
structure Particles where
  p : List Particle
  np_allocated : Int
  boxsize : Rat
  force : List Float3
  a_x : Rat := 0
  a_f : Rat := 0
  deriving DecidableEq, Repr

/-- The file-scope variables of `pm_domain.cpp` that live in this process only.
`buf_index` is the `malloc`ed array, read and written by position. -/
structure State where
  fft : Option FFT
  nc : Int
  nbuf_alloc : Int
  nbuf_index : Int
  nbuf_index_alloc : Int
  x_left : Rat
  x_right : Rat
  buf_index : Int → Int
  decomposition : List Domain
  packets_sent : List Packet

/-- The memory exposed through MPI windows, by owning rank: the counter `nbuf`
(`win_nbuf`), the position buffer `buf_pos` (`win_pos`) and the force buffer
`buf_force` (`win_force`), the last two addressed in floats. -/
structure Mem where
  nbuf : Int → Int
  buf_pos : Int → Int → Rat
  buf_force : Int → Int → Rat

/-- Writing `a[i] = v`. -/
def aset {β : Type} (a : Int → β) (i : Int) (v : β) : Int → β :=
  fun j => if j = i then v else a j

/-- Modelled from the spec: `Domain::push(i, x)` is declared in `pm_domain.h`, which is
not among the sources.  Spec 4.2 step 3: "append the particle to that Domain's pending
batch and remember the particle's local index in that Domain's pending index list".
The batch is sent by `packets_flush` (step 4); the packet size cap
`Domain::packet_size`, of which the sources show no use on the sending side, is not
part of this model. -/
def Domain.push (dom : Domain) (i : Int) (x : Float3) : Domain :=
  { dom with vbuf := dom.vbuf ++ [x.c0, x.c1, x.c2], vbuf_index := dom.vbuf_index ++ [i] }

/-- Method `Domain::clear`. -/
def Domain.clear (dom : Domain) : Domain :=
  { dom with vbuf := [], vbuf_index := [] }

/-- Modelled from the spec: `periodic_wrapup_p` is defined in `util.h`, which is not
among the sources.  Spec 4.2 step 3: "map any coordinate outside `[0, boxsize)` back
into range on all three axes". -/
def periodic_wrapup_p (p : Particle) (boxsize : Rat) : Particle :=
  { p with x :=
      { c0 := p.x.c0 - boxsize * (⌊p.x.c0 / boxsize⌋ : Int),
        c1 := p.x.c1 - boxsize * (⌊p.x.c1 / boxsize⌋ : Int),
        c2 := p.x.c2 - boxsize * (⌊p.x.c2 / boxsize⌋ : Int) } }

/-- The interval test of `send` (`src/py/pm_domain.cpp:379-381`,
`src/lib/pm_domain.cpp:168-170`). -/
def send_test (xbuf_min xbuf_max : Rat) (x0 boxsize : Rat) : Bool :=
  (decide (xbuf_min < x0) && decide (x0 < xbuf_max)) ||
  (decide (xbuf_min < x0 - boxsize) && decide (x0 - boxsize < xbuf_max)) ||
  (decide (xbuf_min < x0 + boxsize) && decide (x0 + boxsize < xbuf_max))

/-- Function `send` of `src/py/pm_domain.cpp`: the linear scan of the Domain table. -/
def send (i : Int) (x : Float3) (boxsize : Rat) (decomposition : List Domain) :
    List Domain :=
  decomposition.map fun dom =>
    if send_test dom.xbuf_min dom.xbuf_max x.c0 boxsize then dom.push i x else dom

/-- The `MPI_Get_accumulate` of `send_packet` between lock and unlock, as one atomic
fetch-and-add on the counter of `rank`: returns the old value and adds `nsend`. -/
def get_accumulate (mem : Mem) (rank nsend : Int) : Int × Mem :=
  (mem.nbuf rank, { mem with nbuf := aset mem.nbuf rank (mem.nbuf rank + nsend) })

/-- The `MPI_Put` of `send_packet`: the floats of `vbuf` go to `buf_pos` of `rank`
from float position `offset*3` on. -/
def put_positions (mem : Mem) (rank : Int) (vbuf : List Rat) (offset : Int) : Mem :=
  { mem with
    buf_pos := aset mem.buf_pos rank fun j =>
      if offset * 3 ≤ j ∧ j < offset * 3 + vbuf.length then
        vbuf.getD (j - offset * 3).toNat 0
      else mem.buf_pos rank j }

/-- The loop of `send_packet` that copies `vbuf_index` into `buf_index`
(`src/py/pm_domain.cpp:338-342`). -/
def copy_indices : List Int → State → Except Err State
  | [], st => .ok st
  | ind :: rest, st =>
    if 0 ≤ st.nbuf_index ∧ st.nbuf_index < st.nbuf_index_alloc then
      copy_indices rest
        { st with buf_index := aset st.buf_index st.nbuf_index ind,
                  nbuf_index := st.nbuf_index + 1 }
    else .error .AssertionFailed

/-- Method `Domain::send_packet` of `src/py/pm_domain.cpp`. -/
def send_packet (dom : Domain) (st : State) (mem : Mem) :
    Except Err (Domain × State × Mem) :=
  if (dom.vbuf.length : Int).tmod 3 ≠ 0 then .error .AssertionFailed else
  let nsend : Int := (dom.vbuf.length : Int).tdiv 3
  if nsend = 0 then .ok (dom, st, mem) else
  let offset_index := st.nbuf_index
  if ¬ (0 ≤ st.nbuf_index ∧ st.nbuf_index + nsend < st.nbuf_index_alloc) then
    .error .AssertionFailed
  else
  match copy_indices dom.vbuf_index st with
  | .error e => .error e
  | .ok st =>
    let (offset, mem) := get_accumulate mem dom.rank nsend
    if offset + nsend ≥ st.nbuf_alloc then .error .RuntimeError else
    let mem := put_positions mem dom.rank dom.vbuf offset
    let pkt : Packet :=
      { dest_rank := dom.rank, offset_index := offset_index, n := nsend, offset := offset }
    .ok ({ dom with vbuf := [], vbuf_index := [] },
         { st with packets_sent := st.packets_sent ++ [pkt] }, mem)

/-- The loop of `packets_flush` over the Domain table. -/
def flush_domains : List Domain → State → Mem → Except Err (List Domain × State × Mem)
  | [], st, mem => .ok ([], st, mem)
  | dom :: rest, st, mem =>
    match send_packet dom st mem with
    | .error e => .error e
    | .ok (dom, st, mem) =>
      match flush_domains rest st mem with
      | .error e => .error e
      | .ok (rest, st, mem) => .ok (dom :: rest, st, mem)

/-- Function `packets_flush`. -/
def packets_flush (st : State) (mem : Mem) : Except Err (State × Mem) :=
  match flush_domains st.decomposition st mem with
  | .error e => .error e
  | .ok (decomposition, st, mem) => .ok ({ st with decomposition := decomposition }, mem)

/-- Function `packets_clear`. -/
def packets_clear (st : State) : State :=
  { st with decomposition := st.decomposition.map Domain.clear }

/-- The body of the particle loop of `pm_domain_send_positions` for particle `i`
(`src/py/pm_domain.cpp:115-120`): returns the wrapped particle and the Domain table. -/
def scan_particle (x_left x_right boxsize : Rat) (i : Int) (p : Particle)
    (decomposition : List Domain) : Particle × List Domain :=
  let p := periodic_wrapup_p p boxsize
  let decomposition :=
    if p.x.c0 < x_left then send i p.x boxsize decomposition else decomposition
  let decomposition :=
    if p.x.c0 > x_right then send i p.x boxsize decomposition else decomposition
  (p, decomposition)

/-- The particle loop of `pm_domain_send_positions`, from particle number `i` on. -/
def scan_particles (x_left x_right boxsize : Rat) :
    Int → List Particle → List Domain → List Particle × List Domain
  | _, [], decomposition => ([], decomposition)
  | i, p :: rest, decomposition =>
    let (p, decomposition) := scan_particle x_left x_right boxsize i p decomposition
    let (rest, decomposition) :=
      scan_particles x_left x_right boxsize (i + 1) rest decomposition
    (p :: rest, decomposition)

/-- Function `allocate_pm_buffer`: sets `nbuf_alloc` and `nbuf_index_alloc` and
allocates the buffers. -/
def allocate_pm_buffer (env : Env) (st : State) (np_alloc : Int) : Except Err State :=
  let st := { st with nbuf_alloc := env.capacity }
  if ¬ (st.nbuf_alloc > 0) then .error .AssertionFailed else
  let st := { st with nbuf_index_alloc := np_alloc }
  if ¬ env.alloc_ok then .error .MemoryError else
  .ok st

/-- Function `pm_domain_init` of `src/py/pm_domain.cpp`.  `pm_domain_free()` releases
the windows and buffers that `allocate_pm_buffer` creates anew; it changes none of the
variables kept here. -/
def pm_domain_init (env : Env) (st : State) (particles : Particles) : Except Err State :=
  match env.pm_fft with
  | none => .error .RuntimeError
  | some fft =>
    if st.fft = some fft then .ok st else
    let st := { st with fft := some fft }
    let st := { st with nc := fft.nc }
    let boxsize := particles.boxsize
    let st :=
      { st with
        x_left := boxsize / (st.nc : Rat) * ((fft.local_ix0 + 1 : Int) : Rat),
        x_right := boxsize / (st.nc : Rat) * ((fft.local_ix0 + fft.local_nx - 1 : Int) : Rat) }
    match allocate_pm_buffer env st particles.np_allocated with
    | .error e => .error e
    | .ok st =>
      match allocate_decomposition env st.nc boxsize fft.local_ix0 fft.local_nx with
      | .error e => .error e
      | .ok decomposition => .ok { st with decomposition := decomposition }

/-- The part of `pm_domain_send_positions` up to the first `MPI_Win_fence`
(`src/py/pm_domain.cpp:98-111`): initialise, reset the counters, clear the ledger and
the pending batches.  `assert(buf_pos)` holds once `pm_domain_init` has returned, which
throws `MemoryError` when the buffer is not allocated. -/
def send_positions_begin (env : Env) (st : State) (mem : Mem) (particles : Particles) :
    Except Err (State × Mem) :=
  match pm_domain_init env st particles with
  | .error e => .error e
  | .ok st =>
    let mem := { mem with nbuf := aset mem.nbuf env.this_node 0 }
    let st := { st with nbuf_index := 0 }
    let st := { st with packets_sent := [] }
    let st := packets_clear st
    .ok (st, mem)

/-- The part of `pm_domain_send_positions` between the two fences
(`src/py/pm_domain.cpp:113-123`): the particle loop and `packets_flush`. -/
def send_positions_body (st : State) (mem : Mem) (particles : Particles) :
    Except Err (State × Mem × Particles) :=
  let (p, decomposition) :=
    scan_particles st.x_left st.x_right particles.boxsize 0 particles.p st.decomposition
  let st := { st with decomposition := decomposition }
  match packets_flush st mem with
  | .error e => .error e
  | .ok (st, mem) => .ok (st, mem, { particles with p := p })

/-- Function `pm_domain_send_positions` of `src/py/pm_domain.cpp`, run by one process
on its own. -/
def pm_domain_send_positions (env : Env) (st : State) (mem : Mem) (particles : Particles) :
    Except Err (State × Mem × Particles) :=
  match send_positions_begin env st mem particles with
  | .error e => .error e
  | .ok (st, mem) => send_positions_body st mem particles

/-- The file-scope variables at program start: zero-initialised statics, empty
containers. -/
def State.initial : State :=
  { fft := none, nc := 0, nbuf_alloc := 0, nbuf_index := 0, nbuf_index_alloc := 0,
    x_left := 0, x_right := 0, buf_index := fun _ => 0, decomposition := [],
    packets_sent := [] }

/-- Window memory holding zeros everywhere. -/
def Mem.zero : Mem :=
  { nbuf := fun _ => 0, buf_pos := fun _ _ => 0, buf_force := fun _ _ => 0 }

/-! ## The lib variant (`src/lib/pm_domain.cpp`) -/

namespace Lib

/-- Class `Domain` of the lib `pm_domain.h`: the pending batch is `buf`. -/
structure Domain where
  rank : Int
  xbuf_min : Rat
  xbuf_max : Rat
  buf : List Rat := []
  deriving DecidableEq, Repr

/-- Struct `Packet` of the lib `pm_domain.h`. -/
structure Packet where
  dest_rank : Int
  offset : Int
  n : Int
  deriving DecidableEq, Repr

/-- Modelled from the spec: `Domain::push(x)` is declared in the lib `pm_domain.h`,
which is not among the sources.  Spec 4.2 step 3: "append the particle to that Domain's
pending batch". -/
def Domain.push (dom : Domain) (x : Float3) : Domain :=
  { dom with buf := dom.buf ++ [x.c0, x.c1, x.c2] }

/-- Function `send` of `src/lib/pm_domain.cpp` (its argument `i` is not used). -/
def send (_i : Int) (x : Float3) (boxsize : Rat) (decomposition : List Domain) :
    List Domain :=
  decomposition.map fun dom =>
    if send_test dom.xbuf_min dom.xbuf_max x.c0 boxsize then dom.push x else dom

/-- Method `Domain::send_packet` of `src/lib/pm_domain.cpp`; `nbuf_alloc` and
`packets_sent` are the file-scope variables it uses. -/
def send_packet (dom : Domain) (nbuf_alloc : Int) (packets_sent : List Packet) (mem : Mem) :
    Except Err (Domain × List Packet × Mem) :=
  if (dom.buf.length : Int).tmod 3 ≠ 0 then .error .AssertionFailed else
  let nsend : Int := (dom.buf.length : Int).tdiv 3
  if nsend = 0 then .ok (dom, packets_sent, mem) else
  let (offset, mem) := get_accumulate mem dom.rank nsend
  if offset + nsend ≥ nbuf_alloc then .error .RuntimeError else
  let mem := put_positions mem dom.rank dom.buf offset
  let pkt : Packet := { dest_rank := dom.rank, offset := offset, n := nsend }
  .ok ({ dom with buf := [] }, packets_sent ++ [pkt], mem)

end Lib

/-! ## Quantities used to state the properties of the exchange -/

/-- The ghost copies the particle loop of `pm_domain_send_positions` selects for a
domain with interval `(lo, hi)`: for each particle, numbered from `i` on, its index and
wrapped position once if it lies below `x_left` and passes the interval test of `send`,
and once if it lies above `x_right` and passes it. -/
def selected (x_left x_right boxsize lo hi : Rat) : Int → List Particle → List (Int × Float3)
  | _, [] => []
  | i, p :: rest =>
    (if (periodic_wrapup_p p boxsize).x.c0 < x_left ∧
        send_test lo hi (periodic_wrapup_p p boxsize).x.c0 boxsize = true
      then [(i, (periodic_wrapup_p p boxsize).x)] else []) ++
    (if (periodic_wrapup_p p boxsize).x.c0 > x_right ∧
        send_test lo hi (periodic_wrapup_p p boxsize).x.c0 boxsize = true
      then [(i, (periodic_wrapup_p p boxsize).x)] else []) ++
    selected x_left x_right boxsize lo hi (i + 1) rest

/-- A domain after the copies `l` were pushed one after the other. -/
def push_all (dom : Domain) (l : List (Int × Float3)) : Domain :=
  { dom with
    vbuf := dom.vbuf ++ l.flatMap (fun c => [c.2.c0, c.2.c1, c.2.c2]),
    vbuf_index := dom.vbuf_index ++ l.map Prod.fst }

/-- The number of particles in the pending batch of a domain, `vbuf.size() / 3`. -/
def Domain.nsend (dom : Domain) : Int := (dom.vbuf.length : Int).tdiv 3

/-- The sum of the counts `n` of the packets of a ledger addressed to `rank`. -/
def sent_to (rank : Int) (packets : List Packet) : Int :=
  ((packets.filter (fun pkt => pkt.dest_rank = rank)).map Packet.n).sum

/-- The sum of the batch sizes of the domains of a table whose rank is `rank`. -/
def pending_for (rank : Int) (decomposition : List Domain) : Int :=
  ((decomposition.filter (fun dom => dom.rank = rank)).map Domain.nsend).sum

/-- Whether a call ended normally, and with which error otherwise. -/
def outcome {α : Type} (r : Except Err α) : Option Err :=
  match r with
  | .ok _ => none
  | .error e => some e

/-- The table the particle loop hands to `packets_flush`. -/
def scanned (st : State) (particles : Particles) : List Domain :=
  st.decomposition.map fun dom =>
    push_all dom (selected st.x_left st.x_right particles.boxsize dom.xbuf_min dom.xbuf_max
      0 particles.p)

/-- The file-scope state after `pm_domain_init` at program start, for the FFT `fft`
returned by `pm_get_fft()`: the values the function assigns, the Domain table being the
entries built for the ranks the decomposition loop visits. -/
def initialised (env : Env) (particles : Particles) (fft : FFT) : State :=
  { State.initial with
    fft := some fft
    nc := fft.nc
    x_left := particles.boxsize / (fft.nc : Rat) * ((fft.local_ix0 + 1 : Int) : Rat)
    x_right := particles.boxsize / (fft.nc : Rat)
      * ((fft.local_ix0 + fft.local_nx - 1 : Int) : Rat)
    nbuf_alloc := env.capacity
    nbuf_index_alloc := particles.np_allocated
    decomposition :=
      ((loop_indices env.layout.length).flatMap
          (rank_block env.layout.length env.this_node)).map
        (domain_of (allgather_py env particles.boxsize fft.nc fft.local_ix0
          fft.local_nx)) }

/-- The fetch-and-adds of a sequence of batches on the counter of `rank`, in the order
in which they reach it: the slot range `(offset, n)` each batch claims, and the memory
afterwards. -/
def claim_offsets (rank : Int) : List Int → Mem → List (Int × Int) × Mem
  | [], mem => ([], mem)
  | nsend :: rest, mem =>
    (((get_accumulate mem rank nsend).1, nsend) ::
        (claim_offsets rank rest (get_accumulate mem rank nsend).2).1,
      (claim_offsets rank rest (get_accumulate mem rank nsend).2).2)

/-! ## Several processes -/

/-- One process of a run: what it sees, its file-scope state, its particles. -/
structure Proc where
  env : Env
  st : State
  particles : Particles

/-- Every process, in rank order, runs `pm_domain_send_positions` up to the first
`MPI_Win_fence`. -/
def exchange_begin : List Proc → Mem → Except Err (List Proc × Mem)
  | [], mem => .ok ([], mem)
  | pr :: rest, mem =>
    match send_positions_begin pr.env pr.st mem pr.particles with
    | .error e => .error e
    | .ok (st, mem) =>
      match exchange_begin rest mem with
      | .error e => .error e
      | .ok (rest, mem) => .ok ({ pr with st := st } :: rest, mem)

/-- Every process, in rank order, runs the part of `pm_domain_send_positions` between
the two fences. -/
def exchange_body : List Proc → Mem → Except Err (List Proc × Mem)
  | [], mem => .ok ([], mem)
  | pr :: rest, mem =>
    match send_positions_body pr.st mem pr.particles with
    | .error e => .error e
    | .ok (st, mem, particles) =>
      match exchange_body rest mem with
      | .error e => .error e
      | .ok (rest, mem) => .ok ({ pr with st := st, particles := particles } :: rest, mem)

/-- One collective call of `pm_domain_send_positions`: the fence lets no process
touch a remote counter before every process has reset its own, so all the resets come
first; the bodies then run one process after the other. -/
def exchange (procs : List Proc) (mem : Mem) : Except Err (List Proc × Mem) :=
  match exchange_begin procs mem with
  | .error e => .error e
  | .ok (procs, mem) => exchange_body procs mem

/-- The parameters of a run: mesh size, box size, the capacity every process computes,
the particle capacity, the slab of every rank and the particles every rank holds. -/
structure Run where
  nc : Int
  boxsize : Rat
  capacity : Int
  np_allocated : Int
  layout : List Slab
  parts : List (List Particle)

/-- Process `r` of a run at program start; the forces hold zeros. -/
def Run.proc (w : Run) (r : Nat) : Proc :=
  { env :=
      { this_node := r
        layout := w.layout
        pm_fft := some
          { addr := 1, nc := w.nc, local_ix0 := (w.layout.getD r ⟨0, 0⟩).local_ix0,
            local_nx := (w.layout.getD r ⟨0, 0⟩).local_nx }
        capacity := w.capacity
        alloc_ok := true }
    st := State.initial
    particles :=
      { p := w.parts.getD r [], np_allocated := w.np_allocated, boxsize := w.boxsize,
        force := List.replicate (w.parts.getD r []).length Float3.zero } }

/-- The processes of a run at program start, in rank order. -/
def Run.procs (w : Run) : List Proc :=
  (List.range w.layout.length).map w.proc

/-- The bound `x_left` a process with slab `s` computes in `pm_domain_init`. -/
def x_left_of (boxsize : Rat) (nc : Int) (s : Slab) : Rat :=
  boxsize / (nc : Rat) * ((s.local_ix0 + 1 : Int) : Rat)

/-- The bound `x_right` a process with slab `s` computes in `pm_domain_init`. -/
def x_right_of (boxsize : Rat) (nc : Int) (s : Slab) : Rat :=
  boxsize / (nc : Rat) * ((s.local_ix0 + s.local_nx - 1 : Int) : Rat)

/-- Whether the wrapped first coordinate of `p`, or one of its two periodic images,
falls in the buffer interval `(xbuf_min, xbuf_max)` of the node with slab `receiver`
(py intervals). -/
def in_buffer (boxsize : Rat) (nc : Int) (receiver : Slab) (p : Particle) : Bool :=
  send_test (fget (xbuf_py boxsize nc receiver) 0) (fget (xbuf_py boxsize nc receiver) 1)
    (periodic_wrapup_p p boxsize).x.c0 boxsize

/-- Whether the wrapped first coordinate of `p` lies outside the interval
`[x_left, x_right]` that the node with slab `sender` keeps to itself. -/
def outside_interior (boxsize : Rat) (nc : Int) (sender : Slab) (p : Particle) : Bool :=
  decide ((periodic_wrapup_p p boxsize).x.c0 < x_left_of boxsize nc sender) ||
    decide ((periodic_wrapup_p p boxsize).x.c0 > x_right_of boxsize nc sender)

/-- The ranks `0..n-1` other than `j`. -/
def other_ranks (n j : Nat) : List Nat :=
  (List.range n).filter (fun i => i ≠ j)

/-- Process `r` of a run after `send_positions_begin` at program start. -/
def Run.begun (w : Run) (r : Nat) : Proc :=
  { w.proc r with
    st := initialised (w.proc r).env (w.proc r).particles
      { addr := 1, nc := w.nc, local_ix0 := (w.layout.getD r ⟨0, 0⟩).local_ix0,
        local_nx := (w.layout.getD r ⟨0, 0⟩).local_nx } }

/-- The number of ghost copies process `i` of a run appends for the rank `k`. -/
def Run.appended (w : Run) (i : Nat) (k : Int) : Int :=
  pending_for k (scanned (w.begun i).st (w.begun i).particles)

/-- The file-scope state `st` of process `r` is set up for the run: it is the state at
program start, or `pm_domain_init` has run for the FFT of the run and `x_left`,
`x_right` and the Domain table (pending batches apart) are what it computes. -/
def Run.ready (w : Run) (r : Nat) (st : State) : Prop :=
  st = State.initial ∨
    (st.fft = (w.proc r).env.pm_fft ∧ st.x_left = (w.begun r).st.x_left ∧
      st.x_right = (w.begun r).st.x_right ∧
      st.decomposition.map Domain.clear = (w.begun r).st.decomposition)

/-- The processes of a run, in rank order, process `r` being in state `sts r`. -/
def Run.procs_from (w : Run) (sts : Nat → State) : List Proc :=
  (List.range w.layout.length).map fun r => { w.proc r with st := sts r }

/-! ## Quantities used to state the properties of the ledger -/

/-- The pending batch of `dom` pairs positions with indices: three floats per index,
and entry `k` of `vbuf_index` is the number of a particle of `ps` whose position is
the floats `3k, 3k+1, 3k+2` of `vbuf`. -/
def Domain.holds (dom : Domain) (ps : List Particle) : Prop :=
  dom.vbuf.length = 3 * dom.vbuf_index.length ∧
    ∀ k : Nat, k < dom.vbuf_index.length →
      ∃ p, 0 ≤ dom.vbuf_index.getD k 0 ∧ ps[(dom.vbuf_index.getD k 0).toNat]? = some p ∧
        dom.vbuf.getD (3 * k) 0 = p.x.c0 ∧ dom.vbuf.getD (3 * k + 1) 0 = p.x.c1 ∧
        dom.vbuf.getD (3 * k + 2) 0 = p.x.c2

/-- For every `k < n` of the Packet, `buf_index[offset_index + k]` is the number of a
particle of `ps` whose position is at slot `offset + k` of `buf_pos` of `dest_rank`
(floats `3 (offset + k)`, `+ 1`, `+ 2`). -/
def Packet.located (pkt : Packet) (buf_index : Int → Int) (buf_pos : Int → Int → Rat)
    (ps : List Particle) : Prop :=
  ∀ k : Nat, (k : Int) < pkt.n →
    ∃ p, 0 ≤ buf_index (pkt.offset_index + k) ∧
      ps[(buf_index (pkt.offset_index + k)).toNat]? = some p ∧
      buf_pos pkt.dest_rank (3 * (pkt.offset + k)) = p.x.c0 ∧
      buf_pos pkt.dest_rank (3 * (pkt.offset + k) + 1) = p.x.c1 ∧
      buf_pos pkt.dest_rank (3 * (pkt.offset + k) + 2) = p.x.c2

/-- The ledger of `st` is in order: its index ranges `[offset_index, offset_index + n)`
follow one another and tile `[0, nbuf_index)`, every Packet lies below the counter of
its destination and locates its particles among `ps`. -/
def ledger_ok (st : State) (mem : Mem) (ps : List Particle) : Prop :=
  0 ≤ st.nbuf_index ∧
    List.Pairwise (fun a b : Packet => a.offset_index + a.n ≤ b.offset_index)
      st.packets_sent ∧
    (∀ pkt ∈ st.packets_sent, 0 ≤ pkt.offset_index ∧ 0 < pkt.n ∧
      pkt.offset_index + pkt.n ≤ st.nbuf_index ∧
      pkt.offset + pkt.n ≤ mem.nbuf pkt.dest_rank ∧
      pkt.located st.buf_index mem.buf_pos ps) ∧
    ∀ s : Int, (0 ≤ s ∧ s < st.nbuf_index) ↔
      ∃ pkt ∈ st.packets_sent, pkt.offset_index ≤ s ∧ s < pkt.offset_index + pkt.n

/-! ## Force scatter-back (`pm_domain_get_forces`) -/

/-- Entry `i` of `packet_force` after
`MPI_Get(packet_force, 3*nsent, FLOAT_TYPE, dest_rank, offset*3, ...)`: the three floats
of `buf_force` of `dest_rank` from float position `offset*3 + 3*i` on.  The transfer is
taken to have completed when the loop reads `packet_force`, and the scratch array
`packet_force` to be large enough for the Packet. -/
def get_packet_force (mem : Mem) (dest_rank offset i : Int) : Float3 :=
  { c0 := mem.buf_force dest_rank (offset * 3 + 3 * i),
    c1 := mem.buf_force dest_rank (offset * 3 + 3 * i + 1),
    c2 := mem.buf_force dest_rank (offset * 3 + 3 * i + 2) }

/-- The inner loop of `pm_domain_get_forces` (`src/py/pm_domain.cpp:143-158`) over the
values `i` of its counter, with the two assertions of the `CHECK` build;
`f[index] += packet_force[i]` on the list `f` of forces. -/
def add_packet_forces (st : State) (mem : Mem) (np_local : Int) (packet : Packet) :
    List Int → List Float3 → Except Err (List Float3)
  | [], f => .ok f
  | i :: rest, f =>
    let ii := packet.offset_index + i
    if ¬ (0 ≤ ii ∧ ii < st.nbuf_index) then .error .AssertionFailed else
    let index := st.buf_index ii
    if ¬ (0 ≤ index ∧ index < np_local) then .error .AssertionFailed else
    add_packet_forces st mem np_local packet rest
      (f.set index.toNat
        ((f.getD index.toNat Float3.zero).add
          (get_packet_force mem packet.dest_rank packet.offset i)))

/-- The values `0, 1, ..., n - 1` of a loop counter `for(Index i=0; i<n; ++i)`. -/
def counter_values (n : Int) : List Int :=
  (List.range n.toNat).map fun (k : Nat) => (k : Int)

/-- The loop of `pm_domain_get_forces` over the ledger. -/
def get_forces_loop (st : State) (mem : Mem) (np_local : Int) :
    List Packet → List Float3 → Except Err (List Float3)
  | [], f => .ok f
  | packet :: rest, f =>
    match add_packet_forces st mem np_local packet (counter_values packet.n) f with
    | .error e => .error e
    | .ok f => get_forces_loop st mem np_local rest f

/-- Function `pm_domain_get_forces` of `src/py/pm_domain.cpp`: it reads the file-scope
variables and the force buffers of the other nodes and changes `particles->force`
only; the file-scope state is returned as it was. -/
def pm_domain_get_forces (st : State) (mem : Mem) (particles : Particles) :
    Except Err (State × Particles) :=
  match get_forces_loop st mem particles.p.length st.packets_sent particles.force with
  | .error e => .error e
  | .ok f => .ok (st, { particles with force := f })

/-- The forces the ledger of `st` assigns to local particle `j`: for every Packet and
every `k < n` with `buf_index[offset_index + k] = j`, the force stored at slot
`offset + k` of `buf_force` of node `dest_rank`. -/
def scattered (st : State) (mem : Mem) (j : Int) : List Float3 :=
  st.packets_sent.flatMap fun pkt =>
    ((counter_values pkt.n).filter fun k => st.buf_index (pkt.offset_index + k) = j).map
      fun k =>
        { c0 := mem.buf_force pkt.dest_rank (3 * (pkt.offset + k)),
          c1 := mem.buf_force pkt.dest_rank (3 * (pkt.offset + k) + 1),
          c2 := mem.buf_force pkt.dest_rank (3 * (pkt.offset + k) + 2) }

/-! ## The particle-mesh kernels (`src/py/pm.cpp`) -/

/-- The values of `PmStatus` that `pm.cpp` assigns. -/
inductive PmStatus where
  | done
  | density_done
  | force_done
  deriving DecidableEq, Repr

/-- The values of `fft_pm->mode` that `pm.cpp` assigns, and the value before the first
assignment. -/
inductive FftMode where
  | fft_mode_unknown
  | fft_mode_x
  | fft_mode_k
  deriving DecidableEq, Repr

/-- The module variables of `pm.cpp` together with the fields of `fft_pm` that the
module reads and writes.  The real mesh `fx` and the complex meshes `fk` and `delta_k`
are addressed by the value of the flat index; a `complex_t` is the pair of its real and
imaginary part.  The class `FFT` is declared in `fft.h`, which is not among the
sources: `fx` and `fk` are kept as two fields, and nothing stated here relates the one
to the other.  `fft_pm` is the address of the object the pointer `fft_pm` holds, `none`
for the null pointer. -/
structure Pm where
  fft_pm : Option Nat
  status : PmStatus
  pm_factor : Rat
  nc : Int
  ncz : Int
  boxsize : Rat
  local_nx : Int
  local_ix0 : Int
  local_nky : Int
  local_iky0 : Int
  fx : Int → Rat
  fk : Int → Rat × Rat
  mode : FftMode
  delta_k : Int → Rat × Rat

/-- A value of type `size_t` (64 bits) after an arithmetic operation. -/
def to_size_t (n : Int) : Int := n % 2 ^ 64

/-- The conversion of an integer to `int` (32 bits, two's complement). -/
def to_int32 (n : Int) : Int := (n + 2 ^ 31) % 2 ^ 32 - 2 ^ 31

/-- The conversion `(int) x` of a float: truncation towards zero (of a value within
the range of `int`). -/
def to_int (x : Rat) : Int := if 0 ≤ x then ⌊x⌋ else ⌈x⌉

/-- The CIC weights of one coordinate in mesh units (`src/py/pm.cpp:95-107, 179-187`):
`ix0 = (int) x; wx1 = x - ix0; wx0 = 1 - wx1`; returns `(wx0, wx1)`. -/
def cic_weights (x : Rat) : Rat × Rat :=
  let ix0 := to_int x
  let wx1 := x - (ix0 : Rat)
  let wx0 := 1 - wx1
  (wx0, wx1)

/-- The global cell indices of one coordinate in mesh units
(`src/py/pm.cpp:95, 109, 113` and `175, 189, 200`): `ix0 = (int) x;
if(ix0 >= nci) ix0 = 0; ix1 = ix0 + 1; if(ix1 >= nci) ix1 -= nci`; returns
`(ix0, ix1)`. -/
def cic_indices (nci : Int) (x : Rat) : Int × Int :=
  let ix0 := to_int x
  let ix0 := if ix0 ≥ nci then 0 else ix0
  let ix1 := ix0 + 1
  let ix1 := if ix1 ≥ nci then ix1 - nci else ix1
  (ix0, ix1)

/-- The flat index `(ix*nc + iy)*ncz + iz` of `grid_assign` and `grid_val`, by its
value. -/
def grid_index (pm : Pm) (ix iy iz : Int) : Int := (ix * pm.nc + iy) * pm.ncz + iz

/-- Function `grid_assign`: `d[(ix*nc + iy)*ncz + iz] += f`. -/
def grid_assign (pm : Pm) (d : Int → Rat) (ix iy iz : Int) (f : Rat) : Int → Rat :=
  aset d (grid_index pm ix iy iz) (d (grid_index pm ix iy iz) + f)

/-- Function `grid_val`. -/
def grid_val (pm : Pm) (d : Int → Rat) (ix iy iz : Int) : Rat := d (grid_index pm ix iy iz)

/-- One of the two guarded blocks of the particle loop of `pm_assign_cic_density`
(`src/py/pm.cpp:119-124` and `126-131`): the four calls of `grid_assign` for the
x-plane `ix`, `w` being `fac*wx0` in the first block and `fac*wx1` in the second. -/
def assign_plane (pm : Pm) (density : Int → Rat) (ix iy0 iy1 iz0 iz1 : Int)
    (w wy0 wy1 wz0 wz1 : Rat) : Int → Rat :=
  if 0 ≤ ix ∧ ix < to_int32 pm.local_nx then
    let density := grid_assign pm density ix iy0 iz0 (w * wy0 * wz0)
    let density := grid_assign pm density ix iy0 iz1 (w * wy0 * wz1)
    let density := grid_assign pm density ix iy1 iz0 (w * wy1 * wz0)
    grid_assign pm density ix iy1 iz1 (w * wy1 * wz1)
  else density

/-- The body of the particle loop of `pm_assign_cic_density`
(`src/py/pm.cpp:84-133`, build without `CHECK`) for a particle at position `p`. -/
def cic_deposit (pm : Pm) (density : Int → Rat) (p : Float3) : Int → Rat :=
  let dx_inv : Rat := (pm.nc : Rat) / pm.boxsize
  let fac : Rat := pm.pm_factor * pm.pm_factor * pm.pm_factor
  let nci : Int := to_int32 pm.nc
  let x := p.c0 * dx_inv
  let y := p.c1 * dx_inv
  let z := p.c2 * dx_inv
  let wx := cic_weights x
  let wy := cic_weights y
  let wz := cic_weights z
  let ix := cic_indices nci x
  let iy := cic_indices nci y
  let iz := cic_indices nci z
  let ix0 := to_int32 (to_size_t (ix.1 - pm.local_ix0))
  let ix1 := to_int32 (to_size_t (ix.2 - pm.local_ix0))
  let density := assign_plane pm density ix0 iy.1 iy.2 iz.1 iz.2 (fac * wx.1) wy.1 wy.2 wz.1 wz.2
  assign_plane pm density ix1 iy.1 iy.2 iz.1 iz.2 (fac * wx.2) wy.1 wy.2 wz.1 wz.2

/-- Function `pm_assign_cic_density` over the positions `p` of `np` particles; the
additions of the loop, atomic in the source, are made in the order of the particles. -/
def pm_assign_cic_density (pm : Pm) (p : List Float3) : Pm :=
  { pm with
    fx := p.foldl (cic_deposit pm) pm.fx
    mode := .fft_mode_x
    status := .density_done }

/-- Function `clear_density`. -/
def clear_density (pm : Pm) : Pm :=
  { pm with
    fx := (counter_values pm.local_nx).foldl (fun density ix =>
      (counter_values pm.nc).foldl (fun density iy =>
        (counter_values pm.nc).foldl (fun density iz =>
          aset density ((ix * pm.nc + iy) * pm.ncz + iz) (-1)) density) density) pm.fx }

/-- Function `pm_domain_buffer_np`: the counter `nbuf` of this node. -/
def pm_domain_buffer_np (mem : Mem) (this_node : Int) : Int := mem.nbuf this_node

/-- Function `pm_domain_buffer_positions`: `buf_pos` of this node read as an array of
`Pos`, entry `i` being the three floats from float position `3*i` on. -/
def pm_domain_buffer_positions (mem : Mem) (this_node : Int) (i : Int) : Float3 :=
  { c0 := mem.buf_pos this_node (3 * i), c1 := mem.buf_pos this_node (3 * i + 1),
    c2 := mem.buf_pos this_node (3 * i + 2) }

/-- The positions of the ghost particles a node holds: entries `0 .. nbuf - 1` of its
buffer. -/
def ghost_positions (mem : Mem) (this_node : Int) : List Float3 :=
  (counter_values (pm_domain_buffer_np mem this_node)).map
    (pm_domain_buffer_positions mem this_node)

/-- Function `pm_compute_density`: clear the mesh, assign the local particles, assign
the ghost particles of the buffer. -/
def pm_compute_density (pm : Pm) (mem : Mem) (this_node : Int) (particles : Particles) : Pm :=
  let pm := clear_density pm
  let pm := pm_assign_cic_density pm (particles.p.map Particle.x)
  let pm := pm_assign_cic_density pm (ghost_positions mem this_node)
  { pm with status := .density_done }

/-- What one of the two guarded blocks of the particle loop of
`force_at_particle_locations` (`src/py/pm.cpp:204-210` and `211-217`) adds to
`f[i][axis]`: the four values of the x-plane `ix` with their weights, `wx` being `wx0`
in the first block and `wx1` in the second; nothing when the plane is not local. -/
def interpolate_plane (pm : Pm) (ix iy0 iy1 iz0 iz1 : Int) (wx wy0 wy1 wz0 wz1 : Rat) : Rat :=
  if 0 ≤ ix ∧ ix < to_int32 pm.local_nx then
    grid_val pm pm.fx ix iy0 iz0 * wx * wy0 * wz0 +
      grid_val pm pm.fx ix iy0 iz1 * wx * wy0 * wz1 +
      grid_val pm pm.fx ix iy1 iz0 * wx * wy1 * wz0 +
      grid_val pm pm.fx ix iy1 iz1 * wx * wy1 * wz1
  else 0

/-- The value `f[i][axis]` holds after the body of the particle loop of
`force_at_particle_locations` (`src/py/pm.cpp:167-217`, build without `CHECK`) for a
particle at position `p`: set to 0, then the two blocks. -/
def cic_interpolate (pm : Pm) (p : Float3) : Rat :=
  let dx_inv : Rat := (pm.nc : Rat) / pm.boxsize
  let nci : Int := to_int32 pm.nc
  let x := p.c0 * dx_inv
  let y := p.c1 * dx_inv
  let z := p.c2 * dx_inv
  let wx := cic_weights x
  let wy := cic_weights y
  let wz := cic_weights z
  let ix := cic_indices nci x
  let iy := cic_indices nci y
  let iz := cic_indices nci z
  let ix0 := to_int32 (to_size_t (ix.1 - pm.local_ix0))
  let ix1 := to_int32 (to_size_t (ix.2 - pm.local_ix0))
  let f : Rat := 0
  let f := f + interpolate_plane pm ix0 iy.1 iy.2 iz.1 iz.2 wx.1 wy.1 wy.2 wz.1 wz.2
  f + interpolate_plane pm ix1 iy.1 iy.2 iz.1 iz.2 wx.2 wy.1 wy.2 wz.1 wz.2

/-- Writing component `axis` of a `Float3`. -/
def Float3.set (f : Float3) (axis : Int) (v : Rat) : Float3 :=
  if axis = 0 then { f with c0 := v }
  else if axis = 1 then { f with c1 := v }
  else { f with c2 := v }

/-- Function `force_at_particle_locations` over the array `p` of `np` positions: the
array `f` of type `σ` receives `f[i][axis]` through `store`. -/
def force_at_particle_locations {σ : Type} (pm : Pm) (p : Int → Float3) (np : Int)
    (axis : Int) (store : σ → Int → Int → Rat → σ) (f : σ) : σ :=
  (counter_values np).foldl (fun f i => store f i axis (cic_interpolate pm (p i))) f

/-! ## The CIC assignment as the specification words it -/

/-- The CIC weight of a particle with mesh-unit coordinate `x` for the cell `⌊x⌋`
(`a = 0`) and for the next cell (`a = 1`). -/
def corner_weight (x : Rat) (a : Int) : Rat :=
  if a = 0 then 1 - (x - (⌊x⌋ : Int)) else x - (⌊x⌋ : Int)

/-- The eight CIC corners of a particle at position `p`: the wrapped global cell index
and the weight `w_x * w_y * w_z` of each. -/
def cic_corners (nc : Int) (boxsize : Rat) (p : Float3) : List ((Int × Int × Int) × Rat) :=
  let x := p.c0 * ((nc : Rat) / boxsize)
  let y := p.c1 * ((nc : Rat) / boxsize)
  let z := p.c2 * ((nc : Rat) / boxsize)
  [0, 1].flatMap fun a => [0, 1].flatMap fun b => [0, 1].map fun c =>
    (((⌊x⌋ + a) % nc, (⌊y⌋ + b) % nc, (⌊z⌋ + c) % nc),
      corner_weight x a * corner_weight y b * corner_weight z c)

/-- The sum of the weights of the corners of the particle at `p` whose wrapped global
index is `cell`. -/
def corner_mass (nc : Int) (boxsize : Rat) (p : Float3) (cell : Int × Int × Int) : Rat :=
  ((cic_corners nc boxsize p).map fun c => if c.1 = cell then c.2 else 0).sum

/-- The sum of the weights of all corners, of all particles at the positions `ps`, whose
wrapped global index is `cell`. -/
def cic_mass (nc : Int) (boxsize : Rat) (ps : List Float3) (cell : Int × Int × Int) : Rat :=
  (ps.map fun p => corner_mass nc boxsize p cell).sum

/-! ## The force mesh in Fourier space (`compute_force_mesh` of `src/py/pm.cpp`) -/

/-- The constant `M_PI` of `math.h`: the `double` nearest to π, which is the rational
`884279719003555 / 2^48`. -/
def M_PI : Rat := 884279719003555 / 281474976710656

/-- The values `a, a + 1, ..., n - 1` of a loop counter `for(size_t iz=a; iz<n; iz++)`. -/
def counter_from (a n : Int) : List Int :=
  (List.range (n - a).toNat).map fun (k : Nat) => a + (k : Int)

/-- The coefficient loops of `compute_force_mesh` (`src/py/pm.cpp:466-503`): `fk[0]` is
set to zero, then every locally stored mode but `(0, 0, 0)` receives its coefficient.
Returns the mesh `fk` as it is handed to the inverse transform.  `k[axis]` is `k[0]`
for axis 0, `k[1]` for axis 1 and `k[2]` otherwise; the flat index is taken by its
value. -/
def force_mesh_coefficients (pm : Pm) (axis : Int) : Int → Rat × Rat :=
  let fk := aset pm.fk 0 (0, 0)
  let f1 : Rat := -1 / (pm.nc : Rat) ^ 3 / (2 * M_PI / pm.boxsize)
  let nckz : Int := pm.nc / 2 + 1
  let nci : Int := to_int32 pm.nc
  (counter_values pm.local_nky).foldl (fun fk (iy_local : Int) =>
    let iy : Int := to_int32 (to_size_t (iy_local + pm.local_iky0))
    let iy0 : Int := if iy ≤ nci.tdiv 2 then iy else iy - nci
    let k1 : Rat := (iy0 : Rat)
    (counter_values pm.nc).foldl (fun fk (ix : Int) =>
      let ix0 : Int :=
        to_int32 (if ix ≤ pm.nc / 2 then ix else to_size_t (to_int32 ix - pm.nc))
      let k0 : Rat := (ix0 : Rat)
      let kzmin : Int := if ix = 0 ∧ iy = 0 then 1 else 0
      (counter_from kzmin nckz).foldl (fun fk (iz : Int) =>
        let k2 : Rat := (iz : Rat)
        let f2 : Rat := f1 / (k0 * k0 + k1 * k1 + k2 * k2) *
          (if axis = 0 then k0 else if axis = 1 then k1 else k2)
        let index : Int := (pm.nc * iy_local + ix) * nckz + iz
        aset fk index (-f2 * (pm.delta_k index).2, f2 * (pm.delta_k index).1)) fk) fk) fk

/-- The signed wavenumber of the frequency index `i` of a mesh with `nc` points:
`i` if `i <= nc/2`, else `i - nc`. -/
def wavenumber (nc i : Int) : Int := if i ≤ nc / 2 then i else i - nc

/-- The product of two complex numbers, each the pair of its real and imaginary part. -/
def cmul (a b : Rat × Rat) : Rat × Rat := (a.1 * b.1 - a.2 * b.2, a.1 * b.2 + a.2 * b.1)


/-- The passes of the innermost loop of `compute_force_mesh` (`src/py/pm.cpp:481-503`) in
the order in which they run: the counters `(iy_local, ix, iz)` of each pass and the
vector `k` it computes. -/
def visited_modes (pm : Pm) : List ((Int × Int × Int) × (Rat × Rat × Rat)) :=
  let nckz : Int := pm.nc / 2 + 1
  let nci : Int := to_int32 pm.nc
  (counter_values pm.local_nky).flatMap fun (iy_local : Int) =>
    let iy : Int := to_int32 (to_size_t (iy_local + pm.local_iky0))
    let iy0 : Int := if iy ≤ nci.tdiv 2 then iy else iy - nci
    let k1 : Rat := (iy0 : Rat)
    (counter_values pm.nc).flatMap fun (ix : Int) =>
      let ix0 : Int :=
        to_int32 (if ix ≤ pm.nc / 2 then ix else to_size_t (to_int32 ix - pm.nc))
      let k0 : Rat := (ix0 : Rat)
      let kzmin : Int := if ix = 0 ∧ iy = 0 then 1 else 0
      (counter_from kzmin nckz).map fun (iz : Int) =>
        let k2 : Rat := (iz : Rat)
        ((iy_local, ix, iz), (k0, k1, k2))

/-- The divisor `k[0]*k[0] + k[1]*k[1] + k[2]*k[2]` of `src/py/pm.cpp:497`. -/
def squared_wavenumber (k : Rat × Rat × Rat) : Rat := k.1 * k.1 + k.2.1 * k.2.1 + k.2.2 * k.2.2

/-- The assignment of one pass of the innermost loop of `compute_force_mesh`
(`src/py/pm.cpp:497-501`) with counters `m` and vector `k`. -/
def store_coefficient (pm : Pm) (axis : Int) (fk : Int → Rat × Rat)
    (e : (Int × Int × Int) × (Rat × Rat × Rat)) : Int → Rat × Rat :=
  let f1 : Rat := -1 / (pm.nc : Rat) ^ 3 / (2 * M_PI / pm.boxsize)
  let f2 : Rat := f1 / squared_wavenumber e.2 *
    (if axis = 0 then e.2.1 else if axis = 1 then e.2.2.1 else e.2.2.2)
  let index : Int := (pm.nc * e.1.1 + e.1.2.1) * (pm.nc / 2 + 1) + e.1.2.2
  aset fk index (-f2 * (pm.delta_k index).2, f2 * (pm.delta_k index).1)
/-! ## The force phase: interpolation on every node and scatter-back -/

/-- The assignment `f[i][axis] = v` on the forces of the local particles. -/
def store_particle_force (f : List Float3) (i axis : Int) (v : Rat) : List Float3 :=
  f.set i.toNat ((f.getD i.toNat Float3.zero).set axis v)

/-- The assignment `f[i][axis] = v` on `pm_domain_buffer_forces()`: `buf_force` of this
node read as an array of `Float3`. -/
def store_buffer_force (this_node : Int) (mem : Mem) (i axis : Int) (v : Rat) : Mem :=
  { mem with
    buf_force := aset mem.buf_force this_node (aset (mem.buf_force this_node) (3 * i + axis) v) }

/-- One pass of the axis loop of `pm_compute_force` (`src/py/pm.cpp:325-331`) once
`compute_force_mesh(axis)` has left the force mesh of the axis in `fft_pm->fx`, `pm`
being the module variables at that moment: the forces at the local particles, then the
forces at the ghost particles of the buffer. -/
def interpolate_axis (pm : Pm) (mem : Mem) (this_node : Int) (particles : Particles)
    (axis : Int) : Mem × Particles :=
  let force := force_at_particle_locations pm
    (fun i => (particles.p.getD i.toNat ⟨Float3.zero⟩).x) particles.p.length axis
    store_particle_force particles.force
  let mem := force_at_particle_locations pm (pm_domain_buffer_positions mem this_node)
    (pm_domain_buffer_np mem this_node) axis (store_buffer_force this_node) mem
  (mem, { particles with force := force })

/-- The axis loop of `pm_compute_force` on one node, `pm axis` being the module
variables after `compute_force_mesh(axis)`, whose inverse transform is part of `fft.h`,
which is not among the sources. -/
def force_axes (pm : Int → Pm) (mem : Mem) (this_node : Int) (particles : Particles) :
    Mem × Particles :=
  [0, 1, 2].foldl (fun (s : Mem × Particles) (axis : Int) =>
    interpolate_axis (pm axis) s.1 this_node s.2 axis) (mem, particles)

/-- Every process, in rank order, runs the axis loop of `pm_compute_force`; `pms r` are
the module variables of rank `r`. -/
def force_phase (pms : Int → Int → Pm) : List Proc → Mem → List Proc × Mem
  | [], mem => ([], mem)
  | pr :: rest, mem =>
    ({ pr with particles := (force_axes (pms pr.env.this_node) mem pr.env.this_node
          pr.particles).2 } ::
        (force_phase pms rest (force_axes (pms pr.env.this_node) mem pr.env.this_node
          pr.particles).1).1,
      (force_phase pms rest (force_axes (pms pr.env.this_node) mem pr.env.this_node
        pr.particles).1).2)

/-- The full eight-corner trilinear interpolation of a global mesh `F` at the position
`p`: the sum over the eight corners of the mesh value at the wrapped index of the corner
times the weight of the corner. -/
def trilinear (nc : Int) (boxsize : Rat) (F : Int × Int × Int → Rat) (p : Float3) : Rat :=
  ((cic_corners nc boxsize p).map fun c => F c.1 * c.2).sum

/-- The ranks to which the ledger of `st` sent a copy of local particle `j`, one entry
for every copy. -/
def copies_sent (st : State) (j : Int) : List Int :=
  st.packets_sent.flatMap fun pkt =>
    ((counter_values pkt.n).filter fun k => st.buf_index (pkt.offset_index + k) = j).map
      fun _ => pkt.dest_rank

/-- The part of the trilinear interpolation of `F` at `p` that comes from the four
corners of the x-plane `⌊x⌋ + a` (wrapped), `a` being 0 or 1. -/
def plane_sum (nc : Int) (boxsize : Rat) (F : Int × Int × Int → Rat) (p : Float3) (a : Int) :
    Rat :=
  let x := p.c0 * ((nc : Rat) / boxsize)
  let y := p.c1 * ((nc : Rat) / boxsize)
  let z := p.c2 * ((nc : Rat) / boxsize)
  ([0, 1].flatMap fun b => [0, 1].map fun c =>
    F ((⌊x⌋ + a) % nc, (⌊y⌋ + b) % nc, (⌊z⌋ + c) % nc) *
      (corner_weight x a * corner_weight y b * corner_weight z c)).sum

/-! ## The public functions of the pm module (`src/py/pm.cpp`) -/

/-- The part of an `FFT` object that the transforms change: the real mesh, the complex
mesh and the mode. -/
structure FftData where
  fx : Int → Rat
  fk : Int → Rat × Rat
  mode : FftMode

/-- An `FFT` object as the constructor leaves it: its address, its slab in real and in
Fourier space, its meshes. -/
structure FftObject where
  addr : Nat
  local_nx : Int
  local_ix0 : Int
  local_nky : Int
  local_iky0 : Int
  data : FftData

/-- What `pm.cpp` uses of the class `FFT` (`fft.h`, which is not among the sources),
taken as a parameter: the object `new FFT("PM", nc, mem_pm, 1)` returns for a mesh of
`nc` points, and what `execute_forward` and `execute_inverse` make of the meshes. -/
structure FftLib where
  create : Int → FftObject
  execute_forward : FftData → FftData
  execute_inverse : FftData → FftData

/-- The meshes and the mode of `fft_pm`. -/
def Pm.data (pm : Pm) : FftData := { fx := pm.fx, fk := pm.fk, mode := pm.mode }

/-- The module variables once a transform has left `d` in `fft_pm`. -/
def Pm.with_data (pm : Pm) (d : FftData) : Pm :=
  { pm with fx := d.fx, fk := d.fk, mode := d.mode }

/-- The module variables at program start: `nc = 0`, `fft_pm = 0`, the other statics
zero-initialised. -/
def Pm.initial : Pm :=
  { fft_pm := none, status := .done, pm_factor := 0, nc := 0, ncz := 0, boxsize := 0,
    local_nx := 0, local_ix0 := 0, local_nky := 0, local_iky0 := 0, fx := fun _ => 0,
    fk := fun _ => (0, 0), mode := .fft_mode_unknown, delta_k := fun _ => (0, 0) }

/-- Function `pm_free`: `nc = 0; delete fft_pm; fft_pm = 0`. -/
def pm_free (pm : Pm) : Pm :=
  { pm with nc := 0, fft_pm := none }

/-- Function `pm_init` (`src/py/pm.cpp:225-268`): returns the module variables after the
call and how the call ended, `.error .RuntimeError` when it threw.  `nc_pm` is the
`size_t` argument by its value; the two memory pools are taken to serve the requests
(`mem.h` is not among the sources), the memory of `delta_k` keeping what it held. -/
def pm_init (lib : FftLib) (nc_pm : Int) (pm_factor_ boxsize_ : Rat) (pm : Pm) :
    Pm × Except Err Unit :=
  if pm.nc > 0 ∧ ¬ (nc_pm ≠ pm.nc ∨ pm.pm_factor ≠ pm_factor_ ∨ pm.boxsize ≠ boxsize_) then
    (pm, .ok ())
  else
  let pm := if pm.nc > 0 then pm_free pm else pm
  let pm := { pm with nc := nc_pm, pm_factor := pm_factor_ }
  let pm := { pm with ncz := 2 * (pm.nc / 2 + 1), boxsize := boxsize_ }
  if pm.nc ≤ 1 then (pm, .error .RuntimeError) else
  if pm.boxsize ≤ 0 then (pm, .error .RuntimeError) else
  let fft := lib.create pm.nc
  let pm :=
    { pm with
      fft_pm := some fft.addr, local_nx := fft.local_nx, local_ix0 := fft.local_ix0,
      local_nky := fft.local_nky, local_iky0 := fft.local_iky0, fx := fft.data.fx,
      fk := fft.data.fk, mode := fft.data.mode }
  ({ pm with status := .done }, .ok ())

/-- Function `pm_get_fft`: the pointer `fft_pm`, as the pm_domain module sees the
object. -/
def pm_get_fft (pm : Pm) : Option FFT :=
  pm.fft_pm.map fun addr =>
    { addr := addr, nc := pm.nc, local_ix0 := pm.local_ix0, local_nx := pm.local_nx }

/-- Function `pm_get_status`. -/
def pm_get_status (pm : Pm) : PmStatus := pm.status

/-- Function `pm_set_status`. -/
def pm_set_status (pm : Pm) (pm_status : PmStatus) : Pm := { pm with status := pm_status }

/-- Function `compute_delta_k`: the forward transform, then the copy of `fft_pm->fk`
to `delta_k` over the locally stored modes. -/
def compute_delta_k (lib : FftLib) (pm : Pm) : Pm :=
  let pm := pm.with_data (lib.execute_forward pm.data)
  let nckz : Int := pm.nc / 2 + 1
  { pm with
    delta_k := (counter_values pm.local_nky).foldl (fun delta_k (iy : Int) =>
      (counter_values pm.nc).foldl (fun delta_k (ix : Int) =>
        (counter_values nckz).foldl (fun delta_k (iz : Int) =>
          aset delta_k ((pm.nc * iy + ix) * nckz + iz) (pm.fk ((pm.nc * iy + ix) * nckz + iz)))
          delta_k) delta_k) pm.delta_k }

/-- Function `compute_force_mesh`: the coefficient loops, `mode = fft_mode_k`, the
inverse transform. -/
def compute_force_mesh (lib : FftLib) (pm : Pm) (axis : Int) : Pm :=
  let pm := { pm with fk := force_mesh_coefficients pm axis }
  let pm := { pm with mode := .fft_mode_k }
  pm.with_data (lib.execute_inverse pm.data)

/-- Function `pm_compute_force` (`src/py/pm.cpp:306-338`, build without `CHECK`) on the
node `this_node`: returns the module variables, the window memory (the ghost forces
are written to `buf_force` of this node) and the particles after the call, and how the
call ended. -/
def pm_compute_force (lib : FftLib) (this_node : Int) (pm : Pm) (mem : Mem)
    (particles : Particles) : (Pm × Mem × Particles) × Except Err Unit :=
  if particles.a_f = particles.a_x then ((pm, mem, particles), .ok ()) else
  if pm.status ≠ .density_done then ((pm, mem, particles), .error .RuntimeError) else
  let pm := compute_delta_k lib pm
  let s := [0, 1, 2].foldl (fun (s : Pm × Mem × Particles) (axis : Int) =>
    let pm := compute_force_mesh lib s.1 axis
    (pm, interpolate_axis pm s.2.1 this_node s.2.2 axis)) (pm, mem, particles)
  let particles := { s.2.2 with a_f := s.2.2.a_x }
  (({ s.1 with status := .force_done }, s.2.1, particles), .ok ())

/-- Function `py_pm_compute_force` of `src/py/py_pm.cpp` once its argument is parsed:
`.error .RuntimeError` stands for the Python `RuntimeError` it sets, either because
`pm_init` was not called through the package or because `pm_compute_force` threw. -/
def py_pm_compute_force (pm_initialised : Bool) (lib : FftLib) (this_node : Int) (pm : Pm)
    (mem : Mem) (particles : Particles) : (Pm × Mem × Particles) × Except Err Unit :=
  if ¬ pm_initialised then ((pm, mem, particles), .error .RuntimeError) else
  match pm_compute_force lib this_node pm mem particles with
  | (s, .error .RuntimeError) => (s, .error .RuntimeError)
  | (s, r) => (s, r)

/-- A call of one of the functions of the pm module that assign `status`, apart from
`pm_set_status`, with its arguments. -/
inductive PmCall where
  | init (nc_pm : Int) (pm_factor boxsize : Rat)
  | assign_cic_density (p : List Float3)
  | compute_density (mem : Mem) (this_node : Int) (particles : Particles)
  | compute_force (this_node : Int) (mem : Mem) (particles : Particles)

/-- The module variables after the call `c`. -/
def PmCall.run (lib : FftLib) (c : PmCall) (pm : Pm) : Pm :=
  match c with
  | .init nc_pm pm_factor boxsize => (pm_init lib nc_pm pm_factor boxsize pm).1
  | .assign_cic_density p => pm_assign_cic_density pm p
  | .compute_density mem this_node particles => pm_compute_density pm mem this_node particles
  | .compute_force this_node mem particles =>
    (pm_compute_force lib this_node pm mem particles).1.1

/-- Whether the call is a density computation. -/
def PmCall.is_density : PmCall → Bool
  | .assign_cic_density _ => true
  | .compute_density _ _ _ => true
  | _ => false

/-- Whether the call is `pm_compute_force`. -/
def PmCall.is_force : PmCall → Bool
  | .compute_force _ _ _ => true
  | _ => false
/-! ## The assertions of the build with `CHECK` (`src/py/pm.cpp`) -/

/-- The assertion at the top of the particle loop of `pm_assign_cic_density`
(`src/py/pm.cpp:85-93`) for a particle at position `p`: the coordinates in mesh units,
`p.x[k]*dx_inv`, are compared with `boxsize`. -/
def density_assertion (pm : Pm) (p : Float3) : Bool :=
  let dx_inv : Rat := (pm.nc : Rat) / pm.boxsize
  let x := p.c0 * dx_inv
  let y := p.c1 * dx_inv
  let z := p.c2 * dx_inv
  decide (0 ≤ x ∧ x ≤ pm.boxsize ∧ 0 ≤ y ∧ y ≤ pm.boxsize ∧ 0 ≤ z ∧ z ≤ pm.boxsize)

/-- The assertion at the top of the particle loop of `force_at_particle_locations`
(`src/py/pm.cpp:156-164`): the coordinates in mesh units are compared with `nc`. -/
def force_assertion (pm : Pm) (p : Float3) : Bool :=
  let dx_inv : Rat := (pm.nc : Rat) / pm.boxsize
  let x := p.c0 * dx_inv
  let y := p.c1 * dx_inv
  let z := p.c2 * dx_inv
  decide (0 ≤ x ∧ x ≤ (pm.nc : Rat) ∧ 0 ≤ y ∧ y < (pm.nc : Rat) ∧ 0 ≤ z ∧ z < (pm.nc : Rat))

/-- Function `pm_assign_cic_density` in the build with `CHECK`: the particle loop stops
at the first particle that fails the assertion. -/
def pm_assign_cic_density_check (pm : Pm) (p : List Float3) : Except Err Pm :=
  match p.foldlM (fun density q =>
      if density_assertion pm q then Except.ok (cic_deposit pm density q)
      else Except.error Err.AssertionFailed) pm.fx with
  | .error e => .error e
  | .ok fx => .ok { pm with fx := fx, mode := .fft_mode_x, status := .density_done }
/-! ## COLA velocities (`src/py/cola.cpp`) -/

namespace Cola

/-- The growth functions of `cosmology.h`, which is not among the sources, that
`cola_set_initial` and `cola_velocity` call, taken as parameters. -/
structure Cosmology where
  cosmology_D_growth : Rat → Rat
  cosmology_D2_growth : Rat → Rat → Rat
  cosmology_Dv_growth : Rat → Rat → Rat
  cosmology_D2v_growth : Rat → Rat → Rat

/-- Struct `Particle` with the fields `cola.cpp` uses: position, velocity, first- and
second-order LPT displacement. -/
structure Particle where
  x : Float3
  v : Float3
  dx1 : Float3
  dx2 : Float3
  deriving DecidableEq, Repr

/-- Struct `Particles` with the fields `cola.cpp` uses: the `np_local` particles and the
scale factors of the positions and of the velocities. -/
structure Particles where
  p : List Particle
  a_x : Rat
  a_v : Rat
  deriving DecidableEq, Repr

/-- Function `cola_set_initial`. -/
def cola_set_initial (c : Cosmology) (particles : Particles) (a : Rat) : Particles :=
  let da1 := c.cosmology_D_growth a
  let da2 := c.cosmology_D2_growth a da1
  let Dv := c.cosmology_Dv_growth a da1
  let D2v := c.cosmology_D2v_growth a da2
  { particles with
    p := particles.p.map fun q =>
      { q with
        v :=
          { c0 := q.dx1.c0 * Dv + q.dx2.c0 * D2v
            c1 := q.dx1.c1 * Dv + q.dx2.c1 * D2v
            c2 := q.dx1.c2 * Dv + q.dx2.c2 * D2v } }
    a_v := a }

/-- Function `cola_velocity`: the vector `v` of `3*np` floats. -/
def cola_velocity (c : Cosmology) (particles : Particles) : List Rat :=
  let a := particles.a_x
  let D1 := c.cosmology_D_growth a
  let Dv := c.cosmology_Dv_growth a D1
  let D2v := c.cosmology_D2v_growth a D1
  particles.p.flatMap fun q =>
    [q.v.c0 + Dv * q.dx1.c0 + D2v * q.dx2.c0,
     q.v.c1 + Dv * q.dx1.c1 + D2v * q.dx2.c1,
     q.v.c2 + Dv * q.dx1.c2 + D2v * q.dx2.c2]

end Cola
/-! ## Writing particles (`src/py/hdf5_write.cpp`) -/

/-- The ways `hdf5_write_particles` can fail: the two exception classes it throws and an
aborting `assert`. -/
inductive WriteErr where
  | IOError
  | ValError
  | AssertionFailed
  deriving DecidableEq, Repr

/-- What the HDF5 library does for one call of `hdf5_write_particles`, taken as a
parameter: whether `H5Fopen` and `H5Fcreate` return a file, how `write_header` ends
and how `write_data_table` ends for the dataset of a given name. -/
structure Hdf5 where
  file_opens : Bool
  file_creates : Bool
  header : Except WriteErr Unit
  table : String → Except WriteErr Unit

/-- The character `*var` of a C string given by its characters before the terminating
NUL. -/
def deref (var : List Char) : Char := var.headD (Char.ofNat 0)

/-- One of the seven blocks `if(*var == c) { write_data_table(file, name, ...); ++var; }`
of `hdf5_write_particles`; the state is the pointer `var` and the names of the datasets
written so far. -/
def write_block (io : Hdf5) (c : Char) (name : String) (s : List Char × List String) :
    Except WriteErr (List Char × List String) :=
  if deref s.1 = c then
    match io.table name with
    | .error e => .error e
    | .ok _ => .ok (s.1.tail, s.2 ++ [name])
  else .ok s

/-- Function `hdf5_write_particles` (`src/py/hdf5_write.cpp:28-139`) for the selector
`var`: returns the names of the datasets written, in order. -/
def hdf5_write_particles (io : Hdf5) (var : List Char) : Except WriteErr (List String) :=
  if ¬ io.file_opens ∧ ¬ io.file_creates then .error .IOError else
  match io.header with
  | .error e => .error e
  | .ok _ =>
    write_block io 'i' "id" (var, []) >>= fun s =>
    write_block io 'x' "x" s >>= fun s =>
    write_block io 'v' "v" s >>= fun s =>
    write_block io 'c' "v" s >>= fun s =>
    write_block io 'f' "f" s >>= fun s =>
    write_block io '1' "dx1" s >>= fun s =>
    write_block io '2' "dx2" s >>= fun s =>
    if deref s.1 ≠ Char.ofNat 0 then .error .ValError else .ok s.2

/-- The pointer `var` after the blocks for the letters `pat`, when every block leaves its
letter behind: each block skips its letter if `*var` is that letter. -/
def skip_letters : List Char → List Char → List Char
  | [], var => var
  | c :: pat, var => skip_letters pat (if deref var = c then var.tail else var)

/-- What the blocks for the letters and dataset names `l` make of the pointer `var` and
of the list of datasets written, when every `write_data_table` returns. -/
def write_blocks : List (Char × String) → List Char × List String → List Char × List String
  | [], s => s
  | b :: l, s =>
    write_blocks l (if deref s.1 = b.1 then (s.1.tail, s.2 ++ [b.2]) else s)
/-! ## Initialisation of the lib variant (`domain_init` of `src/lib/pm_domain.cpp`) -/

namespace Lib

/-- The file-scope variables of `src/lib/pm_domain.cpp` that `domain_init` assigns;
`buf_pos` tells whether the pointer is set, and the entries of the Domain table are kept
by rank and interval. -/
structure State where
  nc : Int
  nbuf_alloc : Int
  x_left : Rat
  x_right : Rat
  buf_pos : Bool
  decomposition : List PmDomain.Domain
  deriving DecidableEq, Repr

/-- The file-scope variables at program start. -/
def State.initial : State :=
  { nc := 0, nbuf_alloc := 0, x_left := 0, x_right := 0, buf_pos := false,
    decomposition := [] }

/-- Function `domain_init` of `src/lib/pm_domain.cpp` (lines 32-111): `env.capacity` is
the value of the floating-point expression assigned to `nbuf_alloc`, `env.alloc_ok`
whether `MPI_Win_allocate` sets `buf_pos`; the loop pushes onto the vector
`decomposition` as it is. -/
def domain_init (env : Env) (fft : FFT) (st : State) (particles : Particles) :
    Except Err State :=
  if st.buf_pos then .ok st else
  let st : State := { st with nc := fft.nc }
  let boxsize := particles.boxsize
  let st : State :=
    { st with
      x_left := boxsize / (st.nc : Rat) * ((fft.local_ix0 + 1 : Int) : Rat),
      x_right := boxsize / (st.nc : Rat) * ((fft.local_ix0 + fft.local_nx - 1 : Int) : Rat) }
  let st : State := { st with nbuf_alloc := env.capacity }
  if ¬ (st.nbuf_alloc > 0) then .error .AssertionFailed else
  let st : State := { st with buf_pos := env.alloc_ok }
  if st.buf_pos = false then .error .MemoryError else
  let n : Int := env.layout.length
  let xbuf_all := allgather_lib env boxsize st.nc fft.local_ix0 fft.local_nx
  match (loop_indices n).foldlM (decomposition_step xbuf_all n env.this_node)
      st.decomposition with
  | .error e => .error e
  | .ok decomposition =>
    if (decomposition.length : Int) = n - 1 then .ok { st with decomposition := decomposition }
    else .error .AssertionFailed

end Lib
/-! ## The same particles on a single node -/

/-- The particles of all the nodes of a run, in rank order. -/
def Run.all_particles (w : Run) : List Particle :=
  (List.range w.layout.length).flatMap fun r => w.parts.getD r []

/-- The run in which a single node owns all `nc` planes and holds the particles of all
the nodes of `w`. -/
def Run.single (w : Run) : Run :=
  { w with layout := [⟨0, w.nc⟩], parts := [w.all_particles] }

/-- The ghost copies the node with slab `sender` selects, among its particles `ps`, for
the node with slab `receiver`: the wrapped positions, in the order of the particles. -/
def ghosts_for (boxsize : Rat) (nc : Int) (sender receiver : Slab) (ps : List Particle) :
    List Float3 :=
  (selected (x_left_of boxsize nc sender) (x_right_of boxsize nc sender) boxsize
    (fget (xbuf_py boxsize nc receiver) 0) (fget (xbuf_py boxsize nc receiver) 1) 0 ps).map
    Prod.snd
/-! ## Concrete inputs -/

/-- Five nodes of two planes each (`nc = 10`), seen from rank 3. -/
def five_nodes : Env :=
  { this_node := 3
    layout := [⟨0, 2⟩, ⟨2, 2⟩, ⟨4, 2⟩, ⟨6, 2⟩, ⟨8, 2⟩]
    pm_fft := some { addr := 1, nc := 10, local_ix0 := 6, local_nx := 2 }
    capacity := 100
    alloc_ok := true }

/-- File-scope state with room for fewer than two ghost particles at a destination
(`nbuf_alloc = 2`) and an index buffer of ten entries. -/
def tight_state : State :=
  { State.initial with nbuf_alloc := 2, nbuf_index_alloc := 10 }

/-- A pending batch of two particles for rank 1. -/
def batch_two : Domain :=
  { rank := 1, xbuf_min := 1, xbuf_max := 4, vbuf := [39 / 10, 0, 0, 7 / 2, 0, 0],
    vbuf_index := [0, 1] }

/-- A pending batch of one particle for rank 1. -/
def batch_one : Domain :=
  { rank := 1, xbuf_min := 1, xbuf_max := 4, vbuf := [39 / 10, 0, 0], vbuf_index := [0] }

/-- The lib batch of two particles for rank 1. -/
def Lib.batch_two : Lib.Domain :=
  { rank := 1, xbuf_min := 1, xbuf_max := 4, buf := [39 / 10, 0, 0, 7 / 2, 0, 0] }

/-- Two nodes of two planes each (`nc = 4`), seen from rank 0, with the capacity
`nbuf_alloc` given. -/
def two_nodes (capacity : Int) : Env :=
  { this_node := 0
    layout := [⟨0, 2⟩, ⟨2, 2⟩]
    pm_fft := some { addr := 1, nc := 4, local_ix0 := 0, local_nx := 2 }
    capacity := capacity
    alloc_ok := true }

/-- Two particles of rank 0 in a box of side 4, both inside the buffer interval
`(1, 4)` of rank 1. -/
def two_ghosts : Particles :=
  { p := [⟨⟨39 / 10, 0, 0⟩⟩, ⟨⟨7 / 2, 0, 0⟩⟩], np_allocated := 10, boxsize := 4, force := [] }

/-- Four nodes of one plane each (`nc = 4`), seen from rank 1. -/
def four_thin_nodes : Env :=
  { this_node := 1
    layout := [⟨0, 1⟩, ⟨1, 1⟩, ⟨2, 1⟩, ⟨3, 1⟩]
    pm_fft := some { addr := 1, nc := 4, local_ix0 := 1, local_nx := 1 }
    capacity := 100
    alloc_ok := true }

/-- One particle at `x = 1.5` in a box of side 4. -/
def one_particle : Particles :=
  { p := [⟨⟨3 / 2, 0, 0⟩⟩], np_allocated := 10, boxsize := 4, force := [] }

/-- What a run of `pm_domain_send_positions` shows of its result: the ledger, the first
two entries of `buf_index` and the counter of rank `k`. -/
def observed (k : Int) (r : Except Err (State × Mem × Particles)) :
    Option (List Packet × Int × Int × Int) :=
  match r with
  | .ok (st, mem, _) => some (st.packets_sent, st.buf_index 0, st.buf_index 1, mem.nbuf k)
  | .error _ => none

/-- The number of ghost copies rank `k` holds after a collective exchange. -/
def received (k : Int) (r : Except Err (List Proc × Mem)) : Option Int :=
  match r with
  | .ok (_, mem) => some (mem.nbuf k)
  | .error _ => none

/-- Two nodes, box of side 4, `nc = 4`, two planes each; rank 0 holds one particle at
`x = 3.9`. -/
def two_node_run : Run :=
  { nc := 4, boxsize := 4, capacity := 100, np_allocated := 10
    layout := [⟨0, 2⟩, ⟨2, 2⟩]
    parts := [[⟨⟨39 / 10, 0, 0⟩⟩], []] }

/-- Four nodes of one plane each, box of side 4, `nc = 4`; rank 1 holds one particle at
`x = 1.5`. -/
def four_thin_run : Run :=
  { nc := 4, boxsize := 4, capacity := 100, np_allocated := 10
    layout := [⟨0, 1⟩, ⟨1, 1⟩, ⟨2, 1⟩, ⟨3, 1⟩]
    parts := [[], [⟨⟨3 / 2, 0, 0⟩⟩], [], []] }

/-- File-scope state after an exchange that sent local particles 0 and 1 to rank 1 in
one Packet: `buf_index = [0, 1]`, the ledger holds the Packet with slots 0 and 1. -/
def ledger_state : State :=
  { State.initial with
    nbuf_index := 2, nbuf_index_alloc := 10
    buf_index := fun i => if i = 1 then 1 else 0
    packets_sent := [{ dest_rank := 1, offset_index := 0, n := 2, offset := 0 }] }

/-- Window memory in which rank 1 holds the forces `(1, 2, 3)` and `(4, 5, 6)` at
slots 0 and 1 of `buf_force`. -/
def force_mem : Mem :=
  { Mem.zero with buf_force := fun r j => if r = 1 then (j : Rat) + 1 else 0 }

/-- Three local particles with forces `(10, 0, 0)`, `(20, 0, 0)` and `(30, 0, 0)`. -/
def three_forces : Particles :=
  { p := [⟨⟨39 / 10, 0, 0⟩⟩, ⟨⟨7 / 2, 0, 0⟩⟩, ⟨⟨1, 0, 0⟩⟩], np_allocated := 10, boxsize := 4,
    force := [⟨10, 0, 0⟩, ⟨20, 0, 0⟩, ⟨30, 0, 0⟩] }

/-- What a call of `pm_domain_get_forces` shows of its result: the ledger and the
forces. -/
def forces_after (r : Except Err (State × Particles)) :
    Option (List Packet × List Float3) :=
  match r with
  | .ok (st, ps) => some (st.packets_sent, ps.force)
  | .error _ => none

/-- Two calls of `pm_domain_get_forces`, one after the other, with no exchange in
between. -/
def get_forces_twice (st : State) (mem : Mem) (particles : Particles) :
    Except Err (State × Particles) :=
  match pm_domain_get_forces st mem particles with
  | .error e => .error e
  | .ok (st, particles) => pm_domain_get_forces st mem particles

/-- Three nodes of two planes each (`nc = 6`), seen from rank 0. -/
def three_nodes : Env :=
  { this_node := 0
    layout := [⟨0, 2⟩, ⟨2, 2⟩, ⟨4, 2⟩]
    pm_fft := some { addr := 1, nc := 6, local_ix0 := 0, local_nx := 2 }
    capacity := 100
    alloc_ok := true }

/-- One particle at `x = 3.5` in a box of side 6, in an array allocated for two
particles. -/
def one_of_two : Particles :=
  { p := [⟨⟨7 / 2, 0, 0⟩⟩], np_allocated := 2, boxsize := 6, force := [⟨0, 0, 0⟩] }

/-- One particle at `x = 1.5` in a box of side 4, in an array allocated for one
particle. -/
def one_of_one : Particles :=
  { p := [⟨⟨3 / 2, 0, 0⟩⟩], np_allocated := 1, boxsize := 4, force := [⟨0, 0, 0⟩] }

/-- The module variables of the node that owns planes 2 and 3 of a mesh with `nc = 4`
in a box of side 4 (`ncz = 6`, `pm_factor = 1`), all meshes holding zeros. -/
def slab_pm : Pm :=
  { fft_pm := some 1, status := .done, pm_factor := 1, nc := 4, ncz := 6, boxsize := 4,
    local_nx := 2,
    local_ix0 := 2, local_nky := 2, local_iky0 := 2, fx := fun _ => 0, fk := fun _ => (0, 0),
    mode := .fft_mode_unknown, delta_k := fun _ => (0, 0) }

/-- A particle on the upper edge of the box in `x`, at `(4, 3.9, 0)`. -/
def edge_position : Float3 := { c0 := 4, c1 := 39 / 10, c2 := 0 }

/-- One local particle at `(2.5, 0.5, 0.5)` in a box of side 4. -/
def density_particles : Particles :=
  { p := [⟨⟨5 / 2, 1 / 2, 1 / 2⟩⟩], np_allocated := 10, boxsize := 4, force := [⟨0, 0, 0⟩] }

/-- Window memory in which rank 1 holds one ghost particle at `(3.9, 0, 0)`. -/
def ghost_mem : Mem :=
  { nbuf := fun r => if r = 1 then 1 else 0
    buf_pos := fun r j => if r = 1 ∧ j = 0 then 39 / 10 else 0
    buf_force := fun _ _ => 0 }

/-- The module variables of the node that owns `ky = 2, 3` of a mesh with `nc = 4`, with
`delta_k = 1 + 2i` at every mode and `fk = 5 + 5i` left from before. -/
def upper_pm : Pm :=
  { slab_pm with fk := fun _ => (5, 5), delta_k := fun _ => (1, 2) }

/-- A global force mesh for every axis: the value at a cell is its x-index plus ten
times the axis. -/
def ramp_mesh (axis : Int) (cell : Int × Int × Int) : Rat := (cell.1 : Rat) + 10 * (axis : Rat)

/-- The module variables of rank `r` of `two_node_run` after `compute_force_mesh(axis)`
when the global force mesh is `ramp_mesh`: `nc = 4`, `ncz = 6`, planes `2r` and
`2r + 1`, the mesh entry at a flat index holding the value of the cell it stands for. -/
def ramp_pm (r axis : Int) : Pm :=
  { slab_pm with
    local_ix0 := 2 * r
    fx := fun index => ((2 * r + index / 24 : Int) : Rat) + 10 * (axis : Rat)
    status := .density_done
    mode := .fft_mode_x }

/-- An `FFT` library for a single node: the object owns every plane of the mesh, the
forward transform copies the real mesh into the real part of the complex mesh and the
inverse transform copies it back. -/
def copy_fft : FftLib :=
  { create := fun nc =>
      { addr := 1, local_nx := nc, local_ix0 := 0, local_nky := nc, local_iky0 := 0,
        data := { fx := fun _ => 0, fk := fun _ => (0, 0), mode := .fft_mode_unknown } }
    execute_forward := fun d => { d with fk := fun i => (d.fx i, 0), mode := .fft_mode_k }
    execute_inverse := fun d => { d with fx := fun i => (d.fk i).1, mode := .fft_mode_x } }

/-- One particle at `(2.5, 0.5, 0.5)` in a box of side 4 whose positions are at scale
factor 1 and whose force was last computed at scale factor 0. -/
def moved_particles : Particles :=
  { density_particles with a_x := 1, a_f := 0 }

/-- The module variables of `slab_pm` once the density is computed. -/
def density_ready_pm : Pm := { slab_pm with status := .density_done }

/-- One particle at `(2.5, 0.5, 0.5)` whose force was computed at the scale factor of its
position, `a_f = a_x = 1`. -/
def current_particles : Particles :=
  { density_particles with a_x := 1, a_f := 1 }

/-- The module variables of a single node with a mesh of `nc = 4` points in a box of
side 1. -/
def fine_pm : Pm := { slab_pm with boxsize := 1, local_ix0 := 0, local_nx := 4 }

/-- A particle at `(0.5, 0, 0)`. -/
def half_position : Float3 := { c0 := 1 / 2, c1 := 0, c2 := 0 }

/-- Growth functions with `D(a) = a`, `D2(a, D1) = -3/7 D1^2`, `Dv(a, D1) = D1` and
`D2v(a, D2) = 2 D2`. -/
def toy_cosmology : Cola.Cosmology :=
  { cosmology_D_growth := fun a => a
    cosmology_D2_growth := fun _ d1 => -3 / 7 * d1 ^ 2
    cosmology_Dv_growth := fun _ d1 => d1
    cosmology_D2v_growth := fun _ d2 => 2 * d2 }

/-- One particle with zero velocity and both displacements `(1, 0, 0)`, positions at
scale factor 1. -/
def lpt_particles : Cola.Particles :=
  { p := [{ x := ⟨0, 0, 0⟩, v := ⟨0, 0, 0⟩, dx1 := ⟨1, 0, 0⟩, dx2 := ⟨1, 0, 0⟩ }]
    a_x := 1, a_v := 0 }

/-- An HDF5 library every call of which succeeds. -/
def working_hdf5 : Hdf5 :=
  { file_opens := true, file_creates := true, header := .ok (), table := fun _ => .ok () }

/-- The module variables of rank `r` of `two_node_run`: planes `2r` and `2r + 1` of a mesh
with `nc = 4` in a box of side 4. -/
def density_pm (r : Nat) : Pm := { slab_pm with local_ix0 := 2 * (r : Int) }

/-- The module variables of a single node owning all four planes of the same mesh. -/
def whole_pm : Pm := { slab_pm with local_ix0 := 0, local_nx := 4 }

/-- The value node `r` of the run `w` holds at its cell `(ix, iy, iz)` after a collective
`pm_domain_send_positions` from program start followed by `pm_compute_density` with the
module variables `pm`. -/
def density_after_exchange (w : Run) (pm : Pm) (r : Nat) (ix iy iz : Int) : Option Rat :=
  match exchange w.procs Mem.zero with
  | .ok (procs1, mem1) =>
    procs1[r]?.map fun pr =>
      (pm_compute_density pm mem1 r pr.particles).fx (grid_index pm ix iy iz)
  | .error _ => none
/-! ## The Domain table -/

theorem tmod_of_lt {a n : Int} (h0 : 0 ≤ a) (h : a < n) : a.tmod n = a := by
  rw [Int.tmod_eq_emod h0 (by omega)]
  exact Int.emod_eq_of_lt h0 h

theorem tmod_of_wrap {a n : Int} (h1 : n ≤ a) (h2 : a < 2 * n) (hn : 0 < n) :
    a.tmod n = a - n := by
  rw [Int.tmod_eq_emod (by omega) (by omega)]
  have h : a = (a - n) + n := by omega
  rw [h, Int.add_emod_self, Int.emod_eq_of_lt (by omega) (by omega)]
  omega

theorem plus_closed {n r i : Int} (hr0 : 0 ≤ r) (hr : r < n) (hi : 1 ≤ i) (hin : 2 * i ≤ n) :
    (r + i).tmod n = if r + i < n then r + i else r + i - n := by
  split_ifs with h
  · exact tmod_of_lt (by omega) h
  · exact tmod_of_wrap (by omega) (by omega) (by omega)

theorem minus_closed {n r i : Int} (hr0 : 0 ≤ r) (hr : r < n) (hi : 1 ≤ i) (hin : 2 * i ≤ n) :
    (r - i + n).tmod n = if i ≤ r then r - i else r - i + n := by
  split_ifs with h
  · have := tmod_of_wrap (a := r - i + n) (n := n) (by omega) (by omega) (by omega)
    rw [this]; omega
  · exact tmod_of_lt (by omega) (by omega)

theorem rank_block_closed {n r i : Int} (hr0 : 0 ≤ r) (hr : r < n) (hi : 1 ≤ i)
    (hin : 2 * i ≤ n) :
    rank_block n r i =
      (if r + i < n then r + i else r + i - n) ::
        (if 2 * i = n then [] else [if i ≤ r then r - i else r - i + n]) := by
  unfold rank_block
  rw [plus_closed hr0 hr hi hin, minus_closed hr0 hr hi hin]
  have key : ((if i ≤ r then r - i else r - i + n) ≠ (if r + i < n then r + i else r + i - n))
      ↔ ¬ 2 * i = n := by
    split_ifs <;> omega
  simp only [key, ite_not]

theorem decomposition_step_ok (xbuf_all : List Rat) {n r i : Int} (hr0 : 0 ≤ r) (hr : r < n)
    (hi : 1 ≤ i) (hin : 2 * i ≤ n) (acc : List Domain) :
    decomposition_step xbuf_all n r acc i
      = .ok (acc ++ (rank_block n r i).map (domain_of xbuf_all)) := by
  have hp := plus_closed hr0 hr hi hin
  have hm := minus_closed hr0 hr hi hin
  have h1 : (r + i).tmod n ≠ r := by rw [hp]; split_ifs <;> omega
  have h2 : (r - i + n).tmod n ≠ r := by rw [hm]; split_ifs <;> omega
  unfold decomposition_step rank_block
  simp only [h1, h2, if_false]
  by_cases h : (r - i + n).tmod n = (r + i).tmod n
  · simp [h, domain_of]
  · simp [h, domain_of]

theorem foldlM_decomposition_ok (xbuf_all : List Rat) {n r : Int} (hr0 : 0 ≤ r) (hr : r < n)
    (is : List Int) (his : ∀ i ∈ is, 1 ≤ i ∧ 2 * i ≤ n) (acc : List Domain) :
    is.foldlM (decomposition_step xbuf_all n r) acc
      = .ok (acc ++ (is.flatMap (rank_block n r)).map (domain_of xbuf_all)) := by
  induction is generalizing acc with
  | nil => simp [pure, Except.pure]
  | cons i is ih =>
    have hi := his i (List.mem_cons_self _ _)
    rw [List.foldlM_cons, decomposition_step_ok xbuf_all hr0 hr hi.1 hi.2]
    show List.foldlM _ _ is = _
    rw [ih (fun j hj => his j (List.mem_cons_of_mem _ hj))]
    simp [List.flatMap_cons]

theorem mem_loop_indices {n i : Int} (hn : 0 ≤ n) :
    i ∈ loop_indices n ↔ 1 ≤ i ∧ 2 * i ≤ n := by
  unfold loop_indices
  rw [Int.tdiv_eq_ediv hn (by omega)]
  rw [List.mem_map]
  constructor
  · rintro ⟨k, hk, rfl⟩
    rw [List.mem_range] at hk
    have hk2 : (k : Int) < n / 2 := by omega
    constructor <;> omega
  · rintro ⟨h1, h2⟩
    refine ⟨(i - 1).toNat, ?_, ?_⟩
    · rw [List.mem_range]
      have : i - 1 < n / 2 := by omega
      omega
    · omega


theorem flatMap_rank_block_length {n r : Int} (hr0 : 0 ≤ r) (hr : r < n) (m : Nat)
    (hm : 2 * (m : Int) ≤ n) :
    ((((List.range m).map (fun (k : Nat) => (k : Int) + 1)).flatMap (rank_block n r)).length : Int)
      = if 2 * (m : Int) = n then 2 * (m : Int) - 1 else 2 * (m : Int) := by
  induction m with
  | zero =>
    simp
    omega
  | succ m ih =>
    have ih := ih (by push_cast at hm; omega)
    rw [if_neg (by push_cast at hm; omega)] at ih
    rw [List.range_succ, List.map_append, List.flatMap_append, List.length_append]
    push_cast
    rw [ih]
    simp only [List.map_cons, List.map_nil, List.flatMap_cons, List.flatMap_nil,
      List.append_nil]
    rw [rank_block_closed hr0 hr (by omega) (by push_cast at hm; omega)]
    push_cast at hm ⊢
    by_cases h : 2 * ((m : Int) + 1) = n
    · simp [h]; omega
    · simp [h]; omega

theorem mem_flatMap_rank_block {n r : Int} (hr0 : 0 ≤ r) (hr : r < n) (d : Int) :
    d ∈ (loop_indices n).flatMap (rank_block n r) ↔ (0 ≤ d ∧ d < n ∧ d ≠ r) := by
  rw [List.mem_flatMap]
  constructor
  · rintro ⟨i, hi, hd⟩
    rw [mem_loop_indices (by omega)] at hi
    rw [rank_block_closed hr0 hr hi.1 hi.2] at hd
    simp only [List.mem_cons] at hd
    rcases hd with hd | hd
    · subst hd; split_ifs <;> omega
    · split_ifs at hd <;> first | (simp at hd; omega) | simp at hd
  · rintro ⟨h0, h1, h2⟩
    by_cases hlt : r < d
    · by_cases hhalf : 2 * (d - r) ≤ n
      · refine ⟨d - r, (mem_loop_indices (by omega)).2 ⟨by omega, hhalf⟩, ?_⟩
        rw [rank_block_closed hr0 hr (by omega) hhalf]
        simp only [List.mem_cons]
        left; split_ifs <;> omega
      · refine ⟨n - (d - r), (mem_loop_indices (by omega)).2 ⟨by omega, by omega⟩, ?_⟩
        rw [rank_block_closed hr0 hr (by omega) (by omega)]
        simp only [List.mem_cons]
        right
        rw [if_neg (by omega)]
        simp only [List.mem_singleton]
        split_ifs <;> omega
    · by_cases hhalf : 2 * (r - d) ≤ n
      · by_cases heq : 2 * (r - d) = n
        · refine ⟨r - d, (mem_loop_indices (by omega)).2 ⟨by omega, hhalf⟩, ?_⟩
          rw [rank_block_closed hr0 hr (by omega) hhalf]
          simp only [List.mem_cons]
          left; split_ifs <;> omega
        · refine ⟨r - d, (mem_loop_indices (by omega)).2 ⟨by omega, hhalf⟩, ?_⟩
          rw [rank_block_closed hr0 hr (by omega) hhalf]
          simp only [List.mem_cons]
          right
          rw [if_neg heq]
          simp only [List.mem_singleton]
          split_ifs <;> omega
      · refine ⟨n - (r - d), (mem_loop_indices (by omega)).2 ⟨by omega, by omega⟩, ?_⟩
        rw [rank_block_closed hr0 hr (by omega) (by omega)]
        simp only [List.mem_cons]
        left; split_ifs <;> omega

theorem loop_ranks_length {n r : Int} (hr0 : 0 ≤ r) (hr : r < n) :
    (((loop_indices n).flatMap (rank_block n r)).length : Int) = n - 1 := by
  unfold loop_indices
  rw [flatMap_rank_block_length hr0 hr _ (by rw [Int.tdiv_eq_ediv (by omega) (by omega)]; omega)]
  rw [Int.tdiv_eq_ediv (by omega) (by omega)]
  split_ifs <;> omega

theorem loop_ranks_nodup {n r : Int} (hr0 : 0 ≤ r) (hr : r < n) :
    ((loop_indices n).flatMap (rank_block n r)).Nodup := by
  set R := (loop_indices n).flatMap (rank_block n r) with hR
  have hlen : (R.length : Int) = n - 1 := loop_ranks_length hr0 hr
  have hfin : R.toFinset = (Finset.Ico 0 n).erase r := by
    ext d
    rw [List.mem_toFinset, mem_flatMap_rank_block hr0 hr, Finset.mem_erase, Finset.mem_Ico]
    tauto
  have hcard : R.toFinset.card = R.length := by
    rw [hfin, Finset.card_erase_of_mem (by rw [Finset.mem_Ico]; omega), Int.card_Ico]
    omega
  rw [List.card_toFinset] at hcard
  have := (List.dedup_sublist R).eq_of_length hcard
  rw [← this]
  exact List.nodup_dedup R


theorem build_decomposition_ok (xbuf_all : List Rat) {n r : Int} (hr0 : 0 ≤ r) (hr : r < n) :
    build_decomposition xbuf_all n r
      = .ok (((loop_indices n).flatMap (rank_block n r)).map (domain_of xbuf_all)) := by
  unfold build_decomposition
  rw [foldlM_decomposition_ok xbuf_all hr0 hr _
    (fun i hi => (mem_loop_indices (by omega)).1 hi)]
  simp only [List.nil_append, List.length_map]
  rw [if_pos (loop_ranks_length hr0 hr)]

theorem map_rank_domain_of (xbuf_all : List Rat) (l : List Int) :
    (l.map (domain_of xbuf_all)).map Domain.rank = l := by
  induction l with
  | nil => rfl
  | cons a l ih =>
    rw [List.map_cons, List.map_cons, ih]
    rfl

theorem emod_of_shift {a b n : Int} (k : Int) (h : a = b + k * n) (h0 : 0 ≤ b) (h1 : b < n) :
    a % n = b := by
  rw [h, Int.add_mul_emod_self, Int.emod_eq_of_lt h0 h1]

theorem circ_dist_block {n r i : Int} (hr0 : 0 ≤ r) (hr : r < n) (hi : 1 ≤ i)
    (hin : 2 * i ≤ n) : ∀ d ∈ rank_block n r i, circ_dist n r d = i := by
  intro d hd
  rw [rank_block_closed hr0 hr hi hin] at hd
  have hplus : ∀ d, (d = r + i ∨ d = r + i - n) → circ_dist n r d = i := by
    intro d hd
    unfold circ_dist
    by_cases h2 : 2 * i = n
    · rcases hd with rfl | rfl
      · rw [emod_of_shift (b := i) 0 (by ring) (by omega) (by omega),
          emod_of_shift (b := i) (-1) (by rw [← h2]; ring) (by omega) (by omega)]
        simp
      · rw [emod_of_shift (b := i) (-1) (by ring) (by omega) (by omega),
          emod_of_shift (b := i) 0 (by rw [← h2]; ring) (by omega) (by omega)]
        simp
    · rcases hd with rfl | rfl
      · rw [emod_of_shift (b := i) 0 (by ring) (by omega) (by omega),
          emod_of_shift (b := n - i) (-1) (by ring) (by omega) (by omega)]
        omega
      · rw [emod_of_shift (b := i) (-1) (by ring) (by omega) (by omega),
          emod_of_shift (b := n - i) 0 (by ring) (by omega) (by omega)]
        omega
  have hminus : ∀ d, (d = r - i ∨ d = r - i + n) → circ_dist n r d = i := by
    intro d hd
    unfold circ_dist
    rcases hd with rfl | rfl
    · rw [emod_of_shift (b := n - i) (-1) (by ring) (by omega) (by omega),
        emod_of_shift (b := i) 0 (by ring) (by omega) (by omega)]
      omega
    · rw [emod_of_shift (b := n - i) 0 (by ring) (by omega) (by omega),
        emod_of_shift (b := i) (-1) (by ring) (by omega) (by omega)]
      omega
  simp only [List.mem_cons] at hd
  rcases hd with hd | hd
  · apply hplus
    subst hd
    split_ifs
    · left; rfl
    · right; rfl
  · split_ifs at hd <;> simp at hd
    · exact hminus d (Or.inl hd)
    · exact hminus d (Or.inr hd)

theorem prefix_ranks_sorted {n r : Int} (hr0 : 0 ≤ r) (hr : r < n) (m : Nat)
    (hm : 2 * (m : Int) ≤ n) :
    List.Pairwise (fun a b => circ_dist n r a ≤ circ_dist n r b)
        (((List.range m).map (fun (k : Nat) => (k : Int) + 1)).flatMap (rank_block n r)) ∧
      ∀ d ∈ ((List.range m).map (fun (k : Nat) => (k : Int) + 1)).flatMap (rank_block n r),
        circ_dist n r d ≤ m := by
  induction m with
  | zero => simp
  | succ m ih =>
    have ih := ih (by push_cast at hm; omega)
    have hb := circ_dist_block hr0 hr (i := (m : Int) + 1) (by omega)
      (by push_cast at hm; omega)
    rw [List.range_succ, List.map_append, List.flatMap_append]
    simp only [List.map_cons, List.map_nil, List.flatMap_cons, List.flatMap_nil,
      List.append_nil]
    refine ⟨List.pairwise_append.2 ⟨ih.1, ?_, ?_⟩, ?_⟩
    · apply List.Pairwise.imp_of_mem (R := fun _ _ => True)
      · intro a b ha hb' _
        rw [hb a ha, hb b hb']
      · exact List.pairwise_of_forall (fun _ _ => trivial)
    · intro a ha b hb'
      rw [hb b hb']
      have := ih.2 a ha
      omega
    · intro d hd
      rw [List.mem_append] at hd
      rcases hd with hd | hd
      · have := ih.2 d hd
        push_cast; omega
      · rw [hb d hd]; push_cast; omega

theorem loop_ranks_sorted {n r : Int} (hr0 : 0 ≤ r) (hr : r < n) :
    List.Pairwise (fun a b => circ_dist n r a ≤ circ_dist n r b)
      ((loop_indices n).flatMap (rank_block n r)) := by
  unfold loop_indices
  exact (prefix_ranks_sorted hr0 hr _
    (by rw [Int.tdiv_eq_ediv (by omega) (by omega)]; omega)).1

theorem plus_before_minus {n r i : Int} (hr0 : 0 ≤ r) (hr : r < n) (hi : 1 ≤ i)
    (hin : 2 * i ≤ n) (hne : (r + i) % n ≠ (r - i) % n) :
    List.Sublist [(r + i) % n, (r - i) % n] ((loop_indices n).flatMap (rank_block n r)) := by
  have hp : (r + i).tmod n = (r + i) % n := Int.tmod_eq_emod (by omega) (by omega)
  have hm : (r - i + n).tmod n = (r - i) % n := by
    rw [Int.tmod_eq_emod (by omega) (by omega), Int.add_emod_self]
  have hblock : rank_block n r i = [(r + i) % n, (r - i) % n] := by
    unfold rank_block
    rw [hp, hm, if_pos (Ne.symm hne)]
  rw [← hblock]
  unfold List.flatMap
  apply List.sublist_flatten_of_mem
  exact List.mem_map.2 ⟨i, (mem_loop_indices (by omega)).2 ⟨hi, hin⟩, rfl⟩


theorem count_loop_ranks {n r : Int} (hr0 : 0 ≤ r) (hr : r < n) (d : Int) :
    ((loop_indices n).flatMap (rank_block n r)).count d
      = if 0 ≤ d ∧ d < n ∧ d ≠ r then 1 else 0 := by
  split_ifs with h
  · exact List.count_eq_one_of_mem (loop_ranks_nodup hr0 hr)
      ((mem_flatMap_rank_block hr0 hr d).2 h)
  · exact List.count_eq_zero_of_not_mem (fun hm => h ((mem_flatMap_rank_block hr0 hr d).1 hm))

/-- C1: for every node count `n >= 1` and rank `r` in `[0, n)`, the Domain table built by
`allocate_decomposition` (py) and by `domain_init` (lib) is produced without a failed
assertion, has exactly `n - 1` entries, and every rank of `0..n-1` other than `r` occurs
in it exactly once while `r` and ranks outside `0..n-1` do not occur. -/
theorem decomposition_ranks_exactly_others (env : Env) (nc : Int) (boxsize : Rat)
    (local_ix0 local_nx : Int) (hr0 : 0 ≤ env.this_node)
    (hr : env.this_node < env.layout.length) :
    (∃ dec, allocate_decomposition env nc boxsize local_ix0 local_nx = .ok dec ∧
      (dec.length : Int) = (env.layout.length : Int) - 1 ∧
      ∀ d : Int, (dec.map Domain.rank).count d
        = if 0 ≤ d ∧ d < (env.layout.length : Int) ∧ d ≠ env.this_node then 1 else 0) ∧
    (∃ dec, domain_init_decomposition env nc boxsize local_ix0 local_nx = .ok dec ∧
      (dec.length : Int) = (env.layout.length : Int) - 1 ∧
      ∀ d : Int, (dec.map Domain.rank).count d
        = if 0 ≤ d ∧ d < (env.layout.length : Int) ∧ d ≠ env.this_node then 1 else 0) := by
  constructor
  · refine ⟨_, build_decomposition_ok _ hr0 hr, ?_, ?_⟩
    · rw [List.length_map]; exact loop_ranks_length hr0 hr
    · intro d; rw [map_rank_domain_of]; exact count_loop_ranks hr0 hr d
  · refine ⟨_, build_decomposition_ok _ hr0 hr, ?_, ?_⟩
    · rw [List.length_map]; exact loop_ranks_length hr0 hr
    · intro d; rw [map_rank_domain_of]; exact count_loop_ranks hr0 hr d

/-- C1 at a concrete input: five nodes of two planes each, this node is rank 3. -/
theorem decomposition_ranks_exactly_others_witness :
    (∃ dec, allocate_decomposition five_nodes 10 10 6 2 = .ok dec ∧
      (dec.length : Int) = (five_nodes.layout.length : Int) - 1 ∧
      ∀ d : Int, (dec.map Domain.rank).count d
        = if 0 ≤ d ∧ d < (five_nodes.layout.length : Int) ∧ d ≠ five_nodes.this_node
          then 1 else 0) ∧
    (∃ dec, domain_init_decomposition five_nodes 10 10 6 2 = .ok dec ∧
      (dec.length : Int) = (five_nodes.layout.length : Int) - 1 ∧
      ∀ d : Int, (dec.map Domain.rank).count d
        = if 0 ≤ d ∧ d < (five_nodes.layout.length : Int) ∧ d ≠ five_nodes.this_node
          then 1 else 0) :=
  decomposition_ranks_exactly_others five_nodes 10 10 6 2 (by decide) (by decide)

/-- C2: for every `n >= 2` and rank `r`, the Domain table (py and lib) is ordered nearest
first: the circular rank distance from `r` is non-decreasing along the table, and for
every distance `i` in `1..n/2` at which `(r + i) mod n` and `(r - i) mod n` are two
ranks, the entry `(r + i) mod n` comes before the entry `(r - i) mod n`. -/
theorem decomposition_nearest_first (env : Env) (nc : Int) (boxsize : Rat)
    (local_ix0 local_nx : Int) (hn : 2 ≤ env.layout.length) (hr0 : 0 ≤ env.this_node)
    (hr : env.this_node < env.layout.length) :
    (∃ dec, allocate_decomposition env nc boxsize local_ix0 local_nx = .ok dec ∧
      List.Pairwise (fun a b => circ_dist env.layout.length env.this_node a
          ≤ circ_dist env.layout.length env.this_node b) (dec.map Domain.rank) ∧
      ∀ i : Int, 1 ≤ i → i ≤ (env.layout.length : Int) / 2 →
        (env.this_node + i) % (env.layout.length : Int)
          ≠ (env.this_node - i) % (env.layout.length : Int) →
        List.Sublist [(env.this_node + i) % (env.layout.length : Int),
          (env.this_node - i) % (env.layout.length : Int)] (dec.map Domain.rank)) ∧
    (∃ dec, domain_init_decomposition env nc boxsize local_ix0 local_nx = .ok dec ∧
      List.Pairwise (fun a b => circ_dist env.layout.length env.this_node a
          ≤ circ_dist env.layout.length env.this_node b) (dec.map Domain.rank) ∧
      ∀ i : Int, 1 ≤ i → i ≤ (env.layout.length : Int) / 2 →
        (env.this_node + i) % (env.layout.length : Int)
          ≠ (env.this_node - i) % (env.layout.length : Int) →
        List.Sublist [(env.this_node + i) % (env.layout.length : Int),
          (env.this_node - i) % (env.layout.length : Int)] (dec.map Domain.rank)) := by
  have _hn := hn
  constructor
  · refine ⟨_, build_decomposition_ok _ hr0 hr, ?_, ?_⟩
    · rw [map_rank_domain_of]; exact loop_ranks_sorted hr0 hr
    · intro i hi hi2 hne
      rw [map_rank_domain_of]
      exact plus_before_minus hr0 hr hi (by omega) hne
  · refine ⟨_, build_decomposition_ok _ hr0 hr, ?_, ?_⟩
    · rw [map_rank_domain_of]; exact loop_ranks_sorted hr0 hr
    · intro i hi hi2 hne
      rw [map_rank_domain_of]
      exact plus_before_minus hr0 hr hi (by omega) hne

/-- C2 at a concrete input: five nodes of two planes each, this node is rank 3. -/
theorem decomposition_nearest_first_witness :
    (∃ dec, allocate_decomposition five_nodes 10 10 6 2 = .ok dec ∧
      List.Pairwise (fun a b => circ_dist five_nodes.layout.length five_nodes.this_node a
          ≤ circ_dist five_nodes.layout.length five_nodes.this_node b)
        (dec.map Domain.rank) ∧
      ∀ i : Int, 1 ≤ i → i ≤ (five_nodes.layout.length : Int) / 2 →
        (five_nodes.this_node + i) % (five_nodes.layout.length : Int)
          ≠ (five_nodes.this_node - i) % (five_nodes.layout.length : Int) →
        List.Sublist [(five_nodes.this_node + i) % (five_nodes.layout.length : Int),
          (five_nodes.this_node - i) % (five_nodes.layout.length : Int)]
          (dec.map Domain.rank)) ∧
    (∃ dec, domain_init_decomposition five_nodes 10 10 6 2 = .ok dec ∧
      List.Pairwise (fun a b => circ_dist five_nodes.layout.length five_nodes.this_node a
          ≤ circ_dist five_nodes.layout.length five_nodes.this_node b)
        (dec.map Domain.rank) ∧
      ∀ i : Int, 1 ≤ i → i ≤ (five_nodes.layout.length : Int) / 2 →
        (five_nodes.this_node + i) % (five_nodes.layout.length : Int)
          ≠ (five_nodes.this_node - i) % (five_nodes.layout.length : Int) →
        List.Sublist [(five_nodes.this_node + i) % (five_nodes.layout.length : Int),
          (five_nodes.this_node - i) % (five_nodes.layout.length : Int)]
          (dec.map Domain.rank)) :=
  decomposition_nearest_first five_nodes 10 10 6 2 (by decide) (by decide) (by decide)

/-! ## The interval test of `send` -/

theorem send_test_iff (xbuf_min xbuf_max x0 boxsize : Rat) :
    send_test xbuf_min xbuf_max x0 boxsize = true ↔
      ∃ y ∈ [x0, x0 - boxsize, x0 + boxsize], xbuf_min < y ∧ y < xbuf_max := by
  simp [send_test]
  tauto

theorem send_getElem? (i : Int) (x : Float3) (boxsize : Rat) (dec : List Domain) (k : Nat) :
    (send i x boxsize dec)[k]? = (dec[k]?).map fun dom =>
      if send_test dom.xbuf_min dom.xbuf_max x.c0 boxsize then dom.push i x else dom := by
  unfold send
  rw [List.getElem?_map]

theorem Lib.lib_send_getElem? (i : Int) (x : Float3) (boxsize : Rat) (dec : List Lib.Domain)
    (k : Nat) :
    (Lib.send i x boxsize dec)[k]? = (dec[k]?).map fun dom =>
      if send_test dom.xbuf_min dom.xbuf_max x.c0 boxsize then dom.push x else dom := by
  unfold Lib.send
  rw [List.getElem?_map]

theorem push_ne_self (dom : Domain) (i : Int) (x : Float3) : dom.push i x ≠ dom := by
  intro h
  have := congrArg (fun d => d.vbuf_index.length) h
  simp [Domain.push] at this

theorem Lib.lib_push_ne_self (dom : Lib.Domain) (x : Float3) : dom.push x ≠ dom := by
  intro h
  have := congrArg (fun d => d.buf.length) h
  simp [Lib.Domain.push] at this

/-- C4, the code at the failing input: rank 1 of four nodes owning one plane each
(`x_left = 2 > x_right = 1`) holds one particle at `x = 1.5`.  Both tests of the
particle loop hold, `send` runs twice, and the pending batch of rank 2 (interval
`(1, 3)`) holds the particle twice: the Packet sent to rank 2 counts two particles,
both index entries name particle 0, and the counter of rank 2 ends at 2. -/
theorem thin_slab_particle_sent_twice :
    (scan_particles 2 1 4 0 one_particle.p
        [⟨2, 1, 3, [], []⟩, ⟨0, -1, 1, [], []⟩, ⟨3, 2, 4, [], []⟩]).2
      = [⟨2, 1, 3, [3 / 2, 0, 0, 3 / 2, 0, 0], [0, 0]⟩, ⟨0, -1, 1, [], []⟩,
          ⟨3, 2, 4, [], []⟩] ∧
    observed 2 (pm_domain_send_positions four_thin_nodes State.initial Mem.zero one_particle)
      = some ([⟨2, 0, 2, 0⟩], 0, 0, 2) := by
  decide!

/-- C5 fails as stated: two domains with `d1.xbuf_max = d2.xbuf_min = 2` in a box of
side 4, a particle with first coordinate exactly 2: `send` (py and lib) appends it to
neither pending batch and leaves the table as it was. -/
theorem boundary_particle_sent_to_neither :
    send 0 ⟨2, 0, 0⟩ 4 [⟨1, 0, 2, [], []⟩, ⟨2, 2, 4, [], []⟩]
        = [⟨1, 0, 2, [], []⟩, ⟨2, 2, 4, [], []⟩] ∧
      Lib.send 0 ⟨2, 0, 0⟩ 4 [⟨1, 0, 2, []⟩, ⟨2, 2, 4, []⟩]
        = [⟨1, 0, 2, []⟩, ⟨2, 2, 4, []⟩] := by
  decide!

/-- C5 as amended: in a Domain table holding `d1` and `d2` with
`d1.xbuf_max = d2.xbuf_min = b`, a particle whose first coordinate is exactly `b` is
appended by `send` (py and lib) to the batch of `d1`, and likewise of `d2`, exactly when
one of its periodic images `b - boxsize`, `b + boxsize` lies strictly inside that
domain's interval; otherwise that domain is left unchanged. -/
theorem send_boundary_only_by_image (i : Int) (x : Float3) (boxsize b : Rat) (hx : x.c0 = b) :
    (∀ (dec : List Domain) (k1 k2 : Nat) (d1 d2 : Domain),
      dec[k1]? = some d1 → dec[k2]? = some d2 → d1.xbuf_max = b → d2.xbuf_min = b →
      (send i x boxsize dec)[k1]? = some
          (if (d1.xbuf_min < b - boxsize ∧ b - boxsize < d1.xbuf_max) ∨
              (d1.xbuf_min < b + boxsize ∧ b + boxsize < d1.xbuf_max)
            then d1.push i x else d1) ∧
        (send i x boxsize dec)[k2]? = some
          (if (d2.xbuf_min < b - boxsize ∧ b - boxsize < d2.xbuf_max) ∨
              (d2.xbuf_min < b + boxsize ∧ b + boxsize < d2.xbuf_max)
            then d2.push i x else d2)) ∧
    (∀ (dec : List Lib.Domain) (k1 k2 : Nat) (d1 d2 : Lib.Domain),
      dec[k1]? = some d1 → dec[k2]? = some d2 → d1.xbuf_max = b → d2.xbuf_min = b →
      (Lib.send i x boxsize dec)[k1]? = some
          (if (d1.xbuf_min < b - boxsize ∧ b - boxsize < d1.xbuf_max) ∨
              (d1.xbuf_min < b + boxsize ∧ b + boxsize < d1.xbuf_max)
            then d1.push x else d1) ∧
        (Lib.send i x boxsize dec)[k2]? = some
          (if (d2.xbuf_min < b - boxsize ∧ b - boxsize < d2.xbuf_max) ∨
              (d2.xbuf_min < b + boxsize ∧ b + boxsize < d2.xbuf_max)
            then d2.push x else d2)) := by
  subst hx
  have key : ∀ lo hi : Rat, (hi = x.c0 ∨ lo = x.c0) →
      (send_test lo hi x.c0 boxsize = true ↔
        ((lo < x.c0 - boxsize ∧ x.c0 - boxsize < hi) ∨
          (lo < x.c0 + boxsize ∧ x.c0 + boxsize < hi))) := by
    intro lo hi h
    rw [send_test_iff]
    simp only [List.mem_cons, List.mem_singleton, List.not_mem_nil, or_false,
      exists_eq_or_imp, exists_eq_left]
    rcases h with h | h
    · subst h; simp
    · subst h; simp
  constructor
  · intro dec k1 k2 d1 d2 h1 h2 hb1 hb2
    rw [send_getElem?, send_getElem?, h1, h2]
    simp only [Option.map_some', key _ _ (Or.inl hb1), key _ _ (Or.inr hb2)]
    exact ⟨trivial, trivial⟩
  · intro dec k1 k2 d1 d2 h1 h2 hb1 hb2
    rw [Lib.lib_send_getElem?, Lib.lib_send_getElem?, h1, h2]
    simp only [Option.map_some', key _ _ (Or.inl hb1), key _ _ (Or.inr hb2)]
    exact ⟨trivial, trivial⟩

/-- C5 as amended, at a concrete input: the table and particle of the counterexample. -/
theorem send_boundary_only_by_image_witness :
    (send 0 ⟨2, 0, 0⟩ 4 [⟨1, 0, 2, [], []⟩, ⟨2, 2, 4, [], []⟩])[0]?
        = some ⟨1, 0, 2, [], []⟩ ∧
      (send 0 ⟨2, 0, 0⟩ 4 [⟨1, 0, 2, [], []⟩, ⟨2, 2, 4, [], []⟩])[1]?
        = some ⟨2, 2, 4, [], []⟩ := by
  have h := (send_boundary_only_by_image 0 ⟨2, 0, 0⟩ 4 2 rfl).1
    [⟨1, 0, 2, [], []⟩, ⟨2, 2, 4, [], []⟩] 0 1 ⟨1, 0, 2, [], []⟩ ⟨2, 2, 4, [], []⟩
    rfl rfl rfl rfl
  rw [if_neg (by norm_num), if_neg (by norm_num)] at h
  exact h

/-- C6: the interval test of `send` (py and lib) is strict on both ends.  For every
Domain table, every entry `d` of it and every particle, after `send` the entry is
`d` with the particle appended if `xbuf_min < y < xbuf_max` holds for some `y` among
`x`, `x - boxsize`, `x + boxsize`, and is `d` unchanged otherwise; so the particle is
appended if and only if that holds, and a coordinate equal to `xbuf_min` or to
`xbuf_max` whose images are not strictly inside is not appended. -/
theorem send_appends_iff_strictly_inside (i : Int) (x : Float3) (boxsize : Rat) :
    (∀ (dec : List Domain) (k : Nat) (d : Domain), dec[k]? = some d →
      ∃ d', (send i x boxsize dec)[k]? = some d' ∧
        (d' = d.push i x ↔
          ∃ y ∈ [x.c0, x.c0 - boxsize, x.c0 + boxsize], d.xbuf_min < y ∧ y < d.xbuf_max) ∧
        (d' = d ↔
          ¬ ∃ y ∈ [x.c0, x.c0 - boxsize, x.c0 + boxsize], d.xbuf_min < y ∧ y < d.xbuf_max) ∧
        ((x.c0 = d.xbuf_min ∨ x.c0 = d.xbuf_max) →
          ¬ (d.xbuf_min < x.c0 - boxsize ∧ x.c0 - boxsize < d.xbuf_max) →
          ¬ (d.xbuf_min < x.c0 + boxsize ∧ x.c0 + boxsize < d.xbuf_max) → d' = d)) ∧
    (∀ (dec : List Lib.Domain) (k : Nat) (d : Lib.Domain), dec[k]? = some d →
      ∃ d', (Lib.send i x boxsize dec)[k]? = some d' ∧
        (d' = d.push x ↔
          ∃ y ∈ [x.c0, x.c0 - boxsize, x.c0 + boxsize], d.xbuf_min < y ∧ y < d.xbuf_max) ∧
        (d' = d ↔
          ¬ ∃ y ∈ [x.c0, x.c0 - boxsize, x.c0 + boxsize], d.xbuf_min < y ∧ y < d.xbuf_max) ∧
        ((x.c0 = d.xbuf_min ∨ x.c0 = d.xbuf_max) →
          ¬ (d.xbuf_min < x.c0 - boxsize ∧ x.c0 - boxsize < d.xbuf_max) →
          ¬ (d.xbuf_min < x.c0 + boxsize ∧ x.c0 + boxsize < d.xbuf_max) → d' = d)) := by
  have edge : ∀ lo hi : Rat, (x.c0 = lo ∨ x.c0 = hi) →
      ¬ (lo < x.c0 - boxsize ∧ x.c0 - boxsize < hi) →
      ¬ (lo < x.c0 + boxsize ∧ x.c0 + boxsize < hi) →
      ¬ ∃ y ∈ [x.c0, x.c0 - boxsize, x.c0 + boxsize], lo < y ∧ y < hi := by
    intro lo hi h h1 h2
    simp only [List.mem_cons, List.mem_singleton, List.not_mem_nil, or_false,
      exists_eq_or_imp, exists_eq_left]
    rintro (h3 | h3 | h3)
    · rcases h with h | h
      · exact absurd h3.1 (by rw [h]; exact lt_irrefl _)
      · exact absurd h3.2 (by rw [h]; exact lt_irrefl _)
    · exact h1 h3
    · exact h2 h3
  constructor
  · intro dec k d hk
    rw [send_getElem?, hk]
    by_cases hc : ∃ y ∈ [x.c0, x.c0 - boxsize, x.c0 + boxsize], d.xbuf_min < y ∧ y < d.xbuf_max
    · refine ⟨d.push i x, ?_, ?_, ?_, ?_⟩
      · simp only [Option.map_some', (send_test_iff _ _ _ _).2 hc, if_true]
      · exact ⟨fun _ => hc, fun _ => rfl⟩
      · exact ⟨fun h => absurd h (push_ne_self d i x), fun h => absurd hc h⟩
      · intro h h1 h2
        exact absurd hc (edge _ _ h h1 h2)
    · refine ⟨d, ?_, ?_, ?_, ?_⟩
      · have : send_test d.xbuf_min d.xbuf_max x.c0 boxsize = false := by
          rw [Bool.eq_false_iff]
          exact fun h => hc ((send_test_iff _ _ _ _).1 h)
        simp only [Option.map_some', this, Bool.false_eq_true, if_false]
      · exact ⟨fun h => absurd h.symm (push_ne_self d i x), fun h => absurd h hc⟩
      · exact ⟨fun _ => hc, fun _ => rfl⟩
      · exact fun _ _ _ => rfl
  · intro dec k d hk
    rw [Lib.lib_send_getElem?, hk]
    by_cases hc : ∃ y ∈ [x.c0, x.c0 - boxsize, x.c0 + boxsize], d.xbuf_min < y ∧ y < d.xbuf_max
    · refine ⟨d.push x, ?_, ?_, ?_, ?_⟩
      · simp only [Option.map_some', (send_test_iff _ _ _ _).2 hc, if_true]
      · exact ⟨fun _ => hc, fun _ => rfl⟩
      · exact ⟨fun h => absurd h (Lib.lib_push_ne_self d x), fun h => absurd hc h⟩
      · intro h h1 h2
        exact absurd hc (edge _ _ h h1 h2)
    · refine ⟨d, ?_, ?_, ?_, ?_⟩
      · have : send_test d.xbuf_min d.xbuf_max x.c0 boxsize = false := by
          rw [Bool.eq_false_iff]
          exact fun h => hc ((send_test_iff _ _ _ _).1 h)
        simp only [Option.map_some', this, Bool.false_eq_true, if_false]
      · exact ⟨fun h => absurd h.symm (Lib.lib_push_ne_self d x), fun h => absurd h hc⟩
      · exact ⟨fun _ => hc, fun _ => rfl⟩
      · exact fun _ _ _ => rfl

/-- C6 at a concrete input: the Domain of rank 1 with interval `(1, 4)` in a box of side
4; the particle at `x = 3.9` is appended. -/
theorem send_appends_iff_strictly_inside_witness :
    (send 0 ⟨39 / 10, 0, 0⟩ 4 [⟨1, 1, 4, [], []⟩])[0]?
      = some ⟨1, 1, 4, [39 / 10, 0, 0], [0]⟩ := by
  obtain ⟨d', h1, h2, _⟩ := (send_appends_iff_strictly_inside 0 ⟨39 / 10, 0, 0⟩ 4).1
    [⟨1, 1, 4, [], []⟩] 0 ⟨1, 1, 4, [], []⟩ rfl
  rw [h1, h2.2 ⟨39 / 10, by simp, by norm_num, by norm_num⟩]
  rfl

/-! ## `Domain::send_packet` -/

theorem copy_indices_ok {l : List Int} {st st' : State} (h : copy_indices l st = .ok st') :
    st'.nbuf_index = st.nbuf_index + l.length ∧ st'.nbuf_alloc = st.nbuf_alloc ∧
      st'.nbuf_index_alloc = st.nbuf_index_alloc ∧ st'.packets_sent = st.packets_sent ∧
      st'.decomposition = st.decomposition ∧ st'.x_left = st.x_left ∧
      st'.x_right = st.x_right ∧ st'.fft = st.fft ∧ st'.nc = st.nc := by
  induction l generalizing st with
  | nil =>
    simp only [copy_indices, Except.ok.injEq] at h
    subst h
    simp
  | cons a l ih =>
    unfold copy_indices at h
    split_ifs at h with hc
    have := ih h
    simp only [List.length_cons] at this ⊢
    push_cast
    refine ⟨by omega, this.2.1, this.2.2.1, this.2.2.2.1, this.2.2.2.2.1, this.2.2.2.2.2.1,
      this.2.2.2.2.2.2.1, this.2.2.2.2.2.2.2.1, this.2.2.2.2.2.2.2.2⟩

theorem copy_indices_error {l : List Int} {st : State} {e : Err}
    (h : copy_indices l st = .error e) : e = .AssertionFailed := by
  induction l generalizing st with
  | nil => simp [copy_indices] at h
  | cons a l ih =>
    unfold copy_indices at h
    split_ifs at h
    · exact ih h
    · simp only [Except.error.injEq] at h
      exact h.symm

/-- The three ways `send_packet` can end. -/
theorem send_packet_cases (dom : Domain) (st : State) (mem : Mem) :
    send_packet dom st mem = .error .AssertionFailed ∨
    ((dom.vbuf.length : Int).tmod 3 = 0 ∧ (dom.vbuf.length : Int).tdiv 3 = 0 ∧
      send_packet dom st mem = .ok (dom, st, mem)) ∨
    ((dom.vbuf.length : Int).tmod 3 = 0 ∧ (dom.vbuf.length : Int).tdiv 3 ≠ 0 ∧
      (0 ≤ st.nbuf_index ∧
        st.nbuf_index + (dom.vbuf.length : Int).tdiv 3 < st.nbuf_index_alloc) ∧
      ∃ st1, copy_indices dom.vbuf_index st = .ok st1 ∧
        ((mem.nbuf dom.rank + (dom.vbuf.length : Int).tdiv 3 ≥ st.nbuf_alloc ∧
            send_packet dom st mem = .error .RuntimeError) ∨
          (mem.nbuf dom.rank + (dom.vbuf.length : Int).tdiv 3 < st.nbuf_alloc ∧
            send_packet dom st mem = .ok
              ({ dom with vbuf := [], vbuf_index := [] },
               { st1 with packets_sent := st1.packets_sent ++
                  [{ dest_rank := dom.rank, offset_index := st.nbuf_index,
                     n := (dom.vbuf.length : Int).tdiv 3, offset := mem.nbuf dom.rank }] },
               put_positions (get_accumulate mem dom.rank ((dom.vbuf.length : Int).tdiv 3)).2
                 dom.rank dom.vbuf (mem.nbuf dom.rank))))) := by
  unfold send_packet
  by_cases h3 : (dom.vbuf.length : Int).tmod 3 ≠ 0
  · left; rw [if_pos h3]
  · rw [if_neg h3]
    by_cases h0 : (dom.vbuf.length : Int).tdiv 3 = 0
    · right; left; rw [if_pos h0]; exact ⟨not_not.1 h3, h0, rfl⟩
    · rw [if_neg h0]
      by_cases ha : 0 ≤ st.nbuf_index ∧
          st.nbuf_index + (dom.vbuf.length : Int).tdiv 3 < st.nbuf_index_alloc
      · rw [if_neg (not_not.2 ha)]
        cases hci : copy_indices dom.vbuf_index st with
        | error e =>
          left
          rw [copy_indices_error hci]
        | ok st1 =>
          right; right
          have hst := copy_indices_ok hci
          refine ⟨not_not.1 h3, h0, ha, st1, rfl, ?_⟩
          simp only [get_accumulate]
          by_cases hov : mem.nbuf dom.rank + (dom.vbuf.length : Int).tdiv 3 ≥ st.nbuf_alloc
          · left
            refine ⟨hov, ?_⟩
            rw [if_pos (by rw [hst.2.1]; exact hov)]
          · right
            refine ⟨not_le.1 hov, ?_⟩
            rw [if_neg (by rw [hst.2.1]; exact hov)]
      · left
        rw [if_pos ha]

theorem push_all_nil (dom : Domain) : push_all dom [] = dom := by
  simp [push_all]

theorem push_all_append (dom : Domain) (l1 l2 : List (Int × Float3)) :
    push_all (push_all dom l1) l2 = push_all dom (l1 ++ l2) := by
  simp [push_all, List.flatMap_append]

theorem push_eq_push_all (dom : Domain) (i : Int) (x : Float3) :
    dom.push i x = push_all dom [(i, x)] := by
  simp [push_all, Domain.push]

theorem send_eq_map (i : Int) (x : Float3) (boxsize : Rat) (dec : List Domain) :
    send i x boxsize dec = dec.map fun dom =>
      push_all dom (if send_test dom.xbuf_min dom.xbuf_max x.c0 boxsize = true
        then [(i, x)] else []) := by
  unfold send
  apply List.map_congr_left
  intro dom _
  split_ifs
  · exact push_eq_push_all dom i x
  · exact (push_all_nil dom).symm

theorem scan_particle_eq (x_left x_right boxsize : Rat) (i : Int) (p : Particle)
    (dec : List Domain) :
    scan_particle x_left x_right boxsize i p dec =
      (periodic_wrapup_p p boxsize, dec.map fun dom =>
        push_all dom (selected x_left x_right boxsize dom.xbuf_min dom.xbuf_max i [p])) := by
  unfold scan_particle
  simp only [selected, List.append_nil, send_eq_map]
  congr 1
  by_cases h1 : (periodic_wrapup_p p boxsize).x.c0 < x_left <;>
  by_cases h2 : (periodic_wrapup_p p boxsize).x.c0 > x_right <;>
  simp only [h1, h2, if_true, if_false, true_and, false_and, List.map_map,
    List.nil_append, List.append_nil, push_all_nil, List.map_id']
  apply List.map_congr_left
  intro dom _
  simp only [Function.comp, push_all_append]
  rfl

theorem selected_cons (x_left x_right boxsize lo hi : Rat) (i : Int) (p : Particle)
    (rest : List Particle) :
    selected x_left x_right boxsize lo hi i (p :: rest) =
      selected x_left x_right boxsize lo hi i [p] ++
        selected x_left x_right boxsize lo hi (i + 1) rest := by
  simp [selected]

theorem scan_particles_eq (x_left x_right boxsize : Rat) (i : Int) (ps : List Particle)
    (dec : List Domain) :
    scan_particles x_left x_right boxsize i ps dec =
      (ps.map (fun p => periodic_wrapup_p p boxsize), dec.map fun dom =>
        push_all dom (selected x_left x_right boxsize dom.xbuf_min dom.xbuf_max i ps)) := by
  induction ps generalizing i dec with
  | nil =>
    simp only [scan_particles, selected, List.map_nil, push_all_nil, List.map_id']
  | cons p rest ih =>
    unfold scan_particles
    rw [scan_particle_eq]
    simp only [ih, List.map_cons, List.map_map]
    congr 2
    funext dom
    simp only [Function.comp, push_all_append]
    rw [selected_cons x_left x_right boxsize dom.xbuf_min dom.xbuf_max i p rest]
    rfl

/-! ## `packets_flush` -/

theorem nsend_nonneg (dom : Domain) : 0 ≤ dom.nsend := by
  unfold Domain.nsend
  rw [Int.tdiv_eq_ediv (by omega) (by omega)]
  omega

theorem sent_to_nil (k : Int) : sent_to k [] = 0 := rfl

theorem sent_to_append (k : Int) (l1 l2 : List Packet) :
    sent_to k (l1 ++ l2) = sent_to k l1 + sent_to k l2 := by
  simp [sent_to, List.filter_append, List.sum_append]

theorem sent_to_singleton (k : Int) (pkt : Packet) :
    sent_to k [pkt] = if pkt.dest_rank = k then pkt.n else 0 := by
  by_cases h : pkt.dest_rank = k <;> simp [sent_to, List.filter_cons, h]

theorem pending_for_cons (k : Int) (dom : Domain) (rest : List Domain) :
    pending_for k (dom :: rest)
      = (if dom.rank = k then dom.nsend else 0) + pending_for k rest := by
  by_cases h : dom.rank = k <;> simp [pending_for, List.filter_cons, h]

/-- What a normal return of `send_packet` has done. -/
theorem send_packet_ok {dom dom' : Domain} {st st' : State} {mem mem' : Mem}
    (h : send_packet dom st mem = .ok (dom', st', mem')) :
    st'.nbuf_alloc = st.nbuf_alloc ∧ dom'.rank = dom.rank ∧ dom'.nsend = 0 ∧
      (∃ new, st'.packets_sent = st.packets_sent ++ new ∧
        (∀ pkt ∈ new, pkt.dest_rank = dom.rank ∧ pkt.offset = mem.nbuf dom.rank ∧
          pkt.n = dom.nsend ∧ 0 < pkt.n ∧ pkt.offset + pkt.n < st.nbuf_alloc) ∧
        ∀ k, sent_to k new = if dom.rank = k then dom.nsend else 0) ∧
      ∀ k, mem'.nbuf k = mem.nbuf k + if dom.rank = k then dom.nsend else 0 := by
  rcases send_packet_cases dom st mem with hc | ⟨_, h0, hc⟩ | ⟨_, hne, _, st1, hci, hc⟩
  · rw [hc] at h; simp at h
  · rw [hc] at h
    simp only [Except.ok.injEq, Prod.mk.injEq] at h
    obtain ⟨rfl, rfl, rfl⟩ := h
    have h0' : dom.nsend = 0 := h0
    refine ⟨rfl, rfl, h0, ⟨[], by simp, by simp, ?_⟩, ?_⟩
    · intro k; rw [sent_to_nil, h0']; simp
    · intro k; rw [h0']; simp
  · rcases hc with ⟨_, hc⟩ | ⟨hlt, hc⟩
    · rw [hc] at h; simp at h
    · rw [hc] at h
      simp only [Except.ok.injEq, Prod.mk.injEq] at h
      obtain ⟨rfl, rfl, rfl⟩ := h
      have hst := copy_indices_ok hci
      have hpos : 0 < dom.nsend := lt_of_le_of_ne (nsend_nonneg dom) (Ne.symm hne)
      refine ⟨hst.2.1, rfl, by simp [Domain.nsend], ⟨_, by rw [hst.2.2.2.1], ?_, ?_⟩, ?_⟩
      · intro pkt hp
        rw [List.mem_singleton] at hp
        subst hp
        exact ⟨rfl, rfl, rfl, hpos, hlt⟩
      · intro k
        rw [sent_to_singleton]
        rfl
      · intro k
        simp only [put_positions, get_accumulate, aset]
        by_cases hk : dom.rank = k
        · subst hk; simp [Domain.nsend]
        · rw [if_neg (Ne.symm hk), if_neg hk]; simp

/-- What a normal return of `flush_domains` has done. -/
theorem flush_domains_ok {ds ds' : List Domain} {st st' : State} {mem mem' : Mem}
    (h : flush_domains ds st mem = .ok (ds', st', mem')) :
    st'.nbuf_alloc = st.nbuf_alloc ∧ ds'.map Domain.rank = ds.map Domain.rank ∧
      (∀ d ∈ ds', d.nsend = 0) ∧
      (∃ new, st'.packets_sent = st.packets_sent ++ new ∧
        (∀ pkt ∈ new, mem.nbuf pkt.dest_rank ≤ pkt.offset ∧ 0 < pkt.n ∧
          pkt.offset + pkt.n < st.nbuf_alloc) ∧
        (∀ d ∈ ds, d.nsend ≠ 0 → ∃ pkt ∈ new, pkt.dest_rank = d.rank ∧ pkt.n = d.nsend) ∧
        ∀ k, sent_to k new = pending_for k ds) ∧
      ∀ k, mem'.nbuf k = mem.nbuf k + pending_for k ds := by
  induction ds generalizing ds' st st' mem mem' with
  | nil =>
    simp only [flush_domains, Except.ok.injEq, Prod.mk.injEq] at h
    obtain ⟨rfl, rfl, rfl⟩ := h
    refine ⟨rfl, rfl, by simp, ⟨[], by simp, by simp, by simp, fun k => rfl⟩, ?_⟩
    intro k; simp [pending_for]
  | cons d ds ih =>
    unfold flush_domains at h
    cases h1 : send_packet d st mem with
    | error e => rw [h1] at h; simp at h
    | ok r1 =>
      obtain ⟨d1, st1, mem1⟩ := r1
      rw [h1] at h
      simp only at h
      cases h2 : flush_domains ds st1 mem1 with
      | error e => rw [h2] at h; simp at h
      | ok r2 =>
        obtain ⟨ds2, st2, mem2⟩ := r2
        rw [h2] at h
        simp only [Except.ok.injEq, Prod.mk.injEq] at h
        obtain ⟨rfl, rfl, rfl⟩ := h
        obtain ⟨ha1, hr1, hn1, ⟨new1, hp1, hb1, hs1⟩, hm1⟩ := send_packet_ok h1
        obtain ⟨ha2, hr2, hn2, ⟨new2, hp2, hb2, he2, hs2⟩, hm2⟩ := ih h2
        refine ⟨by rw [ha2, ha1], ?_, ?_, ⟨new1 ++ new2, ?_, ?_, ?_, ?_⟩, ?_⟩
        · simp only [List.map_cons, hr1, hr2]
        · intro x hx
          rw [List.mem_cons] at hx
          rcases hx with rfl | hx
          · exact hn1
          · exact hn2 x hx
        · rw [hp2, hp1, List.append_assoc]
        · intro pkt hp
          rw [List.mem_append] at hp
          rcases hp with hp | hp
          · obtain ⟨e1, e2, _, e4, e5⟩ := hb1 pkt hp
            exact ⟨by rw [e1, e2], e4, e5⟩
          · obtain ⟨e1, e2, e3⟩ := hb2 pkt hp
            refine ⟨?_, e2, by rw [← ha1]; exact e3⟩
            have := hm1 pkt.dest_rank
            have hnn := nsend_nonneg d
            split_ifs at this <;> omega
        · intro x hx hx0
          rw [List.mem_cons] at hx
          rcases hx with rfl | hx
          · have hs := hs1 x.rank
            rw [if_pos rfl] at hs
            have hne : new1 ≠ [] := by
              rintro rfl
              rw [sent_to_nil] at hs
              exact hx0 hs.symm
            obtain ⟨pkt, hpk⟩ := List.exists_mem_of_ne_nil new1 hne
            obtain ⟨e1, _, e3, _, _⟩ := hb1 pkt hpk
            exact ⟨pkt, List.mem_append_left _ hpk, e1, e3⟩
          · obtain ⟨pkt, hpk, e⟩ := he2 x hx hx0
            exact ⟨pkt, List.mem_append_right _ hpk, e⟩
        · intro k
          rw [sent_to_append, hs1, hs2, pending_for_cons]
        · intro k
          rw [hm2, hm1, pending_for_cons]
          omega

/-- The state `pm_domain_init` leaves at program start. -/
theorem pm_domain_init_initial (env : Env) (particles : Particles) (fft : FFT)
    (hfft : env.pm_fft = some fft) (hcap : 0 < env.capacity) (halloc : env.alloc_ok = true)
    (hr0 : 0 ≤ env.this_node) (hr : env.this_node < env.layout.length) :
    pm_domain_init env State.initial particles = .ok (initialised env particles fft) := by
  unfold initialised
  unfold pm_domain_init
  rw [hfft]
  simp only
  rw [if_neg (by simp [State.initial])]
  unfold allocate_pm_buffer
  simp only [gt_iff_lt, hcap, not_true_eq_false, if_false, halloc]
  unfold allocate_decomposition
  simp only [build_decomposition_ok _ hr0 hr]

/-- The result of `send_positions_begin` at program start. -/
theorem send_positions_begin_initial (env : Env) (particles : Particles) (fft : FFT) (mem : Mem)
    (hfft : env.pm_fft = some fft) (hcap : 0 < env.capacity) (halloc : env.alloc_ok = true)
    (hr0 : 0 ≤ env.this_node) (hr : env.this_node < env.layout.length) :
    send_positions_begin env State.initial mem particles = .ok
      (initialised env particles fft, { mem with nbuf := aset mem.nbuf env.this_node 0 }) := by
  unfold send_positions_begin
  rw [pm_domain_init_initial env particles fft hfft hcap halloc hr0 hr]
  simp only [Except.ok.injEq, Prod.mk.injEq, and_true]
  unfold initialised packets_clear State.initial
  simp only [List.map_map]
  congr 1

/-! ## Capacity check of `send_packet` -/

/-- What a normal return of `send_positions_begin` has set up. -/
theorem send_positions_begin_ok {env : Env} {st st1 : State} {mem mem1 : Mem}
    {particles : Particles} (h : send_positions_begin env st mem particles = .ok (st1, mem1)) :
    st1.packets_sent = [] ∧ st1.nbuf_index = 0 ∧
      (∀ d ∈ st1.decomposition, d.vbuf = [] ∧ d.vbuf_index = []) ∧
      mem1.nbuf = aset mem.nbuf env.this_node 0 := by
  unfold send_positions_begin at h
  cases hi : pm_domain_init env st particles with
  | error e => rw [hi] at h; simp at h
  | ok sti =>
    rw [hi] at h
    simp only [Except.ok.injEq, Prod.mk.injEq] at h
    obtain ⟨rfl, rfl⟩ := h
    refine ⟨rfl, rfl, ?_, rfl⟩
    intro d hd
    simp only [packets_clear, List.mem_map] at hd
    obtain ⟨d0, _, rfl⟩ := hd
    exact ⟨rfl, rfl⟩

theorem push_all_nsend {dom : Domain} (h : dom.vbuf = []) (l : List (Int × Float3)) :
    (push_all dom l).nsend = l.length := by
  have hl : ∀ l : List (Int × Float3),
      (l.flatMap (fun c => [c.2.c0, c.2.c1, c.2.c2])).length = 3 * l.length := by
    intro l
    induction l with
    | nil => rfl
    | cons a l ih => simp only [List.flatMap_cons, List.length_append, ih, List.length_cons,
        List.length_nil]; omega
  unfold Domain.nsend push_all
  simp only [h, List.nil_append, hl]
  rw [Int.tdiv_eq_ediv (by omega) (by omega)]
  push_cast
  omega

/-- A normal return of `send_positions_body` is a normal return of the flush of the
scanned table. -/
theorem send_positions_body_ok {st st' : State} {mem mem' : Mem} {particles ps' : Particles}
    (h : send_positions_body st mem particles = .ok (st', mem', ps')) :
    ∃ ds' st2, flush_domains (scanned st particles)
        { st with decomposition := scanned st particles } mem = .ok (ds', st2, mem') ∧
      st' = { st2 with decomposition := ds' } := by
  unfold send_positions_body at h
  rw [scan_particles_eq] at h
  simp only [packets_flush] at h
  cases hf : flush_domains (scanned st particles)
      { st with decomposition := scanned st particles } mem with
  | error e =>
    unfold scanned at hf
    rw [hf] at h
    simp at h
  | ok r =>
    obtain ⟨ds', st2, mem2⟩ := r
    unfold scanned at hf
    rw [hf] at h
    simp only [Except.ok.injEq, Prod.mk.injEq] at h
    obtain ⟨rfl, rfl, _⟩ := h
    exact ⟨ds', st2, rfl, rfl⟩

theorem pm_domain_send_positions_ok {env : Env} {st st' : State} {mem mem' : Mem}
    {particles ps' : Particles}
    (h : pm_domain_send_positions env st mem particles = .ok (st', mem', ps')) :
    ∃ st1 mem1, send_positions_begin env st mem particles = .ok (st1, mem1) ∧
      send_positions_body st1 mem1 particles = .ok (st', mem', ps') := by
  unfold pm_domain_send_positions at h
  cases hb : send_positions_begin env st mem particles with
  | error e => rw [hb] at h; simp at h
  | ok r =>
    obtain ⟨st1, mem1⟩ := r
    rw [hb] at h
    exact ⟨st1, mem1, rfl, h⟩

/-- C7: `Domain::send_packet` (py and lib) with a non-empty batch of `nsend` particles
that reaches the offset claim (no assertion fails) raises `RuntimeError` if and only if
`offset + nsend >= nbuf_alloc`, `offset` being the value the counter of the destination
had; hence, when the counters are non-negative at the start, every Packet of
`packets_sent` after `pm_domain_send_positions` (py), and every Packet `send_packet`
adds to the ledger (lib), has `0 <= offset` and `offset + n < nbuf_alloc`. -/
theorem send_packet_raises_iff_reaches_capacity (st : State) (mem : Mem) :
    (∀ dom : Domain, dom.vbuf ≠ [] → send_packet dom st mem ≠ .error .AssertionFailed →
      (send_packet dom st mem = .error .RuntimeError ↔
        mem.nbuf dom.rank + dom.nsend ≥ st.nbuf_alloc)) ∧
    (∀ (dom : Lib.Domain) (nbuf_alloc : Int) (packets_sent : List Lib.Packet),
      dom.buf ≠ [] → Lib.send_packet dom nbuf_alloc packets_sent mem ≠ .error .AssertionFailed →
      (Lib.send_packet dom nbuf_alloc packets_sent mem = .error .RuntimeError ↔
        mem.nbuf dom.rank + (dom.buf.length : Int).tdiv 3 ≥ nbuf_alloc)) ∧
    (∀ (env : Env) (particles ps' : Particles) (st' : State) (mem' : Mem),
      (∀ k, 0 ≤ mem.nbuf k) →
      pm_domain_send_positions env st mem particles = .ok (st', mem', ps') →
      ∀ pkt ∈ st'.packets_sent, 0 ≤ pkt.offset ∧ pkt.offset + pkt.n < st'.nbuf_alloc) ∧
    (∀ (dom dom' : Lib.Domain) (nbuf_alloc : Int) (packets_sent packets_sent' : List Lib.Packet)
      (mem' : Mem), 0 ≤ mem.nbuf dom.rank →
      Lib.send_packet dom nbuf_alloc packets_sent mem = .ok (dom', packets_sent', mem') →
      (∀ pkt ∈ packets_sent, 0 ≤ pkt.offset ∧ pkt.offset + pkt.n < nbuf_alloc) →
      ∀ pkt ∈ packets_sent', 0 ≤ pkt.offset ∧ pkt.offset + pkt.n < nbuf_alloc) := by
  refine ⟨?_, ?_, ?_, ?_⟩
  · intro dom hne hassert
    rcases send_packet_cases dom st mem with hc | ⟨h3, h0, _⟩ | ⟨_, _, _, st1, _, hc⟩
    · exact absurd hc hassert
    · exfalso
      apply hne
      apply List.eq_nil_of_length_eq_zero
      rw [Int.tmod_eq_emod (by omega) (by omega)] at h3
      rw [Int.tdiv_eq_ediv (by omega) (by omega)] at h0
      omega
    · rcases hc with ⟨hge, hc⟩ | ⟨hlt, hc⟩
      · exact ⟨fun _ => hge, fun _ => hc⟩
      · constructor
        · intro h; rw [hc] at h; simp at h
        · intro h
          have : mem.nbuf dom.rank + (dom.vbuf.length : Int).tdiv 3 ≥ st.nbuf_alloc := h
          omega
  · intro dom nbuf_alloc packets_sent hne hassert
    unfold Lib.send_packet at hassert ⊢
    by_cases h3 : (dom.buf.length : Int).tmod 3 ≠ 0
    · rw [if_pos h3] at hassert; exact absurd rfl hassert
    · rw [if_neg h3]
      have h0 : ¬ (dom.buf.length : Int).tdiv 3 = 0 := by
        intro h0
        apply hne
        apply List.eq_nil_of_length_eq_zero
        have h3' := not_not.1 h3
        rw [Int.tmod_eq_emod (by omega) (by omega)] at h3'
        rw [Int.tdiv_eq_ediv (by omega) (by omega)] at h0
        omega
      rw [if_neg h0]
      simp only [get_accumulate]
      by_cases hov : mem.nbuf dom.rank + (dom.buf.length : Int).tdiv 3 ≥ nbuf_alloc
      · rw [if_pos hov]; exact ⟨fun _ => hov, fun _ => rfl⟩
      · rw [if_neg hov]
        constructor
        · intro h; simp at h
        · intro h; exact absurd h hov
  · intro env particles ps' st' mem' hnn h
    obtain ⟨st1, mem1, hb, hbody⟩ := pm_domain_send_positions_ok h
    obtain ⟨hp0, _, _, hm1⟩ := send_positions_begin_ok hb
    obtain ⟨ds', st2, hf, rfl⟩ := send_positions_body_ok hbody
    obtain ⟨ha, _, _, ⟨new, hp, hb2, _, _⟩, _⟩ := flush_domains_ok hf
    intro pkt hpkt
    simp only [hp0, List.nil_append] at hp
    simp only at hpkt
    rw [hp] at hpkt
    obtain ⟨e1, _, e3⟩ := hb2 pkt hpkt
    have hge : 0 ≤ mem1.nbuf pkt.dest_rank := by
      rw [hm1]
      unfold aset
      split_ifs
      · exact le_refl 0
      · exact hnn _
    refine ⟨le_trans hge e1, ?_⟩
    simp only [ha]
    exact e3
  · intro dom dom' nbuf_alloc packets_sent packets_sent' mem' hnn h hall
    unfold Lib.send_packet at h
    by_cases h3 : (dom.buf.length : Int).tmod 3 ≠ 0
    · rw [if_pos h3] at h; simp at h
    · rw [if_neg h3] at h
      by_cases h0 : (dom.buf.length : Int).tdiv 3 = 0
      · rw [if_pos h0] at h
        simp only [Except.ok.injEq, Prod.mk.injEq] at h
        obtain ⟨_, rfl, _⟩ := h
        exact hall
      · rw [if_neg h0] at h
        simp only [get_accumulate] at h
        by_cases hov : mem.nbuf dom.rank + (dom.buf.length : Int).tdiv 3 ≥ nbuf_alloc
        · rw [if_pos hov] at h; simp at h
        · rw [if_neg hov] at h
          simp only [Except.ok.injEq, Prod.mk.injEq] at h
          obtain ⟨_, rfl, _⟩ := h
          intro pkt hpkt
          rw [List.mem_append, List.mem_singleton] at hpkt
          rcases hpkt with hpkt | rfl
          · exact hall pkt hpkt
          · exact ⟨hnn, not_le.1 hov⟩

theorem ne_assertion_of_outcome {α : Type} {r : Except Err α}
    (h : outcome r ≠ some .AssertionFailed) : r ≠ .error .AssertionFailed := by
  intro hr
  rw [hr] at h
  exact h rfl

/-- C7 at a concrete input: a batch of two particles, counter at 0, `nbuf_alloc = 2`:
`0 + 2 >= 2`, so `send_packet` raises `RuntimeError`. -/
theorem send_packet_raises_iff_reaches_capacity_witness :
    send_packet batch_two tight_state Mem.zero = .error .RuntimeError :=
  ((send_packet_raises_iff_reaches_capacity tight_state Mem.zero).1 batch_two (by decide)
    (ne_assertion_of_outcome (by decide!))).2 (by decide!)

/-- C8 fails as stated: a batch that ends exactly at capacity (`offset = 0`, two
particles, `nbuf_alloc = 2`) is not written; `send_packet` raises `RuntimeError`. -/
theorem batch_ending_at_capacity_raises :
    Mem.zero.nbuf batch_two.rank + batch_two.nsend = tight_state.nbuf_alloc ∧
      outcome (send_packet batch_two tight_state Mem.zero) = some .RuntimeError := by
  decide!

/-- C8 as amended: `Domain::send_packet` fails with `RuntimeError` when
`offset + nsend` reaches or exceeds the allocated capacity.  For every non-empty batch
that reaches the offset claim (no assertion fails): if `offset + nsend < nbuf_alloc`
the call returns normally, the floats of the batch are in `buf_pos` of the destination
from float position `3 * offset` on, the counter of the destination is
`offset + nsend`, one Packet `(rank, nbuf_index, nsend, offset)` is appended to the
ledger and the batch is cleared; if `offset + nsend = nbuf_alloc` the call raises
`RuntimeError`. -/
theorem send_packet_writes_below_capacity (dom : Domain) (st : State) (mem : Mem)
    (hne : dom.vbuf ≠ []) (hassert : send_packet dom st mem ≠ .error .AssertionFailed) :
    (mem.nbuf dom.rank + dom.nsend < st.nbuf_alloc →
      ∃ dom' st' mem', send_packet dom st mem = .ok (dom', st', mem') ∧
        dom' = dom.clear ∧
        st'.packets_sent = st.packets_sent ++
          [{ dest_rank := dom.rank, offset_index := st.nbuf_index, n := dom.nsend,
             offset := mem.nbuf dom.rank }] ∧
        mem'.nbuf dom.rank = mem.nbuf dom.rank + dom.nsend ∧
        ∀ j : Nat, j < dom.vbuf.length →
          mem'.buf_pos dom.rank (mem.nbuf dom.rank * 3 + j) = dom.vbuf.getD j 0) ∧
    (mem.nbuf dom.rank + dom.nsend = st.nbuf_alloc →
      send_packet dom st mem = .error .RuntimeError) := by
  rcases send_packet_cases dom st mem with hc | ⟨h3, h0, _⟩ | ⟨_, _, _, st1, hci, hc⟩
  · exact absurd hc hassert
  · exfalso
    apply hne
    apply List.eq_nil_of_length_eq_zero
    rw [Int.tmod_eq_emod (by omega) (by omega)] at h3
    rw [Int.tdiv_eq_ediv (by omega) (by omega)] at h0
    omega
  · have hst := copy_indices_ok hci
    rcases hc with ⟨hge, hc⟩ | ⟨hlt, hc⟩
    · refine ⟨fun h => ?_, fun _ => hc⟩
      have : mem.nbuf dom.rank + (dom.vbuf.length : Int).tdiv 3 < st.nbuf_alloc := h
      omega
    · refine ⟨fun _ => ⟨_, _, _, hc, rfl, ?_, ?_, ?_⟩, fun h => ?_⟩
      · simp only [hst.2.2.2.1]; rfl
      · simp [put_positions, get_accumulate, aset, Domain.nsend]
      · intro j hj
        simp only [put_positions, get_accumulate, aset, if_true]
        rw [if_pos (by omega)]
        congr 1
        omega
      · have : mem.nbuf dom.rank + (dom.vbuf.length : Int).tdiv 3 = st.nbuf_alloc := h
        omega

/-- C8 as amended, at a concrete input: one particle, counter at 0, `nbuf_alloc = 2`:
the batch is written and recorded. -/
theorem send_packet_writes_below_capacity_witness :
    ∃ dom' st' mem', send_packet batch_one tight_state Mem.zero = .ok (dom', st', mem') ∧
      dom' = batch_one.clear ∧
      st'.packets_sent = tight_state.packets_sent ++
        [{ dest_rank := batch_one.rank, offset_index := tight_state.nbuf_index,
           n := batch_one.nsend, offset := Mem.zero.nbuf batch_one.rank }] ∧
      mem'.nbuf batch_one.rank = Mem.zero.nbuf batch_one.rank + batch_one.nsend ∧
      ∀ j : Nat, j < batch_one.vbuf.length →
        mem'.buf_pos batch_one.rank (Mem.zero.nbuf batch_one.rank * 3 + j)
          = batch_one.vbuf.getD j 0 :=
  (send_packet_writes_below_capacity batch_one tight_state Mem.zero (by decide)
    (ne_assertion_of_outcome (by decide!))).1 (by decide!)

/-! ## Overflow of the exchange -/

theorem scanned_nsend {st : State} (hclear : ∀ d ∈ st.decomposition, d.vbuf = [] ∧ d.vbuf_index = [])
    (particles : Particles) (k : Int) :
    pending_for k (scanned st particles) =
      ((st.decomposition.filter (fun dom => dom.rank = k)).map fun dom =>
        ((selected st.x_left st.x_right particles.boxsize dom.xbuf_min dom.xbuf_max 0
          particles.p).length : Int)).sum := by
  unfold scanned pending_for
  generalize st.decomposition = ds at hclear
  induction ds with
  | nil => rfl
  | cons d ds ih =>
    have ih := ih (fun x hx => hclear x (List.mem_cons_of_mem _ hx))
    have hd := (hclear d (List.mem_cons_self _ _)).1
    have hr : (push_all d (selected st.x_left st.x_right particles.boxsize d.xbuf_min
        d.xbuf_max 0 particles.p)).rank = d.rank := rfl
    simp only [List.map_cons, List.filter_cons, hr]
    by_cases hk : d.rank = k
    · simp only [hk, decide_True, if_true, List.map_cons, List.sum_cons, ih]
      rw [push_all_nsend hd]
    · simp only [hk, decide_False, Bool.false_eq_true, if_false, ih]

theorem exists_ok_of_outcome {α : Type} {r : Except Err α} (h : outcome r = none) :
    ∃ a, r = .ok a := by
  cases r with
  | error e => simp [outcome] at h
  | ok a => exact ⟨a, rfl⟩

theorem claim_offsets_from (rank : Int) (batches : List Int) (mem : Mem)
    (hpos : ∀ n ∈ batches, 0 < n) :
    (claim_offsets rank batches mem).2.nbuf rank = mem.nbuf rank + batches.sum ∧
      (claim_offsets rank batches mem).1.map Prod.snd = batches ∧
      List.Pairwise (fun a b : Int × Int => a.1 + a.2 ≤ b.1)
        (claim_offsets rank batches mem).1 ∧
      (∀ c ∈ (claim_offsets rank batches mem).1, mem.nbuf rank ≤ c.1) ∧
      ∀ s : Int, (mem.nbuf rank ≤ s ∧ s < mem.nbuf rank + batches.sum) ↔
        ∃ c ∈ (claim_offsets rank batches mem).1, c.1 ≤ s ∧ s < c.1 + c.2 := by
  induction batches generalizing mem with
  | nil =>
    refine ⟨by simp [claim_offsets], rfl, by simp [claim_offsets], by simp [claim_offsets], ?_⟩
    intro s
    simp only [claim_offsets, List.sum_nil, List.not_mem_nil, false_and, exists_false,
      iff_false]
    omega
  | cons n rest ih =>
    have hn : 0 < n := hpos n (List.mem_cons_self _ _)
    have hnext : (get_accumulate mem rank n).2.nbuf rank = mem.nbuf rank + n := by
      simp [get_accumulate, aset]
    obtain ⟨h1, h2, h3, h4, h5⟩ := ih (get_accumulate mem rank n).2
      (fun m hm => hpos m (List.mem_cons_of_mem _ hm))
    rw [hnext] at h1 h4 h5
    have hfst : (get_accumulate mem rank n).1 = mem.nbuf rank := rfl
    simp only [claim_offsets, List.sum_cons, List.map_cons, List.pairwise_cons, List.mem_cons,
      hfst]
    refine ⟨by rw [h1]; ring, by rw [h2], ⟨?_, h3⟩, ?_, ?_⟩
    · intro c hc
      exact h4 c hc
    · rintro c (rfl | hc)
      · exact le_refl _
      · have := h4 c hc
        simp only at this ⊢
        omega
    · intro s
      constructor
      · intro hs
        by_cases hlt : s < mem.nbuf rank + n
        · exact ⟨(mem.nbuf rank, n), Or.inl rfl, hs.1, hlt⟩
        · obtain ⟨c, hc, hcs⟩ := (h5 s).1 ⟨by omega, by omega⟩
          exact ⟨c, Or.inr hc, hcs⟩
      · rintro ⟨c, rfl | hc, hcs⟩
        · have hsum : 0 ≤ rest.sum :=
            List.sum_nonneg (fun m hm => le_of_lt (hpos m (List.mem_cons_of_mem _ hm)))
          simp only at hcs
          omega
        · have := (h5 s).2 ⟨c, hc, hcs⟩
          omega

/-- C10: with each `MPI_Get_accumulate` on a destination's counter taken as one atomic
fetch-and-add (the step `get_accumulate` that `send_packet` performs), for every order
`arrival` in which the batches that the senders flush to the same destination reach
its counter after the reset to 0: the claimed slot ranges `[offset, offset + n)` are
pairwise disjoint, every slot of `[0, nbuf)` lies in one of them and they hold no other
slot, and the final counter `nbuf` is the sum of the batch sizes. -/
theorem claimed_ranges_disjoint_and_cover (rank : Int) (batches arrival : List Int)
    (mem : Mem) (hpos : ∀ n ∈ batches, 0 < n) (harrival : arrival.Perm batches)
    (hreset : mem.nbuf rank = 0) :
    (claim_offsets rank arrival mem).2.nbuf rank = batches.sum ∧
      List.Pairwise (fun a b : Int × Int => a.1 + a.2 ≤ b.1 ∨ b.1 + b.2 ≤ a.1)
        (claim_offsets rank arrival mem).1 ∧
      (∀ s : Int, (0 ≤ s ∧ s < (claim_offsets rank arrival mem).2.nbuf rank) ↔
        ∃ c ∈ (claim_offsets rank arrival mem).1, c.1 ≤ s ∧ s < c.1 + c.2) ∧
      ((claim_offsets rank arrival mem).1.map Prod.snd).Perm batches := by
  have hpos' : ∀ n ∈ arrival, 0 < n := fun n hn => hpos n (harrival.mem_iff.1 hn)
  obtain ⟨h1, h2, h3, _, h5⟩ := claim_offsets_from rank arrival mem hpos'
  rw [hreset, zero_add] at h1 h5
  refine ⟨by rw [h1, harrival.sum_eq], h3.imp (fun h => Or.inl h), ?_, by rw [h2]; exact harrival⟩
  intro s
  rw [h1]
  exact h5 s

/-- C10 at a concrete input: batches of 2, 1 and 3 particles reaching the counter
of rank 1 in the order 3, 2, 1. -/
theorem claimed_ranges_disjoint_and_cover_witness :
    (claim_offsets 1 [3, 2, 1] Mem.zero).2.nbuf 1 = 6 ∧
      (claim_offsets 1 [3, 2, 1] Mem.zero).1 = [(0, 3), (3, 2), (5, 1)] := by
  refine ⟨?_, by decide!⟩
  have h := (claimed_ranges_disjoint_and_cover 1 [2, 1, 3] [3, 2, 1] Mem.zero (by decide)
    (by decide) rfl).1
  rw [h]
  rfl

/-! ## The exchange among all processes -/

/-- What `send_positions_begin` leaves in a process that is set up for the run. -/
theorem send_positions_begin_ready (w : Run) (r : Nat) (hr : r < w.layout.length)
    {st st1 : State} {mem mem1 : Mem} (hready : w.ready r st)
    (h : send_positions_begin (w.proc r).env st mem (w.proc r).particles = .ok (st1, mem1)) :
    st1.x_left = (w.begun r).st.x_left ∧ st1.x_right = (w.begun r).st.x_right ∧
      st1.decomposition = (w.begun r).st.decomposition ∧
      st1.fft = (w.proc r).env.pm_fft ∧
      ∀ k : Int, mem1.nbuf k = if (r : Int) = k then 0 else mem.nbuf k := by
  have hmem : ∀ m : Mem, ∀ k : Int,
      (aset m.nbuf (w.proc r).env.this_node 0) k = if (r : Int) = k then 0 else m.nbuf k := by
    intro m k
    have hthis : (w.proc r).env.this_node = (r : Int) := rfl
    unfold aset
    rw [hthis]
    by_cases hk : (r : Int) = k
    · rw [if_pos hk.symm, if_pos hk]
    · rw [if_neg (fun h => hk h.symm), if_neg hk]
  rcases hready with rfl | ⟨hfft, hxl, hxr, hdec⟩
  · by_cases hcap : 0 < w.capacity
    · have hb := send_positions_begin_initial (w.proc r).env (w.proc r).particles
        { addr := 1, nc := w.nc, local_ix0 := (w.layout.getD r ⟨0, 0⟩).local_ix0,
          local_nx := (w.layout.getD r ⟨0, 0⟩).local_nx } mem rfl hcap rfl
        (by simp [Run.proc]) (by simp [Run.proc]; exact hr)
      rw [hb] at h
      simp only [Except.ok.injEq, Prod.mk.injEq] at h
      obtain ⟨rfl, rfl⟩ := h
      exact ⟨rfl, rfl, rfl, rfl, hmem mem⟩
    · exfalso
      simp only [send_positions_begin, pm_domain_init, Run.proc, allocate_pm_buffer] at h
      simp [State.initial, hcap] at h
  · unfold send_positions_begin pm_domain_init at h
    have hsome : (w.proc r).env.pm_fft = some
        { addr := 1, nc := w.nc, local_ix0 := (w.layout.getD r ⟨0, 0⟩).local_ix0,
          local_nx := (w.layout.getD r ⟨0, 0⟩).local_nx } := rfl
    rw [hsome] at h hfft
    simp only [hfft, if_true, Except.ok.injEq, Prod.mk.injEq] at h
    obtain ⟨rfl, rfl⟩ := h
    exact ⟨hxl, hxr, hdec, rfl, hmem mem⟩

theorem scanned_congr {st st' : State} (particles : Particles) (h1 : st.x_left = st'.x_left)
    (h2 : st.x_right = st'.x_right) (h3 : st.decomposition = st'.decomposition) :
    scanned st particles = scanned st' particles := by
  unfold scanned
  rw [h1, h2, h3]

theorem exchange_begin_ready (w : Run) (sts : Nat → State) (rs : List Nat)
    (hrs : ∀ r ∈ rs, r < w.layout.length ∧ w.ready r (sts r)) {mem mem1 : Mem}
    {procs1 : List Proc}
    (h : exchange_begin (rs.map fun r => { w.proc r with st := sts r }) mem
      = .ok (procs1, mem1)) :
    (∀ k : Int, mem1.nbuf k = if (∃ r ∈ rs, (r : Int) = k) then 0 else mem.nbuf k) ∧
      ∀ k : Int, (procs1.map fun pr => pending_for k (scanned pr.st pr.particles))
        = rs.map fun r => w.appended r k := by
  induction rs generalizing mem mem1 procs1 with
  | nil =>
    simp only [List.map_nil, exchange_begin, Except.ok.injEq, Prod.mk.injEq] at h
    obtain ⟨rfl, rfl⟩ := h
    simp
  | cons r rs ih =>
    obtain ⟨hr, hready⟩ := hrs r (List.mem_cons_self _ _)
    simp only [List.map_cons, exchange_begin] at h
    cases hb : send_positions_begin (w.proc r).env (sts r) mem (w.proc r).particles with
    | error e => rw [hb] at h; simp at h
    | ok res =>
      obtain ⟨st1, memb⟩ := res
      rw [hb] at h
      simp only at h
      cases hrest : exchange_begin (rs.map fun r => { w.proc r with st := sts r }) memb with
      | error e => rw [hrest] at h; simp at h
      | ok res2 =>
        obtain ⟨rest1, mem2⟩ := res2
        rw [hrest] at h
        simp only [Except.ok.injEq, Prod.mk.injEq] at h
        obtain ⟨rfl, rfl⟩ := h
        obtain ⟨hxl, hxr, hdec, _, hm⟩ := send_positions_begin_ready w r hr hready hb
        obtain ⟨ih1, ih2⟩ := ih (fun x hx => hrs x (List.mem_cons_of_mem _ hx)) hrest
        constructor
        · intro k
          rw [ih1 k, hm k]
          simp only [List.mem_cons, exists_eq_or_imp]
          by_cases hk : (r : Int) = k
          · simp [hk]
          · simp [hk]
        · intro k
          simp only [List.map_cons, ih2 k]
          congr 1
          unfold Run.appended
          rw [scanned_congr _ hxl hxr hdec]
          rfl

theorem exchange_body_counters {procs procs' : List Proc} {mem mem' : Mem}
    (h : exchange_body procs mem = .ok (procs', mem')) (k : Int) :
    mem'.nbuf k = mem.nbuf k +
      (procs.map fun pr => pending_for k (scanned pr.st pr.particles)).sum := by
  induction procs generalizing procs' mem mem' with
  | nil =>
    simp only [exchange_body, Except.ok.injEq, Prod.mk.injEq] at h
    obtain ⟨_, rfl⟩ := h
    simp
  | cons pr rest ih =>
    unfold exchange_body at h
    cases hb : send_positions_body pr.st mem pr.particles with
    | error e => rw [hb] at h; simp at h
    | ok r =>
      obtain ⟨st1, mem1, ps1⟩ := r
      rw [hb] at h
      simp only at h
      cases hr : exchange_body rest mem1 with
      | error e => rw [hr] at h; simp at h
      | ok r2 =>
        obtain ⟨rest2, mem2⟩ := r2
        rw [hr] at h
        simp only [Except.ok.injEq, Prod.mk.injEq] at h
        obtain ⟨_, rfl⟩ := h
        obtain ⟨ds', st2, hf, _⟩ := send_positions_body_ok hb
        obtain ⟨_, _, _, _, hm⟩ := flush_domains_ok hf
        rw [ih hr, hm k]
        simp only [List.map_cons, List.sum_cons]
        ring

/-- The counters after one collective exchange of a run that returns normally. -/
theorem exchange_counters (w : Run) (sts : Nat → State)
    (hready : ∀ r, r < w.layout.length → w.ready r (sts r)) (mem mem' : Mem)
    (procs' : List Proc) (h : exchange (w.procs_from sts) mem = .ok (procs', mem')) (j : Nat)
    (hj : j < w.layout.length) :
    mem'.nbuf j = ((List.range w.layout.length).map fun i => w.appended i j).sum := by
  unfold exchange Run.procs_from at h
  cases hb : exchange_begin
      ((List.range w.layout.length).map fun r => { w.proc r with st := sts r }) mem with
  | error e => rw [hb] at h; simp at h
  | ok res =>
    obtain ⟨procs1, mem1⟩ := res
    rw [hb] at h
    simp only at h
    obtain ⟨h1, h2⟩ := exchange_begin_ready w sts (List.range w.layout.length)
      (fun r hr => ⟨List.mem_range.1 hr, hready r (List.mem_range.1 hr)⟩) hb
    rw [exchange_body_counters h j, h1 j, h2 j]
    rw [if_pos ⟨j, List.mem_range.2 hj, rfl⟩, zero_add]

theorem procs_eq_procs_from (w : Run) : w.procs = w.procs_from fun _ => State.initial := rfl

/-! ## A process stays set up across exchanges -/

theorem send_packet_frame {dom dom' : Domain} {st st' : State} {mem mem' : Mem}
    (h : send_packet dom st mem = .ok (dom', st', mem')) :
    st'.fft = st.fft ∧ st'.x_left = st.x_left ∧ st'.x_right = st.x_right ∧
      dom'.clear = dom.clear := by
  rcases send_packet_cases dom st mem with hc | ⟨_, _, hc⟩ | ⟨_, _, _, st1, hci, hc⟩
  · rw [hc] at h; simp at h
  · rw [hc] at h
    simp only [Except.ok.injEq, Prod.mk.injEq] at h
    obtain ⟨rfl, rfl, rfl⟩ := h
    exact ⟨rfl, rfl, rfl, rfl⟩
  · rcases hc with ⟨_, hc⟩ | ⟨_, hc⟩
    · rw [hc] at h; simp at h
    · rw [hc] at h
      simp only [Except.ok.injEq, Prod.mk.injEq] at h
      obtain ⟨rfl, rfl, rfl⟩ := h
      have hst := copy_indices_ok hci
      exact ⟨hst.2.2.2.2.2.2.2.1, hst.2.2.2.2.2.1, hst.2.2.2.2.2.2.1, rfl⟩

theorem flush_domains_frame {ds ds' : List Domain} {st st' : State} {mem mem' : Mem}
    (h : flush_domains ds st mem = .ok (ds', st', mem')) :
    st'.fft = st.fft ∧ st'.x_left = st.x_left ∧ st'.x_right = st.x_right ∧
      ds'.map Domain.clear = ds.map Domain.clear := by
  induction ds generalizing ds' st st' mem mem' with
  | nil =>
    simp only [flush_domains, Except.ok.injEq, Prod.mk.injEq] at h
    obtain ⟨rfl, rfl, rfl⟩ := h
    exact ⟨rfl, rfl, rfl, rfl⟩
  | cons d ds ih =>
    unfold flush_domains at h
    cases h1 : send_packet d st mem with
    | error e => rw [h1] at h; simp at h
    | ok r1 =>
      obtain ⟨d1, st1, mem1⟩ := r1
      rw [h1] at h
      simp only at h
      cases h2 : flush_domains ds st1 mem1 with
      | error e => rw [h2] at h; simp at h
      | ok r2 =>
        obtain ⟨ds2, st2, mem2⟩ := r2
        rw [h2] at h
        simp only [Except.ok.injEq, Prod.mk.injEq] at h
        obtain ⟨rfl, rfl, rfl⟩ := h
        obtain ⟨a1, a2, a3, a4⟩ := send_packet_frame h1
        obtain ⟨b1, b2, b3, b4⟩ := ih h2
        exact ⟨by rw [b1, a1], by rw [b2, a2], by rw [b3, a3],
          by simp only [List.map_cons, a4, b4]⟩

theorem clear_push_all (dom : Domain) (l : List (Int × Float3)) :
    (push_all dom l).clear = dom.clear := rfl

theorem send_positions_body_frame {st st' : State} {mem mem' : Mem} {particles ps' : Particles}
    (h : send_positions_body st mem particles = .ok (st', mem', ps')) :
    st'.fft = st.fft ∧ st'.x_left = st.x_left ∧ st'.x_right = st.x_right ∧
      st'.decomposition.map Domain.clear = st.decomposition.map Domain.clear := by
  obtain ⟨ds', st2, hf, rfl⟩ := send_positions_body_ok h
  obtain ⟨a1, a2, a3, a4⟩ := flush_domains_frame hf
  refine ⟨a1, a2, a3, ?_⟩
  simp only [a4, scanned, List.map_map]
  apply List.map_congr_left
  intro d _
  rfl

theorem exchange_begin_set_up (w : Run) (sts : Nat → State) (rs : List Nat)
    (hrs : ∀ r ∈ rs, r < w.layout.length ∧ w.ready r (sts r)) {mem mem1 : Mem}
    {procs1 : List Proc}
    (h : exchange_begin (rs.map fun r => { w.proc r with st := sts r }) mem
      = .ok (procs1, mem1)) :
    List.Forall₂ (fun r pr => pr.env = (w.proc r).env ∧ pr.st.fft = (w.proc r).env.pm_fft ∧
      pr.st.x_left = (w.begun r).st.x_left ∧ pr.st.x_right = (w.begun r).st.x_right ∧
      pr.st.decomposition.map Domain.clear = (w.begun r).st.decomposition) rs procs1 := by
  induction rs generalizing mem mem1 procs1 with
  | nil =>
    simp only [List.map_nil, exchange_begin, Except.ok.injEq, Prod.mk.injEq] at h
    obtain ⟨rfl, rfl⟩ := h
    exact List.Forall₂.nil
  | cons r rs ih =>
    obtain ⟨hr, hready⟩ := hrs r (List.mem_cons_self _ _)
    simp only [List.map_cons, exchange_begin] at h
    cases hb : send_positions_begin (w.proc r).env (sts r) mem (w.proc r).particles with
    | error e => rw [hb] at h; simp at h
    | ok res =>
      obtain ⟨st1, memb⟩ := res
      rw [hb] at h
      simp only at h
      cases hrest : exchange_begin (rs.map fun r => { w.proc r with st := sts r }) memb with
      | error e => rw [hrest] at h; simp at h
      | ok res2 =>
        obtain ⟨rest1, mem2⟩ := res2
        rw [hrest] at h
        simp only [Except.ok.injEq, Prod.mk.injEq] at h
        obtain ⟨rfl, rfl⟩ := h
        obtain ⟨hxl, hxr, hdec, hfft, _⟩ := send_positions_begin_ready w r hr hready hb
        refine List.Forall₂.cons ⟨rfl, hfft, hxl, hxr, ?_⟩
          (ih (fun x hx => hrs x (List.mem_cons_of_mem _ hx)) hrest)
        show st1.decomposition.map Domain.clear = _
        rw [hdec]
        simp only [Run.begun, initialised, List.map_map]
        apply List.map_congr_left
        intro k _
        rfl

theorem exchange_body_frame {procs procs' : List Proc} {mem mem' : Mem}
    (h : exchange_body procs mem = .ok (procs', mem')) :
    List.Forall₂ (fun pr pr' => pr'.env = pr.env ∧ pr'.st.fft = pr.st.fft ∧
      pr'.st.x_left = pr.st.x_left ∧ pr'.st.x_right = pr.st.x_right ∧
      pr'.st.decomposition.map Domain.clear = pr.st.decomposition.map Domain.clear)
      procs procs' := by
  induction procs generalizing procs' mem mem' with
  | nil =>
    simp only [exchange_body, Except.ok.injEq, Prod.mk.injEq] at h
    obtain ⟨rfl, _⟩ := h
    exact List.Forall₂.nil
  | cons pr rest ih =>
    unfold exchange_body at h
    cases hb : send_positions_body pr.st mem pr.particles with
    | error e => rw [hb] at h; simp at h
    | ok r =>
      obtain ⟨st1, mem1, ps1⟩ := r
      rw [hb] at h
      simp only at h
      cases hr : exchange_body rest mem1 with
      | error e => rw [hr] at h; simp at h
      | ok r2 =>
        obtain ⟨rest2, mem2⟩ := r2
        rw [hr] at h
        simp only [Except.ok.injEq, Prod.mk.injEq] at h
        obtain ⟨rfl, _⟩ := h
        obtain ⟨a1, a2, a3, a4⟩ := send_positions_body_frame hb
        exact List.Forall₂.cons ⟨rfl, a1, a2, a3, a4⟩ (ih hr)

theorem forall₂_comp {α β γ : Type} {R : α → β → Prop} {S : β → γ → Prop}
    {T : α → γ → Prop} {l1 : List α} {l2 : List β} {l3 : List γ}
    (h1 : List.Forall₂ R l1 l2) (h2 : List.Forall₂ S l2 l3)
    (hT : ∀ a b c, R a b → S b c → T a c) : List.Forall₂ T l1 l3 := by
  induction h1 generalizing l3 with
  | nil =>
    cases h2
    exact List.Forall₂.nil
  | cons hab _ ih =>
    cases h2 with
    | cons hbc hrest => exact List.Forall₂.cons (hT _ _ _ hab hbc) (ih hrest)

/-- After a collective exchange that returns normally every process is set up for the
next one: process `r` sees the same communicator and its state satisfies `Run.ready`. -/
theorem exchange_keeps_ready (w : Run) (sts : Nat → State)
    (hready : ∀ r, r < w.layout.length → w.ready r (sts r)) (mem mem' : Mem)
    (procs' : List Proc) (h : exchange (w.procs_from sts) mem = .ok (procs', mem')) :
    List.Forall₂ (fun r pr => pr.env = (w.proc r).env ∧ w.ready r pr.st)
      (List.range w.layout.length) procs' := by
  unfold exchange Run.procs_from at h
  cases hb : exchange_begin
      ((List.range w.layout.length).map fun r => { w.proc r with st := sts r }) mem with
  | error e => rw [hb] at h; simp at h
  | ok res =>
    obtain ⟨procs1, mem1⟩ := res
    rw [hb] at h
    simp only at h
    have h1 := exchange_begin_set_up w sts (List.range w.layout.length)
      (fun r hr => ⟨List.mem_range.1 hr, hready r (List.mem_range.1 hr)⟩) hb
    have h2 := exchange_body_frame h
    exact forall₂_comp h1 h2 (fun r pr pr' ⟨e1, e2, e3, e4, e5⟩ ⟨f1, f2, f3, f4, f5⟩ =>
      ⟨by rw [f1, e1], Or.inr ⟨by rw [f2, e2], by rw [f3, e3], by rw [f4, e4],
        by rw [f5, e5]⟩⟩)

/-! ## The number of ghost copies received -/

theorem selected_length_of_le {x_left x_right : Rat} (hle : x_left ≤ x_right)
    (boxsize lo hi : Rat) (i : Int) (ps : List Particle) :
    (selected x_left x_right boxsize lo hi i ps).length =
      ps.countP fun p =>
        (decide ((periodic_wrapup_p p boxsize).x.c0 < x_left) ||
          decide ((periodic_wrapup_p p boxsize).x.c0 > x_right)) &&
        send_test lo hi (periodic_wrapup_p p boxsize).x.c0 boxsize := by
  induction ps generalizing i with
  | nil => rfl
  | cons p rest ih =>
    rw [selected_cons, List.length_append, ih, List.countP_cons]
    have hnot : ¬ ((periodic_wrapup_p p boxsize).x.c0 < x_left ∧
        (periodic_wrapup_p p boxsize).x.c0 > x_right) := by
      rintro ⟨h1, h2⟩
      exact absurd (lt_trans h2 (lt_of_lt_of_le h1 hle)) (lt_irrefl _)
    simp only [selected, List.append_nil]
    by_cases ht : send_test lo hi (periodic_wrapup_p p boxsize).x.c0 boxsize = true
    · by_cases h1 : (periodic_wrapup_p p boxsize).x.c0 < x_left
      · have h2 : ¬ (periodic_wrapup_p p boxsize).x.c0 > x_right := fun h2 => hnot ⟨h1, h2⟩
        simp [ht, h1, h2]
        omega
      · by_cases h2 : (periodic_wrapup_p p boxsize).x.c0 > x_right
        · simp [ht, h1, h2]
          omega
        · simp [ht, h1, h2]
    · simp [ht]

theorem fget_flatMap_pair {f : Slab → List Rat} (hf : ∀ s, ∃ a b, f s = [a, b])
    (layout : List Slab) (j : Nat) (hj : j < layout.length) :
    fget (layout.flatMap f) (2 * (j : Int)) = fget (f (layout.getD j ⟨0, 0⟩)) 0 ∧
      fget (layout.flatMap f) (2 * (j : Int) + 1) = fget (f (layout.getD j ⟨0, 0⟩)) 1 := by
  induction layout generalizing j with
  | nil => simp at hj
  | cons s rest ih =>
    obtain ⟨a, b, hab⟩ := hf s
    cases j with
    | zero =>
      simp [fget, List.flatMap_cons, hab]
    | succ j =>
      have hj' : j < rest.length := by simpa using hj
      obtain ⟨h1, h2⟩ := ih j hj'
      have e1 : (2 * ((j + 1 : Nat) : Int)).toNat = (2 * (j : Int)).toNat + 2 := by omega
      have e2 : (2 * ((j + 1 : Nat) : Int) + 1).toNat = (2 * (j : Int) + 1).toNat + 2 := by
        omega
      unfold fget at h1 h2 ⊢
      rw [e1, e2]
      simp only [List.flatMap_cons, hab, List.cons_append, List.nil_append,
        List.getD_cons_succ]
      exact ⟨h1, h2⟩

theorem filter_rank_map_domain_of (xbuf_all : List Rat) (j : Int) (l : List Int) :
    (l.map (domain_of xbuf_all)).filter (fun dom => dom.rank = j)
      = List.replicate (l.count j) (domain_of xbuf_all j) := by
  induction l with
  | nil => rfl
  | cons a l ih =>
    simp only [List.map_cons, List.filter_cons, List.count_cons]
    have hr : (domain_of xbuf_all a).rank = a := rfl
    by_cases h : a = j
    · subst h
      simp [hr, ih, List.replicate_succ]
    · simp [hr, h, ih]

theorem sum_map_ite_ne (n j : Nat) (f : Nat → Int) :
    ((List.range n).map fun i => if i ≠ j then f i else 0).sum
      = ((other_ranks n j).map f).sum := by
  unfold other_ranks
  generalize List.range n = l
  induction l with
  | nil => rfl
  | cons a l ih =>
    rw [List.map_cons, List.sum_cons, ih, List.filter_cons]
    by_cases h : a = j
    · rw [if_neg (by simpa using h), if_neg (by simpa using h), zero_add]
    · rw [if_pos h, if_pos (by simpa using h), List.map_cons, List.sum_cons]

theorem set_getD_self {α : Type} (l : List α) (i : Nat) (d : α) :
    l.set i (l.getD i d) = l := by
  induction l generalizing i with
  | nil => rfl
  | cons a l ih =>
    cases i with
    | zero => rfl
    | succ i =>
      simp only [List.set_cons_succ, List.getD_cons_succ, ih]

/-- The number of copies process `i` appends for rank `j` in a run where
`x_left <= x_right` holds at process `i`. -/
theorem appended_eq_count (w : Run) (i j : Nat) (hi : i < w.layout.length)
    (hj : j < w.layout.length)
    (hle : x_left_of w.boxsize w.nc (w.layout.getD i ⟨0, 0⟩)
      ≤ x_right_of w.boxsize w.nc (w.layout.getD i ⟨0, 0⟩)) :
    w.appended i j = if i ≠ j then
      (((w.parts.getD i []).countP fun p =>
        outside_interior w.boxsize w.nc (w.layout.getD i ⟨0, 0⟩) p &&
          in_buffer w.boxsize w.nc (w.layout.getD j ⟨0, 0⟩) p : Nat) : Int) else 0 := by
  unfold Run.appended
  have hclear : ∀ d ∈ (w.begun i).st.decomposition, d.vbuf = [] ∧ d.vbuf_index = [] := by
    intro d hd
    simp only [Run.begun, initialised, List.mem_map] at hd
    obtain ⟨k, _, rfl⟩ := hd
    exact ⟨rfl, rfl⟩
  rw [scanned_nsend hclear]
  have hdec : (w.begun i).st.decomposition =
      ((loop_indices w.layout.length).flatMap (rank_block w.layout.length i)).map
        (domain_of (w.layout.flatMap (xbuf_py w.boxsize w.nc))) := by
    simp only [Run.begun, initialised, Run.proc, allgather_py]
    congr 2
    simp only [Int.toNat_ofNat]
    have hset : w.layout.set i
        { local_ix0 := (w.layout.getD i ⟨0, 0⟩).local_ix0,
          local_nx := (w.layout.getD i ⟨0, 0⟩).local_nx } = w.layout :=
      set_getD_self w.layout i ⟨0, 0⟩
    rw [hset]
  rw [hdec, filter_rank_map_domain_of,
    count_loop_ranks (by omega : (0 : Int) ≤ i) (by exact_mod_cast hi)]
  obtain ⟨hmin, hmax⟩ := fget_flatMap_pair (f := xbuf_py w.boxsize w.nc)
    (fun s => ⟨_, _, rfl⟩) w.layout j hj
  by_cases hij : i = j
  · subst hij
    simp
  · have hc : (0 : Int) ≤ (j : Int) ∧ (j : Int) < (w.layout.length : Int) ∧ (j : Int) ≠ (i : Int) := by
      refine ⟨by omega, by exact_mod_cast hj, ?_⟩
      exact_mod_cast (Ne.symm hij)
    rw [if_pos hc, if_pos hij]
    simp only [List.replicate_one, List.map_cons, List.map_nil, List.sum_cons, List.sum_nil,
      add_zero]
    have hxl : (w.begun i).st.x_left = x_left_of w.boxsize w.nc (w.layout.getD i ⟨0, 0⟩) := rfl
    have hxr : (w.begun i).st.x_right = x_right_of w.boxsize w.nc (w.layout.getD i ⟨0, 0⟩) :=
      rfl
    have hb : (w.begun i).particles.boxsize = w.boxsize := rfl
    have hp : (w.begun i).particles.p = w.parts.getD i [] := rfl
    rw [hxl, hxr, hb, hp, selected_length_of_le hle]
    have e1 : (domain_of (w.layout.flatMap (xbuf_py w.boxsize w.nc)) j).xbuf_min
        = fget (xbuf_py w.boxsize w.nc (w.layout.getD j ⟨0, 0⟩)) 0 := hmin
    have e2 : (domain_of (w.layout.flatMap (xbuf_py w.boxsize w.nc)) j).xbuf_max
        = fget (xbuf_py w.boxsize w.nc (w.layout.getD j ⟨0, 0⟩)) 1 := hmax
    rw [e1, e2]
    rfl

theorem wrapped_in_box (p : Particle) {boxsize : Rat} (hb : 0 < boxsize) :
    0 ≤ (periodic_wrapup_p p boxsize).x.c0 ∧ (periodic_wrapup_p p boxsize).x.c0 < boxsize := by
  have h1 := Int.sub_floor_div_mul_nonneg p.x.c0 hb
  have h2 := Int.sub_floor_div_mul_lt p.x.c0 hb
  simp only [periodic_wrapup_p]
  constructor
  · rw [mul_comm]; exact h1
  · rw [mul_comm]; exact h2

/-- With slabs that do not overlap and lie within the `nc` planes, a wrapped coordinate
inside the interval `[x_left, x_right]` of one node passes the interval test of no
other node. -/
theorem in_buffer_outside_interior {boxsize : Rat} {nc : Int} (hb : 0 < boxsize) (hnc : 0 < nc)
    (a b : Slab)
    (hdis : b.local_ix0 + b.local_nx ≤ a.local_ix0 ∨ a.local_ix0 + a.local_nx ≤ b.local_ix0)
    (ha : 0 ≤ a.local_ix0 ∧ a.local_ix0 + a.local_nx ≤ nc)
    (hbr : 0 ≤ b.local_ix0 ∧ b.local_ix0 + b.local_nx ≤ nc) (p : Particle)
    (hin : in_buffer boxsize nc b p = true) : outside_interior boxsize nc a p = true := by
  obtain ⟨hx0, hxL⟩ := wrapped_in_box p hb
  unfold in_buffer at hin
  unfold outside_interior
  generalize (periodic_wrapup_p p boxsize).x.c0 = x at hx0 hxL hin ⊢
  have hncq : (0 : Rat) < (nc : Rat) := by exact_mod_cast hnc
  have hh : 0 < boxsize / (nc : Rat) := div_pos hb hncq
  set h := boxsize / (nc : Rat) with hdef
  have hL : boxsize = h * (nc : Rat) := by rw [hdef]; field_simp
  have hlo : fget (xbuf_py boxsize nc b) 0 = h * ((b.local_ix0 : Rat) - 1) := by
    simp only [fget, xbuf_py, Int.toNat_zero, List.getD_cons_zero]
    rw [hdef]; push_cast; ring
  have hhi : fget (xbuf_py boxsize nc b) 1 = h * ((b.local_ix0 : Rat) + b.local_nx) := by
    simp only [fget, xbuf_py]
    rw [hdef]; push_cast
    show boxsize * ((b.local_ix0 : Rat) + b.local_nx) / (nc : Rat) = _
    ring
  have hxl : x_left_of boxsize nc a = h * ((a.local_ix0 : Rat) + 1) := by
    simp only [x_left_of]; push_cast; rfl
  have hxr : x_right_of boxsize nc a = h * ((a.local_ix0 : Rat) + a.local_nx - 1) := by
    simp only [x_right_of]; push_cast; rfl
  rw [hlo, hhi] at hin
  rw [hxl, hxr]
  by_contra hcon
  simp only [Bool.or_eq_true, decide_eq_true_eq, not_or, not_lt, gt_iff_lt] at hcon
  obtain ⟨c1, c2⟩ := hcon
  have ha0 : (0 : Rat) ≤ (a.local_ix0 : Rat) := by exact_mod_cast ha.1
  have ha1 : (a.local_ix0 : Rat) + a.local_nx ≤ (nc : Rat) := by exact_mod_cast ha.2
  have hb0 : (0 : Rat) ≤ (b.local_ix0 : Rat) := by exact_mod_cast hbr.1
  have hb1 : (b.local_ix0 : Rat) + b.local_nx ≤ (nc : Rat) := by exact_mod_cast hbr.2
  set t := x / h with ht
  have hx : x = h * t := by rw [ht]; field_simp
  rw [hx] at c1 c2 hin hx0
  rw [hx, hL] at hxL
  rw [hL] at hin
  have c1' := le_of_mul_le_mul_left c1 hh
  have c2' := le_of_mul_le_mul_left c2 hh
  have hxL' := lt_of_mul_lt_mul_left hxL (le_of_lt hh)
  have e1 : h * t - h * (nc : Rat) = h * (t - nc) := by ring
  have e2 : h * t + h * (nc : Rat) = h * (t + nc) := by ring
  rw [send_test_iff] at hin
  obtain ⟨y, hy, hy1, hy2⟩ := hin
  simp only [List.mem_cons, List.mem_singleton, List.not_mem_nil, or_false] at hy
  rcases hy with rfl | rfl | rfl
  · have d1 := lt_of_mul_lt_mul_left hy1 (le_of_lt hh)
    have d2 := lt_of_mul_lt_mul_left hy2 (le_of_lt hh)
    rcases hdis with hd | hd
    · have : (b.local_ix0 : Rat) + b.local_nx ≤ a.local_ix0 := by exact_mod_cast hd
      linarith
    · have : (a.local_ix0 : Rat) + a.local_nx ≤ b.local_ix0 := by exact_mod_cast hd
      linarith
  · rw [e1] at hy1 hy2
    have d1 := lt_of_mul_lt_mul_left hy1 (le_of_lt hh)
    linarith
  · rw [e2] at hy1 hy2
    have d2 := lt_of_mul_lt_mul_left hy2 (le_of_lt hh)
    have ht0 : 0 ≤ t := (mul_nonneg_iff_of_pos_left hh).1 hx0
    linarith

theorem x_left_le_x_right {boxsize : Rat} {nc : Int} (hb : 0 < boxsize) (hnc : 0 < nc)
    (s : Slab) (hnx : 2 ≤ s.local_nx) : x_left_of boxsize nc s ≤ x_right_of boxsize nc s := by
  unfold x_left_of x_right_of
  have hncq : (0 : Rat) < (nc : Rat) := by exact_mod_cast hnc
  apply mul_le_mul_of_nonneg_left _ (le_of_lt (div_pos hb hncq))
  exact_mod_cast (by omega : s.local_ix0 + 1 ≤ s.local_ix0 + s.local_nx - 1)

theorem getD_mem_of_lt (layout : List Slab) (i : Nat) (hi : i < layout.length) :
    layout.getD i ⟨0, 0⟩ ∈ layout := by
  rw [List.getD_eq_getElem?_getD, List.getElem?_eq_getElem hi]
  exact List.getElem_mem hi

/-- The number of ghost copies a node receives: for every slab layout in which every
node owns at least two planes (`boxsize > 0`, `nc > 0`) and every list of local
particles, after a collective `pm_domain_send_positions` that returns normally, each
process being at program start or set up by an earlier call, the number of ghost copies
a receiving node `j` holds (its counter `nbuf`) is the sum, over all other nodes `i`, of
the number of the wrapped particles of `i` that lie outside the interval
`[x_left, x_right]` of `i` and whose first coordinate `x`, or `x - boxsize` or
`x + boxsize`, falls in the buffer interval `(xbuf_min, xbuf_max)` of `j`; when moreover
the slabs do not overlap and lie within the `nc` planes, this is the number of all the
wrapped particles of the other nodes that fall in the buffer interval of `j`. -/
theorem ghost_copies_received (w : Run) (sts : Nat → State) (mem mem' : Mem)
    (procs' : List Proc) (hbox : 0 < w.boxsize) (hnc : 0 < w.nc)
    (hnx : ∀ s ∈ w.layout, 2 ≤ s.local_nx)
    (hready : ∀ r, r < w.layout.length → w.ready r (sts r))
    (h : exchange (w.procs_from sts) mem = .ok (procs', mem')) (j : Nat)
    (hj : j < w.layout.length) :
    mem'.nbuf j = ((other_ranks w.layout.length j).map fun i =>
        (((w.parts.getD i []).countP fun p =>
          outside_interior w.boxsize w.nc (w.layout.getD i ⟨0, 0⟩) p &&
            in_buffer w.boxsize w.nc (w.layout.getD j ⟨0, 0⟩) p : Nat) : Int)).sum ∧
    ((∀ s ∈ w.layout, 0 ≤ s.local_ix0 ∧ s.local_ix0 + s.local_nx ≤ w.nc) →
      (∀ i k : Nat, i < w.layout.length → k < w.layout.length → i ≠ k →
        (w.layout.getD k ⟨0, 0⟩).local_ix0 + (w.layout.getD k ⟨0, 0⟩).local_nx
            ≤ (w.layout.getD i ⟨0, 0⟩).local_ix0 ∨
          (w.layout.getD i ⟨0, 0⟩).local_ix0 + (w.layout.getD i ⟨0, 0⟩).local_nx
            ≤ (w.layout.getD k ⟨0, 0⟩).local_ix0) →
      mem'.nbuf j = ((other_ranks w.layout.length j).map fun i =>
        (((w.parts.getD i []).countP fun p =>
          in_buffer w.boxsize w.nc (w.layout.getD j ⟨0, 0⟩) p : Nat) : Int)).sum) := by
  have hmain : mem'.nbuf j = ((other_ranks w.layout.length j).map fun i =>
        (((w.parts.getD i []).countP fun p =>
          outside_interior w.boxsize w.nc (w.layout.getD i ⟨0, 0⟩) p &&
            in_buffer w.boxsize w.nc (w.layout.getD j ⟨0, 0⟩) p : Nat) : Int)).sum := by
    rw [exchange_counters w sts hready mem mem' procs' h j hj, ← sum_map_ite_ne]
    congr 1
    apply List.map_congr_left
    intro i hi
    rw [List.mem_range] at hi
    rw [appended_eq_count w i j hi hj
      (x_left_le_x_right hbox hnc _ (hnx _ (getD_mem_of_lt w.layout i hi)))]
  refine ⟨hmain, fun hrange hdis => ?_⟩
  rw [hmain]
  congr 1
  apply List.map_congr_left
  intro i hi
  simp only [other_ranks, List.mem_filter, List.mem_range, decide_eq_true_eq] at hi
  congr 1
  apply List.countP_congr
  intro p _
  have himp := in_buffer_outside_interior hbox hnc (w.layout.getD i ⟨0, 0⟩)
    (w.layout.getD j ⟨0, 0⟩) (hdis i j hi.1 hj hi.2)
    (hrange _ (getD_mem_of_lt w.layout i hi.1)) (hrange _ (getD_mem_of_lt w.layout j hj)) p
  constructor
  · intro hboth
    simp only [Bool.and_eq_true] at hboth
    exact hboth.2
  · intro hin
    simp only [Bool.and_eq_true]
    exact ⟨himp hin, hin⟩

/-- Two nodes, box of side 4, `nc = 4`, two planes each, rank 0 holds one particle at
`x = 3.9`; rank 1 receives exactly one copy. -/
theorem ghost_copies_received_witness :
    ∃ procs' mem', exchange two_node_run.procs Mem.zero = .ok (procs', mem') ∧
      mem'.nbuf 1 = 1 := by
  obtain ⟨⟨procs', mem'⟩, hok⟩ := exists_ok_of_outcome
    (r := exchange two_node_run.procs Mem.zero) (by decide!)
  refine ⟨procs', mem', hok, ?_⟩
  have h := (ghost_copies_received two_node_run (fun _ => State.initial) Mem.zero mem' procs'
    (by decide!) (by decide) (by decide) (fun _ _ => Or.inl rfl) hok 1 (by decide)).1
  rw [show ((1 : Nat) : Int) = 1 from rfl] at h
  rw [h]
  decide!

/-- C3, the code at the failing input: four nodes owning one plane each (`nc = 4`, box of
side 4), rank 1 holds one particle at `x = 1.5`.  The particle falls in the buffer
interval `(1, 3)` of rank 2, so the sum over the other nodes of the particles in the
buffer interval of rank 2 is 1; the exchange returns with the counter of rank 2 at 2,
because both tests of the particle loop hold on rank 1 (`x_left = 2 > x_right = 1`) and
`send` runs twice. -/
theorem thin_slab_ghost_counted_twice :
    received 2 (exchange four_thin_run.procs Mem.zero) = some 2 ∧
      ((other_ranks four_thin_run.layout.length 2).map fun i =>
        (((four_thin_run.parts.getD i []).countP fun p =>
          in_buffer four_thin_run.boxsize four_thin_run.nc
            (four_thin_run.layout.getD 2 ⟨0, 0⟩) p : Nat) : Int)).sum = 1 := by
  decide!

/-! ## The ledger locates the particles -/

theorem copy_indices_content {l : List Int} {st st' : State}
    (h : copy_indices l st = .ok st') :
    (∀ j : Int, j < st.nbuf_index → st'.buf_index j = st.buf_index j) ∧
      (∀ j : Int, st.nbuf_index + l.length ≤ j → st'.buf_index j = st.buf_index j) ∧
      ∀ k : Nat, k < l.length → st'.buf_index (st.nbuf_index + k) = l.getD k 0 := by
  induction l generalizing st with
  | nil =>
    simp only [copy_indices, Except.ok.injEq] at h
    subst h
    simp
  | cons a l ih =>
    unfold copy_indices at h
    split_ifs at h with hc
    obtain ⟨h1, h2, h3⟩ := ih h
    simp only at h1 h2 h3
    refine ⟨?_, ?_, ?_⟩
    · intro j hj
      rw [h1 j (by omega)]
      simp only [aset]
      rw [if_neg (by omega)]
    · intro j hj
      simp only [List.length_cons] at hj
      push_cast at hj
      rw [h2 j (by omega)]
      simp only [aset]
      rw [if_neg (by omega)]
    · intro k hk
      cases k with
      | zero =>
        simp only [Nat.cast_zero, add_zero, List.getD_cons_zero]
        rw [h1 _ (by omega)]
        simp [aset]
      | succ k =>
        simp only [List.length_cons, Nat.succ_lt_succ_iff] at hk
        have := h3 k hk
        simp only [List.getD_cons_succ]
        rw [← this]
        congr 1
        push_cast
        ring

/-- What a normal return of `send_packet` has written. -/
theorem send_packet_content {dom dom' : Domain} {st st' : State} {mem mem' : Mem}
    (h : send_packet dom st mem = .ok (dom', st', mem'))
    (hlen : dom.vbuf.length = 3 * dom.vbuf_index.length) :
    st'.nbuf_index = st.nbuf_index + dom.vbuf_index.length ∧
      (dom.vbuf_index.length : Int) = dom.nsend ∧
      (∀ j : Int, j < st.nbuf_index → st'.buf_index j = st.buf_index j) ∧
      (∀ j : Int, st.nbuf_index + dom.vbuf_index.length ≤ j →
        st'.buf_index j = st.buf_index j) ∧
      (∀ k : Nat, k < dom.vbuf_index.length →
        st'.buf_index (st.nbuf_index + k) = dom.vbuf_index.getD k 0) ∧
      (∀ (r j : Int), (r ≠ dom.rank ∨ j < 3 * mem.nbuf dom.rank ∨
          3 * mem.nbuf dom.rank + dom.vbuf.length ≤ j) →
        mem'.buf_pos r j = mem.buf_pos r j) ∧
      (∀ k : Nat, k < dom.vbuf.length →
        mem'.buf_pos dom.rank (3 * mem.nbuf dom.rank + k) = dom.vbuf.getD k 0) ∧
      st'.packets_sent = st.packets_sent ++
        (if dom.nsend = 0 then [] else
          [{ dest_rank := dom.rank, offset_index := st.nbuf_index, n := dom.nsend,
             offset := mem.nbuf dom.rank }]) := by
  have hns : (dom.vbuf_index.length : Int) = dom.nsend := by
    unfold Domain.nsend
    rw [hlen, Int.tdiv_eq_ediv (by omega) (by omega)]
    push_cast
    omega
  rcases send_packet_cases dom st mem with hc | ⟨_, h0, hc⟩ | ⟨_, hne, _, st1, hci, hc⟩
  · rw [hc] at h; simp at h
  · rw [hc] at h
    simp only [Except.ok.injEq, Prod.mk.injEq] at h
    obtain ⟨rfl, rfl, rfl⟩ := h
    have h0' : dom.nsend = 0 := h0
    have hl0 : dom.vbuf_index.length = 0 := by omega
    have hv0 : dom.vbuf.length = 0 := by omega
    refine ⟨by rw [hl0]; simp, hns, fun _ _ => rfl, fun _ _ => rfl, ?_, fun _ _ _ => rfl, ?_,
      by rw [if_pos h0']; simp⟩
    · intro k hk; omega
    · intro k hk; omega
  · rcases hc with ⟨_, hc⟩ | ⟨_, hc⟩
    · rw [hc] at h; simp at h
    · rw [hc] at h
      simp only [Except.ok.injEq, Prod.mk.injEq] at h
      obtain ⟨rfl, rfl, rfl⟩ := h
      have hst := copy_indices_ok hci
      obtain ⟨c1, c2, c3⟩ := copy_indices_content hci
      have hne' : ¬ dom.nsend = 0 := hne
      refine ⟨hst.1, hns, c1, c2, c3, ?_, ?_, ?_⟩
      · intro r j hj
        simp only [put_positions, get_accumulate, aset]
        by_cases hr : r = dom.rank
        · subst hr
          rw [if_pos rfl, if_neg]
          rcases hj with hj | hj | hj
          · exact absurd rfl hj
          · omega
          · omega
        · rw [if_neg hr]
      · intro k hk
        simp only [put_positions, get_accumulate, aset, if_true]
        rw [if_pos (by omega)]
        congr 1
        omega
      · rw [if_neg hne', hst.2.2.2.1]
        rfl

theorem send_packet_ledger {dom dom' : Domain} {st st' : State} {mem mem' : Mem}
    {ps : List Particle} (hok : ledger_ok st mem ps) (hd : dom.holds ps)
    (h : send_packet dom st mem = .ok (dom', st', mem')) : ledger_ok st' mem' ps := by
  obtain ⟨h0, hpw, hall, hcover⟩ := hok
  obtain ⟨hlen, hbatch⟩ := hd
  obtain ⟨e1, e2, e3, _, e5, e6, e7, e8⟩ := send_packet_content h hlen
  obtain ⟨_, _, _, _, hm⟩ := send_packet_ok h
  have hnn := nsend_nonneg dom
  have hold : ∀ pkt ∈ st.packets_sent, 0 ≤ pkt.offset_index ∧ 0 < pkt.n ∧
      pkt.offset_index + pkt.n ≤ st'.nbuf_index ∧
      pkt.offset + pkt.n ≤ mem'.nbuf pkt.dest_rank ∧
      pkt.located st'.buf_index mem'.buf_pos ps := by
    intro pkt hp
    obtain ⟨a1, a2, a3, a4, a5⟩ := hall pkt hp
    refine ⟨a1, a2, by rw [e1]; omega, ?_, ?_⟩
    · rw [hm]; split_ifs <;> omega
    · intro k hk
      obtain ⟨p, b1, b2, b3, b4, b5⟩ := a5 k hk
      have hidx : st'.buf_index (pkt.offset_index + k) = st.buf_index (pkt.offset_index + k) :=
        e3 _ (by omega)
      have hpos : ∀ c : Int, 0 ≤ c → c < 3 →
          mem'.buf_pos pkt.dest_rank (3 * (pkt.offset + k) + c)
            = mem.buf_pos pkt.dest_rank (3 * (pkt.offset + k) + c) := by
        intro c hc0 hc3
        apply e6
        by_cases hr : pkt.dest_rank = dom.rank
        · right; left
          rw [← hr]
          omega
        · left; exact hr
      refine ⟨p, by rw [hidx]; exact b1, by rw [hidx]; exact b2, ?_, ?_, ?_⟩
      · have := hpos 0 (by omega) (by omega)
        rw [add_zero] at this
        rw [this]; exact b3
      · rw [hpos 1 (by omega) (by omega)]; exact b4
      · rw [hpos 2 (by omega) (by omega)]; exact b5
  by_cases hz : dom.nsend = 0
  · rw [if_pos hz, List.append_nil] at e8
    have hl0 : (dom.vbuf_index.length : Int) = 0 := by rw [e2, hz]
    refine ⟨by rw [e1]; omega, by rw [e8]; exact hpw, by rw [e8]; exact hold, ?_⟩
    intro s
    rw [e8, e1, hl0, add_zero]
    exact hcover s
  · rw [if_neg hz] at e8
    have hpos : 0 < dom.nsend := by omega
    refine ⟨by rw [e1]; omega, ?_, ?_, ?_⟩
    · rw [e8, List.pairwise_append]
      refine ⟨hpw, List.pairwise_singleton _ _, ?_⟩
      intro a ha b hb
      rw [List.mem_singleton] at hb
      subst hb
      exact (hall a ha).2.2.1
    · intro pkt hp
      rw [e8, List.mem_append, List.mem_singleton] at hp
      rcases hp with hp | rfl
      · exact hold pkt hp
      · refine ⟨h0, hpos, by rw [e1, e2], ?_, ?_⟩
        · simp only
          rw [hm, if_pos rfl]
        · intro k hk
          simp only at hk ⊢
          have hk' : k < dom.vbuf_index.length := by omega
          obtain ⟨p, b1, b2, b3, b4, b5⟩ := hbatch k hk'
          have hi := e5 k hk'
          have hf : ∀ c : Nat, c < 3 →
              mem'.buf_pos dom.rank (3 * (mem.nbuf dom.rank + k) + c)
                = dom.vbuf.getD (3 * k + c) 0 := by
            intro c hc
            have := e7 (3 * k + c) (by omega)
            rw [← this]
            congr 1
            push_cast
            ring
          refine ⟨p, by rw [hi]; exact b1, by rw [hi]; exact b2, ?_, ?_, ?_⟩
          · have := hf 0 (by omega)
            simp only [Nat.cast_zero, add_zero] at this
            rw [this]; exact b3
          · have := hf 1 (by omega)
            simp only [Nat.cast_one] at this
            rw [this]; exact b4
          · have := hf 2 (by omega)
            simp only [Nat.cast_ofNat] at this
            rw [this]; exact b5
    · intro s
      rw [e8, e1, e2]
      constructor
      · intro hs
        by_cases hlt : s < st.nbuf_index
        · obtain ⟨pkt, hp, hps⟩ := (hcover s).1 ⟨hs.1, hlt⟩
          exact ⟨pkt, List.mem_append_left _ hp, hps⟩
        · exact ⟨_, List.mem_append_right _ (List.mem_singleton.2 rfl), by simp only; omega,
            by simp only; omega⟩
      · rintro ⟨pkt, hp, hps⟩
        rw [List.mem_append, List.mem_singleton] at hp
        rcases hp with hp | rfl
        · have := (hcover s).2 ⟨pkt, hp, hps⟩
          omega
        · simp only at hps
          omega

theorem flush_domains_ledger {ds ds' : List Domain} {st st' : State} {mem mem' : Mem}
    {ps : List Particle} (hok : ledger_ok st mem ps) (hd : ∀ d ∈ ds, d.holds ps)
    (h : flush_domains ds st mem = .ok (ds', st', mem')) : ledger_ok st' mem' ps := by
  induction ds generalizing ds' st st' mem mem' with
  | nil =>
    simp only [flush_domains, Except.ok.injEq, Prod.mk.injEq] at h
    obtain ⟨_, rfl, rfl⟩ := h
    exact hok
  | cons d ds ih =>
    unfold flush_domains at h
    cases h1 : send_packet d st mem with
    | error e => rw [h1] at h; simp at h
    | ok r1 =>
      obtain ⟨d1, st1, mem1⟩ := r1
      rw [h1] at h
      simp only at h
      cases h2 : flush_domains ds st1 mem1 with
      | error e => rw [h2] at h; simp at h
      | ok r2 =>
        obtain ⟨ds2, st2, mem2⟩ := r2
        rw [h2] at h
        simp only [Except.ok.injEq, Prod.mk.injEq] at h
        obtain ⟨_, rfl, rfl⟩ := h
        exact ih (send_packet_ledger hok (hd d (List.mem_cons_self _ _)) h1)
          (fun x hx => hd x (List.mem_cons_of_mem _ hx)) h2

theorem selected_single_mem (x_left x_right boxsize lo hi : Rat) (i : Int) (p : Particle) :
    ∀ c ∈ selected x_left x_right boxsize lo hi i [p],
      c = (i, (periodic_wrapup_p p boxsize).x) := by
  intro c hc
  simp only [selected, List.append_nil, List.mem_append] at hc
  rcases hc with hc | hc
  · split_ifs at hc
    · exact List.mem_singleton.1 hc
    · simp at hc
  · split_ifs at hc
    · exact List.mem_singleton.1 hc
    · simp at hc

theorem selected_getD (x_left x_right boxsize lo hi : Rat) (i : Int) (ps : List Particle)
    (m : Nat) (hm : m < (selected x_left x_right boxsize lo hi i ps).length) :
    ∃ k : Nat, ∃ hk : k < ps.length,
      (selected x_left x_right boxsize lo hi i ps)[m] =
        (i + k, (periodic_wrapup_p ps[k] boxsize).x) := by
  induction ps generalizing i m with
  | nil => simp [selected] at hm
  | cons p rest ih =>
    rw [selected_cons] at hm
    simp only [selected_cons x_left x_right boxsize lo hi i p rest]
    by_cases hlt : m < (selected x_left x_right boxsize lo hi i [p]).length
    · rw [List.getElem_append_left hlt]
      refine ⟨0, by simp, ?_⟩
      simp only [Nat.cast_zero, add_zero, List.getElem_cons_zero]
      exact selected_single_mem x_left x_right boxsize lo hi i p _ (List.getElem_mem hlt)
    · rw [List.getElem_append_right (by omega)]
      rw [List.length_append] at hm
      obtain ⟨k, hk, hkk⟩ := ih (i + 1) (m - (selected x_left x_right boxsize lo hi i [p]).length)
        (by omega)
      refine ⟨k + 1, by simp; omega, ?_⟩
      rw [hkk]
      simp only [List.getElem_cons_succ]
      congr 1
      push_cast
      ring

theorem flatMap_floats_getD (l : List (Int × Float3)) (k : Nat) (hk : k < l.length) :
    (l.flatMap fun c => [c.2.c0, c.2.c1, c.2.c2]).getD (3 * k) 0 = l[k].2.c0 ∧
      (l.flatMap fun c => [c.2.c0, c.2.c1, c.2.c2]).getD (3 * k + 1) 0 = l[k].2.c1 ∧
      (l.flatMap fun c => [c.2.c0, c.2.c1, c.2.c2]).getD (3 * k + 2) 0 = l[k].2.c2 := by
  induction l generalizing k with
  | nil => simp at hk
  | cons a l ih =>
    cases k with
    | zero => simp [List.flatMap_cons]
    | succ k =>
      have hk' : k < l.length := by simpa using hk
      obtain ⟨h1, h2, h3⟩ := ih k hk'
      have e1 : 3 * (k + 1) = 3 * k + 3 := by omega
      have e2 : 3 * (k + 1) + 1 = 3 * k + 1 + 3 := by omega
      have e3 : 3 * (k + 1) + 2 = 3 * k + 2 + 3 := by omega
      simp only [List.flatMap_cons, List.cons_append, List.nil_append, e1, e2, e3,
        List.getD_cons_succ, List.getElem_cons_succ]
      exact ⟨h1, h2, h3⟩

theorem flatMap_floats_length (l : List (Int × Float3)) :
    (l.flatMap fun c => [c.2.c0, c.2.c1, c.2.c2]).length = 3 * l.length := by
  induction l with
  | nil => rfl
  | cons a l ih =>
    simp only [List.flatMap_cons, List.length_append, ih, List.length_cons, List.length_nil]
    omega

/-- Every pending batch the particle loop hands to `packets_flush` pairs the wrapped
positions with the numbers of their particles. -/
theorem scanned_holds {st : State}
    (hclear : ∀ d ∈ st.decomposition, d.vbuf = [] ∧ d.vbuf_index = [])
    (particles : Particles) :
    ∀ d ∈ scanned st particles,
      d.holds (particles.p.map fun p => periodic_wrapup_p p particles.boxsize) := by
  intro d hd
  simp only [scanned, List.mem_map] at hd
  obtain ⟨d0, hd0, rfl⟩ := hd
  obtain ⟨hv, hvi⟩ := hclear d0 hd0
  set sel := selected st.x_left st.x_right particles.boxsize d0.xbuf_min d0.xbuf_max 0
    particles.p with hsel
  have h1 : (push_all d0 sel).vbuf = sel.flatMap fun c => [c.2.c0, c.2.c1, c.2.c2] := by
    simp [push_all, hv]
  have h2 : (push_all d0 sel).vbuf_index = sel.map Prod.fst := by
    simp [push_all, hvi]
  refine ⟨by rw [h1, h2, flatMap_floats_length, List.length_map], ?_⟩
  intro k hk
  rw [h2, List.length_map] at hk
  obtain ⟨j, hj, hjj⟩ := selected_getD st.x_left st.x_right particles.boxsize d0.xbuf_min
    d0.xbuf_max 0 particles.p k hk
  obtain ⟨f0, f1, f2⟩ := flatMap_floats_getD sel k hk
  have hidx : (sel.map Prod.fst).getD k 0 = (j : Int) := by
    rw [List.getD_eq_getElem?_getD, List.getElem?_map, List.getElem?_eq_getElem hk]
    simp only [Option.map_some', Option.getD_some]
    rw [hjj]
    simp
  refine ⟨periodic_wrapup_p particles.p[j] particles.boxsize, ?_, ?_, ?_, ?_, ?_⟩
  · rw [h2, hidx]; omega
  · rw [h2, hidx, Int.toNat_ofNat, List.getElem?_map, List.getElem?_eq_getElem hj]
    rfl
  · rw [h1, f0, hjj]
  · rw [h1, f1, hjj]
  · rw [h1, f2, hjj]

theorem send_positions_body_particles {st st' : State} {mem mem' : Mem}
    {particles ps' : Particles}
    (h : send_positions_body st mem particles = .ok (st', mem', ps')) :
    ps'.p = particles.p.map fun p => periodic_wrapup_p p particles.boxsize := by
  unfold send_positions_body at h
  rw [scan_particles_eq] at h
  simp only at h
  cases hf : packets_flush
      { st with decomposition := st.decomposition.map fun dom =>
          push_all dom (selected st.x_left st.x_right particles.boxsize dom.xbuf_min
            dom.xbuf_max 0 particles.p) } mem with
  | error e => rw [hf] at h; simp at h
  | ok r =>
    rw [hf] at h
    simp only [Except.ok.injEq, Prod.mk.injEq] at h
    obtain ⟨_, _, rfl⟩ := h
    rfl

/-- C11: with `Domain::push(i, x)` appending `x` to the position batch and `i` to the
index batch together, after `pm_domain_send_positions` every Packet of `packets_sent`
locates its particles: for every `k` with `0 <= k < n`, `buf_index[offset_index + k]`
is the number of a local particle, and the (wrapped) position of that particle is what
was written at slot `offset + k` of `buf_pos` of node `dest_rank`; the index ranges
`[offset_index, offset_index + n)` of the packets are pairwise disjoint and together
cover exactly `[0, nbuf_index)`. -/
theorem packets_locate_their_particles (env : Env) (st st' : State) (mem mem' : Mem)
    (particles ps' : Particles)
    (h : pm_domain_send_positions env st mem particles = .ok (st', mem', ps')) :
    (∀ pkt ∈ st'.packets_sent, pkt.located st'.buf_index mem'.buf_pos ps'.p) ∧
      List.Pairwise (fun a b : Packet =>
        a.offset_index + a.n ≤ b.offset_index ∨ b.offset_index + b.n ≤ a.offset_index)
        st'.packets_sent ∧
      ∀ s : Int, (0 ≤ s ∧ s < st'.nbuf_index) ↔
        ∃ pkt ∈ st'.packets_sent, pkt.offset_index ≤ s ∧ s < pkt.offset_index + pkt.n := by
  obtain ⟨st1, mem1, hb, hbody⟩ := pm_domain_send_positions_ok h
  obtain ⟨hp0, hn0, hclear, _⟩ := send_positions_begin_ok hb
  have hps := send_positions_body_particles hbody
  obtain ⟨ds', st2, hf, rfl⟩ := send_positions_body_ok hbody
  have hstart : ledger_ok { st1 with decomposition := scanned st1 particles } mem1 ps'.p := by
    refine ⟨by simp only [hn0]; exact le_refl 0, by simp only [hp0]; exact List.Pairwise.nil,
      by simp only [hp0]; intro pkt hp; simp at hp, ?_⟩
    intro s
    simp only [hn0, hp0, List.not_mem_nil, false_and, exists_false, iff_false]
    omega
  have hfin := flush_domains_ledger hstart
    (by rw [hps]; exact scanned_holds hclear particles) hf
  obtain ⟨_, f2, f3, f4⟩ := hfin
  exact ⟨fun pkt hp => (f3 pkt hp).2.2.2.2, f2.imp (fun hab => Or.inl hab), f4⟩

/-- C11 at a concrete input: two nodes, rank 0 sends its two particles to rank 1 in one
Packet, whose two index entries locate the two particles. -/
theorem packets_locate_their_particles_witness :
    ∃ st' mem' ps', pm_domain_send_positions (two_nodes 10) State.initial Mem.zero two_ghosts
        = .ok (st', mem', ps') ∧
      st'.packets_sent = [{ dest_rank := 1, offset_index := 0, n := 2, offset := 0 }] ∧
      ∀ pkt ∈ st'.packets_sent, pkt.located st'.buf_index mem'.buf_pos ps'.p := by
  obtain ⟨⟨st', mem', ps'⟩, hok⟩ := exists_ok_of_outcome
    (r := pm_domain_send_positions (two_nodes 10) State.initial Mem.zero two_ghosts)
    (by decide!)
  refine ⟨st', mem', ps', hok, ?_, (packets_locate_their_particles _ _ _ _ _ _ _ hok).1⟩
  have h : observed 1 (pm_domain_send_positions (two_nodes 10) State.initial Mem.zero
      two_ghosts) = some ([{ dest_rank := 1, offset_index := 0, n := 2, offset := 0 }],
        0, 1, 2) := by decide!
  rw [hok] at h
  simp only [observed, Option.some.injEq, Prod.mk.injEq] at h
  exact h.1

/-! ## Scatter-back of the forces -/

theorem float3_add_assoc (a b c : Float3) : (a.add b).add c = a.add (b.add c) := by
  simp only [Float3.add, Float3.mk.injEq]
  exact ⟨by ring, by ring, by ring⟩

theorem float3_add_zero (a : Float3) : a.add Float3.zero = a := by
  cases a
  simp [Float3.add, Float3.zero]

theorem float3_sum_nil : Float3.sum [] = Float3.zero := rfl

theorem float3_sum_cons (a : Float3) (l : List Float3) :
    Float3.sum (a :: l) = a.add (Float3.sum l) := by
  simp [Float3.sum, Float3.add]

theorem float3_sum_append (l m : List Float3) :
    Float3.sum (l ++ m) = (Float3.sum l).add (Float3.sum m) := by
  simp [Float3.sum, Float3.add]

theorem get_packet_force_eq (mem : Mem) (dest_rank offset i : Int) :
    get_packet_force mem dest_rank offset i =
      { c0 := mem.buf_force dest_rank (3 * (offset + i)),
        c1 := mem.buf_force dest_rank (3 * (offset + i) + 1),
        c2 := mem.buf_force dest_rank (3 * (offset + i) + 2) } := by
  have e : offset * 3 + 3 * i = 3 * (offset + i) := by ring
  simp only [get_packet_force, e]

/-- The forces one Packet assigns to local particle `j` over the counter values `l`. -/
theorem add_packet_forces_ok (st : State) (mem : Mem) (np_local : Int) (packet : Packet) :
    ∀ (l : List Int) (f : List Float3),
      (∀ i ∈ l, (0 ≤ packet.offset_index + i ∧ packet.offset_index + i < st.nbuf_index) ∧
        0 ≤ st.buf_index (packet.offset_index + i) ∧
        st.buf_index (packet.offset_index + i) < np_local) →
      ∃ f', add_packet_forces st mem np_local packet l f = .ok f' ∧ f'.length = f.length ∧
        ∀ j : Nat, j < f.length →
          f'.getD j Float3.zero = (f.getD j Float3.zero).add
            (Float3.sum ((l.filter fun i => st.buf_index (packet.offset_index + i) = (j : Int)).map
              (get_packet_force mem packet.dest_rank packet.offset))) := by
  intro l
  induction l with
  | nil =>
    intro f _
    refine ⟨f, rfl, rfl, fun j _ => ?_⟩
    simp [float3_sum_nil, float3_add_zero]
  | cons i rest ih =>
    intro f hr
    have hi := hr i (List.mem_cons_self _ _)
    obtain ⟨f', hf', hlen, hval⟩ := ih
      (f.set (st.buf_index (packet.offset_index + i)).toNat
        ((f.getD (st.buf_index (packet.offset_index + i)).toNat Float3.zero).add
          (get_packet_force mem packet.dest_rank packet.offset i)))
      (fun k hk => hr k (List.mem_cons_of_mem _ hk))
    refine ⟨f', ?_, by rw [hlen, List.length_set], fun j hj => ?_⟩
    · rw [add_packet_forces]
      simp only
      rw [if_neg (not_not.2 hi.1), if_neg (not_not.2 hi.2)]
      exact hf'
    · rw [hval j (by rw [List.length_set]; exact hj)]
      by_cases hc : st.buf_index (packet.offset_index + i) = (j : Int)
      · have ht : (st.buf_index (packet.offset_index + i)).toNat = j := by omega
        rw [List.filter_cons, if_pos (by simpa using hc), List.map_cons, float3_sum_cons,
          ← float3_add_assoc, ht]
        congr 1
        rw [List.getD_eq_getElem?_getD, List.getElem?_set_self hj]
        rfl
      · have ht : (st.buf_index (packet.offset_index + i)).toNat ≠ j := by omega
        rw [List.filter_cons, if_neg (by simpa using hc)]
        congr 1
        rw [List.getD_eq_getElem?_getD, List.getElem?_set_ne ht, ← List.getD_eq_getElem?_getD]

theorem mem_counter_values {n i : Int} (h : i ∈ counter_values n) : 0 ≤ i ∧ i < n := by
  simp only [counter_values, List.mem_map, List.mem_range] at h
  obtain ⟨k, hk, rfl⟩ := h
  omega

/-- The loop over the ledger adds, for each local particle, the forces of all Packets. -/
theorem get_forces_loop_ok (st : State) (mem : Mem) (np_local : Int) :
    ∀ (l : List Packet) (f : List Float3),
      (∀ pkt ∈ l, ∀ k : Int, 0 ≤ k → k < pkt.n →
        (0 ≤ pkt.offset_index + k ∧ pkt.offset_index + k < st.nbuf_index) ∧
        0 ≤ st.buf_index (pkt.offset_index + k) ∧
        st.buf_index (pkt.offset_index + k) < np_local) →
      ∃ f', get_forces_loop st mem np_local l f = .ok f' ∧ f'.length = f.length ∧
        ∀ j : Nat, j < f.length →
          f'.getD j Float3.zero = (f.getD j Float3.zero).add
            (Float3.sum (l.flatMap fun pkt =>
              ((counter_values pkt.n).filter fun k =>
                st.buf_index (pkt.offset_index + k) = (j : Int)).map
                (get_packet_force mem pkt.dest_rank pkt.offset))) := by
  intro l
  induction l with
  | nil =>
    intro f _
    refine ⟨f, rfl, rfl, fun j _ => ?_⟩
    simp [float3_sum_nil, float3_add_zero]
  | cons pkt rest ih =>
    intro f hr
    obtain ⟨f1, h1, hl1, hv1⟩ := add_packet_forces_ok st mem np_local pkt
      (counter_values pkt.n) f
      (fun i hi => hr pkt (List.mem_cons_self _ _) i (mem_counter_values hi).1
        (mem_counter_values hi).2)
    obtain ⟨f', h2, hl2, hv2⟩ := ih f1 (fun p hp => hr p (List.mem_cons_of_mem _ hp))
    refine ⟨f', ?_, by rw [hl2, hl1], fun j hj => ?_⟩
    · rw [get_forces_loop, h1]
      exact h2
    · rw [hv2 j (by rw [hl1]; exact hj), hv1 j hj, float3_add_assoc, List.flatMap_cons,
        float3_sum_append]

theorem scattered_eq (st : State) (mem : Mem) (j : Int) :
    scattered st mem j = st.packets_sent.flatMap fun pkt =>
      ((counter_values pkt.n).filter fun k =>
        st.buf_index (pkt.offset_index + k) = j).map
        (get_packet_force mem pkt.dest_rank pkt.offset) := by
  unfold scattered
  congr 1
  funext pkt
  congr 1
  funext k
  exact (get_packet_force_eq mem pkt.dest_rank pkt.offset k).symm

/-- What `pm_domain_get_forces` returns when the ledger refers to entries of the index
buffer that hold numbers of local particles. -/
theorem pm_domain_get_forces_ok (st : State) (mem : Mem) (particles : Particles)
    (hrange : ∀ pkt ∈ st.packets_sent, ∀ k : Int, 0 ≤ k → k < pkt.n →
      (0 ≤ pkt.offset_index + k ∧ pkt.offset_index + k < st.nbuf_index) ∧
      0 ≤ st.buf_index (pkt.offset_index + k) ∧
      st.buf_index (pkt.offset_index + k) < particles.p.length) :
    ∃ f', pm_domain_get_forces st mem particles = .ok (st, { particles with force := f' }) ∧
      f'.length = particles.force.length ∧
      ∀ j : Nat, j < particles.force.length →
        f'.getD j Float3.zero =
          (particles.force.getD j Float3.zero).add (Float3.sum (scattered st mem j)) := by
  obtain ⟨f', h, hl, hv⟩ := get_forces_loop_ok st mem particles.p.length st.packets_sent
    particles.force hrange
  refine ⟨f', ?_, hl, fun j hj => ?_⟩
  · rw [pm_domain_get_forces, h]
  · rw [hv j hj, scattered_eq]

theorem scattered_nil_of_not_ghosted (st : State) (mem : Mem) (j : Int)
    (h : ∀ pkt ∈ st.packets_sent, ∀ k : Int, 0 ≤ k → k < pkt.n →
      st.buf_index (pkt.offset_index + k) ≠ j) :
    scattered st mem j = [] := by
  unfold scattered
  rw [List.flatMap_eq_nil_iff]
  intro pkt hp
  rw [List.map_eq_nil_iff, List.filter_eq_nil_iff]
  intro k hk
  simpa using h pkt hp k (mem_counter_values hk).1 (mem_counter_values hk).2

/-- C12: when every Packet of the ledger refers to entries of the index buffer below
`nbuf_index` that hold numbers of local particles, `pm_domain_get_forces` returns,
changes nothing but the forces, and leaves each local particle `j` with
`force[j] = (force[j] before the call) + ` the sum, over every Packet and every `k < n`
with `buf_index[offset_index + k] = j`, of the force stored at slot `offset + k` of
`buf_force` of node `dest_rank`; the force of a particle to which no entry of a Packet
refers is unchanged. -/
theorem get_forces_adds_scattered_forces (st : State) (mem : Mem) (particles : Particles)
    (hrange : ∀ pkt ∈ st.packets_sent, ∀ k : Int, 0 ≤ k → k < pkt.n →
      (0 ≤ pkt.offset_index + k ∧ pkt.offset_index + k < st.nbuf_index) ∧
      0 ≤ st.buf_index (pkt.offset_index + k) ∧
      st.buf_index (pkt.offset_index + k) < particles.p.length) :
    ∃ ps', pm_domain_get_forces st mem particles = .ok (st, ps') ∧
      ps'.p = particles.p ∧ ps'.force.length = particles.force.length ∧
      ∀ j : Nat, j < particles.force.length →
        ps'.force.getD j Float3.zero =
            (particles.force.getD j Float3.zero).add (Float3.sum (scattered st mem j)) ∧
          ((∀ pkt ∈ st.packets_sent, ∀ k : Int, 0 ≤ k → k < pkt.n →
              st.buf_index (pkt.offset_index + k) ≠ (j : Int)) →
            ps'.force.getD j Float3.zero = particles.force.getD j Float3.zero) := by
  obtain ⟨f', h, hl, hv⟩ := pm_domain_get_forces_ok st mem particles hrange
  refine ⟨{ particles with force := f' }, h, rfl, hl, fun j hj => ⟨hv j hj, fun hn => ?_⟩⟩
  simp only
  rw [hv j hj, scattered_nil_of_not_ghosted st mem j hn, float3_sum_nil, float3_add_zero]

theorem ledger_state_range :
    ∀ pkt ∈ ledger_state.packets_sent, ∀ k : Int, 0 ≤ k → k < pkt.n →
      (0 ≤ pkt.offset_index + k ∧ pkt.offset_index + k < ledger_state.nbuf_index) ∧
      0 ≤ ledger_state.buf_index (pkt.offset_index + k) ∧
      ledger_state.buf_index (pkt.offset_index + k) < three_forces.p.length := by
  intro pkt hp k h0 hn
  simp only [ledger_state, State.initial, List.mem_singleton] at hp
  subst hp
  simp only [ledger_state, State.initial, three_forces, List.length_cons, List.length_nil]
    at hn ⊢
  refine ⟨⟨by omega, by omega⟩, ?_, ?_⟩ <;> split_ifs <;> simp

/-- C12 at a concrete input: the ledger holds one Packet of two particles for rank 1,
whose force buffer holds `(1, 2, 3)` and `(4, 5, 6)`; particle 0 ends with
`(11, 2, 3)`, particle 2, which was not sent, keeps `(30, 0, 0)`. -/
theorem get_forces_adds_scattered_forces_witness :
    ∃ ps', pm_domain_get_forces ledger_state force_mem three_forces
        = .ok (ledger_state, ps') ∧
      ps'.force.getD 0 Float3.zero = { c0 := 11, c1 := 2, c2 := 3 } ∧
      ps'.force.getD 2 Float3.zero = { c0 := 30, c1 := 0, c2 := 0 } := by
  obtain ⟨ps', h, _, _, hv⟩ :=
    get_forces_adds_scattered_forces ledger_state force_mem three_forces ledger_state_range
  refine ⟨ps', h, ?_, ?_⟩
  · rw [(hv 0 (by decide)).1]
    decide!
  · rw [(hv 2 (by decide)).1]
    decide!

/-! ## The ledger after the scatter-back -/

/-- A normal return of `pm_domain_get_forces` returns the file-scope state it found. -/
theorem pm_domain_get_forces_state {st st' : State} {mem : Mem} {particles ps' : Particles}
    (h : pm_domain_get_forces st mem particles = .ok (st', ps')) :
    st' = st ∧ ps'.p = particles.p := by
  unfold pm_domain_get_forces at h
  cases hl : get_forces_loop st mem particles.p.length st.packets_sent particles.force with
  | error e => rw [hl] at h; simp at h
  | ok f =>
    rw [hl] at h
    simp only [Except.ok.injEq, Prod.mk.injEq] at h
    obtain ⟨rfl, rfl⟩ := h
    exact ⟨rfl, rfl⟩

/-- C13, counterexample: the ledger holds one Packet of two particles for rank 1, whose
force buffer holds `(1, 2, 3)` and `(4, 5, 6)`.  After `pm_domain_get_forces` the ledger
still holds the Packet, and a second call adds the two forces once more. -/
theorem ledger_kept_after_get_forces :
    forces_after (pm_domain_get_forces ledger_state force_mem three_forces) =
        some ([{ dest_rank := 1, offset_index := 0, n := 2, offset := 0 }],
          [⟨11, 2, 3⟩, ⟨24, 5, 6⟩, ⟨30, 0, 0⟩]) ∧
      forces_after (get_forces_twice ledger_state force_mem three_forces) =
        some ([{ dest_rank := 1, offset_index := 0, n := 2, offset := 0 }],
          [⟨12, 4, 6⟩, ⟨28, 10, 12⟩, ⟨30, 0, 0⟩]) := by
  constructor <;> decide!

/-- C13, amended: `pm_domain_get_forces` leaves the ledger `packets_sent` as it found
it; when every Packet refers to entries of the index buffer that hold numbers of local
particles, a second call in the same step returns as well and adds the same forces once
more, so that each local particle `j` ends with its force before the first call plus
twice the sum of the forces the ledger assigns to it.  The ledger is emptied by the next
`pm_domain_send_positions`, before its first fence. -/
theorem ledger_cleared_by_next_send_only (st : State) (mem : Mem) (particles : Particles)
    (hrange : ∀ pkt ∈ st.packets_sent, ∀ k : Int, 0 ≤ k → k < pkt.n →
      (0 ≤ pkt.offset_index + k ∧ pkt.offset_index + k < st.nbuf_index) ∧
      0 ≤ st.buf_index (pkt.offset_index + k) ∧
      st.buf_index (pkt.offset_index + k) < particles.p.length) :
    (∃ st' ps', pm_domain_get_forces st mem particles = .ok (st', ps') ∧
      st'.packets_sent = st.packets_sent ∧
      ∃ st'' ps'', pm_domain_get_forces st' mem ps' = .ok (st'', ps'') ∧
        st''.packets_sent = st.packets_sent ∧
        ∀ j : Nat, j < particles.force.length →
          ps''.force.getD j Float3.zero =
            ((particles.force.getD j Float3.zero).add (Float3.sum (scattered st mem j))).add
              (Float3.sum (scattered st mem j))) ∧
      ∀ (env : Env) (mem0 : Mem) (next : Particles) (st1 : State) (mem1 : Mem),
        send_positions_begin env st mem0 next = .ok (st1, mem1) → st1.packets_sent = [] := by
  constructor
  · obtain ⟨f1, h1, hl1, hv1⟩ := pm_domain_get_forces_ok st mem particles hrange
    obtain ⟨f2, h2, _, hv2⟩ := pm_domain_get_forces_ok st mem { particles with force := f1 }
      hrange
    refine ⟨st, _, h1, rfl, st, _, h2, rfl, fun j hj => ?_⟩
    simp only at hv2 ⊢
    rw [hv2 j (by rw [hl1]; exact hj), hv1 j hj]
  · intro env mem0 next st1 mem1 h
    exact (send_positions_begin_ok h).1

/-- C13 amended, at a concrete input: after two calls on the ledger of one Packet the
force of particle 0 is `(10, 0, 0)` plus twice `(1, 2, 3)`. -/
theorem ledger_cleared_by_next_send_only_witness :
    ∃ st' ps', get_forces_twice ledger_state force_mem three_forces = .ok (st', ps') ∧
      st'.packets_sent = ledger_state.packets_sent ∧
      ps'.force.getD 0 Float3.zero = { c0 := 12, c1 := 4, c2 := 6 } := by
  obtain ⟨st', ps', h1, _, st'', ps'', h2, hp, hv⟩ :=
    (ledger_cleared_by_next_send_only ledger_state force_mem three_forces
      ledger_state_range).1
  refine ⟨st'', ps'', ?_, hp, ?_⟩
  · rw [get_forces_twice, h1]
    exact h2
  · rw [hv 0 (by decide)]
    decide!

/-! ## The index buffer -/

/-- What a normal return of `send_packet` has done to the index buffer. -/
theorem send_packet_index {dom dom' : Domain} {st st' : State} {mem mem' : Mem}
    (h : send_packet dom st mem = .ok (dom', st', mem'))
    (hlen : dom.vbuf.length = 3 * dom.vbuf_index.length) :
    st'.nbuf_index_alloc = st.nbuf_index_alloc ∧
      st'.nbuf_index = st.nbuf_index + dom.nsend ∧
      (dom.nsend = 0 ∨ (0 ≤ st.nbuf_index ∧ st'.nbuf_index < st.nbuf_index_alloc)) ∧
      (∀ j : Int, (j < st.nbuf_index ∨ st'.nbuf_index ≤ j) →
        st'.buf_index j = st.buf_index j) ∧
      (st'.packets_sent.map Packet.n).sum = (st.packets_sent.map Packet.n).sum + dom.nsend := by
  obtain ⟨e1, e2, e3, e4, _, _, _, e8⟩ := send_packet_content h hlen
  have hsum : (st'.packets_sent.map Packet.n).sum
      = (st.packets_sent.map Packet.n).sum + dom.nsend := by
    rw [e8]
    by_cases h0 : dom.nsend = 0
    · rw [if_pos h0, h0]; simp
    · rw [if_neg h0]; simp
  have hfr : ∀ j : Int, (j < st.nbuf_index ∨ st'.nbuf_index ≤ j) →
      st'.buf_index j = st.buf_index j := by
    intro j hj
    rcases hj with hj | hj
    · exact e3 j hj
    · exact e4 j (by omega)
  rcases send_packet_cases dom st mem with hc | ⟨_, h0, hc⟩ | ⟨_, hne, ha, st1, hci, hc⟩
  · rw [hc] at h; simp at h
  · rw [hc] at h
    simp only [Except.ok.injEq, Prod.mk.injEq] at h
    obtain ⟨rfl, rfl, rfl⟩ := h
    have h0' : dom.nsend = 0 := h0
    exact ⟨rfl, by omega, Or.inl h0', hfr, hsum⟩
  · rcases hc with ⟨_, hc⟩ | ⟨_, hc⟩
    · rw [hc] at h; simp at h
    · rw [hc] at h
      simp only [Except.ok.injEq, Prod.mk.injEq] at h
      obtain ⟨rfl, rfl, rfl⟩ := h
      have hst := copy_indices_ok hci
      have hns : dom.nsend = (dom.vbuf.length : Int).tdiv 3 := rfl
      refine ⟨hst.2.2.1, by omega, Or.inr ⟨ha.1, ?_⟩, hfr, hsum⟩
      simp only at e1 ⊢
      omega

/-- What a normal return of the flush has done to the index buffer. -/
theorem flush_domains_index {ds ds' : List Domain} {st st' : State} {mem mem' : Mem}
    (hd : ∀ d ∈ ds, d.vbuf.length = 3 * d.vbuf_index.length)
    (h : flush_domains ds st mem = .ok (ds', st', mem')) :
    st'.nbuf_index_alloc = st.nbuf_index_alloc ∧
      st'.nbuf_index = st.nbuf_index + (ds.map Domain.nsend).sum ∧
      (st'.nbuf_index = st.nbuf_index ∨
        (0 ≤ st.nbuf_index ∧ st'.nbuf_index < st.nbuf_index_alloc)) ∧
      (∀ j : Int, (j < st.nbuf_index ∨ st'.nbuf_index ≤ j) →
        st'.buf_index j = st.buf_index j) ∧
      (st'.packets_sent.map Packet.n).sum
        = (st.packets_sent.map Packet.n).sum + (ds.map Domain.nsend).sum := by
  induction ds generalizing ds' st st' mem mem' with
  | nil =>
    simp only [flush_domains, Except.ok.injEq, Prod.mk.injEq] at h
    obtain ⟨_, rfl, rfl⟩ := h
    simp
  | cons d ds ih =>
    unfold flush_domains at h
    cases h1 : send_packet d st mem with
    | error e => rw [h1] at h; simp at h
    | ok r1 =>
      obtain ⟨d1, st1, mem1⟩ := r1
      rw [h1] at h
      simp only at h
      cases h2 : flush_domains ds st1 mem1 with
      | error e => rw [h2] at h; simp at h
      | ok r2 =>
        obtain ⟨ds2, st2, mem2⟩ := r2
        rw [h2] at h
        simp only [Except.ok.injEq, Prod.mk.injEq] at h
        obtain ⟨_, rfl, rfl⟩ := h
        obtain ⟨a1, a2, a3, a4, a5⟩ := send_packet_index h1 (hd d (List.mem_cons_self _ _))
        obtain ⟨b1, b2, b3, b4, b5⟩ := ih (fun x hx => hd x (List.mem_cons_of_mem _ hx)) h2
        have hn := nsend_nonneg d
        have hns : ∀ l : List Domain, 0 ≤ (l.map Domain.nsend).sum := by
          intro l
          induction l with
          | nil => simp
          | cons x l ihl =>
            have := nsend_nonneg x
            simp only [List.map_cons, List.sum_cons]
            omega
        have hn2 := hns ds
        simp only [List.map_cons, List.sum_cons]
        refine ⟨by rw [b1, a1], by omega, ?_, ?_, by omega⟩
        · rcases a3 with a3 | a3
          · rcases b3 with b3 | b3
            · left; omega
            · right; rw [← a1]; omega
          · rcases b3 with b3 | b3
            · right; omega
            · right; rw [← a1]; omega
        · intro j hj
          rw [b4 j (by omega), a4 j (by omega)]

/-- The index buffer of a first call of `pm_domain_init` holds `np_allocated` entries. -/
theorem pm_domain_init_index_alloc {env : Env} {st st1 : State} {particles : Particles}
    (hf : st.fft = none) (h : pm_domain_init env st particles = .ok st1) :
    st1.nbuf_index_alloc = particles.np_allocated ∧ st1.buf_index = st.buf_index := by
  unfold pm_domain_init at h
  cases hfft : env.pm_fft with
  | none => rw [hfft] at h; simp at h
  | some fft =>
    rw [hfft] at h
    simp only at h
    rw [if_neg (by rw [hf]; simp)] at h
    unfold allocate_pm_buffer at h
    simp only at h
    split_ifs at h with hc ha
    simp only at h
    cases hd : allocate_decomposition env fft.nc particles.boxsize fft.local_ix0
        fft.local_nx with
    | error e => rw [hd] at h; simp at h
    | ok dec =>
      rw [hd] at h
      simp only [Except.ok.injEq] at h
      subst h
      exact ⟨rfl, rfl⟩

theorem pm_domain_init_buf_index {env : Env} {st st1 : State} {particles : Particles}
    (h : pm_domain_init env st particles = .ok st1) : st1.buf_index = st.buf_index := by
  unfold pm_domain_init at h
  cases hfft : env.pm_fft with
  | none => rw [hfft] at h; simp at h
  | some fft =>
    rw [hfft] at h
    simp only at h
    by_cases hs : st.fft = some fft
    · rw [if_pos hs] at h
      simp only [Except.ok.injEq] at h
      rw [h]
    · rw [if_neg hs] at h
      unfold allocate_pm_buffer at h
      simp only at h
      split_ifs at h with hc ha
      simp only at h
      cases hd : allocate_decomposition env fft.nc particles.boxsize fft.local_ix0
          fft.local_nx with
      | error e => rw [hd] at h; simp at h
      | ok dec =>
        rw [hd] at h
        simp only [Except.ok.injEq] at h
        subst h
        rfl

theorem send_positions_begin_index {env : Env} {st st1 : State} {mem mem1 : Mem}
    {particles : Particles} (h : send_positions_begin env st mem particles = .ok (st1, mem1)) :
    st1.buf_index = st.buf_index ∧
      (st.fft = none → st1.nbuf_index_alloc = particles.np_allocated) := by
  unfold send_positions_begin at h
  cases hi : pm_domain_init env st particles with
  | error e => rw [hi] at h; simp at h
  | ok sti =>
    rw [hi] at h
    simp only [Except.ok.injEq, Prod.mk.injEq] at h
    obtain ⟨rfl, rfl⟩ := h
    have e1 := pm_domain_init_buf_index hi
    exact ⟨e1, fun hf => (pm_domain_init_index_alloc hf hi).1⟩

/-- C14, the code at the failing inputs: three nodes of two planes each, rank 0 holds one
particle at `x = 3.5` in an array allocated for two (`np_local = 1 < np_allocated = 2`).  The
particle lies in the buffer intervals `(1, 4)` of rank 1 and `(3, 6)` of rank 2, so two
index entries are due, and the assertion of the second `send_packet` fails.  With two
nodes of two planes each, one particle of rank 0 at `x = 1.5`, inside its slab and in the
buffer interval `(1, 4)` of rank 1, and `np_allocated = 1`, the assertion of the first
`send_packet` fails. -/
theorem index_assertion_fails_within_allocation :
    (one_of_two.p.length : Int) < one_of_two.np_allocated ∧
      outcome (pm_domain_send_positions three_nodes State.initial Mem.zero one_of_two)
        = some .AssertionFailed ∧
      (one_of_one.p.length : Int) ≤ one_of_one.np_allocated ∧
      outcome (pm_domain_send_positions (two_nodes 10) State.initial Mem.zero one_of_one)
        = some .AssertionFailed := by
  refine ⟨by decide, by decide!, by decide, by decide!⟩

/-- The index buffer on a normal return: when `pm_domain_send_positions` returns
normally, the number of index entries written, which is the final `nbuf_index` and the sum of the counts `n` of the
Packets of the ledger, is zero or below `nbuf_index_alloc`; `buf_index` is changed only
at positions `j` with `0 <= j < nbuf_index`, hence inside the array; and on the first
call (`fft` not yet set) `nbuf_index_alloc` is `np_allocated`. -/
theorem index_entries_below_allocation_on_return (env : Env) (st st' : State)
    (mem mem' : Mem) (particles ps' : Particles)
    (h : pm_domain_send_positions env st mem particles = .ok (st', mem', ps')) :
    st'.nbuf_index = (st'.packets_sent.map Packet.n).sum ∧
      (st'.nbuf_index = 0 ∨ (0 < st'.nbuf_index ∧ st'.nbuf_index < st'.nbuf_index_alloc)) ∧
      (∀ j : Int, st'.buf_index j ≠ st.buf_index j →
        0 ≤ j ∧ j < st'.nbuf_index ∧ j < st'.nbuf_index_alloc) ∧
      (st.fft = none → st'.nbuf_index_alloc = particles.np_allocated) := by
  obtain ⟨st1, mem1, hb, hbody⟩ := pm_domain_send_positions_ok h
  obtain ⟨hp0, hn0, hclear, _⟩ := send_positions_begin_ok hb
  obtain ⟨hbi, hal⟩ := send_positions_begin_index hb
  obtain ⟨ds', st2, hf, rfl⟩ := send_positions_body_ok hbody
  have hlen : ∀ d ∈ scanned st1 particles, d.vbuf.length = 3 * d.vbuf_index.length :=
    fun d hd => (scanned_holds hclear particles d hd).1
  obtain ⟨a1, a2, a3, a4, a5⟩ := flush_domains_index hlen hf
  simp only [hn0, hp0, List.map_nil, List.sum_nil, zero_add] at a1 a2 a3 a4 a5
  simp only
  have hnn : 0 ≤ st2.nbuf_index := by
    rcases a3 with a3 | a3
    · omega
    · rw [a2]
      have : ∀ l : List Domain, 0 ≤ (l.map Domain.nsend).sum := by
        intro l
        induction l with
        | nil => simp
        | cons x l ihl =>
          have := nsend_nonneg x
          simp only [List.map_cons, List.sum_cons]
          omega
      exact this _
  refine ⟨by rw [a5, a2], ?_, ?_, fun hfn => by rw [a1]; exact hal hfn⟩
  · rcases a3 with a3 | a3
    · exact Or.inl a3
    · rcases hnn.eq_or_lt with h0 | h0
      · exact Or.inl h0.symm
      · exact Or.inr ⟨h0, by rw [a1]; exact a3.2⟩
  · intro j hj
    by_contra hcon
    apply hj
    rw [← hbi]
    apply a4
    rcases a3 with a3 | a3
    · rw [a3]; omega
    · rw [a1] at hcon; omega

/-- The index buffer at a concrete input: two nodes, two particles sent to rank 1 from an
array allocated for ten; two index entries are written, below the allocation. -/
theorem index_entries_below_allocation_on_return_witness :
    ∃ st' mem' ps', pm_domain_send_positions (two_nodes 10) State.initial Mem.zero two_ghosts
        = .ok (st', mem', ps') ∧
      st'.nbuf_index = (st'.packets_sent.map Packet.n).sum ∧
      st'.nbuf_index_alloc = 10 := by
  obtain ⟨⟨st', mem', ps'⟩, hok⟩ := exists_ok_of_outcome
    (r := pm_domain_send_positions (two_nodes 10) State.initial Mem.zero two_ghosts)
    (by decide!)
  obtain ⟨h1, _, _, h4⟩ :=
    index_entries_below_allocation_on_return _ _ _ _ _ _ _ hok
  exact ⟨st', mem', ps', hok, h1, h4 rfl⟩

/-! ## The CIC weights and cell indices -/

theorem to_int_of_nonneg {x : Rat} (h : 0 ≤ x) : to_int x = ⌊x⌋ := by
  unfold to_int
  rw [if_pos h]

theorem to_int32_of_range {n : Int} (h0 : -(2 ^ 31) ≤ n) (h1 : n < 2 ^ 31) : to_int32 n = n := by
  unfold to_int32
  omega

theorem to_int32_to_size_t {n : Int} (h0 : -(2 ^ 31) ≤ n) (h1 : n < 2 ^ 31) :
    to_int32 (to_size_t n) = n := by
  unfold to_int32 to_size_t
  omega

theorem cic_weights_of_nonneg {x : Rat} (h : 0 ≤ x) :
    cic_weights x = (1 - (x - (⌊x⌋ : Int)), x - (⌊x⌋ : Int)) := by
  unfold cic_weights
  simp only [to_int_of_nonneg h]

theorem cic_weights_range {x : Rat} (h : 0 ≤ x) :
    (0 ≤ (cic_weights x).1 ∧ (cic_weights x).1 ≤ 1) ∧
      (0 ≤ (cic_weights x).2 ∧ (cic_weights x).2 ≤ 1) ∧
      (cic_weights x).1 + (cic_weights x).2 = 1 := by
  rw [cic_weights_of_nonneg h]
  have h1 := Int.floor_le x
  have h2 := Int.lt_floor_add_one x
  simp only
  refine ⟨⟨by linarith, by linarith⟩, ⟨by linarith, by linarith⟩, by ring⟩

theorem mul3_unit {a b c : Rat} (ha : 0 ≤ a ∧ a ≤ 1) (hb : 0 ≤ b ∧ b ≤ 1)
    (hc : 0 ≤ c ∧ c ≤ 1) : 0 ≤ a * b * c ∧ a * b * c ≤ 1 := by
  have hab : 0 ≤ a * b := mul_nonneg ha.1 hb.1
  have hab1 : a * b ≤ 1 := by nlinarith [ha.1, ha.2, hb.1, hb.2]
  exact ⟨mul_nonneg hab hc.1, by nlinarith [hc.1, hc.2]⟩

/-- C15: in exact arithmetic, for non-negative mesh-unit coordinates `(x, y, z)` the
weights of `pm_assign_cic_density` and `force_at_particle_locations` are
`wx1 = x - floor(x)`, `wx0 = 1 - wx1` (likewise for `y`, `z`), and the eight corner
weights `w_x * w_y * w_z` each lie in `[0, 1]` and sum to exactly 1; a coordinate on a
cell boundary has `wx1 = 0`, `wx0 = 1`. -/
theorem cic_corner_weights_sum_to_one (x y z : Rat) (hx : 0 ≤ x) (hy : 0 ≤ y) (hz : 0 ≤ z) :
    cic_weights x = (1 - (x - (⌊x⌋ : Int)), x - (⌊x⌋ : Int)) ∧
      (x = (⌊x⌋ : Int) → cic_weights x = (1, 0)) ∧
      (∀ w ∈ [(cic_weights x).1 * (cic_weights y).1 * (cic_weights z).1,
          (cic_weights x).1 * (cic_weights y).1 * (cic_weights z).2,
          (cic_weights x).1 * (cic_weights y).2 * (cic_weights z).1,
          (cic_weights x).1 * (cic_weights y).2 * (cic_weights z).2,
          (cic_weights x).2 * (cic_weights y).1 * (cic_weights z).1,
          (cic_weights x).2 * (cic_weights y).1 * (cic_weights z).2,
          (cic_weights x).2 * (cic_weights y).2 * (cic_weights z).1,
          (cic_weights x).2 * (cic_weights y).2 * (cic_weights z).2], 0 ≤ w ∧ w ≤ 1) ∧
      (cic_weights x).1 * (cic_weights y).1 * (cic_weights z).1 +
        (cic_weights x).1 * (cic_weights y).1 * (cic_weights z).2 +
        (cic_weights x).1 * (cic_weights y).2 * (cic_weights z).1 +
        (cic_weights x).1 * (cic_weights y).2 * (cic_weights z).2 +
        (cic_weights x).2 * (cic_weights y).1 * (cic_weights z).1 +
        (cic_weights x).2 * (cic_weights y).1 * (cic_weights z).2 +
        (cic_weights x).2 * (cic_weights y).2 * (cic_weights z).1 +
        (cic_weights x).2 * (cic_weights y).2 * (cic_weights z).2 = 1 := by
  obtain ⟨x0, x1, xs⟩ := cic_weights_range hx
  obtain ⟨y0, y1, ys⟩ := cic_weights_range hy
  obtain ⟨z0, z1, zs⟩ := cic_weights_range hz
  refine ⟨cic_weights_of_nonneg hx, ?_, ?_, ?_⟩
  · intro hb
    rw [cic_weights_of_nonneg hx, ← hb]
    simp
  · intro w hw
    simp only [List.mem_cons, List.mem_singleton, List.not_mem_nil, or_false] at hw
    rcases hw with rfl | rfl | rfl | rfl | rfl | rfl | rfl | rfl
    · exact mul3_unit x0 y0 z0
    · exact mul3_unit x0 y0 z1
    · exact mul3_unit x0 y1 z0
    · exact mul3_unit x0 y1 z1
    · exact mul3_unit x1 y0 z0
    · exact mul3_unit x1 y0 z1
    · exact mul3_unit x1 y1 z0
    · exact mul3_unit x1 y1 z1
  · have e : ∀ a0 a1 b0 b1 c0 c1 : Rat,
        a0 * b0 * c0 + a0 * b0 * c1 + a0 * b1 * c0 + a0 * b1 * c1 + a1 * b0 * c0 +
          a1 * b0 * c1 + a1 * b1 * c0 + a1 * b1 * c1 = (a0 + a1) * (b0 + b1) * (c0 + c1) := by
      intros
      ring
    rw [e, xs, ys, zs]
    norm_num

/-- C15 at concrete coordinates: `x = 5/2` gives the weights `(1/2, 1/2)`, `y = 3` on a
cell boundary gives `(1, 0)`, `z = 1/4` gives `(3/4, 1/4)`. -/
theorem cic_corner_weights_sum_to_one_witness :
    cic_weights (5 / 2) = (1 / 2, 1 / 2) ∧ cic_weights 3 = (1, 0) ∧
      cic_weights (1 / 4) = (3 / 4, 1 / 4) ∧
      (cic_weights (5 / 2)).1 * (cic_weights 3).1 * (cic_weights (1 / 4)).1 +
        (cic_weights (5 / 2)).1 * (cic_weights 3).1 * (cic_weights (1 / 4)).2 +
        (cic_weights (5 / 2)).1 * (cic_weights 3).2 * (cic_weights (1 / 4)).1 +
        (cic_weights (5 / 2)).1 * (cic_weights 3).2 * (cic_weights (1 / 4)).2 +
        (cic_weights (5 / 2)).2 * (cic_weights 3).1 * (cic_weights (1 / 4)).1 +
        (cic_weights (5 / 2)).2 * (cic_weights 3).1 * (cic_weights (1 / 4)).2 +
        (cic_weights (5 / 2)).2 * (cic_weights 3).2 * (cic_weights (1 / 4)).1 +
        (cic_weights (5 / 2)).2 * (cic_weights 3).2 * (cic_weights (1 / 4)).2 = 1 :=
  ⟨by decide!, by decide!, by decide!,
    (cic_corner_weights_sum_to_one (5 / 2) 3 (1 / 4) (by norm_num) (by norm_num)
      (by norm_num)).2.2.2⟩

theorem mesh_coordinate_range {c boxsize : Rat} {nc : Int} (hb : 0 < boxsize) (hnc : 0 ≤ nc)
    (h0 : 0 ≤ c) (h1 : c ≤ boxsize) :
    0 ≤ c * ((nc : Rat) / boxsize) ∧ c * ((nc : Rat) / boxsize) ≤ nc ∧
      (c = boxsize → c * ((nc : Rat) / boxsize) = nc) := by
  have hn : (0 : Rat) ≤ nc := by exact_mod_cast hnc
  have hq : 0 ≤ (nc : Rat) / boxsize := div_nonneg hn hb.le
  refine ⟨mul_nonneg h0 hq, ?_, ?_⟩
  · calc c * ((nc : Rat) / boxsize) ≤ boxsize * ((nc : Rat) / boxsize) :=
        mul_le_mul_of_nonneg_right h1 hq
      _ = nc := by field_simp
  · intro h
    rw [h]
    field_simp

/-- The cell indices of a coordinate `0 <= x <= n` in mesh units. -/
theorem cic_indices_range {n : Int} {x : Rat} (hn : 2 ≤ n) (h0 : 0 ≤ x) (h1 : x ≤ n) :
    (0 ≤ (cic_indices n x).1 ∧ (cic_indices n x).1 < n) ∧
      (0 ≤ (cic_indices n x).2 ∧ (cic_indices n x).2 < n) ∧
      (cic_indices n x).1 = ⌊x⌋ % n ∧
      (cic_indices n x).2 = ((cic_indices n x).1 + 1) % n ∧
      (x = n → (cic_indices n x).1 = 0) := by
  have hf0 : 0 ≤ ⌊x⌋ := Int.floor_nonneg.2 h0
  have hf1 : ⌊x⌋ ≤ n := by
    have : ⌊x⌋ < n + 1 := Int.floor_lt.2 (by push_cast; linarith)
    omega
  unfold cic_indices
  simp only [to_int_of_nonneg h0]
  by_cases hc : ⌊x⌋ ≥ n
  · have he : ⌊x⌋ = n := by omega
    simp only [if_pos hc, zero_add]
    rw [if_neg (by omega)]
    refine ⟨⟨le_refl 0, by omega⟩, ⟨by omega, by omega⟩, ?_, ?_, fun _ => trivial⟩
    · rw [he, Int.emod_self]
    · rw [Int.emod_eq_of_lt (by omega) (by omega)]
  · simp only [if_neg hc]
    have hx : x = n → False := by
      intro hxn
      apply hc
      rw [hxn, Int.floor_intCast]
    by_cases hc1 : ⌊x⌋ + 1 ≥ n
    · simp only [if_pos hc1]
      have he : ⌊x⌋ + 1 = n := by omega
      refine ⟨⟨hf0, by omega⟩, ⟨by omega, by omega⟩, ?_, ?_, fun h => (hx h).elim⟩
      · rw [Int.emod_eq_of_lt (by omega) (by omega)]
      · rw [he, Int.emod_self]; omega
    · simp only [if_neg hc1]
      refine ⟨⟨hf0, by omega⟩, ⟨by omega, by omega⟩, ?_, ?_, fun h => (hx h).elim⟩
      · rw [Int.emod_eq_of_lt (by omega) (by omega)]
      · rw [Int.emod_eq_of_lt (by omega) (by omega)]

theorem grid_assign_apply (pm : Pm) (d : Int → Rat) (ix iy iz : Int) (f : Rat) (j : Int) :
    grid_assign pm d ix iy iz f j = d j + if grid_index pm ix iy iz = j then f else 0 := by
  unfold grid_assign aset
  by_cases h : j = grid_index pm ix iy iz
  · rw [if_pos h, if_pos h.symm, h]
  · rw [if_neg h, if_neg (fun e => h e.symm), add_zero]

/-- What one block of four `grid_assign` calls adds to the mesh entry `j`. -/
theorem assign_plane_apply (pm : Pm) (d : Int → Rat) (ix iy0 iy1 iz0 iz1 : Int)
    (w wy0 wy1 wz0 wz1 : Rat) (j : Int) :
    assign_plane pm d ix iy0 iy1 iz0 iz1 w wy0 wy1 wz0 wz1 j = d j +
      if 0 ≤ ix ∧ ix < to_int32 pm.local_nx then
        (if grid_index pm ix iy0 iz0 = j then w * wy0 * wz0 else 0) +
        (if grid_index pm ix iy0 iz1 = j then w * wy0 * wz1 else 0) +
        (if grid_index pm ix iy1 iz0 = j then w * wy1 * wz0 else 0) +
        (if grid_index pm ix iy1 iz1 = j then w * wy1 * wz1 else 0)
      else 0 := by
  unfold assign_plane
  by_cases hg : 0 ≤ ix ∧ ix < to_int32 pm.local_nx
  · rw [if_pos hg, if_pos hg]
    simp only [grid_assign_apply]
    ring
  · rw [if_neg hg, if_neg hg, add_zero]

theorem grid_index_bounds (pm : Pm) {a b c : Int} (hnc : 2 ≤ pm.nc)
    (hncz : pm.ncz = 2 * (pm.nc / 2 + 1)) (ha : 0 ≤ a ∧ a < pm.local_nx)
    (hb : 0 ≤ b ∧ b < pm.nc) (hc : 0 ≤ c ∧ c < pm.nc) :
    0 ≤ grid_index pm a b c ∧ grid_index pm a b c < pm.local_nx * pm.nc * pm.ncz := by
  have hz : pm.nc < pm.ncz := by omega
  unfold grid_index
  have h1 : 0 ≤ a * pm.nc := mul_nonneg ha.1 (by omega)
  have h2 : a * pm.nc + pm.nc ≤ pm.local_nx * pm.nc := by nlinarith
  have h3 : 0 ≤ (a * pm.nc + b) * pm.ncz := mul_nonneg (by omega) (by omega)
  have h4 : (a * pm.nc + b + 1) * pm.ncz ≤ pm.local_nx * pm.nc * pm.ncz := by
    apply mul_le_mul_of_nonneg_right _ (by omega)
    omega
  constructor
  · omega
  · nlinarith

theorem to_int32_le_of_nonneg {n : Int} (h : 0 ≤ n) : to_int32 n ≤ n := by
  unfold to_int32
  omega

/-- A block of four `grid_assign` calls writes inside the mesh. -/
theorem assign_plane_within (pm : Pm) (d : Int → Rat) (ix iy0 iy1 iz0 iz1 : Int)
    (w wy0 wy1 wz0 wz1 : Rat) (j : Int) (hnc : 2 ≤ pm.nc)
    (hncz : pm.ncz = 2 * (pm.nc / 2 + 1)) (hnx : 0 ≤ pm.local_nx)
    (hy0 : 0 ≤ iy0 ∧ iy0 < pm.nc) (hy1 : 0 ≤ iy1 ∧ iy1 < pm.nc)
    (hz0 : 0 ≤ iz0 ∧ iz0 < pm.nc) (hz1 : 0 ≤ iz1 ∧ iz1 < pm.nc)
    (hj : ¬ (0 ≤ j ∧ j < pm.local_nx * pm.nc * pm.ncz)) :
    assign_plane pm d ix iy0 iy1 iz0 iz1 w wy0 wy1 wz0 wz1 j = d j := by
  rw [assign_plane_apply]
  by_cases hg : 0 ≤ ix ∧ ix < to_int32 pm.local_nx
  · have hx : 0 ≤ ix ∧ ix < pm.local_nx := ⟨hg.1, lt_of_lt_of_le hg.2 (to_int32_le_of_nonneg hnx)⟩
    have e : ∀ b c : Int, (0 ≤ b ∧ b < pm.nc) → (0 ≤ c ∧ c < pm.nc) →
        grid_index pm ix b c ≠ j := by
      intro b c hb hc he
      apply hj
      rw [← he]
      exact grid_index_bounds pm hnc hncz hx hb hc
    rw [if_pos hg, if_neg (e _ _ hy0 hz0), if_neg (e _ _ hy0 hz1), if_neg (e _ _ hy1 hz0),
      if_neg (e _ _ hy1 hz1)]
    simp
  · rw [if_neg hg, add_zero]

/-- A block of four `grid_val` calls reads inside the mesh. -/
theorem interpolate_plane_within (pm : Pm) (fx : Int → Rat) (ix iy0 iy1 iz0 iz1 : Int)
    (wx wy0 wy1 wz0 wz1 : Rat) (hnc : 2 ≤ pm.nc)
    (hncz : pm.ncz = 2 * (pm.nc / 2 + 1)) (hnx : 0 ≤ pm.local_nx)
    (hy0 : 0 ≤ iy0 ∧ iy0 < pm.nc) (hy1 : 0 ≤ iy1 ∧ iy1 < pm.nc)
    (hz0 : 0 ≤ iz0 ∧ iz0 < pm.nc) (hz1 : 0 ≤ iz1 ∧ iz1 < pm.nc)
    (hfx : ∀ j : Int, 0 ≤ j → j < pm.local_nx * pm.nc * pm.ncz → fx j = pm.fx j) :
    interpolate_plane { pm with fx := fx } ix iy0 iy1 iz0 iz1 wx wy0 wy1 wz0 wz1 =
      interpolate_plane pm ix iy0 iy1 iz0 iz1 wx wy0 wy1 wz0 wz1 := by
  unfold interpolate_plane
  by_cases hg : 0 ≤ ix ∧ ix < to_int32 pm.local_nx
  · have hx : 0 ≤ ix ∧ ix < pm.local_nx := ⟨hg.1, lt_of_lt_of_le hg.2 (to_int32_le_of_nonneg hnx)⟩
    have e : ∀ b c : Int, (0 ≤ b ∧ b < pm.nc) → (0 ≤ c ∧ c < pm.nc) →
        grid_val { pm with fx := fx } fx ix b c = grid_val pm pm.fx ix b c := by
      intro b c hb hc
      have := grid_index_bounds pm hnc hncz hx hb hc
      exact hfx _ this.1 this.2
    simp only
    rw [if_pos hg, if_pos hg, e _ _ hy0 hz0, e _ _ hy0 hz1, e _ _ hy1 hz0, e _ _ hy1 hz1]
  · simp only
    rw [if_neg hg, if_neg hg]

/-- C16: for `2 <= nc` (within the range of `int`), `boxsize > 0` and a particle whose
three coordinates lie in `[0, boxsize]`, in exact arithmetic the global cell indices of
`pm_assign_cic_density` and `force_at_particle_locations` satisfy
`0 <= ix0 < nc` and `ix1 = (ix0 + 1) mod nc` (likewise for `y`, `z`), a coordinate equal
to `boxsize` has index 0; every mesh entry the loop body of `pm_assign_cic_density`
changes and every mesh entry the loop body of `force_at_particle_locations` reads lies
in `[0, local_nx*nc*ncz)`. -/
theorem cic_indices_stay_in_mesh (pm : Pm) (p : Float3) (hnc : 2 ≤ pm.nc)
    (hint : pm.nc < 2 ^ 31) (hncz : pm.ncz = 2 * (pm.nc / 2 + 1)) (hbox : 0 < pm.boxsize)
    (hnx : 0 ≤ pm.local_nx)
    (hp : ∀ c ∈ [p.c0, p.c1, p.c2], 0 ≤ c ∧ c ≤ pm.boxsize) :
    (∀ c ∈ [p.c0, p.c1, p.c2],
      (0 ≤ (cic_indices (to_int32 pm.nc) (c * ((pm.nc : Rat) / pm.boxsize))).1 ∧
        (cic_indices (to_int32 pm.nc) (c * ((pm.nc : Rat) / pm.boxsize))).1 < pm.nc) ∧
      (cic_indices (to_int32 pm.nc) (c * ((pm.nc : Rat) / pm.boxsize))).2 =
        ((cic_indices (to_int32 pm.nc) (c * ((pm.nc : Rat) / pm.boxsize))).1 + 1) % pm.nc ∧
      (c = pm.boxsize →
        (cic_indices (to_int32 pm.nc) (c * ((pm.nc : Rat) / pm.boxsize))).1 = 0)) ∧
      (∀ (d : Int → Rat) (j : Int), cic_deposit pm d p j ≠ d j →
        0 ≤ j ∧ j < pm.local_nx * pm.nc * pm.ncz) ∧
      ∀ fx : Int → Rat,
        (∀ j : Int, 0 ≤ j → j < pm.local_nx * pm.nc * pm.ncz → fx j = pm.fx j) →
        cic_interpolate { pm with fx := fx } p = cic_interpolate pm p := by
  have hn : to_int32 pm.nc = pm.nc := to_int32_of_range (by omega) hint
  have hall : ∀ c ∈ [p.c0, p.c1, p.c2],
      (0 ≤ (cic_indices pm.nc (c * ((pm.nc : Rat) / pm.boxsize))).1 ∧
        (cic_indices pm.nc (c * ((pm.nc : Rat) / pm.boxsize))).1 < pm.nc) ∧
      (0 ≤ (cic_indices pm.nc (c * ((pm.nc : Rat) / pm.boxsize))).2 ∧
        (cic_indices pm.nc (c * ((pm.nc : Rat) / pm.boxsize))).2 < pm.nc) ∧
      (cic_indices pm.nc (c * ((pm.nc : Rat) / pm.boxsize))).2 =
        ((cic_indices pm.nc (c * ((pm.nc : Rat) / pm.boxsize))).1 + 1) % pm.nc ∧
      (c = pm.boxsize → (cic_indices pm.nc (c * ((pm.nc : Rat) / pm.boxsize))).1 = 0) := by
    intro c hc
    obtain ⟨m0, m1, m2⟩ := mesh_coordinate_range hbox (by omega : (0 : Int) ≤ pm.nc) (hp c hc).1
      (hp c hc).2
    obtain ⟨r1, r2, _, r4, r5⟩ := cic_indices_range hnc m0 m1
    exact ⟨r1, r2, r4, fun h => r5 (m2 h)⟩
  have hy := hall p.c1 (by simp)
  have hz := hall p.c2 (by simp)
  rw [hn]
  refine ⟨fun c hc => ⟨(hall c hc).1, (hall c hc).2.2.1, (hall c hc).2.2.2⟩, ?_, ?_⟩
  · intro d j hne
    by_contra hj
    apply hne
    unfold cic_deposit
    simp only [hn]
    rw [assign_plane_within pm _ _ _ _ _ _ _ _ _ _ _ j hnc hncz hnx hy.1 hy.2.1 hz.1 hz.2.1 hj,
      assign_plane_within pm _ _ _ _ _ _ _ _ _ _ _ j hnc hncz hnx hy.1 hy.2.1 hz.1 hz.2.1 hj]
  · intro fx hfx
    unfold cic_interpolate
    simp only [hn]
    rw [interpolate_plane_within pm fx _ _ _ _ _ _ _ _ _ _ hnc hncz hnx hy.1 hy.2.1 hz.1 hz.2.1
        hfx,
      interpolate_plane_within pm fx _ _ _ _ _ _ _ _ _ _ hnc hncz hnx hy.1 hy.2.1 hz.1 hz.2.1
        hfx]

/-- C16 at a concrete input: `nc = 4`, box of side 4, a particle at `(4, 3.9, 0)`: the
coordinate on the upper edge has the indices `(0, 1)`, the coordinate 3.9 the indices
`(3, 0)`, and the loop body changes the mesh of the node owning planes 2 and 3 only
inside its `2*4*6` entries. -/
theorem cic_indices_stay_in_mesh_witness :
    cic_indices (to_int32 slab_pm.nc) (edge_position.c0 * ((slab_pm.nc : Rat) / slab_pm.boxsize))
        = (0, 1) ∧
      cic_indices (to_int32 slab_pm.nc)
        (edge_position.c1 * ((slab_pm.nc : Rat) / slab_pm.boxsize)) = (3, 0) ∧
      ∀ (d : Int → Rat) (j : Int), cic_deposit slab_pm d edge_position j ≠ d j →
        0 ≤ j ∧ j < slab_pm.local_nx * slab_pm.nc * slab_pm.ncz :=
  ⟨by decide!, by decide!,
    (cic_indices_stay_in_mesh slab_pm edge_position (by decide) (by decide) (by decide)
      (by decide!) (by decide) (by
        intro c hc
        simp only [edge_position, slab_pm, List.mem_cons, List.mem_singleton,
          List.not_mem_nil, or_false] at hc ⊢
        rcases hc with rfl | rfl | rfl <;> norm_num)).2.1⟩

/-! ## The density mesh -/

theorem grid_index_inj (pm : Pm) {a b c a' b' c' : Int} (hz : pm.nc ≤ pm.ncz)
    (hb : 0 ≤ b ∧ b < pm.nc) (hc : 0 ≤ c ∧ c < pm.nc)
    (hb' : 0 ≤ b' ∧ b' < pm.nc) (hc' : 0 ≤ c' ∧ c' < pm.nc) :
    grid_index pm a b c = grid_index pm a' b' c' ↔ a = a' ∧ b = b' ∧ c = c' := by
  constructor
  · intro h
    unfold grid_index at h
    have h1 : a * pm.nc + b = a' * pm.nc + b' := by
      rcases lt_trichotomy (a * pm.nc + b) (a' * pm.nc + b') with hlt | heq | hgt
      · have : (a * pm.nc + b + 1) * pm.ncz ≤ (a' * pm.nc + b') * pm.ncz :=
          mul_le_mul_of_nonneg_right (by omega) (by omega)
        nlinarith
      · exact heq
      · have : (a' * pm.nc + b' + 1) * pm.ncz ≤ (a * pm.nc + b) * pm.ncz :=
          mul_le_mul_of_nonneg_right (by omega) (by omega)
        nlinarith
    have h2 : c = c' := by
      rw [h1] at h
      omega
    have h3 : a = a' := by
      rcases lt_trichotomy a a' with hlt | heq | hgt
      · have : (a + 1) * pm.nc ≤ a' * pm.nc := mul_le_mul_of_nonneg_right (by omega) (by omega)
        nlinarith
      · exact heq
      · have : (a' + 1) * pm.nc ≤ a * pm.nc := mul_le_mul_of_nonneg_right (by omega) (by omega)
        nlinarith
    refine ⟨h3, ?_, h2⟩
    rw [h3] at h1
    omega
  · rintro ⟨rfl, rfl, rfl⟩
    rfl

theorem corner_term (gx gy gz l0 ix iy iz : Int) (fac wa wb wc : Rat) :
    (if gx - l0 = ix ∧ gy = iy ∧ gz = iz then fac * wa * wb * wc else 0) =
      fac * (if ((gx, gy, gz) : Int × Int × Int) = (l0 + ix, iy, iz) then wa * wb * wc
        else 0) := by
  by_cases h : gx - l0 = ix ∧ gy = iy ∧ gz = iz
  · rw [if_pos h, if_pos (by obtain ⟨h1, h2, h3⟩ := h; rw [h2, h3]; congr 1; omega)]
    ring
  · rw [if_neg h, if_neg, mul_zero]
    intro he
    simp only [Prod.mk.injEq] at he
    exact h ⟨by omega, he.2.1, he.2.2⟩

/-- What one block of four `grid_assign` calls adds to a cell of the local slab. -/
theorem assign_plane_cell (pm : Pm) (d : Int → Rat) (gx iy0 iy1 iz0 iz1 : Int)
    (fac wa wy0 wy1 wz0 wz1 : Rat) (ix iy iz : Int) (hz : pm.nc ≤ pm.ncz)
    (hgx : 0 ≤ gx ∧ gx < pm.nc) (hint : pm.nc < 2 ^ 31)
    (hl0 : 0 ≤ pm.local_ix0) (hl1 : pm.local_ix0 + pm.local_nx ≤ pm.nc)
    (hnx : 0 ≤ pm.local_nx)
    (hy0 : 0 ≤ iy0 ∧ iy0 < pm.nc) (hy1 : 0 ≤ iy1 ∧ iy1 < pm.nc)
    (hz0 : 0 ≤ iz0 ∧ iz0 < pm.nc) (hz1 : 0 ≤ iz1 ∧ iz1 < pm.nc)
    (hix : 0 ≤ ix ∧ ix < pm.local_nx) (hiy : 0 ≤ iy ∧ iy < pm.nc)
    (hiz : 0 ≤ iz ∧ iz < pm.nc) :
    assign_plane pm d (to_int32 (to_size_t (gx - pm.local_ix0))) iy0 iy1 iz0 iz1 (fac * wa)
        wy0 wy1 wz0 wz1 (grid_index pm ix iy iz) =
      d (grid_index pm ix iy iz) + fac *
        ((if ((gx, iy0, iz0) : Int × Int × Int) = (pm.local_ix0 + ix, iy, iz)
            then wa * wy0 * wz0 else 0) +
          (if ((gx, iy0, iz1) : Int × Int × Int) = (pm.local_ix0 + ix, iy, iz)
            then wa * wy0 * wz1 else 0) +
          (if ((gx, iy1, iz0) : Int × Int × Int) = (pm.local_ix0 + ix, iy, iz)
            then wa * wy1 * wz0 else 0) +
          (if ((gx, iy1, iz1) : Int × Int × Int) = (pm.local_ix0 + ix, iy, iz)
            then wa * wy1 * wz1 else 0)) := by
  have hlx : to_int32 (to_size_t (gx - pm.local_ix0)) = gx - pm.local_ix0 :=
    to_int32_to_size_t (by omega) (by omega)
  have hnx' : to_int32 pm.local_nx = pm.local_nx := to_int32_of_range (by omega) (by omega)
  rw [assign_plane_apply, hlx, hnx']
  simp only [mul_add, ← corner_term]
  by_cases hg : 0 ≤ gx - pm.local_ix0 ∧ gx - pm.local_ix0 < pm.local_nx
  · rw [if_pos hg]
    simp only [grid_index_inj pm hz hy0 hz0 hiy hiz, grid_index_inj pm hz hy0 hz1 hiy hiz,
      grid_index_inj pm hz hy1 hz0 hiy hiz, grid_index_inj pm hz hy1 hz1 hiy hiz]
  · rw [if_neg hg]
    have hne : ¬ gx - pm.local_ix0 = ix := by
      intro he
      apply hg
      omega
    simp only [hne, false_and, if_false, add_zero]

theorem cic_indices_floor {n : Int} {x : Rat} (hn : 2 ≤ n) (h0 : 0 ≤ x) (h1 : x ≤ n) :
    (cic_indices n x).1 = (⌊x⌋ + 0) % n ∧ (cic_indices n x).2 = (⌊x⌋ + 1) % n := by
  obtain ⟨_, _, r3, r4, _⟩ := cic_indices_range hn h0 h1
  refine ⟨by rw [r3, add_zero], ?_⟩
  rw [r4, r3, Int.emod_add_emod]

theorem cic_weights_corner {x : Rat} (h0 : 0 ≤ x) :
    (cic_weights x).1 = corner_weight x 0 ∧ (cic_weights x).2 = corner_weight x 1 := by
  rw [cic_weights_of_nonneg h0]
  simp [corner_weight]

/-- What the loop body of `pm_assign_cic_density` adds to a cell of the local slab. -/
theorem cic_deposit_cell (pm : Pm) (d : Int → Rat) (p : Float3) (ix iy iz : Int)
    (hnc : 2 ≤ pm.nc) (hint : pm.nc < 2 ^ 31) (hz : pm.nc ≤ pm.ncz) (hbox : 0 < pm.boxsize)
    (hl0 : 0 ≤ pm.local_ix0) (hl1 : pm.local_ix0 + pm.local_nx ≤ pm.nc)
    (hnx : 0 ≤ pm.local_nx)
    (hp : ∀ c ∈ [p.c0, p.c1, p.c2], 0 ≤ c ∧ c ≤ pm.boxsize)
    (hix : 0 ≤ ix ∧ ix < pm.local_nx) (hiy : 0 ≤ iy ∧ iy < pm.nc)
    (hiz : 0 ≤ iz ∧ iz < pm.nc) :
    cic_deposit pm d p (grid_index pm ix iy iz) =
      d (grid_index pm ix iy iz) + pm.pm_factor * pm.pm_factor * pm.pm_factor *
        corner_mass pm.nc pm.boxsize p (pm.local_ix0 + ix, iy, iz) := by
  have hn : to_int32 pm.nc = pm.nc := to_int32_of_range (by omega) hint
  have hm : ∀ c ∈ [p.c0, p.c1, p.c2],
      0 ≤ c * ((pm.nc : Rat) / pm.boxsize) ∧ c * ((pm.nc : Rat) / pm.boxsize) ≤ pm.nc := by
    intro c hc
    obtain ⟨m0, m1, _⟩ := mesh_coordinate_range hbox (by omega : (0 : Int) ≤ pm.nc) (hp c hc).1
      (hp c hc).2
    exact ⟨m0, m1⟩
  have hx := hm p.c0 (by simp)
  have hy := hm p.c1 (by simp)
  have hzz := hm p.c2 (by simp)
  obtain ⟨rx1, rx2, _⟩ := cic_indices_range hnc hx.1 hx.2
  obtain ⟨ry1, ry2, _⟩ := cic_indices_range hnc hy.1 hy.2
  obtain ⟨rz1, rz2, _⟩ := cic_indices_range hnc hzz.1 hzz.2
  unfold cic_deposit
  simp only [hn]
  rw [assign_plane_cell pm _ _ _ _ _ _ _ _ _ _ _ _ ix iy iz hz rx2 hint hl0 hl1 hnx ry1 ry2 rz1
      rz2 hix hiy hiz,
    assign_plane_cell pm _ _ _ _ _ _ _ _ _ _ _ _ ix iy iz hz rx1 hint hl0 hl1 hnx ry1 ry2 rz1
      rz2 hix hiy hiz]
  rw [(cic_indices_floor hnc hx.1 hx.2).1, (cic_indices_floor hnc hx.1 hx.2).2,
    (cic_indices_floor hnc hy.1 hy.2).1, (cic_indices_floor hnc hy.1 hy.2).2,
    (cic_indices_floor hnc hzz.1 hzz.2).1, (cic_indices_floor hnc hzz.1 hzz.2).2,
    (cic_weights_corner hx.1).1, (cic_weights_corner hx.1).2,
    (cic_weights_corner hy.1).1, (cic_weights_corner hy.1).2,
    (cic_weights_corner hzz.1).1, (cic_weights_corner hzz.1).2]
  simp only [corner_mass, cic_corners, List.flatMap_cons, List.flatMap_nil, List.map_cons,
    List.map_nil, List.append_nil, List.cons_append, List.nil_append, List.sum_cons,
    List.sum_nil]
  ring

/-- The particle loop of `pm_assign_cic_density` adds to a cell of the local slab the
weights of all corners with the index of the cell. -/
theorem foldl_cic_deposit_cell (pm : Pm) (ix iy iz : Int)
    (hnc : 2 ≤ pm.nc) (hint : pm.nc < 2 ^ 31) (hz : pm.nc ≤ pm.ncz) (hbox : 0 < pm.boxsize)
    (hl0 : 0 ≤ pm.local_ix0) (hl1 : pm.local_ix0 + pm.local_nx ≤ pm.nc)
    (hnx : 0 ≤ pm.local_nx)
    (hix : 0 ≤ ix ∧ ix < pm.local_nx) (hiy : 0 ≤ iy ∧ iy < pm.nc)
    (hiz : 0 ≤ iz ∧ iz < pm.nc) :
    ∀ (ps : List Float3) (d : Int → Rat),
      (∀ p ∈ ps, ∀ c ∈ [p.c0, p.c1, p.c2], 0 ≤ c ∧ c ≤ pm.boxsize) →
      ps.foldl (cic_deposit pm) d (grid_index pm ix iy iz) =
        d (grid_index pm ix iy iz) + pm.pm_factor * pm.pm_factor * pm.pm_factor *
          cic_mass pm.nc pm.boxsize ps (pm.local_ix0 + ix, iy, iz) := by
  intro ps
  induction ps with
  | nil =>
    intro d _
    simp [cic_mass]
  | cons p ps ih =>
    intro d hp
    rw [List.foldl_cons, ih _ (fun q hq => hp q (List.mem_cons_of_mem _ hq)),
      cic_deposit_cell pm d p ix iy iz hnc hint hz hbox hl0 hl1 hnx
        (hp p (List.mem_cons_self _ _)) hix hiy hiz]
    simp only [cic_mass, List.map_cons, List.sum_cons]
    ring

theorem counter_values_mem {n i : Int} (h0 : 0 ≤ i) (h1 : i < n) : i ∈ counter_values n := by
  simp only [counter_values, List.mem_map, List.mem_range]
  exact ⟨i.toNat, by omega, by omega⟩

/-- A loop whose body never changes an entry that holds `v` leaves it at `v`. -/
theorem foldl_keeps {α : Type} (F : (Int → Rat) → α → (Int → Rat)) (j : Int) (v : Rat)
    (hkeep : ∀ a d, d j = v → F d a j = v) :
    ∀ (l : List α) (d : Int → Rat), d j = v → l.foldl F d j = v := by
  intro l
  induction l with
  | nil => intro d h; exact h
  | cons a l ih => intro d h; exact ih _ (hkeep a d h)

/-- A loop one of whose passes sets entry `j` to `v`, and whose body never changes an
entry that holds `v`, ends with `v` at `j`. -/
theorem foldl_hits {α : Type} (F : (Int → Rat) → α → (Int → Rat)) (j : Int) (v : Rat)
    (hkeep : ∀ a d, d j = v → F d a j = v) (a0 : α) (hhit : ∀ d, F d a0 j = v) :
    ∀ (l : List α) (d : Int → Rat), a0 ∈ l → l.foldl F d j = v := by
  intro l
  induction l with
  | nil => intro d h; simp at h
  | cons a l ih =>
    intro d h
    rw [List.foldl_cons]
    rcases List.mem_cons.1 h with rfl | h
    · exact foldl_keeps F j v hkeep l _ (hhit d)
    · exact ih _ h

/-- Function `clear_density` leaves `-1` in every cell of the local slab. -/
theorem clear_density_cell (pm : Pm) (ix iy iz : Int) (hix : 0 ≤ ix ∧ ix < pm.local_nx)
    (hiy : 0 ≤ iy ∧ iy < pm.nc) (hiz : 0 ≤ iz ∧ iz < pm.nc) :
    (clear_density pm).fx (grid_index pm ix iy iz) = -1 := by
  unfold clear_density
  simp only
  have k1 : ∀ (x y : Int) (c : Int) (d : Int → Rat), d (grid_index pm ix iy iz) = -1 →
      aset d ((x * pm.nc + y) * pm.ncz + c) (-1) (grid_index pm ix iy iz) = -1 := by
    intro x y c d hd
    unfold aset
    split_ifs
    · rfl
    · exact hd
  have k2 : ∀ (x : Int) (y : Int) (d : Int → Rat), d (grid_index pm ix iy iz) = -1 →
      (counter_values pm.nc).foldl (fun density c =>
        aset density ((x * pm.nc + y) * pm.ncz + c) (-1)) d (grid_index pm ix iy iz) = -1 :=
    fun x y d hd => foldl_keeps _ _ _ (fun c d hd => k1 x y c d hd) _ d hd
  have k3 : ∀ (x : Int) (d : Int → Rat), d (grid_index pm ix iy iz) = -1 →
      (counter_values pm.nc).foldl (fun density y =>
        (counter_values pm.nc).foldl (fun density c =>
          aset density ((x * pm.nc + y) * pm.ncz + c) (-1)) density) d
        (grid_index pm ix iy iz) = -1 :=
    fun x d hd => foldl_keeps _ _ _ (fun y d hd => k2 x y d hd) _ d hd
  apply foldl_hits _ _ _ k3 ix _ _ _ (counter_values_mem hix.1 hix.2)
  intro d
  apply foldl_hits _ _ _ (k2 ix) iy _ _ _ (counter_values_mem hiy.1 hiy.2)
  intro d
  apply foldl_hits _ _ _ (k1 ix iy) iz _ _ _ (counter_values_mem hiz.1 hiz.2)
  intro d
  simp [aset, grid_index]

/-- C17: for `2 <= nc` (within the range of `int`), `nc <= ncz`, `boxsize > 0`, a slab
`[local_ix0, local_ix0 + local_nx)` within the `nc` planes and local and ghost
particles whose coordinates lie in `[0, boxsize]`, after `pm_compute_density` every cell
`(ix, iy, iz)` of the local slab with `ix < local_nx`, `iy < nc`, `iz < nc` holds
`-1 + pm_factor^3 *` the sum of the CIC weights of all corners, of all local particles
and all ghost particles of the buffer, whose wrapped global index is
`(local_ix0 + ix, iy, iz)`; corners with another index add nothing to the cell, and the
value does not depend on the mesh before the call. -/
theorem density_is_sum_of_corner_weights (pm : Pm) (mem : Mem) (this_node : Int)
    (particles : Particles) (ix iy iz : Int)
    (hnc : 2 ≤ pm.nc) (hint : pm.nc < 2 ^ 31) (hz : pm.nc ≤ pm.ncz) (hbox : 0 < pm.boxsize)
    (hl0 : 0 ≤ pm.local_ix0) (hl1 : pm.local_ix0 + pm.local_nx ≤ pm.nc)
    (hlocal : ∀ p ∈ particles.p, ∀ c ∈ [p.x.c0, p.x.c1, p.x.c2], 0 ≤ c ∧ c ≤ pm.boxsize)
    (hghost : ∀ p ∈ ghost_positions mem this_node,
      ∀ c ∈ [p.c0, p.c1, p.c2], 0 ≤ c ∧ c ≤ pm.boxsize)
    (hix : 0 ≤ ix ∧ ix < pm.local_nx) (hiy : 0 ≤ iy ∧ iy < pm.nc)
    (hiz : 0 ≤ iz ∧ iz < pm.nc) :
    (pm_compute_density pm mem this_node particles).fx (grid_index pm ix iy iz) =
      -1 + pm.pm_factor ^ 3 *
        cic_mass pm.nc pm.boxsize (particles.p.map Particle.x ++ ghost_positions mem this_node)
          (pm.local_ix0 + ix, iy, iz) := by
  have hnx : 0 ≤ pm.local_nx := by omega
  have hloc : ∀ p ∈ particles.p.map Particle.x,
      ∀ c ∈ [p.c0, p.c1, p.c2], 0 ≤ c ∧ c ≤ pm.boxsize := by
    intro p hp
    obtain ⟨q, hq, rfl⟩ := List.mem_map.1 hp
    exact hlocal q hq
  have h1 : (particles.p.map Particle.x).foldl (cic_deposit (clear_density pm))
      (clear_density pm).fx (grid_index pm ix iy iz) =
      (clear_density pm).fx (grid_index pm ix iy iz) +
        pm.pm_factor * pm.pm_factor * pm.pm_factor *
          cic_mass pm.nc pm.boxsize (particles.p.map Particle.x) (pm.local_ix0 + ix, iy, iz) :=
    foldl_cic_deposit_cell (clear_density pm) ix iy iz hnc hint hz hbox hl0 hl1 hnx
      hix hiy hiz (particles.p.map Particle.x) (clear_density pm).fx hloc
  have h2 : (ghost_positions mem this_node).foldl
      (cic_deposit (pm_assign_cic_density (clear_density pm) (particles.p.map Particle.x)))
      (pm_assign_cic_density (clear_density pm) (particles.p.map Particle.x)).fx
        (grid_index pm ix iy iz) =
      (pm_assign_cic_density (clear_density pm) (particles.p.map Particle.x)).fx
          (grid_index pm ix iy iz) +
        pm.pm_factor * pm.pm_factor * pm.pm_factor *
          cic_mass pm.nc pm.boxsize (ghost_positions mem this_node)
            (pm.local_ix0 + ix, iy, iz) :=
    foldl_cic_deposit_cell
      (pm_assign_cic_density (clear_density pm) (particles.p.map Particle.x)) ix iy iz hnc hint
      hz hbox hl0 hl1 hnx hix hiy hiz (ghost_positions mem this_node)
      (pm_assign_cic_density (clear_density pm) (particles.p.map Particle.x)).fx hghost
  have h0 := clear_density_cell pm ix iy iz hix hiy hiz
  have e2 : (pm_compute_density pm mem this_node particles).fx =
      (ghost_positions mem this_node).foldl
        (cic_deposit (pm_assign_cic_density (clear_density pm) (particles.p.map Particle.x)))
        (pm_assign_cic_density (clear_density pm) (particles.p.map Particle.x)).fx := rfl
  have e3 : (pm_assign_cic_density (clear_density pm) (particles.p.map Particle.x)).fx =
      (particles.p.map Particle.x).foldl (cic_deposit (clear_density pm))
        (clear_density pm).fx := rfl
  rw [e2, h2, e3, h1, h0]
  have e4 : ∀ (a b : List Float3) (cell : Int × Int × Int),
      cic_mass pm.nc pm.boxsize (a ++ b) cell =
        cic_mass pm.nc pm.boxsize a cell + cic_mass pm.nc pm.boxsize b cell := by
    intro a b cell
    simp [cic_mass]
  rw [e4]
  ring

/-- C17 at a concrete input: the node owning planes 2 and 3 of a mesh with `nc = 4`
holds one particle at `(2.5, 0.5, 0.5)` and one ghost at `(3.9, 0, 0)`; the cell with
global index `(3, 0, 0)` ends with `-1 + 1/8 + 1/10`. -/
theorem density_is_sum_of_corner_weights_witness :
    (pm_compute_density slab_pm ghost_mem 1 density_particles).fx (grid_index slab_pm 1 0 0)
      = -31 / 40 := by
  rw [density_is_sum_of_corner_weights slab_pm ghost_mem 1 density_particles 1 0 0
    (by decide) (by decide) (by decide) (by decide!) (by decide) (by decide) (by decide!)
    (by decide!) (by decide) (by decide) (by decide)]
  decide!

/-! ## The force mesh in Fourier space -/

/-- A loop whose passes never change entry `j` once it holds `v` leaves it at `v`. -/
theorem foldl_keeps_mem {α β : Type} (F : (Int → β) → α → (Int → β)) (j : Int) (v : β) :
    ∀ (l : List α) (d : Int → β), (∀ a ∈ l, ∀ d, d j = v → F d a j = v) → d j = v →
      l.foldl F d j = v := by
  intro l
  induction l with
  | nil => intro d _ h; exact h
  | cons a l ih =>
    intro d hk h
    exact ih _ (fun b hb => hk b (List.mem_cons_of_mem _ hb))
      (hk a (List.mem_cons_self _ _) d h)

/-- A loop one of whose passes sets entry `j` to `v`, and whose passes never change the
entry once it holds `v`, ends with `v` at `j`. -/
theorem foldl_hits_mem {α β : Type} (F : (Int → β) → α → (Int → β)) (j : Int) (v : β)
    (a0 : α) (hhit : ∀ d, F d a0 j = v) :
    ∀ (l : List α) (d : Int → β), (∀ a ∈ l, ∀ d, d j = v → F d a j = v) → a0 ∈ l →
      l.foldl F d j = v := by
  intro l
  induction l with
  | nil => intro d _ h; simp at h
  | cons a l ih =>
    intro d hk h
    rw [List.foldl_cons]
    rcases List.mem_cons.1 h with rfl | h
    · exact foldl_keeps_mem F j v l _ (fun b hb => hk b (List.mem_cons_of_mem _ hb)) (hhit d)
    · exact ih _ (fun b hb => hk b (List.mem_cons_of_mem _ hb)) h

theorem mem_counter_from {a n i : Int} (h : i ∈ counter_from a n) : a ≤ i ∧ i < n := by
  simp only [counter_from, List.mem_map, List.mem_range] at h
  obtain ⟨k, hk, rfl⟩ := h
  omega

theorem counter_from_mem {a n i : Int} (h0 : a ≤ i) (h1 : i < n) : i ∈ counter_from a n := by
  simp only [counter_from, List.mem_map, List.mem_range]
  exact ⟨(i - a).toNat, by omega, by omega⟩

/-- Uniqueness of the digits of a flat index `(a*n + b)*m + c`. -/
theorem flat_index_inj {n m a b c a' b' c' : Int}
    (hb : 0 ≤ b ∧ b < n) (hc : 0 ≤ c ∧ c < m) (hb' : 0 ≤ b' ∧ b' < n) (hc' : 0 ≤ c' ∧ c' < m)
    (h : (n * a + b) * m + c = (n * a' + b') * m + c') : a = a' ∧ b = b' ∧ c = c' := by
  have h1 : n * a + b = n * a' + b' := by
    rcases lt_trichotomy (n * a + b) (n * a' + b') with hlt | heq | hgt
    · have : (n * a + b + 1) * m ≤ (n * a' + b') * m :=
        mul_le_mul_of_nonneg_right (by omega) (by omega)
      nlinarith
    · exact heq
    · have : (n * a' + b' + 1) * m ≤ (n * a + b) * m :=
        mul_le_mul_of_nonneg_right (by omega) (by omega)
      nlinarith
  have h2 : c = c' := by
    rw [h1] at h
    omega
  have h3 : a = a' := by
    rcases lt_trichotomy a a' with hlt | heq | hgt
    · have : n * (a + 1) ≤ n * a' := mul_le_mul_of_nonneg_left (by omega) (by omega)
      nlinarith
    · exact heq
    · have : n * (a' + 1) ≤ n * a := mul_le_mul_of_nonneg_left (by omega) (by omega)
      nlinarith
  refine ⟨h3, ?_, h2⟩
  rw [h3] at h1
  omega

/-- C19: for every axis, every `delta_k`, every previous content of `fk` and every slab
`[local_iky0, local_iky0 + local_nky)` of the frequency mesh with `local_iky0 = 0`
(the node that owns `ky = 0`), after the coefficient loops of `compute_force_mesh` the
coefficient of the zero mode, `fk[0]`, is exactly `0 + 0i`. -/
theorem zero_mode_coefficient_is_zero (pm : Pm) (axis : Int) (hnc : 2 ≤ pm.nc)
    (hky : pm.local_iky0 = 0) :
    force_mesh_coefficients pm axis 0 = (0, 0) := by
  unfold force_mesh_coefficients
  simp only
  have hz : 0 < pm.nc / 2 + 1 := by omega
  apply foldl_keeps_mem _ _ _ _ _ _ (by simp [aset])
  intro iy_local hiy d hd
  have hy := mem_counter_values hiy
  apply foldl_keeps_mem _ _ _ _ _ _ hd
  intro ix hix d hd
  have hx := mem_counter_values hix
  apply foldl_keeps_mem _ _ _ _ _ _ hd
  intro iz hizm d hd
  have hzr := mem_counter_from hizm
  have hiz0 : 0 ≤ iz := by
    have : (0 : Int) ≤ (if ix = 0 ∧
        to_int32 (to_size_t (iy_local + pm.local_iky0)) = 0 then 1 else 0) := by
      split_ifs <;> omega
    omega
  have hne : (0 : Int) ≠ (pm.nc * iy_local + ix) * (pm.nc / 2 + 1) + iz := by
    intro he
    have hA : 0 ≤ pm.nc * iy_local + ix := add_nonneg (mul_nonneg (by omega) hy.1) hx.1
    have hB : 0 ≤ (pm.nc * iy_local + ix) * (pm.nc / 2 + 1) := mul_nonneg hA hz.le
    have hiz : iz = 0 := by omega
    have hAB : (pm.nc * iy_local + ix) * (pm.nc / 2 + 1) = 0 := by omega
    have hA0 : pm.nc * iy_local + ix = 0 := by
      rcases mul_eq_zero.1 hAB with h | h
      · exact h
      · omega
    have hN : 0 ≤ pm.nc * iy_local := mul_nonneg (by omega) hy.1
    have hix0 : ix = 0 := by omega
    have hP : pm.nc * iy_local = 0 := by omega
    have hiy0 : iy_local = 0 := by
      rcases mul_eq_zero.1 hP with h | h
      · omega
      · exact h
    have hk : (if ix = 0 ∧
        to_int32 (to_size_t (iy_local + pm.local_iky0)) = 0 then (1 : Int) else 0) = 1 := by
      rw [if_pos]
      refine ⟨hix0, ?_⟩
      rw [hiy0, hky]
      decide
    rw [hk] at hzr
    omega
  simp only [aset]
  rw [if_neg hne]
  exact hd

/-- C19 at a concrete input: on the node that owns `ky = 0, 1` of a mesh with `nc = 4`,
with `delta_k = 1 + 2i` everywhere and `fk = 5 + 5i` before, `fk[0]` is zero after the
coefficient loops. -/
theorem zero_mode_coefficient_is_zero_witness :
    force_mesh_coefficients
      { slab_pm with local_iky0 := 0, fk := fun _ => (5, 5), delta_k := fun _ => (1, 2) } 0 0
      = (0, 0) :=
  zero_mode_coefficient_is_zero
    { slab_pm with local_iky0 := 0, fk := fun _ => (5, 5), delta_k := fun _ => (1, 2) } 0
    (by decide) rfl

/-- The value three nested loops of writes leave at the entry one of their passes
writes, when no other pass writes that entry. -/
theorem nested_foldl_value {β : Type} (L1 L2 : List Int) (L3 : Int → Int → List Int)
    (idx : Int → Int → Int → Int) (W : Int → Int → Int → β) (d0 : Int → β) (a b c : Int)
    (ha : a ∈ L1) (hb : b ∈ L2) (hc : c ∈ L3 a b)
    (hinj : ∀ a' ∈ L1, ∀ b' ∈ L2, ∀ c' ∈ L3 a' b',
      idx a' b' c' = idx a b c → a' = a ∧ b' = b ∧ c' = c) :
    L1.foldl (fun d a' => L2.foldl (fun d b' =>
      (L3 a' b').foldl (fun d c' => aset d (idx a' b' c') (W a' b' c')) d) d) d0 (idx a b c)
      = W a b c := by
  have k1 : ∀ a' ∈ L1, ∀ b' ∈ L2, ∀ c' ∈ L3 a' b', ∀ d : Int → β, d (idx a b c) = W a b c →
      aset d (idx a' b' c') (W a' b' c') (idx a b c) = W a b c := by
    intro a' ha' b' hb' c' hc' d hd
    unfold aset
    by_cases he : idx a b c = idx a' b' c'
    · rw [if_pos he]
      obtain ⟨rfl, rfl, rfl⟩ := hinj a' ha' b' hb' c' hc' he.symm
      rfl
    · rw [if_neg he]
      exact hd
  have k2 : ∀ a' ∈ L1, ∀ b' ∈ L2, ∀ d : Int → β, d (idx a b c) = W a b c →
      (L3 a' b').foldl (fun d c' => aset d (idx a' b' c') (W a' b' c')) d (idx a b c)
        = W a b c :=
    fun a' ha' b' hb' d hd =>
      foldl_keeps_mem _ _ _ _ _ (fun c' hc' d hd => k1 a' ha' b' hb' c' hc' d hd) hd
  have k3 : ∀ a' ∈ L1, ∀ d : Int → β, d (idx a b c) = W a b c →
      L2.foldl (fun d b' =>
        (L3 a' b').foldl (fun d c' => aset d (idx a' b' c') (W a' b' c')) d) d (idx a b c)
        = W a b c :=
    fun a' ha' d hd =>
      foldl_keeps_mem _ _ _ _ _ (fun b' hb' d hd => k2 a' ha' b' hb' d hd) hd
  apply foldl_hits_mem _ _ _ a _ _ _ k3 ha
  intro d
  apply foldl_hits_mem _ _ _ b _ _ _ (k2 a ha) hb
  intro d
  apply foldl_hits_mem _ _ _ c _ _ _ (k1 a ha b hb) hc
  intro d
  simp [aset]

theorem to_int32_wavenumber {nc ix : Int} (hnc : 2 ≤ nc) (hint : nc < 2 ^ 31)
    (hix : 0 ≤ ix ∧ ix < nc) :
    to_int32 (if ix ≤ nc / 2 then ix else to_size_t (to_int32 ix - nc)) = wavenumber nc ix := by
  unfold wavenumber
  have e : to_int32 ix = ix := to_int32_of_range (by omega) (by omega)
  by_cases h : ix ≤ nc / 2
  · rw [if_pos h, if_pos h, e]
  · rw [if_neg h, if_neg h, e]
    exact to_int32_to_size_t (by omega) (by omega)

theorem wavenumber_eq_zero {nc i : Int} (hi : 0 ≤ i ∧ i < nc) :
    wavenumber nc i = 0 ↔ i = 0 := by
  unfold wavenumber
  split_ifs <;> omega

/-- The coefficient `compute_force_mesh` stores at a locally stored mode other than the
zero mode. -/
theorem force_coefficient_mode (pm : Pm) (axis iy_local ix iz : Int)
    (hnc : 2 ≤ pm.nc) (hint : pm.nc < 2 ^ 31)
    (hk0 : 0 ≤ pm.local_iky0) (hk1 : pm.local_iky0 + pm.local_nky ≤ pm.nc)
    (hiy : 0 ≤ iy_local ∧ iy_local < pm.local_nky) (hix : 0 ≤ ix ∧ ix < pm.nc)
    (hiz : 0 ≤ iz ∧ iz ≤ pm.nc / 2)
    (hmode : ¬ (ix = 0 ∧ iy_local + pm.local_iky0 = 0 ∧ iz = 0)) :
    ((wavenumber pm.nc ix : Rat) ^ 2 + (wavenumber pm.nc (iy_local + pm.local_iky0) : Rat) ^ 2
        + (iz : Rat) ^ 2 ≠ 0) ∧
      force_mesh_coefficients pm axis ((pm.nc * iy_local + ix) * (pm.nc / 2 + 1) + iz) =
        cmul (0, -1)
          (cmul
            ((if axis = 0 then (wavenumber pm.nc ix : Rat)
                else if axis = 1 then (wavenumber pm.nc (iy_local + pm.local_iky0) : Rat)
                else (iz : Rat)) /
              ((wavenumber pm.nc ix : Rat) ^ 2
                + (wavenumber pm.nc (iy_local + pm.local_iky0) : Rat) ^ 2 + (iz : Rat) ^ 2) *
              (pm.boxsize / (2 * M_PI * (pm.nc : Rat) ^ 3)), 0)
            (pm.delta_k ((pm.nc * iy_local + ix) * (pm.nc / 2 + 1) + iz))) := by
  have hnn : ((wavenumber pm.nc ix : Rat) ^ 2
      + (wavenumber pm.nc (iy_local + pm.local_iky0) : Rat) ^ 2 + (iz : Rat) ^ 2 ≠ 0) := by
    intro h0
    have hq : (wavenumber pm.nc ix ^ 2 + wavenumber pm.nc (iy_local + pm.local_iky0) ^ 2
        + iz ^ 2 : Int) = 0 := by exact_mod_cast h0
    have s1 := sq_nonneg (wavenumber pm.nc ix)
    have s2 := sq_nonneg (wavenumber pm.nc (iy_local + pm.local_iky0))
    have s3 := sq_nonneg iz
    have z1 : wavenumber pm.nc ix ^ 2 = 0 := by omega
    have z2 : wavenumber pm.nc (iy_local + pm.local_iky0) ^ 2 = 0 := by omega
    have z3 : iz ^ 2 = 0 := by omega
    apply hmode
    exact ⟨(wavenumber_eq_zero hix).1 (pow_eq_zero_iff (by decide) |>.1 z1),
      (wavenumber_eq_zero ⟨by omega, by omega⟩).1 (pow_eq_zero_iff (by decide) |>.1 z2),
      pow_eq_zero_iff (by decide) |>.1 z3⟩
  refine ⟨hnn, ?_⟩
  · have hiyc : to_int32 (to_size_t (iy_local + pm.local_iky0)) = iy_local + pm.local_iky0 :=
      to_int32_to_size_t (by omega) (by omega)
    have hn : to_int32 pm.nc = pm.nc := to_int32_of_range (by omega) hint
    unfold force_mesh_coefficients
    simp only
    have key := nested_foldl_value (counter_values pm.local_nky) (counter_values pm.nc)
      (fun iy_l x => counter_from
        (if x = 0 ∧ to_int32 (to_size_t (iy_l + pm.local_iky0)) = 0 then 1 else 0)
        (pm.nc / 2 + 1))
      (fun iy_l x z => (pm.nc * iy_l + x) * (pm.nc / 2 + 1) + z)
      (fun iy_l x z =>
        (-(-1 / (pm.nc : Rat) ^ 3 / (2 * M_PI / pm.boxsize) /
            (((to_int32 (if x ≤ pm.nc / 2 then x else to_size_t (to_int32 x - pm.nc)) : Int) : Rat) *
                ((to_int32 (if x ≤ pm.nc / 2 then x
                  else to_size_t (to_int32 x - pm.nc)) : Int) : Rat) +
              (((if to_int32 (to_size_t (iy_l + pm.local_iky0)) ≤ (to_int32 pm.nc).tdiv 2
                  then to_int32 (to_size_t (iy_l + pm.local_iky0))
                  else to_int32 (to_size_t (iy_l + pm.local_iky0)) - to_int32 pm.nc : Int) : Rat)) *
                (((if to_int32 (to_size_t (iy_l + pm.local_iky0)) ≤ (to_int32 pm.nc).tdiv 2
                  then to_int32 (to_size_t (iy_l + pm.local_iky0))
                  else to_int32 (to_size_t (iy_l + pm.local_iky0)) - to_int32 pm.nc : Int) : Rat)) +
              (z : Rat) * (z : Rat)) *
            (if axis = 0 then
                ((to_int32 (if x ≤ pm.nc / 2 then x
                  else to_size_t (to_int32 x - pm.nc)) : Int) : Rat)
              else if axis = 1 then
                (((if to_int32 (to_size_t (iy_l + pm.local_iky0)) ≤ (to_int32 pm.nc).tdiv 2
                  then to_int32 (to_size_t (iy_l + pm.local_iky0))
                  else to_int32 (to_size_t (iy_l + pm.local_iky0)) - to_int32 pm.nc : Int) : Rat))
              else (z : Rat))) *
            (pm.delta_k ((pm.nc * iy_l + x) * (pm.nc / 2 + 1) + z)).2,
          -1 / (pm.nc : Rat) ^ 3 / (2 * M_PI / pm.boxsize) /
            (((to_int32 (if x ≤ pm.nc / 2 then x else to_size_t (to_int32 x - pm.nc)) : Int) : Rat) *
                ((to_int32 (if x ≤ pm.nc / 2 then x
                  else to_size_t (to_int32 x - pm.nc)) : Int) : Rat) +
              (((if to_int32 (to_size_t (iy_l + pm.local_iky0)) ≤ (to_int32 pm.nc).tdiv 2
                  then to_int32 (to_size_t (iy_l + pm.local_iky0))
                  else to_int32 (to_size_t (iy_l + pm.local_iky0)) - to_int32 pm.nc : Int) : Rat)) *
                (((if to_int32 (to_size_t (iy_l + pm.local_iky0)) ≤ (to_int32 pm.nc).tdiv 2
                  then to_int32 (to_size_t (iy_l + pm.local_iky0))
                  else to_int32 (to_size_t (iy_l + pm.local_iky0)) - to_int32 pm.nc : Int) : Rat)) +
              (z : Rat) * (z : Rat)) *
            (if axis = 0 then
                ((to_int32 (if x ≤ pm.nc / 2 then x
                  else to_size_t (to_int32 x - pm.nc)) : Int) : Rat)
              else if axis = 1 then
                (((if to_int32 (to_size_t (iy_l + pm.local_iky0)) ≤ (to_int32 pm.nc).tdiv 2
                  then to_int32 (to_size_t (iy_l + pm.local_iky0))
                  else to_int32 (to_size_t (iy_l + pm.local_iky0)) - to_int32 pm.nc : Int) : Rat))
              else (z : Rat)) *
            (pm.delta_k ((pm.nc * iy_l + x) * (pm.nc / 2 + 1) + z)).1))
      (aset pm.fk 0 (0, 0)) iy_local ix iz
      (counter_values_mem hiy.1 hiy.2) (counter_values_mem hix.1 hix.2)
      (by
        apply counter_from_mem _ (by omega)
        simp only [hiyc]
        split_ifs with hc
        · by_contra hlt
          exact hmode ⟨hc.1, hc.2, by omega⟩
        · exact hiz.1)
      (by
        intro a' ha' b' hb' c' hc' he
        have h1 := mem_counter_values ha'
        have h2 := mem_counter_values hb'
        have h3 := mem_counter_from hc'
        have h30 : 0 ≤ c' := by
          have : (0 : Int) ≤ (if b' = 0 ∧
              to_int32 (to_size_t (a' + pm.local_iky0)) = 0 then 1 else 0) := by
            split_ifs <;> omega
          omega
        exact flat_index_inj h2 ⟨h30, h3.2⟩ hix ⟨hiz.1, by omega⟩ he)
    simp only at key
    rw [key]
    have hw : (if iy_local + pm.local_iky0 ≤ pm.nc.tdiv 2 then iy_local + pm.local_iky0
        else iy_local + pm.local_iky0 - pm.nc) = wavenumber pm.nc (iy_local + pm.local_iky0) := by
      unfold wavenumber
      rw [Int.tdiv_eq_ediv (by omega) (by omega)]
    rw [to_int32_wavenumber hnc hint hix, hiyc, hn, hw]
    have hf1 : -1 / (pm.nc : Rat) ^ 3 / (2 * M_PI / pm.boxsize) =
        -(pm.boxsize / (2 * M_PI * (pm.nc : Rat) ^ 3)) := by
      simp only [div_eq_mul_inv, mul_inv, inv_inv]
      ring
    rw [hf1]
    simp only [cmul, Prod.mk.injEq]
    constructor <;> ring

/-- C20: for `2 <= nc` (within the range of `int`), a slab
`[local_iky0, local_iky0 + local_nky)` within the `nc` planes, every axis `a` in
`{0, 1, 2}` and every locally stored mode `(iy_local, ix, iz)` other than the zero mode,
with the signed wavenumbers `kx`, `ky` (`iy = iy_local + local_iky0`) and `kz = iz` in
`[0, nc/2]`: `kx^2 + ky^2 + kz^2` is not zero and, after the coefficient loops of
`compute_force_mesh`, `fk` at the flat index `(nc*iy_local + ix)*(nc/2 + 1) + iz` is
`(-i) * (k_a / (kx^2 + ky^2 + kz^2)) * (boxsize / (2*M_PI*nc^3)) * delta_k`.  On a node
whose `local_iky0` is not 0 this holds at local index 0 (`kx = kz = 0`,
`ky` the wavenumber of `local_iky0`), which is not left at the zero written before the
loops. -/
theorem force_coefficient_at_nonzero_modes (pm : Pm) (axis : Int)
    (hnc : 2 ≤ pm.nc) (hint : pm.nc < 2 ^ 31)
    (hk0 : 0 ≤ pm.local_iky0) (hk1 : pm.local_iky0 + pm.local_nky ≤ pm.nc)
    (haxis : 0 ≤ axis ∧ axis ≤ 2) :
    (∀ iy_local ix iz : Int, (0 ≤ iy_local ∧ iy_local < pm.local_nky) →
      (0 ≤ ix ∧ ix < pm.nc) → (0 ≤ iz ∧ iz ≤ pm.nc / 2) →
      ¬ (ix = 0 ∧ iy_local + pm.local_iky0 = 0 ∧ iz = 0) →
      ((wavenumber pm.nc ix : Rat) ^ 2
          + (wavenumber pm.nc (iy_local + pm.local_iky0) : Rat) ^ 2 + (iz : Rat) ^ 2 ≠ 0) ∧
        force_mesh_coefficients pm axis ((pm.nc * iy_local + ix) * (pm.nc / 2 + 1) + iz) =
          cmul (0, -1)
            (cmul
              ((if axis = 0 then (wavenumber pm.nc ix : Rat)
                  else if axis = 1 then (wavenumber pm.nc (iy_local + pm.local_iky0) : Rat)
                  else (iz : Rat)) /
                ((wavenumber pm.nc ix : Rat) ^ 2
                  + (wavenumber pm.nc (iy_local + pm.local_iky0) : Rat) ^ 2 + (iz : Rat) ^ 2) *
                (pm.boxsize / (2 * M_PI * (pm.nc : Rat) ^ 3)), 0)
              (pm.delta_k ((pm.nc * iy_local + ix) * (pm.nc / 2 + 1) + iz)))) ∧
      (pm.local_iky0 ≠ 0 → 0 < pm.local_nky →
        force_mesh_coefficients pm axis 0 =
          cmul (0, -1)
            (cmul
              ((if axis = 1 then (wavenumber pm.nc pm.local_iky0 : Rat) else 0) /
                  (wavenumber pm.nc pm.local_iky0 : Rat) ^ 2 *
                (pm.boxsize / (2 * M_PI * (pm.nc : Rat) ^ 3)), 0)
              (pm.delta_k 0))) := by
  have _ := haxis
  have main : ∀ iy_local ix iz : Int, (0 ≤ iy_local ∧ iy_local < pm.local_nky) →
      (0 ≤ ix ∧ ix < pm.nc) → (0 ≤ iz ∧ iz ≤ pm.nc / 2) →
      ¬ (ix = 0 ∧ iy_local + pm.local_iky0 = 0 ∧ iz = 0) →
      ((wavenumber pm.nc ix : Rat) ^ 2
          + (wavenumber pm.nc (iy_local + pm.local_iky0) : Rat) ^ 2 + (iz : Rat) ^ 2 ≠ 0) ∧
        force_mesh_coefficients pm axis ((pm.nc * iy_local + ix) * (pm.nc / 2 + 1) + iz) =
          cmul (0, -1)
            (cmul
              ((if axis = 0 then (wavenumber pm.nc ix : Rat)
                  else if axis = 1 then (wavenumber pm.nc (iy_local + pm.local_iky0) : Rat)
                  else (iz : Rat)) /
                ((wavenumber pm.nc ix : Rat) ^ 2
                  + (wavenumber pm.nc (iy_local + pm.local_iky0) : Rat) ^ 2 + (iz : Rat) ^ 2) *
                (pm.boxsize / (2 * M_PI * (pm.nc : Rat) ^ 3)), 0)
              (pm.delta_k ((pm.nc * iy_local + ix) * (pm.nc / 2 + 1) + iz))) := by
    intro iy_local ix iz hiy hix hiz hmode
    exact force_coefficient_mode pm axis iy_local ix iz hnc hint hk0 hk1 hiy hix hiz hmode
  refine ⟨main, fun h0 hn => ?_⟩
  have h := (main 0 0 0 ⟨le_refl 0, hn⟩ ⟨le_refl 0, by omega⟩ ⟨le_refl 0, by omega⟩
    (by simp only [zero_add, true_and, and_true]; exact h0)).2
  have e0 : (pm.nc * 0 + 0) * (pm.nc / 2 + 1) + 0 = 0 := by ring
  have w0 : wavenumber pm.nc 0 = 0 := (wavenumber_eq_zero ⟨le_refl 0, by omega⟩).2 rfl
  rw [e0, w0, zero_add] at h
  rw [h]
  by_cases ha0 : axis = 0
  · have ha1 : ¬ axis = 1 := by omega
    simp [ha0]
  · by_cases ha1 : axis = 1
    · simp [ha1]
    · simp [ha0, ha1]

/-- C20 at a concrete input: on the node that owns `ky = 2, 3` of a mesh with `nc = 4`
in a box of side 4, with `delta_k = 1 + 2i`, the y-component stored at local index 0
(`kx = 0`, `ky = 2`, `kz = 0`) is `(-i) * (2/4) * (4 / (2*M_PI*64)) * (1 + 2i)`, not the
zero written before the loops. -/
theorem force_coefficient_at_nonzero_modes_witness :
    force_mesh_coefficients upper_pm 1 0 = (1 / (32 * M_PI), -(1 / (64 * M_PI))) ∧
      force_mesh_coefficients upper_pm 1 0 ≠ (0, 0) := by
  have h := (force_coefficient_at_nonzero_modes upper_pm 1 (by decide) (by decide) (by decide)
    (by decide) (by decide)).2 (by decide) (by decide)
  rw [h]
  constructor <;> decide!

/-! ## The copies a ledger records -/

theorem counter_values_map_eq (l : List Int) (f : Int → Int)
    (h : ∀ k : Nat, k < l.length → f (k : Int) = l.getD k 0) :
    (counter_values (l.length : Int)).map f = l := by
  apply List.ext_getElem
  · simp [counter_values]
  · intro n h1 h2
    simp only [counter_values, List.map_map, List.getElem_map, List.getElem_range,
      Function.comp]
    rw [h n h2, List.getD_eq_getElem?_getD, List.getElem?_eq_getElem h2]
    rfl

theorem filter_counter_values_const (l : List Int) (f : Int → Int) (j r : Int)
    (h : ∀ k : Nat, k < l.length → f (k : Int) = l.getD k 0) :
    ((counter_values (l.length : Int)).filter fun k => f k = j).map (fun _ => r) =
      (l.filter fun i => i = j).map fun _ => r := by
  have e := counter_values_map_eq l f h
  conv_rhs => rw [← e]
  rw [List.filter_map, List.map_map]
  rfl

/-- The copies of particle `j` one `send_packet` adds to the ledger. -/
theorem send_packet_copies {dom dom' : Domain} {st st' : State} {mem mem' : Mem}
    {ps : List Particle} (hok : ledger_ok st mem ps) (hd : dom.holds ps)
    (h : send_packet dom st mem = .ok (dom', st', mem')) (j : Int) :
    copies_sent st' j = copies_sent st j ++
      (dom.vbuf_index.filter fun i => i = j).map fun _ => dom.rank := by
  obtain ⟨h0, _, hall, _⟩ := hok
  obtain ⟨hlen, _⟩ := hd
  obtain ⟨e1, e2, e3, _, e5, _, _, e8⟩ := send_packet_content h hlen
  unfold copies_sent
  rw [e8, List.flatMap_append]
  congr 1
  · apply List.flatMap_congr
    intro pkt hp
    congr 1
    apply List.filter_congr
    intro k hk
    have hk' := mem_counter_values hk
    have hb := (hall pkt hp).2.2.1
    rw [e3 _ (by omega)]
  · by_cases hn : dom.nsend = 0
    · rw [if_pos hn]
      have hl : dom.vbuf_index = [] := by
        apply List.eq_nil_of_length_eq_zero
        omega
      simp [hl]
    · rw [if_neg hn]
      simp only [List.flatMap_cons, List.flatMap_nil, List.append_nil]
      rw [← e2]
      exact filter_counter_values_const dom.vbuf_index
        (fun k => st'.buf_index (st.nbuf_index + k)) j dom.rank e5

/-- The copies of particle `j` a flush adds to the ledger. -/
theorem flush_domains_copies {ds ds' : List Domain} {st st' : State} {mem mem' : Mem}
    {ps : List Particle} (hok : ledger_ok st mem ps) (hd : ∀ d ∈ ds, d.holds ps)
    (h : flush_domains ds st mem = .ok (ds', st', mem')) (j : Int) :
    copies_sent st' j = copies_sent st j ++
      ds.flatMap fun d => (d.vbuf_index.filter fun i => i = j).map fun _ => d.rank := by
  induction ds generalizing ds' st st' mem mem' with
  | nil =>
    simp only [flush_domains, Except.ok.injEq, Prod.mk.injEq] at h
    obtain ⟨_, rfl, rfl⟩ := h
    simp
  | cons d ds ih =>
    unfold flush_domains at h
    cases h1 : send_packet d st mem with
    | error e => rw [h1] at h; simp at h
    | ok r1 =>
      obtain ⟨d1, st1, mem1⟩ := r1
      rw [h1] at h
      simp only at h
      cases h2 : flush_domains ds st1 mem1 with
      | error e => rw [h2] at h; simp at h
      | ok r2 =>
        obtain ⟨ds2, st2, mem2⟩ := r2
        rw [h2] at h
        simp only [Except.ok.injEq, Prod.mk.injEq] at h
        obtain ⟨_, rfl, rfl⟩ := h
        rw [ih (send_packet_ledger hok (hd d (List.mem_cons_self _ _)) h1)
            (fun x hx => hd x (List.mem_cons_of_mem _ hx)) h2,
          send_packet_copies hok (hd d (List.mem_cons_self _ _)) h1 j, List.flatMap_cons,
          List.append_assoc]

theorem selected_fst_ge (x_left x_right boxsize lo hi : Rat) (i : Int) (ps : List Particle) :
    ∀ c ∈ selected x_left x_right boxsize lo hi i ps, i ≤ c.1 := by
  intro c hc
  obtain ⟨m, hm, rfl⟩ := List.mem_iff_getElem.1 hc
  obtain ⟨k, _, hk⟩ := selected_getD x_left x_right boxsize lo hi i ps m hm
  rw [hk]
  simp

/-- The entries of a pending index list for particle number `i + j`, when
`x_left <= x_right`: one if the particle lies outside `[x_left, x_right]` and passes the
interval test, none otherwise. -/
theorem selected_copies {x_left x_right : Rat} (hle : x_left ≤ x_right)
    (boxsize lo hi : Rat) (i : Int) (ps : List Particle) (j : Nat) :
    ((selected x_left x_right boxsize lo hi i ps).map Prod.fst).filter
        (fun x => x = i + (j : Int)) =
      match ps[j]? with
      | some p =>
        if ((decide ((periodic_wrapup_p p boxsize).x.c0 < x_left) ||
            decide ((periodic_wrapup_p p boxsize).x.c0 > x_right)) &&
            send_test lo hi (periodic_wrapup_p p boxsize).x.c0 boxsize) = true
          then [i + (j : Int)] else []
      | none => [] := by
  induction ps generalizing i j with
  | nil => simp [selected]
  | cons p rest ih =>
    rw [selected_cons, List.map_append, List.filter_append]
    have hnot : ¬ ((periodic_wrapup_p p boxsize).x.c0 < x_left ∧
        (periodic_wrapup_p p boxsize).x.c0 > x_right) := by
      rintro ⟨h1, h2⟩
      exact absurd (lt_trans h2 (lt_of_lt_of_le h1 hle)) (lt_irrefl _)
    cases j with
    | zero =>
      have htail : ((selected x_left x_right boxsize lo hi (i + 1) rest).map Prod.fst).filter
          (fun x => x = i + ((0 : Nat) : Int)) = [] := by
        rw [List.filter_eq_nil_iff]
        intro x hx
        obtain ⟨c, hc, rfl⟩ := List.mem_map.1 hx
        have := selected_fst_ge x_left x_right boxsize lo hi (i + 1) rest c hc
        simp only [Nat.cast_zero, add_zero, decide_eq_true_eq]
        omega
      rw [htail, List.append_nil]
      simp only [selected, List.append_nil, List.getElem?_cons_zero, Nat.cast_zero, add_zero]
      by_cases ht : send_test lo hi (periodic_wrapup_p p boxsize).x.c0 boxsize = true
      · by_cases h1 : (periodic_wrapup_p p boxsize).x.c0 < x_left
        · have h2 : ¬ (periodic_wrapup_p p boxsize).x.c0 > x_right := fun h2 => hnot ⟨h1, h2⟩
          simp [ht, h1, h2]
        · by_cases h2 : (periodic_wrapup_p p boxsize).x.c0 > x_right
          · simp [ht, h1, h2]
          · simp [ht, h1, h2]
      · simp [ht]
    | succ j =>
      have hhead : ((selected x_left x_right boxsize lo hi i [p]).map Prod.fst).filter
          (fun x => x = i + ((j + 1 : Nat) : Int)) = [] := by
        rw [List.filter_eq_nil_iff]
        intro x hx
        obtain ⟨c, hc, rfl⟩ := List.mem_map.1 hx
        rw [selected_single_mem x_left x_right boxsize lo hi i p c hc]
        simp only [decide_eq_true_eq]
        push_cast
        omega
      rw [hhead, List.nil_append]
      have e : i + ((j + 1 : Nat) : Int) = (i + 1) + (j : Int) := by push_cast; ring
      rw [e, ih (i + 1) j]
      simp only [List.getElem?_cons_succ]

/-- A `send_packet` leaves the slots below the counters as they are and lowers no
counter. -/
theorem send_packet_persist {dom dom' : Domain} {st st' : State} {mem mem' : Mem}
    (h : send_packet dom st mem = .ok (dom', st', mem'))
    (hlen : dom.vbuf.length = 3 * dom.vbuf_index.length) :
    (∀ r i : Int, i < 3 * mem.nbuf r → mem'.buf_pos r i = mem.buf_pos r i) ∧
      ∀ r : Int, mem.nbuf r ≤ mem'.nbuf r := by
  obtain ⟨_, _, _, _, _, e6, _, _⟩ := send_packet_content h hlen
  obtain ⟨_, _, _, _, hm⟩ := send_packet_ok h
  have hn := nsend_nonneg dom
  refine ⟨fun r i hi => ?_, fun r => ?_⟩
  · apply e6
    by_cases hr : r = dom.rank
    · right; left
      rw [← hr]
      exact hi
    · left
      exact hr
  · rw [hm r]
    split_ifs <;> omega

theorem flush_domains_persist {ds ds' : List Domain} {st st' : State} {mem mem' : Mem}
    (hd : ∀ d ∈ ds, d.vbuf.length = 3 * d.vbuf_index.length)
    (h : flush_domains ds st mem = .ok (ds', st', mem')) :
    (∀ r i : Int, i < 3 * mem.nbuf r → mem'.buf_pos r i = mem.buf_pos r i) ∧
      ∀ r : Int, mem.nbuf r ≤ mem'.nbuf r := by
  induction ds generalizing ds' st st' mem mem' with
  | nil =>
    simp only [flush_domains, Except.ok.injEq, Prod.mk.injEq] at h
    obtain ⟨_, _, rfl⟩ := h
    exact ⟨fun _ _ _ => rfl, fun _ => le_refl _⟩
  | cons d ds ih =>
    unfold flush_domains at h
    cases h1 : send_packet d st mem with
    | error e => rw [h1] at h; simp at h
    | ok r1 =>
      obtain ⟨d1, st1, mem1⟩ := r1
      rw [h1] at h
      simp only at h
      cases h2 : flush_domains ds st1 mem1 with
      | error e => rw [h2] at h; simp at h
      | ok r2 =>
        obtain ⟨ds2, st2, mem2⟩ := r2
        rw [h2] at h
        simp only [Except.ok.injEq, Prod.mk.injEq] at h
        obtain ⟨_, _, rfl⟩ := h
        obtain ⟨a1, a2⟩ := send_packet_persist h1 (hd d (List.mem_cons_self _ _))
        obtain ⟨b1, b2⟩ := ih (fun x hx => hd x (List.mem_cons_of_mem _ hx)) h2
        refine ⟨fun r i hi => ?_, fun r => le_trans (a2 r) (b2 r)⟩
        rw [b1 r i (by have := a2 r; omega), a1 r i hi]

/-- What a normal return of the part of `pm_domain_send_positions` between the fences
has set up, when it starts from an empty ledger and empty batches with
`x_left <= x_right`: the ledger locates the wrapped particles, slots below the counters
are as they were, and particle `j` has one copy recorded for every Domain whose interval
test it passes, if it lies outside `[x_left, x_right]`. -/
theorem send_positions_body_copies {st st' : State} {mem mem' : Mem}
    {particles ps' : Particles}
    (hp0 : st.packets_sent = []) (hn0 : st.nbuf_index = 0)
    (hclear : ∀ d ∈ st.decomposition, d.vbuf = [] ∧ d.vbuf_index = [])
    (hle : st.x_left ≤ st.x_right)
    (h : send_positions_body st mem particles = .ok (st', mem', ps')) :
    ledger_ok st' mem' ps'.p ∧
      ps' = { particles with
        p := particles.p.map fun p => periodic_wrapup_p p particles.boxsize } ∧
      (∀ r i : Int, i < 3 * mem.nbuf r → mem'.buf_pos r i = mem.buf_pos r i) ∧
      (∀ r : Int, mem.nbuf r ≤ mem'.nbuf r) ∧
      ∀ j : Nat, copies_sent st' (j : Int) =
        st.decomposition.flatMap fun d =>
          match particles.p[j]? with
          | some p =>
            if ((decide ((periodic_wrapup_p p particles.boxsize).x.c0 < st.x_left) ||
                decide ((periodic_wrapup_p p particles.boxsize).x.c0 > st.x_right)) &&
                send_test d.xbuf_min d.xbuf_max (periodic_wrapup_p p particles.boxsize).x.c0
                  particles.boxsize) = true
              then [d.rank] else []
          | none => [] := by
  have hps := send_positions_body_particles h
  have hps' : ps' = { particles with
      p := particles.p.map fun p => periodic_wrapup_p p particles.boxsize } := by
    unfold send_positions_body at h
    rw [scan_particles_eq] at h
    simp only at h
    cases hf : packets_flush
        { st with decomposition := st.decomposition.map fun dom =>
            push_all dom (selected st.x_left st.x_right particles.boxsize dom.xbuf_min
              dom.xbuf_max 0 particles.p) } mem with
    | error e => rw [hf] at h; simp at h
    | ok r =>
      rw [hf] at h
      simp only [Except.ok.injEq, Prod.mk.injEq] at h
      obtain ⟨_, _, rfl⟩ := h
      rfl
  obtain ⟨ds', st2, hf, rfl⟩ := send_positions_body_ok h
  have hstart : ledger_ok { st with decomposition := scanned st particles } mem ps'.p := by
    refine ⟨by simp only [hn0]; exact le_refl 0, by simp only [hp0]; exact List.Pairwise.nil,
      by simp only [hp0]; intro pkt hp; simp at hp, ?_⟩
    intro s
    simp only [hn0, hp0, List.not_mem_nil, false_and, exists_false, iff_false]
    omega
  have hholds : ∀ d ∈ scanned st particles, d.holds ps'.p := by
    rw [hps]
    exact scanned_holds hclear particles
  have hfin := flush_domains_ledger hstart hholds hf
  obtain ⟨p1, p2⟩ := flush_domains_persist (fun d hd => (hholds d hd).1) hf
  refine ⟨hfin, hps', p1, p2, fun j => ?_⟩
  have hc := flush_domains_copies hstart hholds hf (j : Int)
  have hc0 : copies_sent { st with decomposition := scanned st particles } (j : Int) = [] := by
    simp [copies_sent, hp0]
  have e : copies_sent { st2 with decomposition := ds' } (j : Int) = copies_sent st2 (j : Int) :=
    rfl
  rw [e, hc, hc0, List.nil_append]
  unfold scanned
  rw [List.flatMap_map]
  apply List.flatMap_congr
  intro d hd
  obtain ⟨_, hvi⟩ := hclear d hd
  have hsel := selected_copies hle particles.boxsize d.xbuf_min d.xbuf_max 0 particles.p j
  simp only [zero_add] at hsel
  simp only [push_all, hvi, List.nil_append]
  rw [hsel]
  cases particles.p[j]? with
  | none => rfl
  | some p =>
    simp only
    split_ifs <;> rfl

/-! ## The exchange seen from one process -/

/-- What every process of a run holds after the first fence of a collective
`pm_domain_send_positions`. -/
theorem exchange_begin_begun (w : Run) (sts : Nat → State) (rs : List Nat)
    (hrs : ∀ r ∈ rs, r < w.layout.length ∧ w.ready r (sts r)) {mem mem1 : Mem}
    {procs1 : List Proc}
    (h : exchange_begin (rs.map fun r => { w.proc r with st := sts r }) mem
      = .ok (procs1, mem1)) :
    List.Forall₂ (fun r pr => pr.env = (w.proc r).env ∧ pr.particles = (w.proc r).particles ∧
      pr.st.x_left = (w.begun r).st.x_left ∧ pr.st.x_right = (w.begun r).st.x_right ∧
      pr.st.decomposition = (w.begun r).st.decomposition ∧ pr.st.packets_sent = [] ∧
      pr.st.nbuf_index = 0) rs procs1 := by
  induction rs generalizing mem mem1 procs1 with
  | nil =>
    simp only [List.map_nil, exchange_begin, Except.ok.injEq, Prod.mk.injEq] at h
    obtain ⟨rfl, rfl⟩ := h
    exact List.Forall₂.nil
  | cons r rs ih =>
    obtain ⟨hr, hready⟩ := hrs r (List.mem_cons_self _ _)
    simp only [List.map_cons, exchange_begin] at h
    cases hb : send_positions_begin (w.proc r).env (sts r) mem (w.proc r).particles with
    | error e => rw [hb] at h; simp at h
    | ok res =>
      obtain ⟨st1, memb⟩ := res
      rw [hb] at h
      simp only at h
      cases hrest : exchange_begin (rs.map fun r => { w.proc r with st := sts r }) memb with
      | error e => rw [hrest] at h; simp at h
      | ok res2 =>
        obtain ⟨rest1, mem2⟩ := res2
        rw [hrest] at h
        simp only [Except.ok.injEq, Prod.mk.injEq] at h
        obtain ⟨rfl, rfl⟩ := h
        obtain ⟨hxl, hxr, hdec, _, _⟩ := send_positions_begin_ready w r hr hready hb
        obtain ⟨hp0, hn0, _, _⟩ := send_positions_begin_ok hb
        exact List.Forall₂.cons ⟨rfl, rfl, hxl, hxr, hdec, hp0, hn0⟩
          (ih (fun x hx => hrs x (List.mem_cons_of_mem _ hx)) hrest)

/-- The bodies of a collective exchange, process by process: each runs on the memory the
processes before it left, and the processes after it leave its slots as they are. -/
theorem exchange_body_steps {procs procs' : List Proc} {mem mem' : Mem}
    (hq : ∀ pr ∈ procs, pr.st.packets_sent = [] ∧ pr.st.nbuf_index = 0 ∧
      (∀ d ∈ pr.st.decomposition, d.vbuf = [] ∧ d.vbuf_index = []) ∧
      pr.st.x_left ≤ pr.st.x_right)
    (h : exchange_body procs mem = .ok (procs', mem')) :
    List.Forall₂ (fun pr pr' => pr'.env = pr.env ∧
      ∃ mem_a mem_b, send_positions_body pr.st mem_a pr.particles
          = .ok (pr'.st, mem_b, pr'.particles) ∧
        (∀ r : Int, mem.nbuf r ≤ mem_a.nbuf r) ∧ (∀ r : Int, mem_b.nbuf r ≤ mem'.nbuf r) ∧
        ∀ r i : Int, i < 3 * mem_b.nbuf r → mem'.buf_pos r i = mem_b.buf_pos r i)
      procs procs' ∧
    (∀ r : Int, mem.nbuf r ≤ mem'.nbuf r) ∧
    ∀ r i : Int, i < 3 * mem.nbuf r → mem'.buf_pos r i = mem.buf_pos r i := by
  induction procs generalizing procs' mem mem' with
  | nil =>
    simp only [exchange_body, Except.ok.injEq, Prod.mk.injEq] at h
    obtain ⟨rfl, rfl⟩ := h
    exact ⟨List.Forall₂.nil, fun _ => le_refl _, fun _ _ _ => rfl⟩
  | cons pr rest ih =>
    unfold exchange_body at h
    cases hb : send_positions_body pr.st mem pr.particles with
    | error e => rw [hb] at h; simp at h
    | ok r =>
      obtain ⟨st1, mem1, ps1⟩ := r
      rw [hb] at h
      simp only at h
      cases hr : exchange_body rest mem1 with
      | error e => rw [hr] at h; simp at h
      | ok r2 =>
        obtain ⟨rest2, mem2⟩ := r2
        rw [hr] at h
        simp only [Except.ok.injEq, Prod.mk.injEq] at h
        obtain ⟨rfl, rfl⟩ := h
        obtain ⟨q1, q2, q3, q4⟩ := hq pr (List.mem_cons_self _ _)
        obtain ⟨_, _, p1, p2, _⟩ := send_positions_body_copies q1 q2 q3 q4 hb
        obtain ⟨f, m1, m2⟩ := ih (fun x hx => hq x (List.mem_cons_of_mem _ hx)) hr
        refine ⟨List.Forall₂.cons ⟨rfl, mem, mem1, hb, fun _ => le_refl _, m1, m2⟩ ?_,
          fun r => le_trans (p2 r) (m1 r), fun r i hi => ?_⟩
        · refine f.imp ?_
          rintro a b ⟨he, ma, mb, hbody, c1, c2, c3⟩
          exact ⟨he, ma, mb, hbody, fun r => le_trans (p2 r) (c1 r), c2, c3⟩
        · rw [m2 r i (by have := p2 r; omega), p1 r i hi]

theorem send_positions_body_offsets {st st' : State} {mem mem' : Mem}
    {particles ps' : Particles} (hp0 : st.packets_sent = [])
    (h : send_positions_body st mem particles = .ok (st', mem', ps')) :
    ∀ pkt ∈ st'.packets_sent, mem.nbuf pkt.dest_rank ≤ pkt.offset := by
  obtain ⟨ds', st2, hf, rfl⟩ := send_positions_body_ok h
  obtain ⟨_, _, _, ⟨new, hnew, hall, _⟩, _⟩ := flush_domains_ok hf
  intro pkt hp
  simp only [hp0, List.nil_append] at hnew
  have hp' : pkt ∈ st2.packets_sent := hp
  rw [hnew] at hp'
  exact (hall pkt hp').1

theorem begun_clear (w : Run) (r : Nat) :
    ∀ d ∈ (w.begun r).st.decomposition, d.vbuf = [] ∧ d.vbuf_index = [] := by
  intro d hd
  simp only [Run.begun, initialised, List.mem_map] at hd
  obtain ⟨k, _, rfl⟩ := hd
  exact ⟨rfl, rfl⟩

/-- What process `host` of a run holds after a collective `pm_domain_send_positions`
that returns normally, with respect to the memory all processes have left: its
particles are wrapped, every Packet of its ledger lies within the index buffer and
within the slots the destination counts, and locates its particles in the final content
of the destination's buffer; particle `j` has one copy recorded for every Domain whose
interval test it passes, if it lies outside `[x_left, x_right]`. -/
theorem exchange_host (w : Run) (sts : Nat → State) (mem mem1 : Mem) (procs1 : List Proc)
    (hbox : 0 < w.boxsize) (hnc : 0 < w.nc) (hnx : ∀ s ∈ w.layout, 2 ≤ s.local_nx)
    (hready : ∀ r, r < w.layout.length → w.ready r (sts r))
    (hmem : ∀ k : Int, 0 ≤ mem.nbuf k)
    (h : exchange (w.procs_from sts) mem = .ok (procs1, mem1))
    (host : Nat) (hh : host < w.layout.length) :
    ∃ pr, procs1[host]? = some pr ∧ procs1.length = w.layout.length ∧
      pr.env = (w.proc host).env ∧
      pr.particles = { (w.proc host).particles with
        p := (w.parts.getD host []).map fun p => periodic_wrapup_p p w.boxsize } ∧
      (∀ pkt ∈ pr.st.packets_sent, 0 ≤ pkt.offset_index ∧ 0 < pkt.n ∧
        pkt.offset_index + pkt.n ≤ pr.st.nbuf_index ∧ 0 ≤ pkt.offset ∧
        pkt.offset + pkt.n ≤ mem1.nbuf pkt.dest_rank ∧
        pkt.located pr.st.buf_index mem1.buf_pos pr.particles.p) ∧
      ∀ j : Nat, copies_sent pr.st (j : Int) =
        (w.begun host).st.decomposition.flatMap fun d =>
          match (w.parts.getD host [])[j]? with
          | some p =>
            if ((decide ((periodic_wrapup_p p w.boxsize).x.c0 < (w.begun host).st.x_left) ||
                decide ((periodic_wrapup_p p w.boxsize).x.c0 > (w.begun host).st.x_right)) &&
                send_test d.xbuf_min d.xbuf_max (periodic_wrapup_p p w.boxsize).x.c0
                  w.boxsize) = true
              then [d.rank] else []
          | none => [] := by
  unfold exchange Run.procs_from at h
  cases hb : exchange_begin
      ((List.range w.layout.length).map fun r => { w.proc r with st := sts r }) mem with
  | error e => rw [hb] at h; simp at h
  | ok res =>
    obtain ⟨procs0, mem0⟩ := res
    rw [hb] at h
    simp only at h
    have hrs : ∀ r ∈ List.range w.layout.length, r < w.layout.length ∧ w.ready r (sts r) :=
      fun r hr => ⟨List.mem_range.1 hr, hready r (List.mem_range.1 hr)⟩
    have hbeg := exchange_begin_begun w sts (List.range w.layout.length) hrs hb
    obtain ⟨hcnt, _⟩ := exchange_begin_ready w sts (List.range w.layout.length) hrs hb
    have hmem0 : ∀ k : Int, 0 ≤ mem0.nbuf k := by
      intro k
      rw [hcnt k]
      split_ifs
      · exact le_refl 0
      · exact hmem k
    obtain ⟨hlen0, hget0⟩ := List.forall₂_iff_get.1 hbeg
    have hxle : ∀ r, r < w.layout.length → (w.begun r).st.x_left ≤ (w.begun r).st.x_right :=
      fun r hr => x_left_le_x_right hbox hnc (w.layout.getD r ⟨0, 0⟩)
        (hnx _ (getD_mem_of_lt w.layout r hr))
    have hq : ∀ pr ∈ procs0, pr.st.packets_sent = [] ∧ pr.st.nbuf_index = 0 ∧
        (∀ d ∈ pr.st.decomposition, d.vbuf = [] ∧ d.vbuf_index = []) ∧
        pr.st.x_left ≤ pr.st.x_right := by
      intro pr hpr
      obtain ⟨i, hi, rfl⟩ := List.mem_iff_getElem.1 hpr
      have hi' : i < (List.range w.layout.length).length := by rw [hlen0]; exact hi
      have hg := hget0 i hi' hi
      simp only [List.get_eq_getElem, List.getElem_range] at hg
      obtain ⟨_, _, g3, g4, g5, g6, g7⟩ := hg
      have hil : i < w.layout.length := by simpa using hi'
      refine ⟨g6, g7, ?_, ?_⟩
      · rw [g5]
        exact begun_clear w i
      · rw [g3, g4]
        exact hxle i hil
    obtain ⟨hsteps, _, _⟩ := exchange_body_steps hq h
    obtain ⟨hlen1, hget1⟩ := List.forall₂_iff_get.1 hsteps
    have h0 : host < (List.range w.layout.length).length := by simpa using hh
    have h1 : host < procs0.length := by rw [← hlen0]; exact h0
    have h2 : host < procs1.length := by rw [← hlen1]; exact h1
    have hg0 := hget0 host h0 h1
    have hg1 := hget1 host h1 h2
    simp only [List.get_eq_getElem, List.getElem_range] at hg0 hg1
    obtain ⟨g1, g2, g3, g4, g5, g6, g7⟩ := hg0
    obtain ⟨e1, mem_a, mem_b, hbody, c1, c2, c3⟩ := hg1
    have hq0 := hq procs0[host] (List.getElem_mem h1)
    obtain ⟨b1, b2, _, _, b5⟩ := send_positions_body_copies hq0.1 hq0.2.1 hq0.2.2.1 hq0.2.2.2
      hbody
    have hoff := send_positions_body_offsets hq0.1 hbody
    have hpp : procs0[host].particles.p = w.parts.getD host [] := by rw [g2]; rfl
    have hpb : procs0[host].particles.boxsize = w.boxsize := by rw [g2]; rfl
    refine ⟨procs1[host], List.getElem?_eq_getElem h2, ?_, by rw [e1, g1], ?_, ?_, ?_⟩
    · rw [← hlen1, ← hlen0]
      simp
    · rw [b2, g2]
      rfl
    · intro pkt hp
      obtain ⟨l0, _, lall, _⟩ := b1
      obtain ⟨a1, a2, a3, a4, a5⟩ := lall pkt hp
      have ho := hoff pkt hp
      have hma := c1 pkt.dest_rank
      have hm0 := hmem0 pkt.dest_rank
      refine ⟨a1, a2, a3, by omega, le_trans a4 (c2 _), ?_⟩
      intro k hk
      obtain ⟨p, q1, q2, q3, q4, q5⟩ := a5 k hk
      have hk0 : (0 : Int) ≤ (k : Int) := by omega
      refine ⟨p, q1, q2, ?_, ?_, ?_⟩
      · rw [c3 _ _ (by omega)]; exact q3
      · rw [c3 _ _ (by omega)]; exact q4
      · rw [c3 _ _ (by omega)]; exact q5
    · intro j
      rw [b5 j, g5, g3, g4, hpp, hpb]

/-! ## The axis loop of `pm_compute_force` -/

theorem float3_set_set (f : Float3) (axis : Int) (v v' : Rat) :
    (f.set axis v).set axis v' = f.set axis v' := by
  unfold Float3.set
  split_ifs <;> rfl

/-- The forces of the local particles after one pass of the axis loop. -/
theorem local_pass_spec (axis : Int) (g : Int → Rat) :
    ∀ (l : List Int) (f : List Float3), (∀ i ∈ l, 0 ≤ i) →
      (l.foldl (fun f i => store_particle_force f i axis (g i)) f).length = f.length ∧
      ∀ j : Nat, j < f.length →
        (l.foldl (fun f i => store_particle_force f i axis (g i)) f).getD j Float3.zero =
          if (j : Int) ∈ l then (f.getD j Float3.zero).set axis (g j)
          else f.getD j Float3.zero := by
  intro l
  induction l with
  | nil =>
    intro f _
    exact ⟨rfl, fun j _ => by simp⟩
  | cons a rest ih =>
    intro f hl
    have ha := hl a (List.mem_cons_self _ _)
    obtain ⟨i1, i2⟩ := ih (store_particle_force f a axis (g a))
      (fun i hi => hl i (List.mem_cons_of_mem _ hi))
    have hlen : (store_particle_force f a axis (g a)).length = f.length := by
      simp [store_particle_force]
    rw [List.foldl_cons]
    refine ⟨by rw [i1, hlen], fun j hj => ?_⟩
    rw [i2 j (by rw [hlen]; exact hj)]
    have hget : (store_particle_force f a axis (g a)).getD j Float3.zero =
        if a = (j : Int) then (f.getD j Float3.zero).set axis (g a)
        else f.getD j Float3.zero := by
      unfold store_particle_force
      by_cases haj : a = (j : Int)
      · have ht : a.toNat = j := by omega
        rw [if_pos haj, ht, List.getD_eq_getElem?_getD, List.getElem?_set_self hj]
        rfl
      · have ht : a.toNat ≠ j := by omega
        rw [if_neg haj, List.getD_eq_getElem?_getD, List.getElem?_set_ne ht,
          ← List.getD_eq_getElem?_getD]
    rw [hget]
    by_cases hjr : (j : Int) ∈ rest
    · rw [if_pos hjr, if_pos (List.mem_cons_of_mem _ hjr)]
      by_cases haj : a = (j : Int)
      · rw [if_pos haj, float3_set_set]
      · rw [if_neg haj]
    · rw [if_neg hjr]
      by_cases haj : a = (j : Int)
      · rw [if_pos haj, if_pos (by rw [haj]; exact List.mem_cons_self _ _), haj]
      · rw [if_neg haj, if_neg]
        intro hm
        rcases List.mem_cons.1 hm with h | h
        · exact haj h.symm
        · exact hjr h

/-- The force buffer of a node after one pass of the axis loop over its ghost
particles. -/
theorem ghost_pass_spec (this_node axis : Int) (g : Int → Rat) :
    ∀ (l : List Int) (mem : Mem),
      (l.foldl (fun m i => store_buffer_force this_node m i axis (g i)) mem).nbuf = mem.nbuf ∧
      (l.foldl (fun m i => store_buffer_force this_node m i axis (g i)) mem).buf_pos
        = mem.buf_pos ∧
      (∀ r i : Int, (r ≠ this_node ∨ ∀ s ∈ l, i ≠ 3 * s + axis) →
        (l.foldl (fun m i => store_buffer_force this_node m i axis (g i)) mem).buf_force r i
          = mem.buf_force r i) ∧
      ∀ s ∈ l,
        (l.foldl (fun m i => store_buffer_force this_node m i axis (g i)) mem).buf_force
          this_node (3 * s + axis) = g s := by
  intro l
  induction l with
  | nil =>
    intro mem
    exact ⟨rfl, rfl, fun _ _ _ => rfl, fun s hs => by simp at hs⟩
  | cons a rest ih =>
    intro mem
    obtain ⟨i1, i2, i3, i4⟩ := ih (store_buffer_force this_node mem a axis (g a))
    rw [List.foldl_cons]
    refine ⟨by rw [i1]; rfl, by rw [i2]; rfl, fun r i hri => ?_, fun s hs => ?_⟩
    · rw [i3 r i (by
        rcases hri with h | h
        · exact Or.inl h
        · exact Or.inr fun s hs => h s (List.mem_cons_of_mem _ hs))]
      simp only [store_buffer_force, aset]
      rcases hri with h | h
      · rw [if_neg h]
      · by_cases hr : r = this_node
        · rw [if_pos hr]
          unfold aset
          rw [if_neg (h a (List.mem_cons_self _ _)), hr]
        · rw [if_neg hr]
    · by_cases hsr : s ∈ rest
      · exact i4 s hsr
      · have hsa : s = a := by
          rcases List.mem_cons.1 hs with h | h
          · exact h
          · exact absurd h hsr
        rw [i3 this_node (3 * s + axis) (Or.inr fun s' hs' => by
          intro he
          apply hsr
          have : s = s' := by omega
          rw [this]
          exact hs')]
        simp only [store_buffer_force, aset, if_true, hsa]

/-- One pass of the axis loop: the memory and the forces afterwards. -/
theorem interpolate_axis_spec (pm : Pm) (mem : Mem) (this_node : Int) (particles : Particles)
    (axis : Int) :
    (interpolate_axis pm mem this_node particles axis).1.nbuf = mem.nbuf ∧
      (interpolate_axis pm mem this_node particles axis).1.buf_pos = mem.buf_pos ∧
      (∀ r i : Int, (r ≠ this_node ∨ ∀ s : Int, i ≠ 3 * s + axis) →
        (interpolate_axis pm mem this_node particles axis).1.buf_force r i
          = mem.buf_force r i) ∧
      (∀ s : Int, 0 ≤ s → s < mem.nbuf this_node →
        (interpolate_axis pm mem this_node particles axis).1.buf_force this_node (3 * s + axis)
          = cic_interpolate pm (pm_domain_buffer_positions mem this_node s)) ∧
      (interpolate_axis pm mem this_node particles axis).2.p = particles.p ∧
      (interpolate_axis pm mem this_node particles axis).2.boxsize = particles.boxsize ∧
      (interpolate_axis pm mem this_node particles axis).2.force.length
        = particles.force.length ∧
      ∀ j : Nat, j < particles.force.length → j < particles.p.length →
        (interpolate_axis pm mem this_node particles axis).2.force.getD j Float3.zero =
          ((particles.force.getD j Float3.zero).set axis
            (cic_interpolate pm (particles.p.getD j ⟨Float3.zero⟩).x)) := by
  obtain ⟨g1, g2, g3, g4⟩ := ghost_pass_spec this_node axis
    (fun i => cic_interpolate pm (pm_domain_buffer_positions mem this_node i))
    (counter_values (pm_domain_buffer_np mem this_node)) mem
  obtain ⟨l1, l2⟩ := local_pass_spec axis
    (fun i => cic_interpolate pm (particles.p.getD i.toNat ⟨Float3.zero⟩).x)
    (counter_values particles.p.length) particles.force
    (fun i hi => (mem_counter_values hi).1)
  refine ⟨g1, g2, fun r i hri => g3 r i ?_, fun s h0 h1 => g4 s (counter_values_mem h0 h1), rfl,
    rfl, l1, fun j hj hjp => ?_⟩
  · rcases hri with h | h
    · exact Or.inl h
    · exact Or.inr fun s _ => h s
  · have := l2 j hj
    rw [if_pos (counter_values_mem (by omega) (by exact_mod_cast hjp))] at this
    simp only [Int.toNat_ofNat] at this
    exact this

/-- The axis loop of `pm_compute_force` on one node: the force buffer holds, for every
ghost particle and every axis, the force interpolated at its position; the force of
every local particle holds the three forces interpolated at its position. -/
theorem force_axes_spec (pm : Int → Pm) (mem : Mem) (this_node : Int) (particles : Particles) :
    (force_axes pm mem this_node particles).1.nbuf = mem.nbuf ∧
      (force_axes pm mem this_node particles).1.buf_pos = mem.buf_pos ∧
      (∀ r i : Int, r ≠ this_node →
        (force_axes pm mem this_node particles).1.buf_force r i = mem.buf_force r i) ∧
      (∀ s : Int, 0 ≤ s → s < mem.nbuf this_node → ∀ a : Int, 0 ≤ a → a ≤ 2 →
        (force_axes pm mem this_node particles).1.buf_force this_node (3 * s + a)
          = cic_interpolate (pm a) (pm_domain_buffer_positions mem this_node s)) ∧
      (force_axes pm mem this_node particles).2.p = particles.p ∧
      (force_axes pm mem this_node particles).2.boxsize = particles.boxsize ∧
      (force_axes pm mem this_node particles).2.force.length = particles.force.length ∧
      ∀ j : Nat, j < particles.force.length → j < particles.p.length →
        (force_axes pm mem this_node particles).2.force.getD j Float3.zero =
          { c0 := cic_interpolate (pm 0) (particles.p.getD j ⟨Float3.zero⟩).x,
            c1 := cic_interpolate (pm 1) (particles.p.getD j ⟨Float3.zero⟩).x,
            c2 := cic_interpolate (pm 2) (particles.p.getD j ⟨Float3.zero⟩).x } := by
  have e : force_axes pm mem this_node particles =
      interpolate_axis (pm 2)
        (interpolate_axis (pm 1) (interpolate_axis (pm 0) mem this_node particles 0).1 this_node
          (interpolate_axis (pm 0) mem this_node particles 0).2 1).1 this_node
        (interpolate_axis (pm 1) (interpolate_axis (pm 0) mem this_node particles 0).1 this_node
          (interpolate_axis (pm 0) mem this_node particles 0).2 1).2 2 := rfl
  rw [e]
  obtain ⟨a1, a2, a3, a4, a5, a6, a7, a8⟩ :=
    interpolate_axis_spec (pm 0) mem this_node particles 0
  generalize interpolate_axis (pm 0) mem this_node particles 0 = s1 at a1 a2 a3 a4 a5 a6 a7 a8 ⊢
  obtain ⟨b1, b2, b3, b4, b5, b6, b7, b8⟩ := interpolate_axis_spec (pm 1) s1.1 this_node s1.2 1
  generalize interpolate_axis (pm 1) s1.1 this_node s1.2 1 = s2 at b1 b2 b3 b4 b5 b6 b7 b8 ⊢
  obtain ⟨c1, c2, c3, c4, c5, c6, c7, c8⟩ := interpolate_axis_spec (pm 2) s2.1 this_node s2.2 2
  generalize interpolate_axis (pm 2) s2.1 this_node s2.2 2 = s3 at c1 c2 c3 c4 c5 c6 c7 c8 ⊢
  have hpos1 : pm_domain_buffer_positions s1.1 this_node
      = pm_domain_buffer_positions mem this_node := by
    funext i
    simp only [pm_domain_buffer_positions, a2]
  have hpos2 : pm_domain_buffer_positions s2.1 this_node
      = pm_domain_buffer_positions mem this_node := by
    funext i
    simp only [pm_domain_buffer_positions, b2, a2]
  refine ⟨by rw [c1, b1, a1], by rw [c2, b2, a2], fun r i hr => ?_, fun s h0 h1 a ha0 ha2 => ?_,
    by rw [c5, b5, a5], by rw [c6, b6, a6], by rw [c7, b7, a7], fun j hj hjp => ?_⟩
  · rw [c3 r i (Or.inl hr), b3 r i (Or.inl hr), a3 r i (Or.inl hr)]
  · have ha : a = 0 ∨ a = 1 ∨ a = 2 := by omega
    rcases ha with rfl | rfl | rfl
    · rw [c3 _ _ (Or.inr fun s' => by omega), b3 _ _ (Or.inr fun s' => by omega), a4 s h0 h1]
    · rw [c3 _ _ (Or.inr fun s' => by omega), b4 s h0 (by rw [a1]; exact h1), hpos1]
    · rw [c4 s h0 (by rw [b1, a1]; exact h1), hpos2]
  · rw [c8 j (by rw [b7, a7]; exact hj) (by rw [b5, a5]; exact hjp),
      b8 j (by rw [a7]; exact hj) (by rw [a5]; exact hjp), a8 j hj hjp, b5, a5]
    simp [Float3.set]

/-- The force phase of all processes: every node's force buffer holds the forces
interpolated at its ghost particles, every process the forces interpolated at its own
particles; counters and positions are as they were. -/
theorem force_phase_spec (pms : Int → Int → Pm) :
    ∀ (procs : List Proc) (mem : Mem), (procs.map fun pr => pr.env.this_node).Nodup →
      (force_phase pms procs mem).2.nbuf = mem.nbuf ∧
      (force_phase pms procs mem).2.buf_pos = mem.buf_pos ∧
      (∀ k i : Int, (∀ pr ∈ procs, pr.env.this_node ≠ k) →
        (force_phase pms procs mem).2.buf_force k i = mem.buf_force k i) ∧
      (∀ pr ∈ procs, ∀ s : Int, 0 ≤ s → s < mem.nbuf pr.env.this_node →
        ∀ a : Int, 0 ≤ a → a ≤ 2 →
          (force_phase pms procs mem).2.buf_force pr.env.this_node (3 * s + a) =
            cic_interpolate (pms pr.env.this_node a)
              (pm_domain_buffer_positions mem pr.env.this_node s)) ∧
      List.Forall₂ (fun pr pr' => pr'.env = pr.env ∧ pr'.st = pr.st ∧
        pr'.particles.p = pr.particles.p ∧
        pr'.particles.force.length = pr.particles.force.length ∧
        ∀ j : Nat, j < pr.particles.force.length → j < pr.particles.p.length →
          pr'.particles.force.getD j Float3.zero =
            { c0 := cic_interpolate (pms pr.env.this_node 0)
                (pr.particles.p.getD j ⟨Float3.zero⟩).x,
              c1 := cic_interpolate (pms pr.env.this_node 1)
                (pr.particles.p.getD j ⟨Float3.zero⟩).x,
              c2 := cic_interpolate (pms pr.env.this_node 2)
                (pr.particles.p.getD j ⟨Float3.zero⟩).x })
        procs (force_phase pms procs mem).1 := by
  intro procs
  induction procs with
  | nil =>
    intro mem _
    exact ⟨rfl, rfl, fun _ _ _ => rfl, fun pr hpr => by simp at hpr, List.Forall₂.nil⟩
  | cons pr rest ih =>
    intro mem hnd
    simp only [List.map_cons, List.nodup_cons] at hnd
    obtain ⟨hnot, hnd'⟩ := hnd
    obtain ⟨a1, a2, a3, a4, a5, _, a7, a8⟩ :=
      force_axes_spec (pms pr.env.this_node) mem pr.env.this_node pr.particles
    obtain ⟨i1, i2, i3, i4, i5⟩ :=
      ih (force_axes (pms pr.env.this_node) mem pr.env.this_node pr.particles).1 hnd'
    have hrest : ∀ q ∈ rest, q.env.this_node ≠ pr.env.this_node := by
      intro q hq he
      apply hnot
      rw [← he]
      exact List.mem_map_of_mem _ hq
    have hpos : ∀ k : Int,
        pm_domain_buffer_positions
          (force_axes (pms pr.env.this_node) mem pr.env.this_node pr.particles).1 k
          = pm_domain_buffer_positions mem k := by
      intro k
      funext i
      simp only [pm_domain_buffer_positions, a2]
    unfold force_phase
    refine ⟨by rw [i1, a1], by rw [i2, a2], fun k i hk => ?_, fun q hq s h0 h1 a ha0 ha2 => ?_,
      List.Forall₂.cons ⟨rfl, rfl, a5, a7, a8⟩ i5⟩
    · simp only
      rw [i3 k i (fun q hq => hk q (List.mem_cons_of_mem _ hq)),
        a3 k i (fun he => hk pr (List.mem_cons_self _ _) he.symm)]
    · simp only
      rcases List.mem_cons.1 hq with rfl | hq
      · rw [i3 _ _ hrest, a4 s h0 h1 a ha0 ha2]
      · rw [i4 q hq s h0 (by rw [a1]; exact h1) a ha0 ha2, hpos]

/-! ## Interpolation on a slab -/

theorem trilinear_eq_planes (nc : Int) (boxsize : Rat) (F : Int × Int × Int → Rat)
    (p : Float3) :
    trilinear nc boxsize F p = plane_sum nc boxsize F p 0 + plane_sum nc boxsize F p 1 := by
  simp only [trilinear, plane_sum, cic_corners, List.flatMap_cons, List.flatMap_nil,
    List.map_cons, List.map_nil, List.append_nil, List.cons_append, List.nil_append,
    List.sum_cons, List.sum_nil]
  ring

/-- What one block of four `grid_val` calls adds on a node whose mesh holds its slab of
the global mesh `F`. -/
theorem interpolate_plane_slab (pm : Pm) (F : Int × Int × Int → Rat)
    (gx iy0 iy1 iz0 iz1 : Int) (wx wy0 wy1 wz0 wz1 : Rat)
    (hgx : 0 ≤ gx ∧ gx < pm.nc) (hint : pm.nc < 2 ^ 31)
    (hl0 : 0 ≤ pm.local_ix0) (hl1 : pm.local_ix0 + pm.local_nx ≤ pm.nc)
    (hnx : 0 ≤ pm.local_nx)
    (hy0 : 0 ≤ iy0 ∧ iy0 < pm.nc) (hy1 : 0 ≤ iy1 ∧ iy1 < pm.nc)
    (hz0 : 0 ≤ iz0 ∧ iz0 < pm.nc) (hz1 : 0 ≤ iz1 ∧ iz1 < pm.nc)
    (hF : ∀ ix iy iz : Int, 0 ≤ ix → ix < pm.local_nx → 0 ≤ iy → iy < pm.nc → 0 ≤ iz →
      iz < pm.nc → pm.fx (grid_index pm ix iy iz) = F (pm.local_ix0 + ix, iy, iz)) :
    interpolate_plane pm (to_int32 (to_size_t (gx - pm.local_ix0))) iy0 iy1 iz0 iz1 wx wy0 wy1
        wz0 wz1 =
      if pm.local_ix0 ≤ gx ∧ gx < pm.local_ix0 + pm.local_nx then
        F (gx, iy0, iz0) * (wx * wy0 * wz0) + F (gx, iy0, iz1) * (wx * wy0 * wz1) +
          F (gx, iy1, iz0) * (wx * wy1 * wz0) + F (gx, iy1, iz1) * (wx * wy1 * wz1)
      else 0 := by
  have hlx : to_int32 (to_size_t (gx - pm.local_ix0)) = gx - pm.local_ix0 :=
    to_int32_to_size_t (by omega) (by omega)
  have hnx' : to_int32 pm.local_nx = pm.local_nx := to_int32_of_range (by omega) (by omega)
  unfold interpolate_plane
  rw [hlx, hnx']
  by_cases hg : 0 ≤ gx - pm.local_ix0 ∧ gx - pm.local_ix0 < pm.local_nx
  · rw [if_pos hg, if_pos (by omega)]
    have e : ∀ b c : Int, (0 ≤ b ∧ b < pm.nc) → (0 ≤ c ∧ c < pm.nc) →
        grid_val pm pm.fx (gx - pm.local_ix0) b c = F (gx, b, c) := by
      intro b c hb hc
      unfold grid_val
      rw [hF _ _ _ hg.1 hg.2 hb.1 hb.2 hc.1 hc.2]
      congr 2
      omega
    rw [e _ _ hy0 hz0, e _ _ hy0 hz1, e _ _ hy1 hz0, e _ _ hy1 hz1]
    ring
  · rw [if_neg hg, if_neg (by omega)]

/-- The force `force_at_particle_locations` computes on a node whose mesh holds its
slab of the global mesh `F`: the planes of the interpolation that lie in the slab. -/
theorem cic_interpolate_slab (pm : Pm) (F : Int × Int × Int → Rat) (p : Float3)
    (hnc : 2 ≤ pm.nc) (hint : pm.nc < 2 ^ 31) (hbox : 0 < pm.boxsize)
    (hl0 : 0 ≤ pm.local_ix0) (hl1 : pm.local_ix0 + pm.local_nx ≤ pm.nc)
    (hnx : 0 ≤ pm.local_nx)
    (hp : ∀ c ∈ [p.c0, p.c1, p.c2], 0 ≤ c ∧ c ≤ pm.boxsize)
    (hF : ∀ ix iy iz : Int, 0 ≤ ix → ix < pm.local_nx → 0 ≤ iy → iy < pm.nc → 0 ≤ iz →
      iz < pm.nc → pm.fx (grid_index pm ix iy iz) = F (pm.local_ix0 + ix, iy, iz)) :
    cic_interpolate pm p =
      (if pm.local_ix0 ≤ (⌊p.c0 * ((pm.nc : Rat) / pm.boxsize)⌋ + 0) % pm.nc ∧
          (⌊p.c0 * ((pm.nc : Rat) / pm.boxsize)⌋ + 0) % pm.nc < pm.local_ix0 + pm.local_nx
        then plane_sum pm.nc pm.boxsize F p 0 else 0) +
      (if pm.local_ix0 ≤ (⌊p.c0 * ((pm.nc : Rat) / pm.boxsize)⌋ + 1) % pm.nc ∧
          (⌊p.c0 * ((pm.nc : Rat) / pm.boxsize)⌋ + 1) % pm.nc < pm.local_ix0 + pm.local_nx
        then plane_sum pm.nc pm.boxsize F p 1 else 0) := by
  have hn : to_int32 pm.nc = pm.nc := to_int32_of_range (by omega) hint
  have hm : ∀ c ∈ [p.c0, p.c1, p.c2],
      0 ≤ c * ((pm.nc : Rat) / pm.boxsize) ∧ c * ((pm.nc : Rat) / pm.boxsize) ≤ pm.nc := by
    intro c hc
    obtain ⟨m0, m1, _⟩ := mesh_coordinate_range hbox (by omega : (0 : Int) ≤ pm.nc) (hp c hc).1
      (hp c hc).2
    exact ⟨m0, m1⟩
  have hx := hm p.c0 (by simp)
  have hy := hm p.c1 (by simp)
  have hzz := hm p.c2 (by simp)
  obtain ⟨rx1, rx2, _⟩ := cic_indices_range hnc hx.1 hx.2
  obtain ⟨ry1, ry2, _⟩ := cic_indices_range hnc hy.1 hy.2
  obtain ⟨rz1, rz2, _⟩ := cic_indices_range hnc hzz.1 hzz.2
  unfold cic_interpolate
  simp only [hn, zero_add]
  rw [interpolate_plane_slab pm F _ _ _ _ _ _ _ _ _ _ rx1 hint hl0 hl1 hnx ry1 ry2 rz1 rz2 hF,
    interpolate_plane_slab pm F _ _ _ _ _ _ _ _ _ _ rx2 hint hl0 hl1 hnx ry1 ry2 rz1 rz2 hF]
  rw [(cic_indices_floor hnc hx.1 hx.2).1, (cic_indices_floor hnc hx.1 hx.2).2,
    (cic_indices_floor hnc hy.1 hy.2).1, (cic_indices_floor hnc hy.1 hy.2).2,
    (cic_indices_floor hnc hzz.1 hzz.2).1, (cic_indices_floor hnc hzz.1 hzz.2).2,
    (cic_weights_corner hx.1).1, (cic_weights_corner hx.1).2,
    (cic_weights_corner hy.1).1, (cic_weights_corner hy.1).2,
    (cic_weights_corner hzz.1).1, (cic_weights_corner hzz.1).2]
  simp only [plane_sum, List.flatMap_cons, List.flatMap_nil, List.map_cons, List.map_nil,
    List.append_nil, List.cons_append, List.nil_append, List.sum_cons, List.sum_nil, add_zero]
  congr 1 <;> (split_ifs <;> first | rfl | ring)

/-! ## Every corner is reached -/

/-- A node other than the host that owns a corner of non-zero weight of a wrapped
particle receives a copy of it: the particle lies outside the interval the host keeps to
itself and passes the interval test of the owner. -/
theorem corner_owner_gets_copy {boxsize : Rat} {nc : Int} (hb : 0 < boxsize) (hnc : 0 < nc)
    (A B : Slab)
    (hdis : B.local_ix0 + B.local_nx ≤ A.local_ix0 ∨ A.local_ix0 + A.local_nx ≤ B.local_ix0)
    (hA : 0 ≤ A.local_ix0 ∧ A.local_ix0 + A.local_nx ≤ nc) (hAnx : 2 ≤ A.local_nx)
    (hB : 0 ≤ B.local_ix0 ∧ B.local_ix0 + B.local_nx ≤ nc) (p : Particle) (a : Int)
    (ha : a = 0 ∨ (a = 1 ∧
      corner_weight ((periodic_wrapup_p p boxsize).x.c0 * ((nc : Rat) / boxsize)) 1 ≠ 0))
    (hown : B.local_ix0 ≤ (⌊(periodic_wrapup_p p boxsize).x.c0 * ((nc : Rat) / boxsize)⌋ + a) % nc ∧
      (⌊(periodic_wrapup_p p boxsize).x.c0 * ((nc : Rat) / boxsize)⌋ + a) % nc
        < B.local_ix0 + B.local_nx) :
    outside_interior boxsize nc A p = true ∧ in_buffer boxsize nc B p = true := by
  obtain ⟨hx0, hxL⟩ := wrapped_in_box p hb
  unfold in_buffer outside_interior
  generalize (periodic_wrapup_p p boxsize).x.c0 = x at hx0 hxL ha hown ⊢
  have hncq : (0 : Rat) < (nc : Rat) := by exact_mod_cast hnc
  have hh : 0 < boxsize / (nc : Rat) := div_pos hb hncq
  have hbne : boxsize ≠ 0 := ne_of_gt hb
  have hnne : (nc : Rat) ≠ 0 := ne_of_gt hncq
  set h := boxsize / (nc : Rat) with hdef
  set t := x * ((nc : Rat) / boxsize) with htdef
  have hL : boxsize = h * (nc : Rat) := by rw [hdef]; field_simp
  have hx : x = h * t := by rw [hdef, htdef]; field_simp; ring
  have hlo : fget (xbuf_py boxsize nc B) 0 = h * ((B.local_ix0 : Rat) - 1) := by
    simp only [fget, xbuf_py, Int.toNat_zero, List.getD_cons_zero]
    rw [hdef]; push_cast; ring
  have hhi : fget (xbuf_py boxsize nc B) 1 = h * ((B.local_ix0 : Rat) + B.local_nx) := by
    simp only [fget, xbuf_py]
    rw [hdef]; push_cast
    show boxsize * ((B.local_ix0 : Rat) + B.local_nx) / (nc : Rat) = _
    ring
  have hxl : x_left_of boxsize nc A = h * ((A.local_ix0 : Rat) + 1) := by
    simp only [x_left_of]; push_cast; rfl
  have hxr : x_right_of boxsize nc A = h * ((A.local_ix0 : Rat) + A.local_nx - 1) := by
    simp only [x_right_of]; push_cast; rfl
  have ht0 : 0 ≤ t := by
    rw [hx] at hx0
    exact (mul_nonneg_iff_of_pos_left hh).1 hx0
  have htn : t < nc := by
    rw [hx, hL] at hxL
    exact lt_of_mul_lt_mul_left hxL (le_of_lt hh)
  have hf0 : 0 ≤ ⌊t⌋ := Int.floor_nonneg.2 ht0
  have hfn : ⌊t⌋ < nc := Int.floor_lt.2 htn
  have hfl : ((⌊t⌋ : Int) : Rat) ≤ t := Int.floor_le t
  have hfu : t < ((⌊t⌋ : Int) : Rat) + 1 := Int.lt_floor_add_one t
  have hA0 : (0 : Rat) ≤ (A.local_ix0 : Rat) := by exact_mod_cast hA.1
  have hA1 : (A.local_ix0 : Rat) + A.local_nx ≤ (nc : Rat) := by exact_mod_cast hA.2
  have hA2 : (2 : Rat) ≤ (A.local_nx : Rat) := by exact_mod_cast hAnx
  have hB0 : (0 : Rat) ≤ (B.local_ix0 : Rat) := by exact_mod_cast hB.1
  have hB1 : (B.local_ix0 : Rat) + B.local_nx ≤ (nc : Rat) := by exact_mod_cast hB.2
  rw [hlo, hhi, hxl, hxr, send_test_iff, hx, hL]
  simp only [Bool.or_eq_true, decide_eq_true_eq, gt_iff_lt, List.mem_cons, List.mem_singleton,
    List.not_mem_nil, or_false, exists_eq_or_imp, exists_eq_left]
  have e1 : h * t - h * (nc : Rat) = h * (t - nc) := by ring
  have e2 : h * t + h * (nc : Rat) = h * (t + nc) := by ring
  rw [e1, e2]
  simp only [mul_lt_mul_left hh]
  rcases ha with rfl | ⟨rfl, hw⟩
  · rw [add_zero, Int.emod_eq_of_lt hf0 hfn] at hown
    have o1 : (B.local_ix0 : Rat) ≤ ((⌊t⌋ : Int) : Rat) := by exact_mod_cast hown.1
    have o2 : ((⌊t⌋ : Int) : Rat) + 1 ≤ (B.local_ix0 : Rat) + B.local_nx := by
      exact_mod_cast (by omega : ⌊t⌋ + 1 ≤ B.local_ix0 + B.local_nx)
    constructor
    · rcases hdis with hd | hd
      · left
        have : ((⌊t⌋ : Int) : Rat) + 1 ≤ (A.local_ix0 : Rat) := by
          exact_mod_cast (by omega : ⌊t⌋ + 1 ≤ A.local_ix0)
        linarith
      · right
        have : (A.local_ix0 : Rat) + A.local_nx ≤ ((⌊t⌋ : Int) : Rat) := by
          exact_mod_cast (by omega : A.local_ix0 + A.local_nx ≤ ⌊t⌋)
        linarith
    · left
      constructor <;> linarith
  · have hgt : ((⌊t⌋ : Int) : Rat) < t := by
      rcases hfl.lt_or_eq with h1 | h1
      · exact h1
      · exfalso
        apply hw
        unfold corner_weight
        rw [if_neg (by decide), ← h1]
        simp
    by_cases hwrap : ⌊t⌋ + 1 < nc
    · rw [Int.emod_eq_of_lt (by omega) hwrap] at hown
      have o1 : (B.local_ix0 : Rat) ≤ ((⌊t⌋ : Int) : Rat) + 1 := by exact_mod_cast hown.1
      have o2 : ((⌊t⌋ : Int) : Rat) + 1 < (B.local_ix0 : Rat) + B.local_nx := by
        exact_mod_cast hown.2
      constructor
      · rcases hdis with hd | hd
        · left
          have : ((⌊t⌋ : Int) : Rat) + 1 < (A.local_ix0 : Rat) := by
            exact_mod_cast (by omega : ⌊t⌋ + 1 < A.local_ix0)
          linarith
        · right
          have : (A.local_ix0 : Rat) + A.local_nx ≤ ((⌊t⌋ : Int) : Rat) + 1 := by
            exact_mod_cast (by omega : A.local_ix0 + A.local_nx ≤ ⌊t⌋ + 1)
          linarith
      · left
        constructor <;> linarith
    · have he : ⌊t⌋ + 1 = nc := by omega
      rw [he, Int.emod_self] at hown
      have hBl : B.local_ix0 = 0 := by omega
      have hBq : (B.local_ix0 : Rat) = 0 := by exact_mod_cast hBl
      have hfq : ((⌊t⌋ : Int) : Rat) + 1 = (nc : Rat) := by exact_mod_cast he
      have hBnx : (0 : Rat) < (B.local_nx : Rat) := by
        exact_mod_cast (by omega : 0 < B.local_nx)
      constructor
      · right
        linarith
      · right; left
        constructor <;> linarith

/-! ## Local interpolation plus scatter-back -/

theorem sum_map_single (l : List Int) (c : Int) (φ : Int → Rat)
    (h : ∀ r ∈ l, r ≠ c → φ r = 0) : (l.map φ).sum = (l.count c : Rat) * φ c := by
  induction l with
  | nil => simp
  | cons a l ih =>
    rw [List.map_cons, List.sum_cons, ih (fun r hr => h r (List.mem_cons_of_mem _ hr)),
      List.count_cons]
    by_cases hac : a = c
    · subst hac
      simp only [beq_self_eq_true, if_true]
      push_cast
      ring
    · rw [h a (List.mem_cons_self _ _) hac]
      simp [hac]

theorem sum_flatMap_ite (l : List Int) (sel : Int → Bool) (φ : Int → Rat) :
    ((l.flatMap fun r => if sel r = true then [r] else []).map φ).sum =
      (l.map fun r => if sel r = true then φ r else 0).sum := by
  induction l with
  | nil => rfl
  | cons a l ih =>
    rw [List.flatMap_cons, List.map_append, List.sum_append, ih, List.map_cons, List.sum_cons]
    by_cases hs : sel a = true
    · simp [hs]
    · simp [hs]

theorem plane_sum_of_weight_zero (nc : Int) (boxsize : Rat) (F : Int × Int × Int → Rat)
    (p : Float3) (a : Int) (h : corner_weight (p.c0 * ((nc : Rat) / boxsize)) a = 0) :
    plane_sum nc boxsize F p a = 0 := by
  simp only [plane_sum, h, List.flatMap_cons, List.flatMap_nil, List.map_cons, List.map_nil,
    List.append_nil, List.cons_append, List.nil_append, List.sum_cons, List.sum_nil]
  ring

theorem wrapped_coordinates (p : Particle) {boxsize : Rat} (hb : 0 < boxsize) :
    ∀ c ∈ [(periodic_wrapup_p p boxsize).x.c0, (periodic_wrapup_p p boxsize).x.c1,
      (periodic_wrapup_p p boxsize).x.c2], 0 ≤ c ∧ c ≤ boxsize := by
  intro c hc
  simp only [List.mem_cons, List.mem_singleton, List.not_mem_nil, or_false] at hc
  have key : ∀ v : Rat, 0 ≤ v - boxsize * (⌊v / boxsize⌋ : Int) ∧
      v - boxsize * (⌊v / boxsize⌋ : Int) ≤ boxsize := by
    intro v
    have h1 := Int.sub_floor_div_mul_nonneg v hb
    have h2 := Int.sub_floor_div_mul_lt v hb
    rw [mul_comm] at h1 h2
    exact ⟨h1, le_of_lt h2⟩
  rcases hc with rfl | rfl | rfl
  · exact key p.x.c0
  · exact key p.x.c1
  · exact key p.x.c2

/-- In a run whose slabs do not overlap, a plane owned by one node is counted once by
the host and the nodes that received a copy, if the owner is the host or received a
copy whenever the plane contributes. -/
theorem plane_counted_once (w : Run) (host : Nat) (hh : host < w.layout.length)
    (hdis : ∀ i k : Nat, i < w.layout.length → k < w.layout.length → i ≠ k →
      (w.layout.getD k ⟨0, 0⟩).local_ix0 + (w.layout.getD k ⟨0, 0⟩).local_nx
          ≤ (w.layout.getD i ⟨0, 0⟩).local_ix0 ∨
        (w.layout.getD i ⟨0, 0⟩).local_ix0 + (w.layout.getD i ⟨0, 0⟩).local_nx
          ≤ (w.layout.getD k ⟨0, 0⟩).local_ix0)
    (g : Int) (owner : Nat) (hr : owner < w.layout.length)
    (hown : (w.layout.getD owner ⟨0, 0⟩).local_ix0 ≤ g ∧
      g < (w.layout.getD owner ⟨0, 0⟩).local_ix0 + (w.layout.getD owner ⟨0, 0⟩).local_nx)
    (sel : Int → Bool) (P : Rat) (hsel : owner ≠ host → P ≠ 0 → sel (owner : Int) = true) :
    (if (w.layout.getD host ⟨0, 0⟩).local_ix0 ≤ g ∧
        g < (w.layout.getD host ⟨0, 0⟩).local_ix0 + (w.layout.getD host ⟨0, 0⟩).local_nx
      then P else 0) +
      (((loop_indices w.layout.length).flatMap (rank_block w.layout.length host)).map fun r =>
        if sel r = true then
          (if (w.layout.getD r.toNat ⟨0, 0⟩).local_ix0 ≤ g ∧
              g < (w.layout.getD r.toNat ⟨0, 0⟩).local_ix0
                + (w.layout.getD r.toNat ⟨0, 0⟩).local_nx
            then P else 0)
        else 0).sum = P := by
  have hmemr : ∀ r ∈ (loop_indices (w.layout.length : Int)).flatMap
      (rank_block w.layout.length host), 0 ≤ r ∧ r.toNat < w.layout.length ∧ r.toNat ≠ host := by
    intro r hr'
    have := (mem_flatMap_rank_block (by omega : (0 : Int) ≤ (host : Int))
      (by exact_mod_cast hh) r).1 hr'
    omega
  have huniq : ∀ k : Nat, k < w.layout.length → k ≠ owner →
      ¬ ((w.layout.getD k ⟨0, 0⟩).local_ix0 ≤ g ∧
        g < (w.layout.getD k ⟨0, 0⟩).local_ix0 + (w.layout.getD k ⟨0, 0⟩).local_nx) := by
    intro k hk hne hc
    rcases hdis owner k hr hk (Ne.symm hne) with h | h <;> omega
  by_cases hoh : owner = host
  · subst hoh
    rw [if_pos hown]
    have hz : (((loop_indices (w.layout.length : Int)).flatMap
        (rank_block w.layout.length owner)).map fun r =>
        if sel r = true then
          (if (w.layout.getD r.toNat ⟨0, 0⟩).local_ix0 ≤ g ∧
              g < (w.layout.getD r.toNat ⟨0, 0⟩).local_ix0
                + (w.layout.getD r.toNat ⟨0, 0⟩).local_nx
            then P else 0)
        else 0).sum = 0 := by
      apply List.sum_eq_zero
      intro x hx
      obtain ⟨r, hr', rfl⟩ := List.mem_map.1 hx
      obtain ⟨_, m2, m3⟩ := hmemr r hr'
      rw [if_neg (huniq r.toNat m2 m3)]
      simp
    rw [hz, add_zero]
  · rw [if_neg (huniq host hh (Ne.symm hoh))]
    rw [sum_map_single _ (owner : Int)]
    · rw [count_loop_ranks (by omega : (0 : Int) ≤ (host : Int)) (by exact_mod_cast hh),
        if_pos ⟨by omega, by exact_mod_cast hr, by exact_mod_cast hoh⟩]
      simp only [Int.toNat_ofNat, Nat.cast_one, one_mul, zero_add]
      rw [if_pos hown]
      by_cases hP : P = 0
      · rw [hP]; simp
      · rw [if_pos (hsel hoh hP)]
    · intro r hr' hne
      obtain ⟨m1, m2, _⟩ := hmemr r hr'
      rw [if_neg (huniq r.toNat m2 (by omega))]
      simp

/-- For one axis: the force interpolated on the host plus the forces interpolated on the
nodes that received a copy is the full trilinear interpolation of the global mesh. -/
theorem axis_total (w : Run) (pm_of : Int → Pm) (Fa : Int × Int × Int → Rat)
    (hbox : 0 < w.boxsize) (hnc : 2 ≤ w.nc) (hint : w.nc < 2 ^ 31)
    (hnx : ∀ s ∈ w.layout, 2 ≤ s.local_nx)
    (hin : ∀ s ∈ w.layout, 0 ≤ s.local_ix0 ∧ s.local_ix0 + s.local_nx ≤ w.nc)
    (hdis : ∀ i k : Nat, i < w.layout.length → k < w.layout.length → i ≠ k →
      (w.layout.getD k ⟨0, 0⟩).local_ix0 + (w.layout.getD k ⟨0, 0⟩).local_nx
          ≤ (w.layout.getD i ⟨0, 0⟩).local_ix0 ∨
        (w.layout.getD i ⟨0, 0⟩).local_ix0 + (w.layout.getD i ⟨0, 0⟩).local_nx
          ≤ (w.layout.getD k ⟨0, 0⟩).local_ix0)
    (hcov : ∀ g : Int, 0 ≤ g → g < w.nc → ∃ r : Nat, r < w.layout.length ∧
      (w.layout.getD r ⟨0, 0⟩).local_ix0 ≤ g ∧
      g < (w.layout.getD r ⟨0, 0⟩).local_ix0 + (w.layout.getD r ⟨0, 0⟩).local_nx)
    (hpm : ∀ r : Nat, r < w.layout.length →
      (pm_of r).nc = w.nc ∧ (pm_of r).boxsize = w.boxsize ∧
      (pm_of r).local_ix0 = (w.layout.getD r ⟨0, 0⟩).local_ix0 ∧
      (pm_of r).local_nx = (w.layout.getD r ⟨0, 0⟩).local_nx ∧
      ∀ ix iy iz : Int, 0 ≤ ix → ix < (w.layout.getD r ⟨0, 0⟩).local_nx → 0 ≤ iy → iy < w.nc →
        0 ≤ iz → iz < w.nc →
        (pm_of r).fx (grid_index (pm_of r) ix iy iz)
          = Fa ((w.layout.getD r ⟨0, 0⟩).local_ix0 + ix, iy, iz))
    (host : Nat) (hh : host < w.layout.length) (p : Particle) :
    cic_interpolate (pm_of host) (periodic_wrapup_p p w.boxsize).x +
      ((((loop_indices w.layout.length).flatMap (rank_block w.layout.length host)).flatMap
        fun r =>
          if (outside_interior w.boxsize w.nc (w.layout.getD host ⟨0, 0⟩) p &&
              in_buffer w.boxsize w.nc (w.layout.getD r.toNat ⟨0, 0⟩) p) = true
            then [r] else []).map fun r =>
        cic_interpolate (pm_of r) (periodic_wrapup_p p w.boxsize).x).sum =
      trilinear w.nc w.boxsize Fa (periodic_wrapup_p p w.boxsize).x := by
  have hpos := wrapped_coordinates p hbox
  have hx0 := (wrapped_in_box p hbox).1
  have hxL := (wrapped_in_box p hbox).2
  generalize hpd : (periodic_wrapup_p p w.boxsize).x = pos at hpos
  have hphi : ∀ r : Nat, r < w.layout.length →
      cic_interpolate (pm_of r) pos =
        (if (w.layout.getD r ⟨0, 0⟩).local_ix0
              ≤ (⌊pos.c0 * ((w.nc : Rat) / w.boxsize)⌋ + 0) % w.nc ∧
            (⌊pos.c0 * ((w.nc : Rat) / w.boxsize)⌋ + 0) % w.nc
              < (w.layout.getD r ⟨0, 0⟩).local_ix0 + (w.layout.getD r ⟨0, 0⟩).local_nx
          then plane_sum w.nc w.boxsize Fa pos 0 else 0) +
        (if (w.layout.getD r ⟨0, 0⟩).local_ix0
              ≤ (⌊pos.c0 * ((w.nc : Rat) / w.boxsize)⌋ + 1) % w.nc ∧
            (⌊pos.c0 * ((w.nc : Rat) / w.boxsize)⌋ + 1) % w.nc
              < (w.layout.getD r ⟨0, 0⟩).local_ix0 + (w.layout.getD r ⟨0, 0⟩).local_nx
          then plane_sum w.nc w.boxsize Fa pos 1 else 0) := by
    intro r hr
    obtain ⟨q1, q2, q3, q4, q5⟩ := hpm r hr
    have hs := hin _ (getD_mem_of_lt w.layout r hr)
    have hs2 := hnx _ (getD_mem_of_lt w.layout r hr)
    have := cic_interpolate_slab (pm_of r) Fa pos (by rw [q1]; exact hnc) (by rw [q1]; exact hint)
      (by rw [q2]; exact hbox) (by rw [q3]; exact hs.1) (by rw [q3, q4, q1]; exact hs.2)
      (by rw [q4]; omega) (by rw [q2]; exact hpos)
      (by
        intro ix iy iz h1 h2 h3 h4 h5 h6
        rw [q3]
        exact q5 ix iy iz h1 (by rw [← q4]; exact h2) h3 (by rw [← q1]; exact h4) h5
          (by rw [← q1]; exact h6))
    rw [q1, q2, q3, q4] at this
    exact this
  have hmemr : ∀ r ∈ (loop_indices (w.layout.length : Int)).flatMap
      (rank_block w.layout.length host), 0 ≤ r ∧ r.toNat < w.layout.length ∧ r.toNat ≠ host := by
    intro r hr'
    have := (mem_flatMap_rank_block (by omega : (0 : Int) ≤ (host : Int))
      (by exact_mod_cast hh) r).1 hr'
    omega
  rw [sum_flatMap_ite, trilinear_eq_planes, hphi host hh]
  have hcongr : (((loop_indices (w.layout.length : Int)).flatMap
      (rank_block w.layout.length host)).map fun r =>
      if (outside_interior w.boxsize w.nc (w.layout.getD host ⟨0, 0⟩) p &&
          in_buffer w.boxsize w.nc (w.layout.getD r.toNat ⟨0, 0⟩) p) = true
        then cic_interpolate (pm_of r) pos else 0) =
      (((loop_indices (w.layout.length : Int)).flatMap
        (rank_block w.layout.length host)).map fun r =>
        (if (outside_interior w.boxsize w.nc (w.layout.getD host ⟨0, 0⟩) p &&
            in_buffer w.boxsize w.nc (w.layout.getD r.toNat ⟨0, 0⟩) p) = true
          then
            (if (w.layout.getD r.toNat ⟨0, 0⟩).local_ix0
                  ≤ (⌊pos.c0 * ((w.nc : Rat) / w.boxsize)⌋ + 0) % w.nc ∧
                (⌊pos.c0 * ((w.nc : Rat) / w.boxsize)⌋ + 0) % w.nc
                  < (w.layout.getD r.toNat ⟨0, 0⟩).local_ix0
                    + (w.layout.getD r.toNat ⟨0, 0⟩).local_nx
              then plane_sum w.nc w.boxsize Fa pos 0 else 0)
          else 0) +
        (if (outside_interior w.boxsize w.nc (w.layout.getD host ⟨0, 0⟩) p &&
            in_buffer w.boxsize w.nc (w.layout.getD r.toNat ⟨0, 0⟩) p) = true
          then
            (if (w.layout.getD r.toNat ⟨0, 0⟩).local_ix0
                  ≤ (⌊pos.c0 * ((w.nc : Rat) / w.boxsize)⌋ + 1) % w.nc ∧
                (⌊pos.c0 * ((w.nc : Rat) / w.boxsize)⌋ + 1) % w.nc
                  < (w.layout.getD r.toNat ⟨0, 0⟩).local_ix0
                    + (w.layout.getD r.toNat ⟨0, 0⟩).local_nx
              then plane_sum w.nc w.boxsize Fa pos 1 else 0)
          else 0)) := by
    apply List.map_congr_left
    intro r hr'
    obtain ⟨m1, m2, _⟩ := hmemr r hr'
    have e : r = ((r.toNat : Nat) : Int) := by omega
    by_cases hs : (outside_interior w.boxsize w.nc (w.layout.getD host ⟨0, 0⟩) p &&
        in_buffer w.boxsize w.nc (w.layout.getD r.toNat ⟨0, 0⟩) p) = true
    · rw [if_pos hs, if_pos hs, if_pos hs]
      conv_lhs => rw [e]
      exact hphi r.toNat m2
    · rw [if_neg hs, if_neg hs, if_neg hs, add_zero]
  rw [hcongr, List.sum_map_add]
  have hmesh := mesh_coordinate_range hbox (by omega : (0 : Int) ≤ w.nc) (hpos pos.c0 (by simp)).1
    (hpos pos.c0 (by simp)).2
  have hg : ∀ a : Int, 0 ≤ (⌊pos.c0 * ((w.nc : Rat) / w.boxsize)⌋ + a) % w.nc ∧
      (⌊pos.c0 * ((w.nc : Rat) / w.boxsize)⌋ + a) % w.nc < w.nc :=
    fun a => ⟨Int.emod_nonneg _ (by omega), Int.emod_lt_of_pos _ (by omega)⟩
  obtain ⟨r0, hr0, ho0⟩ := hcov _ (hg 0).1 (hg 0).2
  obtain ⟨r1, hr1, ho1⟩ := hcov _ (hg 1).1 (hg 1).2
  have hc0 : pos.c0 = (periodic_wrapup_p p w.boxsize).x.c0 := by rw [hpd]
  have k0 := plane_counted_once w host hh hdis _ r0 hr0 ho0
    (fun r => outside_interior w.boxsize w.nc (w.layout.getD host ⟨0, 0⟩) p &&
      in_buffer w.boxsize w.nc (w.layout.getD r.toNat ⟨0, 0⟩) p)
    (plane_sum w.nc w.boxsize Fa pos 0)
    (by
      intro hne _
      have := corner_owner_gets_copy hbox (by omega : (0 : Int) < w.nc)
        (w.layout.getD host ⟨0, 0⟩) (w.layout.getD r0 ⟨0, 0⟩) (hdis host r0 hh hr0 (Ne.symm hne))
        (hin _ (getD_mem_of_lt w.layout host hh)) (hnx _ (getD_mem_of_lt w.layout host hh))
        (hin _ (getD_mem_of_lt w.layout r0 hr0)) p 0 (Or.inl rfl) (by rw [← hc0]; exact ho0)
      simp only [Int.toNat_ofNat, Bool.and_eq_true]
      exact this)
  have k1 := plane_counted_once w host hh hdis _ r1 hr1 ho1
    (fun r => outside_interior w.boxsize w.nc (w.layout.getD host ⟨0, 0⟩) p &&
      in_buffer w.boxsize w.nc (w.layout.getD r.toNat ⟨0, 0⟩) p)
    (plane_sum w.nc w.boxsize Fa pos 1)
    (by
      intro hne hP
      have hw : corner_weight ((periodic_wrapup_p p w.boxsize).x.c0 * ((w.nc : Rat) / w.boxsize)) 1
          ≠ 0 := by
        intro hz
        apply hP
        apply plane_sum_of_weight_zero
        rw [hc0]
        exact hz
      have := corner_owner_gets_copy hbox (by omega : (0 : Int) < w.nc)
        (w.layout.getD host ⟨0, 0⟩) (w.layout.getD r1 ⟨0, 0⟩) (hdis host r1 hh hr1 (Ne.symm hne))
        (hin _ (getD_mem_of_lt w.layout host hh)) (hnx _ (getD_mem_of_lt w.layout host hh))
        (hin _ (getD_mem_of_lt w.layout r1 hr1)) p 1 (Or.inr ⟨rfl, hw⟩)
        (by rw [← hc0]; exact ho1)
      simp only [Int.toNat_ofNat, Bool.and_eq_true]
      exact this)
  simp only at k0 k1
  linarith

/-- The forces the ledger assigns to particle `j`, when the force buffers hold at every
slot of a copy of `j` a force that depends on the destination only. -/
theorem scattered_eq_copies (st : State) (mem : Mem) (j : Int) (G : Int → Float3)
    (h : ∀ pkt ∈ st.packets_sent, ∀ k ∈ counter_values pkt.n,
      st.buf_index (pkt.offset_index + k) = j →
      ({ c0 := mem.buf_force pkt.dest_rank (3 * (pkt.offset + k)),
         c1 := mem.buf_force pkt.dest_rank (3 * (pkt.offset + k) + 1),
         c2 := mem.buf_force pkt.dest_rank (3 * (pkt.offset + k) + 2) } : Float3)
        = G pkt.dest_rank) :
    scattered st mem j = (copies_sent st j).map G := by
  unfold scattered copies_sent
  rw [List.map_flatMap]
  apply List.flatMap_congr
  intro pkt hp
  rw [List.map_map]
  apply List.map_congr_left
  intro k hk
  obtain ⟨hk1, hk2⟩ := List.mem_filter.1 hk
  exact h pkt hp k hk1 (by simpa using hk2)

theorem mem_copies_sent {st : State} {j : Int} {pkt : Packet} {k : Int}
    (hp : pkt ∈ st.packets_sent) (hk : k ∈ counter_values pkt.n)
    (hj : st.buf_index (pkt.offset_index + k) = j) : pkt.dest_rank ∈ copies_sent st j := by
  unfold copies_sent
  rw [List.mem_flatMap]
  refine ⟨pkt, hp, ?_⟩
  rw [List.mem_map]
  exact ⟨k, List.mem_filter.2 ⟨hk, by simpa using hj⟩, rfl⟩

theorem float3_sum_map (l : List Int) (G : Int → Float3) :
    Float3.sum (l.map G) =
      { c0 := (l.map fun r => (G r).c0).sum, c1 := (l.map fun r => (G r).c1).sum,
        c2 := (l.map fun r => (G r).c2).sum } := by
  simp only [Float3.sum, List.map_map]
  rfl

/-- The copies the host records for particle `j`, by destination rank. -/
theorem host_copies (w : Run) (host : Nat) (hh : host < w.layout.length) (j : Nat)
    (p : Particle) (hp : (w.parts.getD host [])[j]? = some p) :
    ((w.begun host).st.decomposition.flatMap fun d =>
      match (w.parts.getD host [])[j]? with
      | some p =>
        if ((decide ((periodic_wrapup_p p w.boxsize).x.c0 < (w.begun host).st.x_left) ||
            decide ((periodic_wrapup_p p w.boxsize).x.c0 > (w.begun host).st.x_right)) &&
            send_test d.xbuf_min d.xbuf_max (periodic_wrapup_p p w.boxsize).x.c0
              w.boxsize) = true
          then [d.rank] else []
      | none => []) =
      ((loop_indices w.layout.length).flatMap (rank_block w.layout.length host)).flatMap
        fun r =>
          if (outside_interior w.boxsize w.nc (w.layout.getD host ⟨0, 0⟩) p &&
              in_buffer w.boxsize w.nc (w.layout.getD r.toNat ⟨0, 0⟩) p) = true
            then [r] else [] := by
  have hdec : (w.begun host).st.decomposition =
      ((loop_indices w.layout.length).flatMap (rank_block w.layout.length host)).map
        (domain_of (w.layout.flatMap (xbuf_py w.boxsize w.nc))) := by
    simp only [Run.begun, initialised, Run.proc, allgather_py]
    congr 2
    simp only [Int.toNat_ofNat]
    have hset : w.layout.set host
        { local_ix0 := (w.layout.getD host ⟨0, 0⟩).local_ix0,
          local_nx := (w.layout.getD host ⟨0, 0⟩).local_nx } = w.layout :=
      set_getD_self w.layout host ⟨0, 0⟩
    rw [hset]
  rw [hp, hdec, List.flatMap_map]
  apply List.flatMap_congr
  intro r hr
  have hm := (mem_flatMap_rank_block (by omega : (0 : Int) ≤ (host : Int))
    (by exact_mod_cast hh) r).1 hr
  have hrn : r.toNat < w.layout.length := by omega
  have er : r = ((r.toNat : Nat) : Int) := by omega
  obtain ⟨hmin, hmax⟩ := fget_flatMap_pair (f := xbuf_py w.boxsize w.nc)
    (fun s => ⟨_, _, rfl⟩) w.layout r.toNat hrn
  rw [← er] at hmin hmax
  have e1 : (domain_of (w.layout.flatMap (xbuf_py w.boxsize w.nc)) r).xbuf_min
      = fget (xbuf_py w.boxsize w.nc (w.layout.getD r.toNat ⟨0, 0⟩)) 0 := hmin
  have e2 : (domain_of (w.layout.flatMap (xbuf_py w.boxsize w.nc)) r).xbuf_max
      = fget (xbuf_py w.boxsize w.nc (w.layout.getD r.toNat ⟨0, 0⟩)) 1 := hmax
  have e3 : (domain_of (w.layout.flatMap (xbuf_py w.boxsize w.nc)) r).rank = r := rfl
  simp only [e1, e2, e3]
  rfl

theorem forall₂_map_eq {α β γ : Type} {R : α → β → Prop} {f : β → γ} {g : α → γ}
    {l1 : List α} {l2 : List β} (h : List.Forall₂ R l1 l2) (hR : ∀ a b, R a b → f b = g a) :
    l2.map f = l1.map g := by
  induction h with
  | nil => rfl
  | cons hab _ ih => rw [List.map_cons, List.map_cons, hR _ _ hab, ih]

/-- C18: for every slab partition of the `nc` planes among the nodes in which each node
owns at least two planes (`2 <= nc` within the range of `int`, `boxsize > 0`), every
global force mesh `F` of which each node holds its slab after `compute_force_mesh(axis)`,
and every particle `j` of a node `host`: after a collective `pm_domain_send_positions`,
the axis loop of `pm_compute_force` on every node and `pm_domain_get_forces` on the host,
which returns, the force of the particle is, for each axis, the full eight-corner
trilinear interpolation of `F` at the wrapped position of the particle; before
`pm_domain_get_forces` it is the interpolation over the planes the host owns. -/
theorem scatter_back_completes_interpolation (w : Run) (sts : Nat → State)
    (pms : Int → Int → Pm) (F : Int → Int × Int × Int → Rat) (mem mem1 : Mem)
    (procs1 : List Proc)
    (hbox : 0 < w.boxsize) (hnc : 2 ≤ w.nc) (hint : w.nc < 2 ^ 31)
    (hnx : ∀ s ∈ w.layout, 2 ≤ s.local_nx)
    (hin : ∀ s ∈ w.layout, 0 ≤ s.local_ix0 ∧ s.local_ix0 + s.local_nx ≤ w.nc)
    (hdis : ∀ i k : Nat, i < w.layout.length → k < w.layout.length → i ≠ k →
      (w.layout.getD k ⟨0, 0⟩).local_ix0 + (w.layout.getD k ⟨0, 0⟩).local_nx
          ≤ (w.layout.getD i ⟨0, 0⟩).local_ix0 ∨
        (w.layout.getD i ⟨0, 0⟩).local_ix0 + (w.layout.getD i ⟨0, 0⟩).local_nx
          ≤ (w.layout.getD k ⟨0, 0⟩).local_ix0)
    (hcov : ∀ g : Int, 0 ≤ g → g < w.nc → ∃ r : Nat, r < w.layout.length ∧
      (w.layout.getD r ⟨0, 0⟩).local_ix0 ≤ g ∧
      g < (w.layout.getD r ⟨0, 0⟩).local_ix0 + (w.layout.getD r ⟨0, 0⟩).local_nx)
    (hready : ∀ r, r < w.layout.length → w.ready r (sts r))
    (hmem : ∀ k : Int, 0 ≤ mem.nbuf k)
    (hpm : ∀ r : Nat, r < w.layout.length → ∀ a : Int, 0 ≤ a → a ≤ 2 →
      (pms r a).nc = w.nc ∧ (pms r a).boxsize = w.boxsize ∧
      (pms r a).local_ix0 = (w.layout.getD r ⟨0, 0⟩).local_ix0 ∧
      (pms r a).local_nx = (w.layout.getD r ⟨0, 0⟩).local_nx ∧
      ∀ ix iy iz : Int, 0 ≤ ix → ix < (w.layout.getD r ⟨0, 0⟩).local_nx → 0 ≤ iy → iy < w.nc →
        0 ≤ iz → iz < w.nc →
        (pms r a).fx (grid_index (pms r a) ix iy iz)
          = F a ((w.layout.getD r ⟨0, 0⟩).local_ix0 + ix, iy, iz))
    (h : exchange (w.procs_from sts) mem = .ok (procs1, mem1))
    (host : Nat) (hh : host < w.layout.length) (j : Nat) (p : Particle)
    (hp : (w.parts.getD host [])[j]? = some p) :
    ∃ pr st3 ps3, (force_phase pms procs1 mem1).1[host]? = some pr ∧
      pr.particles.force.getD j Float3.zero =
        { c0 := cic_interpolate (pms host 0) (periodic_wrapup_p p w.boxsize).x,
          c1 := cic_interpolate (pms host 1) (periodic_wrapup_p p w.boxsize).x,
          c2 := cic_interpolate (pms host 2) (periodic_wrapup_p p w.boxsize).x } ∧
      pm_domain_get_forces pr.st (force_phase pms procs1 mem1).2 pr.particles
        = .ok (st3, ps3) ∧
      ps3.force.getD j Float3.zero =
        { c0 := trilinear w.nc w.boxsize (F 0) (periodic_wrapup_p p w.boxsize).x,
          c1 := trilinear w.nc w.boxsize (F 1) (periodic_wrapup_p p w.boxsize).x,
          c2 := trilinear w.nc w.boxsize (F 2) (periodic_wrapup_p p w.boxsize).x } := by
  obtain ⟨pr1, hg1, hlen1, henv1, hps1, hled, hcop⟩ :=
    exchange_host w sts mem mem1 procs1 hbox (by omega) hnx hready hmem h host hh
  have hkeep := exchange_keeps_ready w sts hready mem mem1 procs1 h
  have hranks : (procs1.map fun pr => pr.env.this_node)
      = (List.range w.layout.length).map fun (r : Nat) => (r : Int) :=
    forall₂_map_eq hkeep (fun r pr hr => by
      have e : pr.env = (w.proc r).env := hr.1
      show pr.env.this_node = (r : Int)
      rw [e]
      rfl)
  have hnodup : (procs1.map fun pr => pr.env.this_node).Nodup := by
    rw [hranks]
    exact List.Nodup.map (fun a b hab => by exact_mod_cast hab) (List.nodup_range _)
  obtain ⟨m1, m2, _, m4, hf2⟩ := force_phase_spec pms procs1 mem1 hnodup
  obtain ⟨hlen2, hget2⟩ := List.forall₂_iff_get.1 hf2
  have h1 : host < procs1.length := by rw [hlen1]; exact hh
  have h2 : host < (force_phase pms procs1 mem1).1.length := by rw [← hlen2]; exact h1
  have hpr1 : procs1[host] = pr1 := by
    rw [List.getElem?_eq_getElem h1] at hg1
    exact Option.some.inj hg1
  have hg2 := hget2 host h1 h2
  simp only [List.get_eq_getElem, hpr1] at hg2
  obtain ⟨_, g2, g3, g4, g5⟩ := hg2
  generalize hpr2 : (force_phase pms procs1 mem1).1[host] = pr2 at g2 g3 g4 g5
  generalize hmem2 : (force_phase pms procs1 mem1).2 = mem2 at m1 m2 m4 ⊢
  have hthis : pr1.env.this_node = (host : Int) := by rw [henv1]; rfl
  have hjlt : j < (w.parts.getD host []).length := (List.getElem?_eq_some.1 hp).1
  have hplen : pr1.particles.p.length = (w.parts.getD host []).length := by
    rw [hps1]; simp
  have hflen : pr1.particles.force.length = (w.parts.getD host []).length := by
    rw [hps1]; simp [Run.proc]
  have hpj : pr1.particles.p[j]? = some (periodic_wrapup_p p w.boxsize) := by
    rw [hps1]
    simp only [List.getElem?_map, hp, Option.map_some']
  have hpjd : (pr1.particles.p.getD j ⟨Float3.zero⟩) = periodic_wrapup_p p w.boxsize := by
    rw [List.getD_eq_getElem?_getD, hpj]
    rfl
  have hlocal := g5 j (by rw [hflen]; exact hjlt) (by rw [hplen]; exact hjlt)
  rw [hthis, hpjd] at hlocal
  have hrange : ∀ pkt ∈ pr2.st.packets_sent, ∀ k : Int, 0 ≤ k → k < pkt.n →
      (0 ≤ pkt.offset_index + k ∧ pkt.offset_index + k < pr2.st.nbuf_index) ∧
      0 ≤ pr2.st.buf_index (pkt.offset_index + k) ∧
      pr2.st.buf_index (pkt.offset_index + k) < pr2.particles.p.length := by
    intro pkt hpk k hk0 hk1
    rw [g2] at hpk ⊢
    obtain ⟨a1, _, a3, _, _, a6⟩ := hled pkt hpk
    obtain ⟨q, q1, q2, _⟩ := a6 k.toNat (by omega)
    have ek : ((k.toNat : Nat) : Int) = k := by omega
    rw [ek] at q1 q2
    have hlt : (pr1.st.buf_index (pkt.offset_index + k)).toNat < pr1.particles.p.length :=
      (List.getElem?_eq_some.1 q2).1
    refine ⟨⟨by omega, by omega⟩, q1, ?_⟩
    rw [g3]
    omega
  obtain ⟨f', hgf, _, hfv⟩ := pm_domain_get_forces_ok pr2.st mem2 pr2.particles hrange
  refine ⟨pr2, pr2.st, { pr2.particles with force := f' }, ?_, hlocal, hgf, ?_⟩
  · rw [List.getElem?_eq_getElem h2, hpr2]
  · have hcopies := hcop j
    rw [host_copies w host hh j p hp] at hcopies
    obtain ⟨G, hGdef⟩ : ∃ G : Int → Float3, G = fun r : Int =>
        ({ c0 := cic_interpolate (pms r 0) (periodic_wrapup_p p w.boxsize).x,
           c1 := cic_interpolate (pms r 1) (periodic_wrapup_p p w.boxsize).x,
           c2 := cic_interpolate (pms r 2) (periodic_wrapup_p p w.boxsize).x } : Float3) :=
      ⟨_, rfl⟩
    have hG : ∀ pkt ∈ pr2.st.packets_sent, ∀ k ∈ counter_values pkt.n,
        pr2.st.buf_index (pkt.offset_index + k) = (j : Int) →
        ({ c0 := mem2.buf_force pkt.dest_rank (3 * (pkt.offset + k)),
           c1 := mem2.buf_force pkt.dest_rank (3 * (pkt.offset + k) + 1),
           c2 := mem2.buf_force pkt.dest_rank (3 * (pkt.offset + k) + 2) } : Float3)
          = G pkt.dest_rank := by
      intro pkt hpk k hk hjk
      rw [hGdef]
      rw [g2] at hpk hjk
      obtain ⟨hk0, hk1⟩ := mem_counter_values hk
      obtain ⟨_, _, _, a4, a5, a6⟩ := hled pkt hpk
      have hdm : pkt.dest_rank ∈ copies_sent pr1.st (j : Int) := mem_copies_sent hpk hk hjk
      rw [hcopies, List.mem_flatMap] at hdm
      obtain ⟨r, hr, hdr⟩ := hdm
      have hdeq : pkt.dest_rank = r := by
        split_ifs at hdr
        · exact List.mem_singleton.1 hdr
        · simp at hdr
      have hrm := (mem_flatMap_rank_block (by omega : (0 : Int) ≤ (host : Int))
        (by exact_mod_cast hh) r).1 hr
      have hin_procs : pkt.dest_rank ∈ procs1.map fun pr => pr.env.this_node := by
        rw [hranks, List.mem_map]
        exact ⟨r.toNat, List.mem_range.2 (by omega), by omega⟩
      obtain ⟨prd, hprd, hthisd⟩ := List.mem_map.1 hin_procs
      obtain ⟨q, q1, q2, q3, q4, q5⟩ := a6 k.toNat (by omega)
      have ek : ((k.toNat : Nat) : Int) = k := by omega
      rw [ek] at q1 q2 q3 q4 q5
      rw [hjk] at q2
      simp only [Int.toNat_ofNat] at q2
      rw [hpj] at q2
      have hq : q = periodic_wrapup_p p w.boxsize := (Option.some.inj q2).symm
      have hposd : pm_domain_buffer_positions mem1 pkt.dest_rank (pkt.offset + k)
          = (periodic_wrapup_p p w.boxsize).x := by
        unfold pm_domain_buffer_positions
        rw [q3, q4, q5, hq]
      have hv := m4 prd hprd (pkt.offset + k) (by omega) (by rw [hthisd]; omega)
      rw [hthisd, hposd] at hv
      have v0 := hv 0 (by decide) (by decide)
      have v1 := hv 1 (by decide) (by decide)
      have v2 := hv 2 (by decide) (by decide)
      rw [add_zero] at v0
      simp only [v0, v1, v2]
    simp only
    rw [hfv j (by rw [g4, hflen]; exact hjlt), hlocal,
      scattered_eq_copies pr2.st mem2 (j : Int) G hG, g2, hcopies, float3_sum_map]
    subst hGdef
    simp only [Float3.add, Float3.mk.injEq]
    exact ⟨axis_total w (fun r => pms r 0) (F 0) hbox hnc hint hnx hin hdis hcov
        (fun r hr => hpm r hr 0 (by decide) (by decide)) host hh p,
      axis_total w (fun r => pms r 1) (F 1) hbox hnc hint hnx hin hdis hcov
        (fun r hr => hpm r hr 1 (by decide) (by decide)) host hh p,
      axis_total w (fun r => pms r 2) (F 2) hbox hnc hint hnx hin hdis hcov
        (fun r hr => hpm r hr 2 (by decide) (by decide)) host hh p⟩

/-- C18 at a concrete input: two nodes of two planes each (`nc = 4`, box of side 4),
rank 0 holds one particle at `x = 3.9`, whose corners lie in plane 3 (weight 0.1, owned
by rank 1) and plane 0 (weight 0.9, owned by rank 0); with the force mesh
`F_a(ix, iy, iz) = ix + 10a` the local interpolation gives `(0, 9, 18)` and after the
scatter-back the force is `(0.3, 10.3, 20.3)`, the full interpolation. -/
theorem scatter_back_completes_interpolation_witness :
    ∃ procs1 mem1, exchange two_node_run.procs Mem.zero = .ok (procs1, mem1) ∧
      ∃ pr st3 ps3, (force_phase ramp_pm procs1 mem1).1[0]? = some pr ∧
        pr.particles.force.getD 0 Float3.zero = { c0 := 0, c1 := 9, c2 := 18 } ∧
        pm_domain_get_forces pr.st (force_phase ramp_pm procs1 mem1).2 pr.particles
          = .ok (st3, ps3) ∧
        ps3.force.getD 0 Float3.zero = { c0 := 3 / 10, c1 := 103 / 10, c2 := 203 / 10 } := by
  obtain ⟨⟨procs1, mem1⟩, hok⟩ := exists_ok_of_outcome
    (r := exchange two_node_run.procs Mem.zero) (by decide!)
  refine ⟨procs1, mem1, hok, ?_⟩
  obtain ⟨pr, st3, ps3, h1, h2, h3, h4⟩ :=
    scatter_back_completes_interpolation two_node_run (fun _ => State.initial) ramp_pm
      ramp_mesh Mem.zero mem1 procs1 (by decide!) (by decide) (by decide) (by decide)
      (by decide)
      (by
        intro i k hi hk hik
        simp only [two_node_run, List.length_cons, List.length_nil] at hi hk
        have hi2 : i = 0 ∨ i = 1 := by omega
        have hk2 : k = 0 ∨ k = 1 := by omega
        rcases hi2 with rfl | rfl <;> rcases hk2 with rfl | rfl
        · exact absurd rfl hik
        · right; decide
        · left; decide
        · exact absurd rfl hik)
      (by
        intro g h0 h1
        by_cases hg : g < 2
        · exact ⟨0, by decide, by simpa [two_node_run] using h0, by simpa [two_node_run] using hg⟩
        · refine ⟨1, by decide, ?_, ?_⟩
          · simp only [two_node_run, List.getD_cons_succ, List.getD_cons_zero]
            omega
          · simp only [two_node_run, List.getD_cons_succ, List.getD_cons_zero] at h1 ⊢
            omega)
      (fun _ _ => Or.inl rfl) (fun _ => le_refl 0)
      (by
        intro r hr a ha0 ha2
        refine ⟨rfl, rfl, ?_, ?_, ?_⟩
        · have hr2 : r = 0 ∨ r = 1 := by
            simp only [two_node_run, List.length_cons, List.length_nil] at hr
            omega
          rcases hr2 with rfl | rfl <;> rfl
        · have hr2 : r = 0 ∨ r = 1 := by
            simp only [two_node_run, List.length_cons, List.length_nil] at hr
            omega
          rcases hr2 with rfl | rfl <;> rfl
        · intro ix iy iz h1 h2 h3 h4 h5 h6
          have hr2 : r = 0 ∨ r = 1 := by
            simp only [two_node_run, List.length_cons, List.length_nil] at hr
            omega
          have hnx2 : ix < 2 := by
            rcases hr2 with rfl | rfl <;> exact h2
          have hy4 : iy < 4 := h4
          have hz4 : iz < 4 := h6
          have hidx : ((ix * 4 + iy) * 6 + iz) / 24 = ix := by omega
          have hl : (two_node_run.layout.getD r ⟨0, 0⟩).local_ix0 = 2 * (r : Int) := by
            rcases hr2 with rfl | rfl <;> rfl
          simp only [ramp_pm, ramp_mesh, grid_index, slab_pm, hl]
          rw [hidx])
      hok 0 (by decide) 0 ⟨⟨39 / 10, 0, 0⟩⟩ rfl
  refine ⟨pr, st3, ps3, h1, ?_, h3, ?_⟩
  · rw [h2]
    decide!
  · rw [h4]
    decide!

/-! ## The public functions of the pm module -/

theorem interpolate_axis_epochs (pm : Pm) (mem : Mem) (this_node : Int)
    (particles : Particles) (axis : Int) :
    (interpolate_axis pm mem this_node particles axis).2.a_x = particles.a_x ∧
      (interpolate_axis pm mem this_node particles axis).2.a_f = particles.a_f :=
  ⟨rfl, rfl⟩

/-- What `pm_compute_force` does when the force is not at the scale factor of the
positions and the density is ready. -/
theorem pm_compute_force_runs (lib : FftLib) (this_node : Int) (pm : Pm) (mem : Mem)
    (particles : Particles) (hstale : particles.a_f ≠ particles.a_x)
    (hready : pm.status = .density_done) :
    (pm_compute_force lib this_node pm mem particles).2 = .ok () ∧
      (pm_compute_force lib this_node pm mem particles).1.1.status = .force_done ∧
      (pm_compute_force lib this_node pm mem particles).1.2.2.a_f = particles.a_x ∧
      (pm_compute_force lib this_node pm mem particles).1.2.2.a_x = particles.a_x := by
  simp only [pm_compute_force, if_neg hstale, hready, ne_eq, not_true_eq_false, if_false,
    List.foldl_cons, List.foldl_nil, interpolate_axis_epochs, and_self]

/-- What `pm_compute_force` does when the force is not at the scale factor of the
positions and the density is not ready. -/
theorem pm_compute_force_throws (lib : FftLib) (this_node : Int) (pm : Pm) (mem : Mem)
    (particles : Particles) (hstale : particles.a_f ≠ particles.a_x)
    (hnot : pm.status ≠ .density_done) :
    pm_compute_force lib this_node pm mem particles
      = ((pm, mem, particles), .error .RuntimeError) :=
  (if_neg hstale).trans (if_pos hnot)

/-- What `pm_compute_force` does when the force is at the scale factor of the
positions. -/
theorem pm_compute_force_skips (lib : FftLib) (this_node : Int) (pm : Pm) (mem : Mem)
    (particles : Particles) (hsame : particles.a_f = particles.a_x) :
    pm_compute_force lib this_node pm mem particles = ((pm, mem, particles), .ok ()) :=
  if_pos hsame

/-- C21: for every particle set, every state of the module and of the window memory and
every FFT library: when a call of `pm_compute_force` completes, the particles have
`a_f = a_x` (with `a_x` as before the call), and a second call on the state the first
one left returns normally and leaves the module variables (status and meshes), the
window memory (the ghost force buffer) and the particles (their forces) exactly as
they were. -/
theorem compute_force_twice_changes_nothing (lib : FftLib) (this_node : Int) (pm : Pm)
    (mem : Mem) (particles : Particles) (s : Pm × Mem × Particles)
    (h : pm_compute_force lib this_node pm mem particles = (s, .ok ())) :
    s.2.2.a_f = s.2.2.a_x ∧ s.2.2.a_x = particles.a_x ∧
      pm_compute_force lib this_node s.1 s.2.1 s.2.2 = (s, .ok ()) := by
  have hs : s.2.2.a_f = s.2.2.a_x ∧ s.2.2.a_x = particles.a_x := by
    by_cases hsame : particles.a_f = particles.a_x
    · rw [pm_compute_force_skips lib this_node pm mem particles hsame] at h
      simp only [Prod.mk.injEq, and_true] at h
      rw [← h]
      exact ⟨hsame, rfl⟩
    · by_cases hready : pm.status = .density_done
      · obtain ⟨_, _, h3, h4⟩ := pm_compute_force_runs lib this_node pm mem particles hsame hready
        rw [h] at h3 h4
        exact ⟨h3.trans h4.symm, h4⟩
      · rw [pm_compute_force_throws lib this_node pm mem particles hsame hready] at h
        simp at h
  exact ⟨hs.1, hs.2, pm_compute_force_skips lib this_node s.1 s.2.1 s.2.2 hs.1⟩

/-- C21 at a concrete input: one particle whose force is stale, the density being
ready; the first call completes and sets the status to `force_done`, the second call
returns the same state. -/
theorem compute_force_twice_changes_nothing_witness :
    (pm_compute_force copy_fft 1 density_ready_pm ghost_mem moved_particles).2 = .ok () ∧
      (pm_compute_force copy_fft 1 density_ready_pm ghost_mem moved_particles).1.1.status
        = .force_done ∧
      pm_compute_force copy_fft 1
          (pm_compute_force copy_fft 1 density_ready_pm ghost_mem moved_particles).1.1
          (pm_compute_force copy_fft 1 density_ready_pm ghost_mem moved_particles).1.2.1
          (pm_compute_force copy_fft 1 density_ready_pm ghost_mem moved_particles).1.2.2
        = ((pm_compute_force copy_fft 1 density_ready_pm ghost_mem moved_particles).1,
            .ok ()) := by
  have hrun := pm_compute_force_runs copy_fft 1 density_ready_pm ghost_mem moved_particles
    (by decide!) rfl
  exact ⟨hrun.1, hrun.2.1,
    (compute_force_twice_changes_nothing copy_fft 1 density_ready_pm ghost_mem moved_particles
      (pm_compute_force copy_fft 1 density_ready_pm ghost_mem moved_particles).1
      (Prod.ext rfl hrun.1)).2.2⟩

theorem py_pm_compute_force_initialised (lib : FftLib) (this_node : Int) (pm : Pm) (mem : Mem)
    (particles : Particles) :
    py_pm_compute_force true lib this_node pm mem particles
      = pm_compute_force lib this_node pm mem particles := by
  simp only [py_pm_compute_force, Bool.not_true, Bool.false_eq_true, if_false]
  generalize pm_compute_force lib this_node pm mem particles = r
  obtain ⟨s, r⟩ := r
  cases r with
  | error e => cases e <;> rfl
  | ok u => rfl

/-- C22 as stated fails where the force is current: with `a_f = a_x` the call returns
normally although the status is `done`, not `density_done`; and with status
`density_done` it returns without setting the status to `force_done`. -/
theorem current_force_skips_status_check :
    slab_pm.status ≠ .density_done ∧
      pm_compute_force copy_fft 1 slab_pm ghost_mem current_particles
        = ((slab_pm, ghost_mem, current_particles), .ok ()) ∧
      density_ready_pm.status = .density_done ∧
      (pm_compute_force copy_fft 1 density_ready_pm ghost_mem current_particles).2 = .ok () ∧
      (pm_compute_force copy_fft 1 density_ready_pm ghost_mem current_particles).1.1.status
        = .density_done :=
  ⟨by decide, if_pos rfl, rfl,
    congrArg Prod.snd
      (pm_compute_force_skips copy_fft 1 density_ready_pm ghost_mem current_particles rfl),
    congrArg (fun r => r.1.1.status)
      (pm_compute_force_skips copy_fft 1 density_ready_pm ghost_mem current_particles rfl)⟩

/-- C22, amended: for every particle set whose force is not at the scale factor of its
positions (`a_f ≠ a_x`): with a status other than `density_done`, `pm_compute_force`
throws `RuntimeError` and leaves the module variables, the window memory and the
particles as they were, and `py_pm_compute_force` raises `RuntimeError`; with status
`density_done` it completes, sets the status to `force_done` and `a_f` to `a_x`. -/
theorem compute_force_requires_density_when_stale (lib : FftLib) (this_node : Int)
    (pm : Pm) (mem : Mem) (particles : Particles)
    (hstale : particles.a_f ≠ particles.a_x) :
    (pm.status ≠ .density_done →
      pm_compute_force lib this_node pm mem particles
        = ((pm, mem, particles), .error .RuntimeError) ∧
      py_pm_compute_force true lib this_node pm mem particles
        = ((pm, mem, particles), .error .RuntimeError)) ∧
    (pm.status = .density_done →
      (pm_compute_force lib this_node pm mem particles).2 = .ok () ∧
      (py_pm_compute_force true lib this_node pm mem particles).2 = .ok () ∧
      (pm_compute_force lib this_node pm mem particles).1.1.status = .force_done ∧
      (pm_compute_force lib this_node pm mem particles).1.2.2.a_f = particles.a_x) := by
  constructor
  · intro hnot
    have h := pm_compute_force_throws lib this_node pm mem particles hstale hnot
    exact ⟨h, (py_pm_compute_force_initialised lib this_node pm mem particles).trans h⟩
  · intro hready
    obtain ⟨h1, h2, h3, _⟩ := pm_compute_force_runs lib this_node pm mem particles hstale hready
    refine ⟨h1, ?_, h2, h3⟩
    rw [py_pm_compute_force_initialised]
    exact h1

/-- C22 at a concrete input: one particle with `a_f = 0`, `a_x = 1`; with status `done`
the call throws and changes nothing, with status `density_done` it completes with status
`force_done`. -/
theorem compute_force_requires_density_when_stale_witness :
    pm_compute_force copy_fft 1 slab_pm ghost_mem moved_particles
        = ((slab_pm, ghost_mem, moved_particles), .error .RuntimeError) ∧
      (pm_compute_force copy_fft 1 density_ready_pm ghost_mem moved_particles).2 = .ok () ∧
      (pm_compute_force copy_fft 1 density_ready_pm ghost_mem moved_particles).1.1.status
        = .force_done :=
  ⟨((compute_force_requires_density_when_stale copy_fft 1 slab_pm ghost_mem moved_particles
      (by decide!)).1 (by decide)).1,
    ((compute_force_requires_density_when_stale copy_fft 1 density_ready_pm ghost_mem
      moved_particles (by decide!)).2 rfl).1,
    ((compute_force_requires_density_when_stale copy_fft 1 density_ready_pm ghost_mem
      moved_particles (by decide!)).2 rfl).2.2.1⟩

/-- A first call of `pm_init` with `nc_pm <= 1` or `boxsize <= 0`, on a module that is
not initialised (`nc = 0`) or is initialised with other parameters, throws
`RuntimeError` and leaves `fft_pm` null. -/
theorem pm_init_invalid_first_call (lib : FftLib) (nc_pm : Int) (pm_factor_ boxsize_ : Rat)
    (pm : Pm) (hinv : nc_pm ≤ 1 ∨ boxsize_ ≤ 0)
    (hnew : ¬ (pm.nc > 0 ∧
      ¬ (nc_pm ≠ pm.nc ∨ pm.pm_factor ≠ pm_factor_ ∨ pm.boxsize ≠ boxsize_)))
    (hfft : pm.nc > 0 ∨ pm.fft_pm = none) :
    (pm_init lib nc_pm pm_factor_ boxsize_ pm).2 = .error .RuntimeError ∧
      (pm_init lib nc_pm pm_factor_ boxsize_ pm).1.fft_pm = none ∧
      (pm_init lib nc_pm pm_factor_ boxsize_ pm).1.nc = nc_pm := by
  unfold pm_init
  rw [if_neg hnew]
  by_cases h1 : nc_pm ≤ 1
  · simp only [h1, if_true]
    by_cases h0 : pm.nc > 0
    · simp [h0, pm_free]
    · rcases hfft with h | h
      · exact absurd h h0
      · simp [h0, h]
  · have hb : boxsize_ ≤ 0 := by
      rcases hinv with h | h
      · exact absurd h h1
      · exact h
    simp only [h1, if_false, hb, if_true]
    by_cases h0 : pm.nc > 0
    · simp [h0, pm_free]
    · rcases hfft with h | h
      · exact absurd h h0
      · simp [h0, h]

/-- C23 at the failing input: whatever the FFT library, `pm_init(1, 3.0, .., 64.0)` at
program start throws `RuntimeError` with `fft_pm` null and leaves `nc = 1`; the same call
repeated returns normally, `fft_pm` still null.  Likewise `pm_init(64, 3.0, .., -1.0)`:
the first call throws, the second returns normally. -/
theorem pm_init_repeated_invalid_call_returns (lib : FftLib) :
    (pm_init lib 1 3 64 Pm.initial).2 = .error .RuntimeError ∧
      (pm_init lib 1 3 64 Pm.initial).1.fft_pm = none ∧
      (pm_init lib 1 3 64 Pm.initial).1.nc = 1 ∧
      (pm_init lib 1 3 64 (pm_init lib 1 3 64 Pm.initial).1).2 = .ok () ∧
      (pm_init lib 1 3 64 (pm_init lib 1 3 64 Pm.initial).1).1.fft_pm = none ∧
      (pm_init lib 64 3 (-1) Pm.initial).2 = .error .RuntimeError ∧
      (pm_init lib 64 3 (-1) (pm_init lib 64 3 (-1) Pm.initial).1).2 = .ok () ∧
      (pm_init lib 64 3 (-1) (pm_init lib 64 3 (-1) Pm.initial).1).1.fft_pm = none := by
  have e1 : pm_init lib 1 3 64 Pm.initial =
      ({ Pm.initial with nc := 1, pm_factor := 3, ncz := 2, boxsize := 64 },
        .error .RuntimeError) := by
    simp [pm_init, Pm.initial]
  have e2 : pm_init lib 64 3 (-1) Pm.initial =
      ({ Pm.initial with nc := 64, pm_factor := 3, ncz := 66, boxsize := -1 },
        .error .RuntimeError) := by
    simp [pm_init, Pm.initial]
  rw [e1, e2]
  simp [pm_init, Pm.initial]

/-- C27 as stated fails through `pm_set_status`: after `pm_init(4, 1.0, .., 4.0)` at
program start the status is `done`, and `pm_set_status(PmStatus::force_done)` enters
`force_done` from there; `pm_set_status(PmStatus::density_done)` enters `density_done`
without a density computation. -/
theorem set_status_enters_any_state :
    (pm_init copy_fft 4 1 4 Pm.initial).2 = .ok () ∧
      (pm_init copy_fft 4 1 4 Pm.initial).1.status = .done ∧
      (pm_set_status (pm_init copy_fft 4 1 4 Pm.initial).1 .force_done).status = .force_done ∧
      (pm_set_status (pm_init copy_fft 4 1 4 Pm.initial).1 .density_done).status
        = .density_done := by
  have e : pm_init copy_fft 4 1 4 Pm.initial =
      ({ Pm.initial with
          nc := 4, pm_factor := 1, ncz := 6, boxsize := 4, fft_pm := some 1, local_nx := 4,
          local_ix0 := 0, local_nky := 4, local_iky0 := 0, status := .done },
        .ok ()) := by
    simp [pm_init, Pm.initial, copy_fft]
  rw [e]
  exact ⟨rfl, rfl, rfl, rfl⟩

theorem pm_init_status (lib : FftLib) (nc_pm : Int) (pm_factor_ boxsize_ : Rat) (pm : Pm) :
    (pm_init lib nc_pm pm_factor_ boxsize_ pm).1.status = pm.status ∨
      (pm_init lib nc_pm pm_factor_ boxsize_ pm).1.status = .done := by
  unfold pm_init
  by_cases h : pm.nc > 0 ∧
      ¬ (nc_pm ≠ pm.nc ∨ pm.pm_factor ≠ pm_factor_ ∨ pm.boxsize ≠ boxsize_)
  · rw [if_pos h]
    exact Or.inl rfl
  · rw [if_neg h]
    by_cases h0 : pm.nc > 0 <;> by_cases h1 : nc_pm ≤ 1 <;> by_cases h2 : boxsize_ ≤ 0 <;>
      simp [h0, h1, h2, pm_free]

theorem pm_compute_force_status (lib : FftLib) (this_node : Int) (pm : Pm) (mem : Mem)
    (particles : Particles) :
    (pm_compute_force lib this_node pm mem particles).1.1.status = pm.status ∨
      ((pm_compute_force lib this_node pm mem particles).1.1.status = .force_done ∧
        pm.status = .density_done) := by
  by_cases hsame : particles.a_f = particles.a_x
  · rw [pm_compute_force_skips lib this_node pm mem particles hsame]
    exact Or.inl rfl
  · by_cases hready : pm.status = .density_done
    · exact Or.inr ⟨(pm_compute_force_runs lib this_node pm mem particles hsame hready).2.1,
        hready⟩
    · rw [pm_compute_force_throws lib this_node pm mem particles hsame hready]
      exact Or.inl rfl

/-- C27, amended: for every call of `pm_init`, `pm_assign_cic_density`,
`pm_compute_density` or `pm_compute_force`, whatever its arguments and whatever the
module variables before it (throwing calls included): if the status is `force_done`
after the call, it was `force_done` before, or the call is `pm_compute_force` and the
status was `density_done`; if the status is `density_done` after the call, it was
`density_done` before, or the call is a density computation.  `pm_set_status` assigns
the status it is given, whatever the status before. -/
theorem status_follows_the_cycle (lib : FftLib) (c : PmCall) (pm : Pm) :
    ((c.run lib pm).status = .force_done →
      pm.status = .force_done ∨ (c.is_force = true ∧ pm.status = .density_done)) ∧
    ((c.run lib pm).status = .density_done →
      pm.status = .density_done ∨ c.is_density = true) ∧
    ∀ s : PmStatus, (pm_set_status pm s).status = s := by
  refine ⟨?_, ?_, fun _ => rfl⟩
  · intro h
    cases c with
    | init nc_pm pm_factor boxsize =>
      rcases pm_init_status lib nc_pm pm_factor boxsize pm with e | e
      · exact Or.inl (e ▸ h)
      · simp only [PmCall.run] at h
        rw [e] at h
        exact absurd h (by decide)
    | assign_cic_density p => exact absurd h (by simp [PmCall.run, pm_assign_cic_density])
    | compute_density mem this_node particles =>
      exact absurd h (by simp [PmCall.run, pm_compute_density])
    | compute_force this_node mem particles =>
      rcases pm_compute_force_status lib this_node pm mem particles with e | ⟨_, e⟩
      · exact Or.inl (e ▸ h)
      · exact Or.inr ⟨rfl, e⟩
  · intro h
    cases c with
    | init nc_pm pm_factor boxsize =>
      rcases pm_init_status lib nc_pm pm_factor boxsize pm with e | e
      · exact Or.inl (e ▸ h)
      · simp only [PmCall.run] at h
        rw [e] at h
        exact absurd h (by decide)
    | assign_cic_density p => exact Or.inr rfl
    | compute_density mem this_node particles => exact Or.inr rfl
    | compute_force this_node mem particles =>
      rcases pm_compute_force_status lib this_node pm mem particles with e | ⟨e, _⟩
      · exact Or.inl (e ▸ h)
      · simp only [PmCall.run] at h
        rw [e] at h
        exact absurd h (by decide)

/-- C27 at a concrete input: `pm_compute_force` on a stale particle set with the density
ready enters `force_done` from `density_done`; `pm_init` with the parameters the module
already has leaves the status `density_done`, and it is not a density computation. -/
theorem status_follows_the_cycle_witness :
    ((PmCall.compute_force 1 ghost_mem moved_particles).run copy_fft density_ready_pm).status
        = .force_done ∧
      density_ready_pm.status = .density_done ∧
      ((PmCall.init 4 1 4).run copy_fft density_ready_pm).status = .density_done ∧
      (PmCall.init 4 1 4).is_density = false := by
  have h := (pm_compute_force_runs copy_fft 1 density_ready_pm ghost_mem moved_particles
    (by decide!) rfl).2.1
  have h2 : ((PmCall.init 4 1 4).run copy_fft density_ready_pm).status = .density_done := by
    simp [PmCall.run, pm_init, density_ready_pm, slab_pm]
  have T1 := (status_follows_the_cycle copy_fft
    (PmCall.compute_force 1 ghost_mem moved_particles) density_ready_pm).1 h
  have T2 := (status_follows_the_cycle copy_fft (PmCall.init 4 1 4) density_ready_pm).2.1 h2
  rcases T1 with T1 | T1
  · exact absurd T1 (by decide)
  · exact ⟨h, T1.2, h2, rfl⟩

/-! ## The range assertion of the density assignment -/

/-- C29 at the failing input: `nc = 4`, `boxsize = 1`, one particle at `(0.5, 0, 0)`,
inside the box.  Its mesh-unit coordinate is `0.5 * 4 / 1 = 2 > boxsize`, so the assertion
of `pm_assign_cic_density` fails and the build with `CHECK` aborts, while the assertion
of `force_at_particle_locations`, which compares with `nc`, holds for the same
particle. -/
theorem density_assertion_fails_inside_box :
    (2 ≤ fine_pm.nc ∧ 0 < fine_pm.boxsize) ∧
      (∀ c ∈ [half_position.c0, half_position.c1, half_position.c2],
        0 ≤ c ∧ c < fine_pm.boxsize) ∧
      density_assertion fine_pm half_position = false ∧
      outcome (pm_assign_cic_density_check fine_pm [half_position])
        = some .AssertionFailed ∧
      force_assertion fine_pm half_position = true := by
  refine ⟨by decide!, by decide!, by decide!, ?_, by decide!⟩
  have h : density_assertion fine_pm half_position = false := by decide!
  simp [pm_assign_cic_density_check, List.foldlM, h, outcome]

/-! ## COLA velocities -/

/-- C30 at the failing input: with `D(a) = a`, `D2 = -3/7 D1^2`, `Dv = D1`,
`D2v(a, D2) = 2 D2` and one particle with `v = 0`, `dx1 = dx2 = (1, 0, 0)` at `a = 1`,
`cola_set_initial` stores `dx1*Dv + dx2*D2v(a, D2) = 1 - 6/7 = 1/7`, while
`cola_velocity` returns `Dv*dx1 + D2v(a, D1)*dx2 = 1 + 2 = 3`: it passes the first-order
growth factor `D1` where `cola_set_initial` passes the second-order one. -/
theorem cola_velocity_differs_from_initial :
    ((Cola.cola_set_initial toy_cosmology lpt_particles 1).p.map fun q => q.v)
        = [{ c0 := 1 / 7, c1 := 0, c2 := 0 }] ∧
      Cola.cola_velocity toy_cosmology lpt_particles = [3, 0, 0] := by
  constructor <;> decide!

/-! ## The selector of `hdf5_write_particles` -/

theorem deref_eq_iff {var : List Char} {c : Char} (hc : c ≠ Char.ofNat 0) :
    deref var = c ↔ ∃ rest, var = c :: rest := by
  cases var with
  | nil =>
    simp only [deref, List.headD_nil]
    constructor
    · intro h
      exact absurd h.symm hc
    · rintro ⟨rest, h⟩
      cases h
  | cons a rest =>
    simp only [deref, List.headD_cons, List.cons.injEq]
    constructor
    · intro h
      exact ⟨rest, h, rfl⟩
    · rintro ⟨_, h, _⟩
      exact h

/-- Skipping the letters of `pat` in order uses up `var` exactly when `var` is a
subsequence of `pat`. -/
theorem skip_letters_eq_nil_iff (pat : List Char) (hpat : ∀ c ∈ pat, c ≠ Char.ofNat 0) :
    ∀ var : List Char, skip_letters pat var = [] ↔ List.Sublist var pat := by
  induction pat with
  | nil =>
    intro var
    simp [skip_letters]
  | cons c pat ih =>
    intro var
    have hc : c ≠ Char.ofNat 0 := hpat c (List.mem_cons_self _ _)
    have ih' := ih (fun x hx => hpat x (List.mem_cons_of_mem _ hx))
    unfold skip_letters
    by_cases h : deref var = c
    · obtain ⟨rest, rfl⟩ := (deref_eq_iff hc).1 h
      rw [if_pos h, List.tail_cons, ih' rest]
      exact (List.cons_sublist_cons).symm
    · rw [if_neg h, ih' var]
      constructor
      · intro hs
        exact List.Sublist.cons c hs
      · intro hs
        cases hs with
        | cons _ hs' => exact hs'
        | cons₂ _ hs' => exact absurd (by simp [deref]) h

theorem skip_letters_suffix (pat var : List Char) :
    ∀ c ∈ skip_letters pat var, c ∈ var := by
  induction pat generalizing var with
  | nil => intro c hc; exact hc
  | cons a pat ih =>
    intro c hc
    unfold skip_letters at hc
    have h := ih _ c hc
    by_cases ha : deref var = a
    · rw [if_pos ha] at h
      exact List.mem_of_mem_tail h
    · rw [if_neg ha] at h
      exact h

theorem write_blocks_fst (l : List (Char × String)) :
    ∀ s : List Char × List String, (write_blocks l s).1 = skip_letters (l.map Prod.fst) s.1 := by
  induction l with
  | nil => intro s; rfl
  | cons b l ih =>
    intro s
    simp only [write_blocks, List.map_cons, skip_letters]
    rw [ih]
    by_cases h : deref s.1 = b.1
    · rw [if_pos h, if_pos h]
    · rw [if_neg h, if_neg h]

theorem write_block_ok (io : Hdf5) (htable : ∀ name, io.table name = .ok ()) (c : Char)
    (name : String) (s : List Char × List String) :
    write_block io c name s
      = .ok (if deref s.1 = c then (s.1.tail, s.2 ++ [name]) else s) := by
  unfold write_block
  by_cases h : deref s.1 = c
  · rw [if_pos h, if_pos h, htable name]
  · rw [if_neg h, if_neg h]

/-- With a working library, `hdf5_write_particles` ends with the test of what the seven
blocks left of `var`. -/
theorem hdf5_write_particles_ok (io : Hdf5)
    (hfile : io.file_opens = true ∨ io.file_creates = true) (hheader : io.header = .ok ())
    (htable : ∀ name, io.table name = .ok ()) (var : List Char) :
    ∃ names, hdf5_write_particles io var =
      if deref (skip_letters ['i', 'x', 'v', 'c', 'f', '1', '2'] var) ≠ Char.ofNat 0
      then .error .ValError else .ok names := by
  have hf : ¬ (¬ io.file_opens = true ∧ ¬ io.file_creates = true) := by
    rcases hfile with h | h <;> simp [h]
  have e : hdf5_write_particles io var =
      if deref (write_blocks [('i', "id"), ('x', "x"), ('v', "v"), ('c', "v"), ('f', "f"),
          ('1', "dx1"), ('2', "dx2")] (var, [])).1 ≠ Char.ofNat 0
      then .error .ValError
      else .ok (write_blocks [('i', "id"), ('x', "x"), ('v', "v"), ('c', "v"), ('f', "f"),
          ('1', "dx1"), ('2', "dx2")] (var, [])).2 := by
    unfold hdf5_write_particles
    rw [if_neg hf, hheader]
    simp only [bind, Except.bind, write_block_ok io htable, write_blocks]
  rw [write_blocks_fst] at e
  exact ⟨_, e⟩

/-- C25: with a working HDF5 library (the file opens, the header and every dataset are
written), for every selector `var` (a C string: no character is NUL),
`hdf5_write_particles` throws `ValError` if and only if `var` is not a subsequence of
`ixvcf12` taken in that order, and returns normally if it is one. -/
theorem selector_is_ordered_subsequence (io : Hdf5) (var : List Char)
    (hfile : io.file_opens = true ∨ io.file_creates = true) (hheader : io.header = .ok ())
    (htable : ∀ name, io.table name = .ok ())
    (hvar : ∀ c ∈ var, c ≠ Char.ofNat 0) :
    (hdf5_write_particles io var = .error .ValError ↔
      ¬ List.Sublist var ['i', 'x', 'v', 'c', 'f', '1', '2']) ∧
    (List.Sublist var ['i', 'x', 'v', 'c', 'f', '1', '2'] →
      ∃ names, hdf5_write_particles io var = .ok names) := by
  obtain ⟨names, e⟩ := hdf5_write_particles_ok io hfile hheader htable var
  have hpat : ∀ c ∈ ['i', 'x', 'v', 'c', 'f', '1', '2'], c ≠ Char.ofNat 0 := by decide
  have hiff := skip_letters_eq_nil_iff _ hpat var
  have hrest : deref (skip_letters ['i', 'x', 'v', 'c', 'f', '1', '2'] var) ≠ Char.ofNat 0 ↔
      skip_letters ['i', 'x', 'v', 'c', 'f', '1', '2'] var ≠ [] := by
    cases hsk : skip_letters ['i', 'x', 'v', 'c', 'f', '1', '2'] var with
    | nil => simp [deref]
    | cons a rest =>
      have ha : a ∈ var := skip_letters_suffix _ var a (by rw [hsk]; exact List.mem_cons_self _ _)
      simp [deref, hvar a ha]
  rw [e]
  constructor
  · rw [← hiff]
    constructor
    · intro h1
      by_cases h : deref (skip_letters ['i', 'x', 'v', 'c', 'f', '1', '2'] var) ≠ Char.ofNat 0
      · exact hrest.1 h
      · rw [if_neg h] at h1
        cases h1
    · intro h2
      rw [if_pos (hrest.2 h2)]
  · intro hs
    have h : ¬ deref (skip_letters ['i', 'x', 'v', 'c', 'f', '1', '2'] var) ≠ Char.ofNat 0 := by
      rw [hrest, hiff.2 hs]
      exact fun h => h rfl
    rw [if_neg h]
    exact ⟨names, rfl⟩

/-- C25 at concrete inputs: `xi` is rejected (the theorem at `var = xi`), and so are `xx`
and `xq`; the empty selector, `x`, `ixv` and `xf12` are accepted, `ixv` writing the
datasets `id`, `x`, `v`. -/
theorem selector_is_ordered_subsequence_witness :
    hdf5_write_particles working_hdf5 ['x', 'i'] = .error .ValError ∧
      hdf5_write_particles working_hdf5 ['x', 'x'] = .error .ValError ∧
      hdf5_write_particles working_hdf5 ['x', 'q'] = .error .ValError ∧
      hdf5_write_particles working_hdf5 [] = .ok [] ∧
      hdf5_write_particles working_hdf5 ['x'] = .ok ["x"] ∧
      hdf5_write_particles working_hdf5 ['i', 'x', 'v'] = .ok ["id", "x", "v"] ∧
      hdf5_write_particles working_hdf5 ['x', 'f', '1', '2'] = .ok ["x", "f", "dx1", "dx2"] :=
  ⟨(selector_is_ordered_subsequence working_hdf5 ['x', 'i'] (Or.inl rfl) rfl (fun _ => rfl)
      (by decide)).1.2 (by decide),
    rfl, rfl, rfl, rfl, rfl, rfl⟩

/-! ## The divisors of `compute_force_mesh` -/

theorem foldl_flatMap_eq {α β γ : Type} (f : β → γ → β) (g : α → List γ) :
    ∀ (l : List α) (b : β),
      (l.flatMap g).foldl f b = l.foldl (fun b a => (g a).foldl f b) b := by
  intro l
  induction l with
  | nil => intro b; rfl
  | cons a l ih =>
    intro b
    rw [List.flatMap_cons, List.foldl_append, ih]
    rfl

/-- The coefficient loops of `compute_force_mesh` make exactly the passes of
`visited_modes`, each dividing by the squared wavenumber of its pass. -/
theorem force_mesh_coefficients_passes (pm : Pm) (axis : Int) :
    force_mesh_coefficients pm axis =
      (visited_modes pm).foldl (store_coefficient pm axis) (aset pm.fk 0 (0, 0)) := by
  simp only [force_mesh_coefficients, visited_modes, foldl_flatMap_eq, List.foldl_map,
    store_coefficient, squared_wavenumber]

/-- What a pass of the coefficient loops computes: its counters are in range, its vector
`k` holds the signed wavenumbers, and it is not the zero mode. -/
theorem visited_mode_spec (pm : Pm) (hnc : 2 ≤ pm.nc) (hint : pm.nc < 2 ^ 31)
    (hk0 : 0 ≤ pm.local_iky0) (hk1 : pm.local_iky0 + pm.local_nky ≤ pm.nc)
    (e : (Int × Int × Int) × (Rat × Rat × Rat)) (he : e ∈ visited_modes pm) :
    (0 ≤ e.1.1 ∧ e.1.1 < pm.local_nky) ∧ (0 ≤ e.1.2.1 ∧ e.1.2.1 < pm.nc) ∧
      (0 ≤ e.1.2.2 ∧ e.1.2.2 ≤ pm.nc / 2) ∧
      e.2 = ((wavenumber pm.nc e.1.2.1 : Rat),
        (wavenumber pm.nc (e.1.1 + pm.local_iky0) : Rat), (e.1.2.2 : Rat)) ∧
      ¬ (e.1.2.1 = 0 ∧ e.1.1 + pm.local_iky0 = 0 ∧ e.1.2.2 = 0) := by
  simp only [visited_modes, List.mem_flatMap, List.mem_map] at he
  obtain ⟨iy_local, hiy, ix, hix, iz, hiz, rfl⟩ := he
  have hiy' := mem_counter_values hiy
  have hix' := mem_counter_values hix
  have hiz' := mem_counter_from hiz
  have hiyc : to_int32 (to_size_t (iy_local + pm.local_iky0)) = iy_local + pm.local_iky0 :=
    to_int32_to_size_t (by omega) (by omega)
  have hn : to_int32 pm.nc = pm.nc := to_int32_of_range (by omega) hint
  have hkx := to_int32_wavenumber hnc hint hix'
  have hdiv : pm.nc.tdiv 2 = pm.nc / 2 := Int.tdiv_eq_ediv (by omega) (by omega)
  rw [hiyc] at hiz'
  dsimp only
  refine ⟨hiy', hix', ⟨?_, by omega⟩, ?_, ?_⟩
  · split_ifs at hiz' <;> omega
  · simp only [hiyc, hn, hkx, hdiv, wavenumber]
  · rintro ⟨h1, h2, h3⟩
    rw [if_pos ⟨h1, h2⟩] at hiz'
    omega

/-- C26: for `2 <= nc` (within the range of `int`), every `local_iky0 >= 0` and
`local_nky` with `local_iky0 + local_nky <= nc`: the coefficient loops of
`compute_force_mesh` are the passes of `visited_modes`, each of which divides by
`k[0]*k[0] + k[1]*k[1] + k[2]*k[2]`, and in every pass this divisor is strictly
positive: `k` holds the signed wavenumbers of `(ix, iy, iz)`, which vanish only for
`ix = 0`, `iy = 0`, `iz = 0`, and that triple is not visited because the loop over `iz`
starts at 1 when `ix = 0` and `iy = 0`. -/
theorem force_mesh_never_divides_by_zero (pm : Pm) (hnc : 2 ≤ pm.nc) (hint : pm.nc < 2 ^ 31)
    (hk0 : 0 ≤ pm.local_iky0) (hk1 : pm.local_iky0 + pm.local_nky ≤ pm.nc) :
    (∀ axis : Int, force_mesh_coefficients pm axis =
      (visited_modes pm).foldl (store_coefficient pm axis) (aset pm.fk 0 (0, 0))) ∧
    ∀ e ∈ visited_modes pm,
      0 < squared_wavenumber e.2 ∧
      e.2 = ((wavenumber pm.nc e.1.2.1 : Rat),
        (wavenumber pm.nc (e.1.1 + pm.local_iky0) : Rat), (e.1.2.2 : Rat)) ∧
      ¬ (e.1.2.1 = 0 ∧ e.1.1 + pm.local_iky0 = 0 ∧ e.1.2.2 = 0) := by
  refine ⟨force_mesh_coefficients_passes pm, fun e he => ?_⟩
  obtain ⟨hiy, hix, hiz, hk, hmode⟩ := visited_mode_spec pm hnc hint hk0 hk1 e he
  refine ⟨?_, hk, hmode⟩
  rw [hk]
  unfold squared_wavenumber
  simp only
  have s1 := mul_self_nonneg (wavenumber pm.nc e.1.2.1 : Rat)
  have s2 := mul_self_nonneg (wavenumber pm.nc (e.1.1 + pm.local_iky0) : Rat)
  have s3 := mul_self_nonneg (e.1.2.2 : Rat)
  by_contra hnot
  have h0 : (wavenumber pm.nc e.1.2.1 : Rat) * (wavenumber pm.nc e.1.2.1 : Rat) = 0 ∧
      (wavenumber pm.nc (e.1.1 + pm.local_iky0) : Rat)
        * (wavenumber pm.nc (e.1.1 + pm.local_iky0) : Rat) = 0 ∧
      (e.1.2.2 : Rat) * (e.1.2.2 : Rat) = 0 := by
    refine ⟨?_, ?_, ?_⟩ <;> linarith
  obtain ⟨z1, z2, z3⟩ := h0
  apply hmode
  have hw : 0 ≤ e.1.1 + pm.local_iky0 ∧ e.1.1 + pm.local_iky0 < pm.nc :=
    ⟨by omega, by omega⟩
  refine ⟨(wavenumber_eq_zero hix).1 ?_, (wavenumber_eq_zero hw).1 ?_, ?_⟩
  · exact_mod_cast mul_self_eq_zero.1 z1
  · exact_mod_cast mul_self_eq_zero.1 z2
  · exact_mod_cast mul_self_eq_zero.1 z3

/-- C26 at a concrete input: on the node that owns `ky = 0, 1` of a mesh with `nc = 4`
the loops make `2*4*3 - 1 = 23` passes, the first with `k = (0, 0, 1)`, and every
divisor is positive. -/
theorem force_mesh_never_divides_by_zero_witness :
    (visited_modes { slab_pm with local_iky0 := 0 }).length = 23 ∧
      (visited_modes { slab_pm with local_iky0 := 0 }).head? = some ((0, 0, 1), (0, 0, 1)) ∧
      ∀ e ∈ visited_modes { slab_pm with local_iky0 := 0 }, 0 < squared_wavenumber e.2 :=
  ⟨by decide!, by decide!, fun e he =>
    ((force_mesh_never_divides_by_zero { slab_pm with local_iky0 := 0 } (by decide) (by decide)
      (by decide) (by decide)).2 e he).1⟩

/-! ## Initialising the domain module twice -/

/-- After `pm_domain_init` has returned, `fft` is the pointer `pm_get_fft()` returned. -/
theorem pm_domain_init_fft {env : Env} {st st1 : State} {particles : Particles}
    (h : pm_domain_init env st particles = .ok st1) :
    ∃ fft, env.pm_fft = some fft ∧ st1.fft = some fft ∧
      (st.fft ≠ some fft → (st1.decomposition.length : Int) = env.layout.length - 1) := by
  unfold pm_domain_init at h
  cases hf : env.pm_fft with
  | none => rw [hf] at h; simp at h
  | some fft =>
    rw [hf] at h
    simp only at h
    refine ⟨fft, rfl, ?_⟩
    by_cases hsame : st.fft = some fft
    · rw [if_pos hsame] at h
      simp only [Except.ok.injEq] at h
      subst h
      exact ⟨hsame, fun hne => absurd hsame hne⟩
    · rw [if_neg hsame] at h
      unfold allocate_pm_buffer at h
      simp only at h
      split_ifs at h with hc ha
      simp only at h
      cases hd : allocate_decomposition env fft.nc particles.boxsize fft.local_ix0
          fft.local_nx with
      | error e => rw [hd] at h; simp at h
      | ok dec =>
        rw [hd] at h
        simp only [Except.ok.injEq] at h
        subst h
        refine ⟨rfl, fun _ => ?_⟩
        unfold allocate_decomposition build_decomposition at hd
        simp only at hd
        split at hd
        · simp at hd
        · split_ifs at hd with hlen
          simp only [Except.ok.injEq] at hd
          subst hd
          exact hlen

/-- C24: once `pm_domain_init` has returned, a second call while `pm_get_fft()` returns
the same FFT returns the file-scope state unchanged (`nc`, `x_left`, `x_right`,
`nbuf_alloc`, the index buffer, the Domain table), whatever the particles; the table the
first call built has `n - 1` entries.  Likewise for `domain_init` of the lib: once it has
returned, `buf_pos` is set and every further call returns the state unchanged, the table
having `n - 1` entries. -/
theorem domain_init_twice_is_no_op (env : Env) (st st1 : State) (particles : Particles)
    (h : pm_domain_init env st particles = .ok st1) :
    (∀ (env2 : Env) (particles2 : Particles), env2.pm_fft = env.pm_fft →
      pm_domain_init env2 st1 particles2 = .ok st1) ∧
    (st.fft ≠ env.pm_fft → (st1.decomposition.length : Int) = env.layout.length - 1) ∧
    ∀ (fft : FFT) (lst lst1 : Lib.State), Lib.domain_init env fft lst particles = .ok lst1 →
      lst1.buf_pos = true ∧
      (∀ (env2 : Env) (fft2 : FFT) (particles2 : Particles),
        Lib.domain_init env2 fft2 lst1 particles2 = .ok lst1) ∧
      (lst.buf_pos = false → (lst1.decomposition.length : Int) = env.layout.length - 1) := by
  obtain ⟨fft, hfft, hst1, hlen⟩ := pm_domain_init_fft h
  refine ⟨?_, ?_, ?_⟩
  · intro env2 particles2 he
    unfold pm_domain_init
    rw [he, hfft]
    simp only
    rw [if_pos hst1]
  · intro hne
    rw [hfft] at hne
    exact hlen hne
  · intro fft lst lst1 hl
    have key : lst1.buf_pos = true ∧
        (lst.buf_pos = false → (lst1.decomposition.length : Int) = env.layout.length - 1) := by
      unfold Lib.domain_init at hl
      by_cases hb : lst.buf_pos = true
      · rw [if_pos hb] at hl
        simp only [Except.ok.injEq] at hl
        subst hl
        exact ⟨hb, fun hf => by rw [hb] at hf; cases hf⟩
      · rw [if_neg hb] at hl
        simp only at hl
        split_ifs at hl with h1 h2
        split at hl
        · simp at hl
        · split_ifs at hl with hlen2
          simp only [Except.ok.injEq] at hl
          subst hl
          refine ⟨?_, fun _ => hlen2⟩
          simp only
          cases ha : env.alloc_ok with
          | true => rfl
          | false => exact absurd ha h2
    refine ⟨key.1, ?_, key.2⟩
    intro env2 fft2 particles2
    unfold Lib.domain_init
    rw [if_pos key.1]

/-- C24 at a concrete input: rank 3 of five nodes of two planes each.  The first
`pm_domain_init` at program start returns a state whose table has 4 entries; a second
call, with other particles, returns the same state.  The lib `domain_init` at program
start returns as well, and a second call returns the same state, 4 entries in the
table. -/
theorem domain_init_twice_is_no_op_witness :
    (∃ st1, pm_domain_init five_nodes State.initial two_ghosts = .ok st1 ∧
      pm_domain_init five_nodes st1 one_particle = .ok st1 ∧
      (st1.decomposition.length : Int) = 4) ∧
    ∃ lst1, Lib.domain_init five_nodes ⟨1, 10, 6, 2⟩ Lib.State.initial two_ghosts = .ok lst1 ∧
      Lib.domain_init five_nodes ⟨1, 10, 6, 2⟩ lst1 one_particle = .ok lst1 ∧
      (lst1.decomposition.length : Int) = 4 := by
  have h1 := pm_domain_init_initial five_nodes two_ghosts ⟨1, 10, 6, 2⟩ rfl (by decide) rfl
    (by decide) (by decide)
  have T := domain_init_twice_is_no_op five_nodes State.initial _ two_ghosts h1
  refine ⟨⟨_, h1, T.1 five_nodes one_particle rfl, ?_⟩, ?_⟩
  · have h := T.2.1 (by simp [State.initial, five_nodes])
    rw [h]
    decide
  · have ho : outcome (Lib.domain_init five_nodes ⟨1, 10, 6, 2⟩ Lib.State.initial two_ghosts)
        = none := by decide!
    obtain ⟨lst1, hl⟩ := exists_ok_of_outcome ho
    obtain ⟨_, h2, h3⟩ := T.2.2 ⟨1, 10, 6, 2⟩ Lib.State.initial lst1 hl
    refine ⟨lst1, hl, h2 five_nodes ⟨1, 10, 6, 2⟩ one_particle, ?_⟩
    rw [h3 rfl]
    decide

/-! ## The ghost particles every node receives -/

theorem counter_values_add {a : Int} (ha : 0 ≤ a) (n : Nat) :
    counter_values (a + n) = counter_values a ++ (List.range n).map fun (k : Nat) => a + (k : Int) := by
  unfold counter_values
  have e : (a + (n : Int)).toNat = a.toNat + n := by omega
  rw [e, List.range_add, List.map_append, List.map_map]
  congr 1
  apply List.map_congr_left
  intro k _
  simp only [Function.comp_apply, Nat.cast_add]
  omega

/-- The ghost positions of a node after a batch of positions was written behind the ones
it held. -/
theorem ghost_positions_extend {mem mem1 : Mem} {r : Int} (L : List (Int × Float3))
    (h0 : 0 ≤ mem.nbuf r) (hn : mem1.nbuf r = mem.nbuf r + L.length)
    (hkeep : ∀ j : Int, j < 3 * mem.nbuf r → mem1.buf_pos r j = mem.buf_pos r j)
    (hnew : ∀ k : Nat, k < 3 * L.length →
      mem1.buf_pos r (3 * mem.nbuf r + k)
        = (L.flatMap fun c => [c.2.c0, c.2.c1, c.2.c2]).getD k 0) :
    ghost_positions mem1 r = ghost_positions mem r ++ L.map Prod.snd := by
  unfold ghost_positions pm_domain_buffer_np
  rw [hn, counter_values_add h0, List.map_append, List.map_map]
  congr 1
  · apply List.map_congr_left
    intro i hi
    have hi' := mem_counter_values hi
    unfold pm_domain_buffer_positions
    rw [hkeep (3 * i) (by omega), hkeep (3 * i + 1) (by omega), hkeep (3 * i + 2) (by omega)]
  · apply List.ext_getElem
    · simp
    · intro k h1 h2
      simp only [List.length_map, List.length_range] at h1
      simp only [List.getElem_map, List.getElem_range, Function.comp_apply]
      obtain ⟨f0, f1, f2⟩ := flatMap_floats_getD L k h1
      unfold pm_domain_buffer_positions
      have e0 : 3 * (mem.nbuf r + (k : Int)) = 3 * mem.nbuf r + ((3 * k : Nat) : Int) := by
        push_cast; ring
      have e1 : 3 * (mem.nbuf r + (k : Int)) + 1 = 3 * mem.nbuf r + ((3 * k + 1 : Nat) : Int) := by
        push_cast; ring
      have e2 : 3 * (mem.nbuf r + (k : Int)) + 2 = 3 * mem.nbuf r + ((3 * k + 2 : Nat) : Int) := by
        push_cast; ring
      rw [e1, e2, e0, hnew (3 * k) (by omega), hnew (3 * k + 1) (by omega),
        hnew (3 * k + 2) (by omega), f0, f1, f2]

/-- The ghost positions of a node whose counter and buffer below the counter are
unchanged. -/
theorem ghost_positions_keep {mem mem1 : Mem} {r : Int} (hn : mem1.nbuf r = mem.nbuf r)
    (hkeep : ∀ j : Int, j < 3 * mem.nbuf r → mem1.buf_pos r j = mem.buf_pos r j) :
    ghost_positions mem1 r = ghost_positions mem r := by
  unfold ghost_positions pm_domain_buffer_np
  rw [hn]
  apply List.map_congr_left
  intro i hi
  have hi' := mem_counter_values hi
  unfold pm_domain_buffer_positions
  rw [hkeep (3 * i) (by omega), hkeep (3 * i + 1) (by omega), hkeep (3 * i + 2) (by omega)]

/-- What `send_packet` adds to the ghost positions of every node: the batch, behind the
positions the destination held. -/
theorem send_packet_ghosts {dom dom1 : Domain} {st st1 : State} {mem mem1 : Mem}
    (L : List (Int × Float3))
    (hv : dom.vbuf = L.flatMap fun c => [c.2.c0, c.2.c1, c.2.c2])
    (hi : dom.vbuf_index = L.map Prod.fst) (hnn : ∀ r : Int, 0 ≤ mem.nbuf r)
    (h : send_packet dom st mem = .ok (dom1, st1, mem1)) :
    (∀ r : Int, ghost_positions mem1 r =
      ghost_positions mem r ++ if dom.rank = r then L.map Prod.snd else []) ∧
      ∀ r : Int, 0 ≤ mem1.nbuf r := by
  have hlenv : dom.vbuf.length = 3 * L.length := by rw [hv, flatMap_floats_length]
  have hlen : dom.vbuf.length = 3 * dom.vbuf_index.length := by
    rw [hlenv, hi, List.length_map]
  obtain ⟨_, hns, _, _, _, hother, hwritten, _⟩ := send_packet_content h hlen
  obtain ⟨_, _, _, _, hcount⟩ := send_packet_ok h
  have hnL : dom.nsend = (L.length : Int) := by
    rw [← hns, hi, List.length_map]
  constructor
  · intro r
    by_cases hr : dom.rank = r
    · rw [if_pos hr]
      subst hr
      apply ghost_positions_extend L (hnn _)
      · rw [hcount, if_pos rfl, hnL]
      · intro j hj
        exact hother _ j (Or.inr (Or.inl hj))
      · intro k hk
        rw [hwritten k (by omega), hv]
    · rw [if_neg hr, List.append_nil]
      apply ghost_positions_keep
      · rw [hcount, if_neg hr, add_zero]
      · intro j _
        exact hother r j (Or.inl (fun e => hr e.symm))
  · intro r
    rw [hcount]
    have := nsend_nonneg dom
    have := hnn r
    split_ifs <;> omega

/-- What `packets_flush` adds to the ghost positions of every node, the batch of each
Domain `d` of the table being the copies `sel d`. -/
theorem flush_domains_ghosts (sel : Domain → List (Int × Float3)) :
    ∀ (doms ds1 : List Domain) (st st1 : State) (mem mem1 : Mem),
      (∀ d ∈ doms, d.vbuf = [] ∧ d.vbuf_index = []) → (∀ r : Int, 0 ≤ mem.nbuf r) →
      flush_domains (doms.map fun d => push_all d (sel d)) st mem = .ok (ds1, st1, mem1) →
      (∀ r : Int, ghost_positions mem1 r = ghost_positions mem r ++
        doms.flatMap fun d => if d.rank = r then (sel d).map Prod.snd else []) ∧
      ∀ r : Int, 0 ≤ mem1.nbuf r := by
  intro doms
  induction doms with
  | nil =>
    intro ds1 st st1 mem mem1 _ hnn h
    simp only [List.map_nil, flush_domains, Except.ok.injEq, Prod.mk.injEq] at h
    obtain ⟨_, _, rfl⟩ := h
    exact ⟨fun r => by simp, hnn⟩
  | cons d doms ih =>
    intro ds1 st st1 mem mem1 hclear hnn h
    simp only [List.map_cons, flush_domains] at h
    cases hp : send_packet (push_all d (sel d)) st mem with
    | error e => rw [hp] at h; simp at h
    | ok res =>
      obtain ⟨d2, st2, mem2⟩ := res
      rw [hp] at h
      simp only at h
      cases hf : flush_domains (doms.map fun d => push_all d (sel d)) st2 mem2 with
      | error e => rw [hf] at h; simp at h
      | ok res2 =>
        obtain ⟨ds3, st3, mem3⟩ := res2
        rw [hf] at h
        simp only [Except.ok.injEq, Prod.mk.injEq] at h
        obtain ⟨_, _, rfl⟩ := h
        obtain ⟨hd1, hd2⟩ := hclear d (List.mem_cons_self _ _)
        obtain ⟨g1, n1⟩ := send_packet_ghosts (sel d)
          (by simp [push_all, hd1]) (by simp [push_all, hd2]) hnn hp
        obtain ⟨g2, n2⟩ := ih ds3 st2 st3 mem2 mem3
          (fun x hx => hclear x (List.mem_cons_of_mem _ hx)) n1 hf
        refine ⟨fun r => ?_, n2⟩
        rw [g2 r, g1 r, List.flatMap_cons, List.append_assoc]
        rfl

/-- What the part of `pm_domain_send_positions` between the fences adds to the ghost
positions of every node. -/
theorem send_positions_body_ghosts {st st1 : State} {mem mem1 : Mem}
    {particles ps1 : Particles}
    (hclear : ∀ d ∈ st.decomposition, d.vbuf = [] ∧ d.vbuf_index = [])
    (hnn : ∀ r : Int, 0 ≤ mem.nbuf r)
    (h : send_positions_body st mem particles = .ok (st1, mem1, ps1)) :
    (∀ r : Int, ghost_positions mem1 r = ghost_positions mem r ++
      st.decomposition.flatMap fun d =>
        if d.rank = r then
          (selected st.x_left st.x_right particles.boxsize d.xbuf_min d.xbuf_max 0
            particles.p).map Prod.snd
        else []) ∧
      ∀ r : Int, 0 ≤ mem1.nbuf r := by
  unfold send_positions_body at h
  rw [scan_particles_eq] at h
  simp only [packets_flush] at h
  cases hf : flush_domains
      (st.decomposition.map fun dom =>
        push_all dom (selected st.x_left st.x_right particles.boxsize dom.xbuf_min
          dom.xbuf_max 0 particles.p))
      { st with decomposition := st.decomposition.map fun dom =>
        push_all dom (selected st.x_left st.x_right particles.boxsize dom.xbuf_min
          dom.xbuf_max 0 particles.p) } mem with
  | error e => rw [hf] at h; simp at h
  | ok res =>
    obtain ⟨ds2, st2, mem2⟩ := res
    rw [hf] at h
    simp only [Except.ok.injEq, Prod.mk.injEq] at h
    obtain ⟨_, rfl, _⟩ := h
    exact flush_domains_ghosts
      (fun dom => selected st.x_left st.x_right particles.boxsize dom.xbuf_min dom.xbuf_max 0
        particles.p) st.decomposition ds2 _ st2 mem mem2 hclear hnn hf

theorem flatMap_forall₂ {α β γ : Type} {R : α → β → Prop} {f : α → List γ} {g : β → List γ}
    {l1 : List α} {l2 : List β} (h : List.Forall₂ R l1 l2)
    (hfg : ∀ a ∈ l1, ∀ b, R a b → f a = g b) : l1.flatMap f = l2.flatMap g := by
  induction h with
  | nil => rfl
  | cons hab _ ih =>
    rw [List.flatMap_cons, List.flatMap_cons, hfg _ (List.mem_cons_self _ _) _ hab,
      ih (fun a ha b hr => hfg a (List.mem_cons_of_mem _ ha) b hr)]

theorem flatMap_ite_eq_filter {α β : Type} (p : α → Prop) [DecidablePred p] (f : α → List β) :
    ∀ l : List α, (l.flatMap fun a => if p a then f a else []) =
      (l.filter fun a => decide (p a)).flatMap f := by
  intro l
  induction l with
  | nil => rfl
  | cons a l ih =>
    rw [List.flatMap_cons, ih]
    by_cases h : p a
    · rw [if_pos h, List.filter_cons_of_pos (by simpa using h), List.flatMap_cons]
    · rw [if_neg h, List.filter_cons_of_neg (by simpa using h), List.nil_append]

/-- What the bodies of all processes add to the ghost positions of every node. -/
theorem exchange_body_ghosts :
    ∀ (procs procs1 : List Proc) (mem mem1 : Mem),
      (∀ pr ∈ procs, ∀ d ∈ pr.st.decomposition, d.vbuf = [] ∧ d.vbuf_index = []) →
      (∀ r : Int, 0 ≤ mem.nbuf r) →
      exchange_body procs mem = .ok (procs1, mem1) →
      ∀ r : Int, ghost_positions mem1 r = ghost_positions mem r ++
        procs.flatMap fun pr => pr.st.decomposition.flatMap fun d =>
          if d.rank = r then
            (selected pr.st.x_left pr.st.x_right pr.particles.boxsize d.xbuf_min d.xbuf_max 0
              pr.particles.p).map Prod.snd
          else [] := by
  intro procs
  induction procs with
  | nil =>
    intro procs1 mem mem1 _ _ h
    simp only [exchange_body, Except.ok.injEq, Prod.mk.injEq] at h
    obtain ⟨_, rfl⟩ := h
    intro r
    simp
  | cons pr rest ih =>
    intro procs1 mem mem1 hclear hnn h
    unfold exchange_body at h
    cases hb : send_positions_body pr.st mem pr.particles with
    | error e => rw [hb] at h; simp at h
    | ok res =>
      obtain ⟨st2, mem2, ps2⟩ := res
      rw [hb] at h
      simp only at h
      cases hr : exchange_body rest mem2 with
      | error e => rw [hr] at h; simp at h
      | ok res2 =>
        obtain ⟨rest2, mem3⟩ := res2
        rw [hr] at h
        simp only [Except.ok.injEq, Prod.mk.injEq] at h
        obtain ⟨_, rfl⟩ := h
        obtain ⟨g1, n1⟩ := send_positions_body_ghosts
          (hclear pr (List.mem_cons_self _ _)) hnn hb
        intro r
        rw [ih rest2 mem2 mem3 (fun x hx => hclear x (List.mem_cons_of_mem _ hx)) n1 hr r,
          g1 r, List.flatMap_cons, List.append_assoc]

/-- The Domain of rank `r` in the table of process `s` of a run holds the buffer interval
of the slab of `r`; the table holds it once if `r` is another rank and not at all if
`r = s`. -/
theorem begun_ghosts_for (w : Run) (s r : Nat) (hs : s < w.layout.length)
    (hr : r < w.layout.length) :
    ((w.begun s).st.decomposition.flatMap fun d =>
      if d.rank = (r : Int) then
        (selected (w.begun s).st.x_left (w.begun s).st.x_right w.boxsize d.xbuf_min d.xbuf_max
          0 (w.parts.getD s [])).map Prod.snd
      else []) =
      if s = r then []
      else ghosts_for w.boxsize w.nc (w.layout.getD s ⟨0, 0⟩) (w.layout.getD r ⟨0, 0⟩)
        (w.parts.getD s []) := by
  rw [flatMap_ite_eq_filter (fun d : Domain => d.rank = (r : Int))]
  have hdec : (w.begun s).st.decomposition =
      ((loop_indices w.layout.length).flatMap (rank_block w.layout.length s)).map
        (domain_of (w.layout.flatMap (xbuf_py w.boxsize w.nc))) := by
    simp only [Run.begun, initialised, Run.proc, allgather_py]
    congr 2
    simp only [Int.toNat_ofNat]
    have hset : w.layout.set s
        { local_ix0 := (w.layout.getD s ⟨0, 0⟩).local_ix0,
          local_nx := (w.layout.getD s ⟨0, 0⟩).local_nx } = w.layout :=
      set_getD_self w.layout s ⟨0, 0⟩
    rw [hset]
  rw [hdec, filter_rank_map_domain_of,
    count_loop_ranks (by omega : (0 : Int) ≤ s) (by exact_mod_cast hs)]
  obtain ⟨hmin, hmax⟩ := fget_flatMap_pair (f := xbuf_py w.boxsize w.nc)
    (fun s => ⟨_, _, rfl⟩) w.layout r hr
  by_cases hsr : s = r
  · subst hsr
    simp
  · have hc : (0 : Int) ≤ (r : Int) ∧ (r : Int) < (w.layout.length : Int) ∧
        (r : Int) ≠ (s : Int) := by
      refine ⟨by omega, by exact_mod_cast hr, ?_⟩
      exact_mod_cast (Ne.symm hsr)
    rw [if_pos hc, if_neg hsr]
    simp only [List.replicate_one, List.flatMap_cons, List.flatMap_nil, List.append_nil]
    have e1 : (domain_of (w.layout.flatMap (xbuf_py w.boxsize w.nc)) r).xbuf_min
        = fget (xbuf_py w.boxsize w.nc (w.layout.getD r ⟨0, 0⟩)) 0 := hmin
    have e2 : (domain_of (w.layout.flatMap (xbuf_py w.boxsize w.nc)) r).xbuf_max
        = fget (xbuf_py w.boxsize w.nc (w.layout.getD r ⟨0, 0⟩)) 1 := hmax
    rw [e1, e2]
    rfl

/-- The ghost positions every node holds after a collective exchange of a run that
returns normally: for every other rank in rank order, the copies it selects for the
node. -/
theorem exchange_ghosts (w : Run) (sts : Nat → State) (mem mem1 : Mem) (procs1 : List Proc)
    (hready : ∀ r, r < w.layout.length → w.ready r (sts r))
    (hmem : ∀ k : Int, 0 ≤ mem.nbuf k)
    (h : exchange (w.procs_from sts) mem = .ok (procs1, mem1))
    (r : Nat) (hr : r < w.layout.length) :
    ghost_positions mem1 r =
      (List.range w.layout.length).flatMap fun s =>
        if s = r then []
        else ghosts_for w.boxsize w.nc (w.layout.getD s ⟨0, 0⟩) (w.layout.getD r ⟨0, 0⟩)
          (w.parts.getD s []) := by
  unfold exchange Run.procs_from at h
  cases hb : exchange_begin
      ((List.range w.layout.length).map fun r => { w.proc r with st := sts r }) mem with
  | error e => rw [hb] at h; simp at h
  | ok res =>
    obtain ⟨procsB, memB⟩ := res
    rw [hb] at h
    simp only at h
    have hrs : ∀ x ∈ List.range w.layout.length, x < w.layout.length ∧ w.ready x (sts x) :=
      fun x hx => ⟨List.mem_range.1 hx, hready x (List.mem_range.1 hx)⟩
    obtain ⟨hcnt, _⟩ := exchange_begin_ready w sts (List.range w.layout.length) hrs hb
    have hbegun := exchange_begin_begun w sts (List.range w.layout.length) hrs hb
    have hclear : ∀ pr ∈ procsB, ∀ d ∈ pr.st.decomposition, d.vbuf = [] ∧ d.vbuf_index = [] := by
      intro pr hpr d hd
      obtain ⟨i, hi, rfl⟩ := List.mem_iff_getElem.1 hpr
      have hlen := hbegun.length_eq
      have hi2 : i < (List.range w.layout.length).length := by omega
      have hrel := (List.forall₂_iff_get.1 hbegun).2 i hi2 hi
      simp only [List.get_eq_getElem, List.getElem_range] at hrel
      rw [hrel.2.2.2.2.1] at hd
      exact begun_clear w i d hd
    have hnnB : ∀ k : Int, 0 ≤ memB.nbuf k := by
      intro k
      rw [hcnt k]
      split_ifs
      · exact le_refl 0
      · exact hmem k
    have h0 : ghost_positions memB r = [] := by
      unfold ghost_positions pm_domain_buffer_np
      rw [hcnt r, if_pos ⟨r, List.mem_range.2 hr, rfl⟩]
      rfl
    rw [exchange_body_ghosts procsB procs1 memB mem1 hclear hnnB h r, h0, List.nil_append]
    symm
    apply flatMap_forall₂ hbegun
    intro s hs pr hrel
    obtain ⟨_, hps, hxl, hxr, hdec, _, _⟩ := hrel
    rw [← begun_ghosts_for w s r (List.mem_range.1 hs) hr, hdec, hxl, hxr, hps]
    rfl

/-! ## The corner weights a node deposits -/

theorem cic_mass_append (nc : Int) (boxsize : Rat) (a b : List Float3)
    (cell : Int × Int × Int) :
    cic_mass nc boxsize (a ++ b) cell = cic_mass nc boxsize a cell + cic_mass nc boxsize b cell := by
  simp [cic_mass]

theorem cic_mass_nil (nc : Int) (boxsize : Rat) (cell : Int × Int × Int) :
    cic_mass nc boxsize [] cell = 0 := rfl

theorem cic_mass_flatMap {α : Type} (nc : Int) (boxsize : Rat) (f : α → List Float3)
    (cell : Int × Int × Int) (l : List α) :
    cic_mass nc boxsize (l.flatMap f) cell = (l.map fun a => cic_mass nc boxsize (f a) cell).sum := by
  induction l with
  | nil => rfl
  | cons a l ih => rw [List.flatMap_cons, cic_mass_append, ih, List.map_cons, List.sum_cons]

theorem sum_range_single (T : Nat → Rat) (r : Nat) :
    ∀ n : Nat, ((List.range n).map fun s => if s = r then T s else 0).sum
      = if r < n then T r else 0 := by
  intro n
  induction n with
  | zero => simp
  | succ n ih =>
    rw [List.range_succ, List.map_append, List.sum_append, ih]
    simp only [List.map_cons, List.map_nil, List.sum_cons, List.sum_nil, add_zero]
    by_cases h1 : r < n
    · have h2 : n ≠ r := by omega
      rw [if_pos h1, if_neg h2, if_pos (by omega), add_zero]
    · by_cases h2 : n = r
      · subst h2
        rw [if_neg h1, if_pos rfl, if_pos (by omega), zero_add]
      · rw [if_neg h1, if_neg h2, if_neg (by omega), add_zero]

theorem sum_range_split (T : Nat → Rat) (n r : Nat) (hr : r < n) :
    ((List.range n).map fun s => if s = r then 0 else T s).sum + T r
      = ((List.range n).map T).sum := by
  have h := sum_range_single T r n
  rw [if_pos hr] at h
  rw [← h, ← List.sum_map_add]
  congr 1
  apply List.map_congr_left
  intro s _
  by_cases hs : s = r
  · rw [if_pos hs, if_pos hs, zero_add]
  · rw [if_neg hs, if_neg hs, add_zero]

/-- The corner weights of the copies a node selects for another node: with
`x_left <= x_right` every particle outside the interval the sender keeps to itself that
passes the interval test of the receiver counts once. -/
theorem cic_mass_selected {x_left x_right : Rat} (hle : x_left ≤ x_right)
    (nc : Int) (boxsize lo hi : Rat) (cell : Int × Int × Int) :
    ∀ (ps : List Particle) (i : Int),
      cic_mass nc boxsize ((selected x_left x_right boxsize lo hi i ps).map Prod.snd) cell =
        (ps.map fun p =>
          if ((decide ((periodic_wrapup_p p boxsize).x.c0 < x_left) ||
              decide ((periodic_wrapup_p p boxsize).x.c0 > x_right)) &&
              send_test lo hi (periodic_wrapup_p p boxsize).x.c0 boxsize) = true
          then corner_mass nc boxsize (periodic_wrapup_p p boxsize).x cell else 0).sum := by
  intro ps
  induction ps with
  | nil => intro i; rfl
  | cons p rest ih =>
    intro i
    unfold selected
    rw [List.map_append, List.map_append, cic_mass_append, cic_mass_append, ih (i + 1),
      List.map_cons, List.sum_cons]
    congr 1
    by_cases ht : send_test lo hi (periodic_wrapup_p p boxsize).x.c0 boxsize = true
    · by_cases h1 : (periodic_wrapup_p p boxsize).x.c0 < x_left
      · have h2 : ¬ (periodic_wrapup_p p boxsize).x.c0 > x_right := by
          intro h2
          exact absurd (lt_of_lt_of_le h1 hle) (not_lt.2 (le_of_lt h2))
        simp [h1, h2, ht, cic_mass]
      · by_cases h2 : (periodic_wrapup_p p boxsize).x.c0 > x_right
        · simp [h1, h2, ht, cic_mass]
        · simp [h1, h2, ht, cic_mass]
    · simp [ht, cic_mass]

/-- A particle of which a node other than its host receives no copy has no corner of
non-zero weight in a plane that node owns. -/
theorem corner_mass_of_not_sent {boxsize : Rat} {nc : Int} (hb : 0 < boxsize) (hnc : 0 < nc)
    (A B : Slab)
    (hdis : B.local_ix0 + B.local_nx ≤ A.local_ix0 ∨ A.local_ix0 + A.local_nx ≤ B.local_ix0)
    (hA : 0 ≤ A.local_ix0 ∧ A.local_ix0 + A.local_nx ≤ nc) (hAnx : 2 ≤ A.local_nx)
    (hB : 0 ≤ B.local_ix0 ∧ B.local_ix0 + B.local_nx ≤ nc) (p : Particle)
    (cell : Int × Int × Int)
    (hcell : B.local_ix0 ≤ cell.1 ∧ cell.1 < B.local_ix0 + B.local_nx)
    (hnot : ¬ (outside_interior boxsize nc A p = true ∧ in_buffer boxsize nc B p = true)) :
    corner_mass nc boxsize (periodic_wrapup_p p boxsize).x cell = 0 := by
  unfold corner_mass
  apply List.sum_eq_zero
  intro v hv
  obtain ⟨c, hc, rfl⟩ := List.mem_map.1 hv
  by_cases hcc : c.1 = cell
  · rw [if_pos hcc]
    simp only [cic_corners, List.mem_flatMap, List.mem_map, List.mem_cons, List.mem_singleton,
      List.not_mem_nil, or_false] at hc
    obtain ⟨a, ha, b, _, d, _, rfl⟩ := hc
    have hown : B.local_ix0 ≤
        (⌊(periodic_wrapup_p p boxsize).x.c0 * ((nc : Rat) / boxsize)⌋ + a) % nc ∧
        (⌊(periodic_wrapup_p p boxsize).x.c0 * ((nc : Rat) / boxsize)⌋ + a) % nc
          < B.local_ix0 + B.local_nx := by
      have e : (⌊(periodic_wrapup_p p boxsize).x.c0 * ((nc : Rat) / boxsize)⌋ + a) % nc
          = cell.1 := congrArg Prod.fst hcc
      rw [e]
      exact hcell
    rcases ha with rfl | rfl
    · exact absurd (corner_owner_gets_copy hb hnc A B hdis hA hAnx hB p 0 (Or.inl rfl) hown) hnot
    · by_cases hw : corner_weight
          ((periodic_wrapup_p p boxsize).x.c0 * ((nc : Rat) / boxsize)) 1 = 0
      · simp only [hw, zero_mul]
      · exact absurd
          (corner_owner_gets_copy hb hnc A B hdis hA hAnx hB p 1 (Or.inr ⟨rfl, hw⟩) hown) hnot
  · rw [if_neg hcc]

/-- In the planes it owns a node receives, from every other node, the corner weights of
all the particles of that node. -/
theorem cic_mass_ghosts_for {boxsize : Rat} {nc : Int} (hb : 0 < boxsize) (hnc : 0 < nc)
    (A B : Slab)
    (hdis : B.local_ix0 + B.local_nx ≤ A.local_ix0 ∨ A.local_ix0 + A.local_nx ≤ B.local_ix0)
    (hA : 0 ≤ A.local_ix0 ∧ A.local_ix0 + A.local_nx ≤ nc) (hAnx : 2 ≤ A.local_nx)
    (hB : 0 ≤ B.local_ix0 ∧ B.local_ix0 + B.local_nx ≤ nc) (ps : List Particle)
    (cell : Int × Int × Int)
    (hcell : B.local_ix0 ≤ cell.1 ∧ cell.1 < B.local_ix0 + B.local_nx) :
    cic_mass nc boxsize (ghosts_for boxsize nc A B ps) cell =
      cic_mass nc boxsize (ps.map fun p => (periodic_wrapup_p p boxsize).x) cell := by
  unfold ghosts_for
  rw [cic_mass_selected (x_left_le_x_right hb hnc A hAnx)]
  unfold cic_mass
  rw [List.map_map]
  congr 1
  apply List.map_congr_left
  intro p _
  simp only [Function.comp_apply]
  have hsel : ((decide ((periodic_wrapup_p p boxsize).x.c0 < x_left_of boxsize nc A) ||
      decide ((periodic_wrapup_p p boxsize).x.c0 > x_right_of boxsize nc A)) &&
      send_test (fget (xbuf_py boxsize nc B) 0) (fget (xbuf_py boxsize nc B) 1)
        (periodic_wrapup_p p boxsize).x.c0 boxsize) =
      (outside_interior boxsize nc A p && in_buffer boxsize nc B p) := rfl
  rw [hsel]
  by_cases hs : (outside_interior boxsize nc A p && in_buffer boxsize nc B p) = true
  · rw [if_pos hs]
  · rw [if_neg hs]
    symm
    apply corner_mass_of_not_sent hb hnc A B hdis hA hAnx hB p cell hcell
    intro hboth
    apply hs
    rw [hboth.1, hboth.2]
    rfl

/-! ## The slab meshes put together -/

/-- The value of a cell after `pm_compute_density`: `-1` plus `pm_factor^3` times the
corner weights of the local and ghost particles at the cell. -/
theorem density_cell_value (pm : Pm) (mem : Mem) (this_node : Int)
    (particles : Particles) (ix iy iz : Int)
    (hnc : 2 ≤ pm.nc) (hint : pm.nc < 2 ^ 31) (hz : pm.nc ≤ pm.ncz) (hbox : 0 < pm.boxsize)
    (hl0 : 0 ≤ pm.local_ix0) (hl1 : pm.local_ix0 + pm.local_nx ≤ pm.nc)
    (hlocal : ∀ p ∈ particles.p, ∀ c ∈ [p.x.c0, p.x.c1, p.x.c2], 0 ≤ c ∧ c ≤ pm.boxsize)
    (hghost : ∀ p ∈ ghost_positions mem this_node,
      ∀ c ∈ [p.c0, p.c1, p.c2], 0 ≤ c ∧ c ≤ pm.boxsize)
    (hix : 0 ≤ ix ∧ ix < pm.local_nx) (hiy : 0 ≤ iy ∧ iy < pm.nc)
    (hiz : 0 ≤ iz ∧ iz < pm.nc) :
    (pm_compute_density pm mem this_node particles).fx (grid_index pm ix iy iz) =
      -1 + pm.pm_factor ^ 3 *
        cic_mass pm.nc pm.boxsize (particles.p.map Particle.x ++ ghost_positions mem this_node)
          (pm.local_ix0 + ix, iy, iz) := by
  have hnx : 0 ≤ pm.local_nx := by omega
  have hloc : ∀ p ∈ particles.p.map Particle.x,
      ∀ c ∈ [p.c0, p.c1, p.c2], 0 ≤ c ∧ c ≤ pm.boxsize := by
    intro p hp
    obtain ⟨q, hq, rfl⟩ := List.mem_map.1 hp
    exact hlocal q hq
  have e1 := foldl_cic_deposit_cell (clear_density pm) ix iy iz hnc hint hz hbox hl0 hl1 hnx
    hix hiy hiz (particles.p.map Particle.x) (clear_density pm).fx hloc
  have e2 := foldl_cic_deposit_cell
    (pm_assign_cic_density (clear_density pm) (particles.p.map Particle.x)) ix iy iz hnc hint
    hz hbox hl0 hl1 hnx hix hiy hiz (ghost_positions mem this_node)
    (pm_assign_cic_density (clear_density pm) (particles.p.map Particle.x)).fx hghost
  have e0 := clear_density_cell pm ix iy iz hix hiy hiz
  have d2 : (pm_compute_density pm mem this_node particles).fx =
      (ghost_positions mem this_node).foldl
        (cic_deposit (pm_assign_cic_density (clear_density pm) (particles.p.map Particle.x)))
        (pm_assign_cic_density (clear_density pm) (particles.p.map Particle.x)).fx := rfl
  have d1 : (pm_assign_cic_density (clear_density pm) (particles.p.map Particle.x)).fx =
      (particles.p.map Particle.x).foldl (cic_deposit (clear_density pm))
        (clear_density pm).fx := rfl
  have g2 : grid_index (pm_assign_cic_density (clear_density pm) (particles.p.map Particle.x))
      ix iy iz = grid_index pm ix iy iz := rfl
  have g1 : grid_index (clear_density pm) ix iy iz = grid_index pm ix iy iz := rfl
  rw [g2] at e2
  rw [g1] at e1
  rw [d2, e2, d1, e1, e0, cic_mass_append]
  have c1 : (clear_density pm).pm_factor = pm.pm_factor := rfl
  have c2 : (pm_assign_cic_density (clear_density pm) (particles.p.map Particle.x)).pm_factor
      = pm.pm_factor := rfl
  have c3 : (clear_density pm).nc = pm.nc := rfl
  have c4 : (clear_density pm).boxsize = pm.boxsize := rfl
  have c5 : (clear_density pm).local_ix0 = pm.local_ix0 := rfl
  have c6 : (pm_assign_cic_density (clear_density pm) (particles.p.map Particle.x)).nc
      = pm.nc := rfl
  have c7 : (pm_assign_cic_density (clear_density pm) (particles.p.map Particle.x)).boxsize
      = pm.boxsize := rfl
  have c8 : (pm_assign_cic_density (clear_density pm) (particles.p.map Particle.x)).local_ix0
      = pm.local_ix0 := rfl
  rw [c1, c2, c3, c4, c5, c6, c7, c8]
  ring

theorem ghosts_for_wrapped (boxsize : Rat) (nc : Int) (A B : Slab) (ps : List Particle) :
    ∀ q ∈ ghosts_for boxsize nc A B ps, ∃ p, q = (periodic_wrapup_p p boxsize).x := by
  intro q hq
  unfold ghosts_for at hq
  obtain ⟨c, hc, rfl⟩ := List.mem_map.1 hq
  obtain ⟨m, hm, rfl⟩ := List.mem_iff_getElem.1 hc
  obtain ⟨k, hk, e⟩ := selected_getD _ _ boxsize _ _ 0 ps m hm
  exact ⟨ps[k], by rw [e]⟩

/-- The corner weights a node deposits in a plane it owns, from its own particles and
from the ghost copies it received, are the corner weights of all the particles of the
run. -/
theorem cic_mass_assembled (w : Run) (hbox : 0 < w.boxsize) (hnc : 0 < w.nc)
    (hnx : ∀ s ∈ w.layout, 2 ≤ s.local_nx)
    (hin : ∀ s ∈ w.layout, 0 ≤ s.local_ix0 ∧ s.local_ix0 + s.local_nx ≤ w.nc)
    (hdis : ∀ i k : Nat, i < w.layout.length → k < w.layout.length → i ≠ k →
      (w.layout.getD k ⟨0, 0⟩).local_ix0 + (w.layout.getD k ⟨0, 0⟩).local_nx
          ≤ (w.layout.getD i ⟨0, 0⟩).local_ix0 ∨
        (w.layout.getD i ⟨0, 0⟩).local_ix0 + (w.layout.getD i ⟨0, 0⟩).local_nx
          ≤ (w.layout.getD k ⟨0, 0⟩).local_ix0)
    (r : Nat) (hr : r < w.layout.length) (cell : Int × Int × Int)
    (hcell : (w.layout.getD r ⟨0, 0⟩).local_ix0 ≤ cell.1 ∧
      cell.1 < (w.layout.getD r ⟨0, 0⟩).local_ix0 + (w.layout.getD r ⟨0, 0⟩).local_nx) :
    cic_mass w.nc w.boxsize
        (((w.parts.getD r []).map fun p => (periodic_wrapup_p p w.boxsize).x) ++
          (List.range w.layout.length).flatMap fun s =>
            if s = r then []
            else ghosts_for w.boxsize w.nc (w.layout.getD s ⟨0, 0⟩) (w.layout.getD r ⟨0, 0⟩)
              (w.parts.getD s [])) cell =
      cic_mass w.nc w.boxsize (w.all_particles.map fun p => (periodic_wrapup_p p w.boxsize).x)
        cell := by
  have hall : (w.all_particles.map fun p => (periodic_wrapup_p p w.boxsize).x) =
      (List.range w.layout.length).flatMap fun s =>
        (w.parts.getD s []).map fun p => (periodic_wrapup_p p w.boxsize).x := by
    unfold Run.all_particles
    rw [List.map_flatMap]
  rw [hall, cic_mass_append, cic_mass_flatMap, cic_mass_flatMap, add_comm]
  rw [← sum_range_split (fun s => cic_mass w.nc w.boxsize
    ((w.parts.getD s []).map fun p => (periodic_wrapup_p p w.boxsize).x) cell)
    w.layout.length r hr]
  congr 2
  apply List.map_congr_left
  intro s hs
  have hs' := List.mem_range.1 hs
  by_cases hsr : s = r
  · rw [if_pos hsr, if_pos hsr]
    rfl
  · rw [if_neg hsr, if_neg hsr]
    exact cic_mass_ghosts_for hbox hnc _ _ (hdis s r hs' hr hsr)
      (hin _ (getD_mem_of_lt w.layout s hs')) (hnx _ (getD_mem_of_lt w.layout s hs'))
      (hin _ (getD_mem_of_lt w.layout r hr)) _ cell hcell

/-- C28: for every run of `n` nodes whose slabs are pairwise disjoint, lie within the
`nc` planes and cover them, every node owning at least two planes (`2 <= nc` within the
range of `int`, `boxsize > 0`), and every list of particles on every node: after a
collective `pm_domain_send_positions` that returns, `pm_compute_density` on node `r`
leaves in every cell `(ix, iy, iz)` of its slab the value that a single node owning all
`nc` planes, running `pm_domain_send_positions` and `pm_compute_density` on the particles
of all the nodes, leaves in the cell `(local_ix0 + ix, iy, iz)`; every global cell is
held by some node.  The module variables of the nodes and of the single node agree in
`nc`, `boxsize`, `pm_factor` and have `nc <= ncz`. -/
theorem slab_meshes_assemble_single_node_mesh (w : Run) (sts : Nat → State)
    (pms : Nat → Pm) (pmS : Pm) (mem mem1 memS : Mem) (procs1 procsS : List Proc)
    (hbox : 0 < w.boxsize) (hnc : 2 ≤ w.nc) (hint : w.nc < 2 ^ 31)
    (hnx : ∀ s ∈ w.layout, 2 ≤ s.local_nx)
    (hin : ∀ s ∈ w.layout, 0 ≤ s.local_ix0 ∧ s.local_ix0 + s.local_nx ≤ w.nc)
    (hdis : ∀ i k : Nat, i < w.layout.length → k < w.layout.length → i ≠ k →
      (w.layout.getD k ⟨0, 0⟩).local_ix0 + (w.layout.getD k ⟨0, 0⟩).local_nx
          ≤ (w.layout.getD i ⟨0, 0⟩).local_ix0 ∨
        (w.layout.getD i ⟨0, 0⟩).local_ix0 + (w.layout.getD i ⟨0, 0⟩).local_nx
          ≤ (w.layout.getD k ⟨0, 0⟩).local_ix0)
    (hcov : ∀ g : Int, 0 ≤ g → g < w.nc → ∃ r : Nat, r < w.layout.length ∧
      (w.layout.getD r ⟨0, 0⟩).local_ix0 ≤ g ∧
      g < (w.layout.getD r ⟨0, 0⟩).local_ix0 + (w.layout.getD r ⟨0, 0⟩).local_nx)
    (hready : ∀ r, r < w.layout.length → w.ready r (sts r))
    (hmem : ∀ k : Int, 0 ≤ mem.nbuf k)
    (hpm : ∀ r : Nat, r < w.layout.length →
      (pms r).nc = w.nc ∧ (pms r).boxsize = w.boxsize ∧
      (pms r).local_ix0 = (w.layout.getD r ⟨0, 0⟩).local_ix0 ∧
      (pms r).local_nx = (w.layout.getD r ⟨0, 0⟩).local_nx ∧
      (pms r).nc ≤ (pms r).ncz ∧ (pms r).pm_factor = pmS.pm_factor)
    (hpmS : pmS.nc = w.nc ∧ pmS.boxsize = w.boxsize ∧ pmS.local_ix0 = 0 ∧
      pmS.local_nx = w.nc ∧ pmS.nc ≤ pmS.ncz)
    (h : exchange (w.procs_from sts) mem = .ok (procs1, mem1))
    (hS : exchange w.single.procs Mem.zero = .ok (procsS, memS)) :
    ∃ prS, procsS[0]? = some prS ∧
      (∀ r : Nat, r < w.layout.length → ∃ pr, procs1[r]? = some pr ∧
        ∀ ix iy iz : Int, 0 ≤ ix → ix < (w.layout.getD r ⟨0, 0⟩).local_nx →
          0 ≤ iy → iy < w.nc → 0 ≤ iz → iz < w.nc →
          (pm_compute_density (pms r) mem1 r pr.particles).fx (grid_index (pms r) ix iy iz) =
            (pm_compute_density pmS memS 0 prS.particles).fx
              (grid_index pmS ((w.layout.getD r ⟨0, 0⟩).local_ix0 + ix) iy iz)) ∧
      ∀ g : Int, 0 ≤ g → g < w.nc → ∃ r : Nat, r < w.layout.length ∧
        (w.layout.getD r ⟨0, 0⟩).local_ix0 ≤ g ∧
        g < (w.layout.getD r ⟨0, 0⟩).local_ix0 + (w.layout.getD r ⟨0, 0⟩).local_nx := by
  obtain ⟨eSnc, eSbox, eSl0, eSnx, eSz⟩ := hpmS
  have hnc0 : 0 < w.nc := by omega
  -- the single node
  have hSready : ∀ r, r < w.single.layout.length → w.single.ready r State.initial :=
    fun _ _ => Or.inl rfl
  have hSnx : ∀ s ∈ w.single.layout, 2 ≤ s.local_nx := by
    intro s hs
    simp only [Run.single, List.mem_singleton] at hs
    subst hs
    exact hnc
  have hS0 : (0 : Nat) < w.single.layout.length := by simp [Run.single]
  obtain ⟨prS, hprS, _, _, hpS, _⟩ := exchange_host w.single (fun _ => State.initial)
    Mem.zero memS procsS hbox hnc0 hSnx hSready (fun _ => le_refl 0) hS 0 hS0
  have hgS := exchange_ghosts w.single (fun _ => State.initial) Mem.zero memS procsS hSready
    (fun _ => le_refl 0) hS 0 hS0
  have hgS0 : ghost_positions memS 0 = [] := by
    have e : ghost_positions memS ((0 : Nat) : Int) = [] := by
      rw [hgS]
      simp [Run.single]
    exact e
  have hpSp : prS.particles.p = w.all_particles.map fun p => periodic_wrapup_p p w.boxsize := by
    rw [hpS]
    rfl
  refine ⟨prS, hprS, ?_, hcov⟩
  intro r hr
  obtain ⟨enc, ebox, el0, enx, ez, efac⟩ := hpm r hr
  obtain ⟨pr, hpr, _, _, hp, _⟩ := exchange_host w sts mem mem1 procs1 hbox hnc0 hnx hready hmem
    h r hr
  have hg := exchange_ghosts w sts mem mem1 procs1 hready hmem h r hr
  have hpp : pr.particles.p = (w.parts.getD r []).map fun p => periodic_wrapup_p p w.boxsize := by
    rw [hp]
  have hslab := hin _ (getD_mem_of_lt w.layout r hr)
  refine ⟨pr, hpr, ?_⟩
  intro ix iy iz hx0 hx1 hy0 hy1 hz0 hz1
  have hL := density_cell_value (pms r) mem1 r pr.particles ix iy iz
    (by rw [enc]; exact hnc) (by rw [enc]; exact hint) ez (by rw [ebox]; exact hbox)
    (by rw [el0]; exact hslab.1) (by rw [el0, enx, enc]; exact hslab.2)
    (by
      intro p hp2
      rw [hpp] at hp2
      obtain ⟨q, _, rfl⟩ := List.mem_map.1 hp2
      rw [ebox]
      exact wrapped_coordinates q hbox)
    (by
      intro p hp2
      rw [hg] at hp2
      obtain ⟨s, _, hps⟩ := List.mem_flatMap.1 hp2
      by_cases hsr : s = r
      · rw [if_pos hsr] at hps
        cases hps
      · rw [if_neg hsr] at hps
        obtain ⟨q, rfl⟩ := ghosts_for_wrapped _ _ _ _ _ p hps
        rw [ebox]
        exact wrapped_coordinates q hbox)
    ⟨hx0, by rw [enx]; exact hx1⟩ ⟨hy0, by rw [enc]; exact hy1⟩ ⟨hz0, by rw [enc]; exact hz1⟩
  have hR := density_cell_value pmS memS 0 prS.particles
    ((w.layout.getD r ⟨0, 0⟩).local_ix0 + ix) iy iz
    (by rw [eSnc]; exact hnc) (by rw [eSnc]; exact hint) eSz (by rw [eSbox]; exact hbox)
    (by rw [eSl0]) (by rw [eSl0, eSnx, eSnc]; omega)
    (by
      intro p hp2
      rw [hpSp] at hp2
      obtain ⟨q, _, rfl⟩ := List.mem_map.1 hp2
      rw [eSbox]
      exact wrapped_coordinates q hbox)
    (by
      intro p hp2
      rw [hgS0] at hp2
      cases hp2)
    ⟨by omega, by rw [eSnx]; omega⟩ ⟨hy0, by rw [eSnc]; exact hy1⟩
    ⟨hz0, by rw [eSnc]; exact hz1⟩
  rw [hL, hR, hgS0, List.append_nil, hg, hpp, hpSp, enc, ebox, el0, efac, eSnc, eSbox, eSl0,
    zero_add, List.map_map, List.map_map]
  congr 2
  exact cic_mass_assembled w hbox hnc0 hnx hin hdis r hr _ ⟨by simp only; omega, by simp only; omega⟩

/-- C28 at a concrete input: two nodes of two planes each (`nc = 4`, box of side 4), rank 0
holds one particle at `x = 3.9`.  Both exchanges return, and every cell of both slabs
holds the value of the single-node mesh; the cell `(3, 0, 0)`, owned by rank 1, holds
`-1 + 0.1` on rank 1 (from the ghost copy) and on the single node, the cell `(0, 0, 0)`
holds `-1 + 0.9` on rank 0 and on the single node. -/
theorem slab_meshes_assemble_single_node_mesh_witness :
    (∃ procs1 mem1 procsS memS prS,
      exchange two_node_run.procs Mem.zero = .ok (procs1, mem1) ∧
      exchange two_node_run.single.procs Mem.zero = .ok (procsS, memS) ∧
      procsS[0]? = some prS ∧
      ∀ r : Nat, r < 2 → ∃ pr, procs1[r]? = some pr ∧
        ∀ ix iy iz : Int, 0 ≤ ix → ix < 2 → 0 ≤ iy → iy < 4 → 0 ≤ iz → iz < 4 →
          (pm_compute_density (density_pm r) mem1 r pr.particles).fx
              (grid_index (density_pm r) ix iy iz) =
            (pm_compute_density whole_pm memS 0 prS.particles).fx
              (grid_index whole_pm (2 * (r : Int) + ix) iy iz)) ∧
    density_after_exchange two_node_run (density_pm 1) 1 1 0 0 = some (-9 / 10) ∧
    density_after_exchange two_node_run.single whole_pm 0 3 0 0 = some (-9 / 10) ∧
    density_after_exchange two_node_run (density_pm 0) 0 0 0 0 = some (-1 / 10) ∧
    density_after_exchange two_node_run.single whole_pm 0 0 0 0 = some (-1 / 10) := by
  refine ⟨?_, by decide!, by decide!, by decide!, by decide!⟩
  obtain ⟨⟨procs1, mem1⟩, hok⟩ := exists_ok_of_outcome
    (r := exchange two_node_run.procs Mem.zero) (by decide!)
  obtain ⟨⟨procsS, memS⟩, hokS⟩ := exists_ok_of_outcome
    (r := exchange two_node_run.single.procs Mem.zero) (by decide!)
  have hr2 : ∀ r : Nat, r < two_node_run.layout.length → r = 0 ∨ r = 1 := by
    intro r hr
    simp only [two_node_run, List.length_cons, List.length_nil] at hr
    omega
  obtain ⟨prS, hprS, hcells, _⟩ :=
    slab_meshes_assemble_single_node_mesh two_node_run (fun _ => State.initial) density_pm
      whole_pm Mem.zero mem1 memS procs1 procsS (by decide!) (by decide) (by decide)
      (by decide) (by decide)
      (by
        intro i k hi hk hik
        rcases hr2 i hi with rfl | rfl <;> rcases hr2 k hk with rfl | rfl
        · exact absurd rfl hik
        · right; decide
        · left; decide
        · exact absurd rfl hik)
      (by
        intro g h0 h1
        by_cases hg : g < 2
        · exact ⟨0, by decide, by simpa [two_node_run] using h0, by simpa [two_node_run] using hg⟩
        · refine ⟨1, by decide, ?_, ?_⟩
          · simp only [two_node_run, List.getD_cons_succ, List.getD_cons_zero]
            omega
          · simp only [two_node_run, List.getD_cons_succ, List.getD_cons_zero] at h1 ⊢
            omega)
      (fun _ _ => Or.inl rfl) (fun _ => le_refl 0)
      (by
        intro r hr
        rcases hr2 r hr with rfl | rfl
        · exact ⟨rfl, rfl, rfl, rfl, by decide, rfl⟩
        · exact ⟨rfl, rfl, rfl, rfl, by decide, rfl⟩)
      ⟨rfl, rfl, rfl, rfl, by decide⟩ hok hokS
  refine ⟨procs1, mem1, procsS, memS, prS, hok, hokS, hprS, ?_⟩
  intro r hr
  have hr' : r < two_node_run.layout.length := hr
  obtain ⟨pr, hpr, hc⟩ := hcells r hr'
  refine ⟨pr, hpr, ?_⟩
  intro ix iy iz h1 h2 h3 h4 h5 h6
  have hl : (two_node_run.layout.getD r ⟨0, 0⟩).local_ix0 = 2 * (r : Int) := by
    rcases hr2 r hr' with rfl | rfl <;> rfl
  have hn : (two_node_run.layout.getD r ⟨0, 0⟩).local_nx = 2 := by
    rcases hr2 r hr' with rfl | rfl <;> rfl
  have := hc ix iy iz h1 (by rw [hn]; exact h2) h3 h4 h5 h6
  rw [hl] at this
  exact this

end PmDomain
